import Mathlib

/-!
# Limit order book: shallow embedding of `orderbook.cpp`

The matching engine of the repository (`include/order.h`, `include/orderbook.h`,
`src/orderbook.cpp`) is embedded as pure state-passing functions.

Modelling conventions.

* `int` and `Price = int64_t` are embedded as `Int`; the two sentinels
  `numeric_limits<Price>::min()` / `max()` are the constants `priceMin` / `priceMax`.
  The functions named after the source compute the `int` fields (`quantity`, `totalQty`,
  `need`, `nextOrderId_`) exactly.  The functions in `Machine` are the same translations
  with every `int` result reduced to 32 bits (`wrapInt`), as the compiled program stores
  it.  The two agree on every run along which no level total exceeds `INT_MAX`
  (`machine_run_agrees`); `level_total_overflow` is a run along which one does.
* `std::map<Price, LevelInfo>` is an association list whose keys are kept in strictly
  ascending order by the operations below (`begin` is the head, `rbegin` the last entry).
* `std::list<Order>` is a `List Node`; a `Node` pairs the stored `Order` with the identity
  of its list node (`handle`).  A `std::list<Order>::iterator` kept in `idIndex_` is that
  handle.  Handles are drawn from the counter `nextNode`, which stands for the allocator.
  Dereferencing an iterator whose node is not in the level found for it is undefined
  behaviour in C++; `cancelOrder` and `modifyOrder` return `none` there.
* `std::unordered_map<int, ...>` is an association list with `find`, `erase` by key and
  `operator[]=` (`Index.insert`).
* `Trade.price` is `fromTicks(pxTicks)`, a `double`.  `trades_` records each call of
  `logTrade` with the integer tick it was handed; `Trade.stored` applies the conversion
  and `OrderBook.storedTrades` is the vector the program holds.
* The quote CSV is the list `quotes` of rows written while `quotesOpen` holds; the
  `spread` and `mid` cells are floating-point values derived from the other cells and are
  not recorded.  The trade CSV mirrors `trades_` and is not recorded separately.
-/

namespace Lob

/-! ## `order.h` -/

inductive OrderSide where
  | BUY | SELL
  deriving DecidableEq, Repr

inductive OrderType where
  | LIMIT | MARKET
  deriving DecidableEq, Repr

inductive TimeInForce where
  | GTC | IOC | FOK | DAY
  deriving DecidableEq, Repr

abbrev Price := Int

/-- The value `std::numeric_limits<Price>::min()`. -/
def priceMin : Price := -9223372036854775808

/-- The value `std::numeric_limits<Price>::max()`. -/
def priceMax : Price := 9223372036854775807

structure Order where
  id : Int
  timestamp : String
  side : OrderSide
  type : OrderType
  tif : TimeInForce
  priceTicks : Price
  quantity : Int
  deriving DecidableEq, Repr

/-- One call `logTrade(ts, pxTicks, qty, buyId, sellId)`.  The `Trade` the call pushes
holds `fromTicks(pxTicks)` in its field `price`; it is `Trade.stored` of this record. -/
structure Trade where
  timestamp : String
  priceTicks : Price
  quantity : Int
  buyId : Int
  sellId : Int
  deriving DecidableEq, Repr

/-! ## `orderbook.h`: containers -/

/-- One node of a `std::list<Order>`: the stored order and the node identity. -/
structure Node where
  handle : Nat
  order : Order
  deriving DecidableEq, Repr

structure LevelInfo where
  orders : List Node
  totalQty : Int
  deriving DecidableEq, Repr

abbrev BookSide := List (Price × LevelInfo)

/-- The tuple stored in `idIndex_`: side, price and list iterator. -/
structure IndexEntry where
  side : OrderSide
  px : Price
  lit : Nat
  deriving DecidableEq, Repr

abbrev Index := List (Int × IndexEntry)

/-- One row of the quote CSV (without the derived `spread` and `mid` cells). -/
structure QuoteRow where
  timestamp : String
  bestBid : Option Price
  bidQty : Int
  bestAsk : Option Price
  askQty : Int
  deriving DecidableEq, Repr

/-- Lookup `book.find(px)`. -/
def BookSide.find (px : Price) : BookSide → Option LevelInfo
  | [] => none
  | (p, l) :: rest => if p = px then some l else BookSide.find px rest

/-- Erasure `book.erase(it)` of the level with key `px`. -/
def BookSide.erase (px : Price) (b : BookSide) : BookSide :=
  b.filter (fun e => e.1 ≠ px)

/-- Store `lvl` under key `px`, keeping the keys ascending (write through `book[px]`). -/
def BookSide.put (px : Price) (lvl : LevelInfo) : BookSide → BookSide
  | [] => [(px, lvl)]
  | (p, l) :: rest =>
    if px < p then (px, lvl) :: (p, l) :: rest
    else if px = p then (p, lvl) :: rest
    else (p, l) :: BookSide.put px lvl rest

/-- Lookup `idIndex_.find(id)`. -/
def Index.find (id : Int) : Index → Option IndexEntry
  | [] => none
  | (k, e) :: rest => if k = id then some e else Index.find id rest

/-- Erasure `idIndex_.erase(id)`. -/
def Index.erase (id : Int) (m : Index) : Index :=
  m.filter (fun e => e.1 ≠ id)

/-- Assignment `idIndex_[id] = e`. -/
def Index.insert (id : Int) (e : IndexEntry) (m : Index) : Index :=
  (id, e) :: Index.erase id m

/-- The node an iterator refers to inside a FIFO. -/
def findNode (h : Nat) (orders : List Node) : Option Node :=
  orders.find? (fun n => n.handle = h)

/-- Erasure `orders.erase(lit)`: unlink the node the iterator refers to. -/
def eraseNode (h : Nat) : List Node → List Node
  | [] => []
  | n :: rest => if n.handle = h then rest else n :: eraseNode h rest

/-! ## `orderbook.h`: the book -/

structure OrderBook where
  asks_ : BookSide
  bids_ : BookSide
  idIndex_ : Index
  trades_ : List Trade
  bestBidPx_ : Price
  bestBidQty_ : Int
  bestAskPx_ : Price
  bestAskQty_ : Int
  lastQuotedBid_ : Price
  lastQuotedBidQty_ : Int
  lastQuotedAsk_ : Price
  lastQuotedAskQty_ : Int
  quotesOpen : Bool
  quotes : List QuoteRow
  nextOrderId_ : Int
  nextNode : Nat
  deriving DecidableEq, Repr

/-- The book after construction; `quotesOpen` tells whether a quote sink was opened. -/
def OrderBook.init (quotesOpen : Bool) : OrderBook :=
  { asks_ := [], bids_ := [], idIndex_ := [], trades_ := [],
    bestBidPx_ := priceMin, bestBidQty_ := 0,
    bestAskPx_ := priceMax, bestAskQty_ := 0,
    lastQuotedBid_ := priceMin, lastQuotedBidQty_ := 0,
    lastQuotedAsk_ := priceMax, lastQuotedAskQty_ := 0,
    quotesOpen := quotesOpen, quotes := [],
    nextOrderId_ := 1, nextNode := 0 }

/-- The side container selected by `(side == BUY) ? bids_ : asks_`. -/
def OrderBook.book (s : OrderBook) : OrderSide → BookSide
  | .BUY => s.bids_
  | .SELL => s.asks_

/-- Write back the side container selected by `(side == BUY) ? bids_ : asks_`. -/
def OrderBook.setBook (s : OrderBook) (side : OrderSide) (b : BookSide) : OrderBook :=
  match side with
  | .BUY => { s with bids_ := b }
  | .SELL => { s with asks_ := b }

/-- The container `opp` of `match`: `(SIDE == BUY) ? asks_ : bids_`. -/
def OrderBook.opp (s : OrderBook) : OrderSide → BookSide
  | .BUY => s.asks_
  | .SELL => s.bids_

/-- Write back the container `opp` of `match`. -/
def OrderBook.setOpp (s : OrderBook) (side : OrderSide) (b : BookSide) : OrderBook :=
  match side with
  | .BUY => { s with asks_ := b }
  | .SELL => { s with bids_ := b }

/-! ## `orderbook.cpp`: internals -/

/-- Translation of `OrderBook::updateBestOnChange`. -/
def updateBestOnChange (s : OrderBook) : OrderBook :=
  let s1 :=
    match s.bids_.getLast? with
    | none => { s with bestBidPx_ := priceMin, bestBidQty_ := 0 }
    | some (p, l) => { s with bestBidPx_ := p, bestBidQty_ := l.totalQty }
  match s1.asks_.head? with
  | none => { s1 with bestAskPx_ := priceMax, bestAskQty_ := 0 }
  | some (p, l) => { s1 with bestAskPx_ := p, bestAskQty_ := l.totalQty }

/-- Translation of `OrderBook::updateBestOnAdd`. -/
def updateBestOnAdd (s : OrderBook) (_side : OrderSide) (_px : Price) : OrderBook :=
  updateBestOnChange s

/-- Translation of `OrderBook::restOrder`. -/
def restOrder (s : OrderBook) (o : Order) : OrderBook :=
  let book := s.book o.side
  let lvl := (book.find o.priceTicks).getD { orders := [], totalQty := 0 }
  let it := s.nextNode
  let lvl1 : LevelInfo :=
    { orders := lvl.orders ++ [{ handle := it, order := o }],
      totalQty := lvl.totalQty + o.quantity }
  let s1 := s.setBook o.side (book.put o.priceTicks lvl1)
  let s2 := { s1 with
    nextNode := s.nextNode + 1,
    idIndex_ := s1.idIndex_.insert o.id { side := o.side, px := o.priceTicks, lit := it } }
  updateBestOnAdd s2 o.side o.priceTicks

/-- Translation of `OrderBook::eraseLevelIfEmpty`. -/
def eraseLevelIfEmpty (s : OrderBook) (side : OrderSide) (px : Price) : OrderBook :=
  let book := s.book side
  match book.find px with
  | some l => if l.orders.isEmpty then s.setBook side (book.erase px) else s
  | none => s

/-- Translation of `OrderBook::emitQuoteIfChanged`. -/
def emitQuoteIfChanged (s : OrderBook) (ts : String) : OrderBook :=
  if !s.quotesOpen then s
  else
    let changed : Bool :=
      (s.bids_.isEmpty != decide (s.lastQuotedBid_ = priceMin)) ||
      (s.asks_.isEmpty != decide (s.lastQuotedAsk_ = priceMax)) ||
      (!s.bids_.isEmpty &&
        (decide (s.bestBidPx_ ≠ s.lastQuotedBid_) ||
         decide (s.bestBidQty_ ≠ s.lastQuotedBidQty_))) ||
      (!s.asks_.isEmpty &&
        (decide (s.bestAskPx_ ≠ s.lastQuotedAsk_) ||
         decide (s.bestAskQty_ ≠ s.lastQuotedAskQty_)))
    if !changed then s
    else
      { s with
        lastQuotedBid_ := if s.bids_.isEmpty then priceMin else s.bestBidPx_,
        lastQuotedBidQty_ := s.bestBidQty_,
        lastQuotedAsk_ := if s.asks_.isEmpty then priceMax else s.bestAskPx_,
        lastQuotedAskQty_ := s.bestAskQty_,
        quotes := s.quotes ++
          [{ timestamp := ts,
             bestBid := if s.bids_.isEmpty then none else some s.bestBidPx_,
             bidQty := s.bestBidQty_,
             bestAsk := if s.asks_.isEmpty then none else some s.bestAskPx_,
             askQty := s.bestAskQty_ }] }

/-- The record pushed by `logTrade`, with the ids placed as `match` places them. -/
def mkTrade (side : OrderSide) (ts : String) (px : Price) (traded : Int)
    (incomingId makerId : Int) : Trade :=
  match side with
  | .BUY => { timestamp := ts, priceTicks := px, quantity := traded,
              buyId := incomingId, sellId := makerId }
  | .SELL => { timestamp := ts, priceTicks := px, quantity := traded,
               buyId := makerId, sellId := incomingId }

/-- Translation of `OrderBook::logTrade`: the call is recorded with the tick `pxTicks`
it was handed; the conversion `fromTicks(pxTicks)` of the stored record is
`Trade.stored`. -/
def logTrade (s : OrderBook) (t : Trade) : OrderBook :=
  { s with trades_ := s.trades_ ++ [t] }

/-! ## `orderbook.cpp`: the matcher -/

/-- The lambda `crosses` of `match`. -/
def crosses (side : OrderSide) (incoming : Order) (topPx : Price) : Bool :=
  if incoming.type = OrderType.MARKET then true
  else
    match side with
    | .BUY => decide (topPx ≤ incoming.priceTicks)
    | .SELL => decide (topPx ≥ incoming.priceTicks)

/-- The best opposite level: `opp.begin()` for a BUY aggressor, `std::prev(opp.end())`
for a SELL aggressor; `none` when `opp.empty()`. -/
def bestOpp (side : OrderSide) (opp : BookSide) : Option (Price × LevelInfo) :=
  match side with
  | .BUY => opp.head?
  | .SELL => opp.getLast?

/-- The inner `while (incoming.quantity > 0 && !lvl.orders.empty())` of `match`.
`lvl` is the reference `it->second`; the caller stores it back into `opp`.  Every
iteration unlinks the head of the FIFO or exhausts the aggressor, so the loop is unrolled
`lvl.orders.length` times by its caller. -/
def matchInner (side : OrderSide) (px : Price) :
    Nat → OrderBook → Order → LevelInfo → OrderBook × Order × LevelInfo
  | 0, s, incoming, lvl => (s, incoming, lvl)
  | fuel + 1, s, incoming, lvl =>
    if incoming.quantity > 0 then
      match lvl.orders with
      | [] => (s, incoming, lvl)
      | maker :: rest =>
        let traded := min incoming.quantity maker.order.quantity
        let s1 := logTrade s
          (mkTrade side incoming.timestamp px traded incoming.id maker.order.id)
        let incoming1 := { incoming with quantity := incoming.quantity - traded }
        let maker1 : Node :=
          { maker with order := { maker.order with quantity := maker.order.quantity - traded } }
        let total1 := lvl.totalQty - traded
        if maker1.order.quantity = 0 then
          matchInner side px fuel
            { s1 with idIndex_ := s1.idIndex_.erase maker.order.id } incoming1
            { orders := rest, totalQty := total1 }
        else
          matchInner side px fuel s1 incoming1
            { orders := maker1 :: rest, totalQty := total1 }
    else (s, incoming, lvl)

/-- The outer `while (incoming.quantity > 0 && !opp.empty())` of `match`.  Every
iteration erases the best opposite level or leaves the aggressor exhausted, so the loop is
unrolled once per opposite level by its caller. -/
def matchLoop (side : OrderSide) : Nat → OrderBook → Order → OrderBook × Order
  | 0, s, incoming => (s, incoming)
  | fuel + 1, s, incoming =>
    if incoming.quantity > 0 then
      match bestOpp side (s.opp side) with
      | none => (s, incoming)
      | some (px, lvl) =>
        if !crosses side incoming px then (s, incoming)
        else
          let r := matchInner side px lvl.orders.length s incoming lvl
          let s1 := r.1
          let incoming1 := r.2.1
          let lvl1 := r.2.2
          let opp1 :=
            if lvl1.orders.isEmpty then (s1.opp side).erase px
            else (s1.opp side).put px lvl1
          let s2 := updateBestOnChange (s1.setOpp side opp1)
          if incoming1.type = OrderType.MARKET then
            if opp1.isEmpty then (s2, incoming1)
            else matchLoop side fuel s2 incoming1
          else
            match bestOpp side opp1 with
            | none => (s2, incoming1)
            | some (nextTop, _) =>
              if !crosses side incoming1 nextTop then (s2, incoming1)
              else matchLoop side fuel s2 incoming1
    else (s, incoming)

/-- The test `limitPx && px > *limitPx` (BUY side) or `limitPx && px < *limitPx` (SELL
side) of `canFullyFill`. -/
def pastLimit (side : OrderSide) (limitPx : Option Price) (px : Price) : Bool :=
  match limitPx with
  | none => false
  | some lim =>
    match side with
    | .BUY => decide (px > lim)
    | .SELL => decide (px < lim)

/-- The walk of `canFullyFill` over the opposite levels from the best one inward;
returns the final value of `need`. -/
def canFullyFillWalk (side : OrderSide) (limitPx : Option Price) :
    List (Price × LevelInfo) → Int → Int
  | [], need => need
  | (px, lvl) :: rest, need =>
    if need > 0 then
      if pastLimit side limitPx px then need
      else canFullyFillWalk side limitPx rest (need - lvl.totalQty)
    else need

/-- Translation of `OrderBook::canFullyFill`. -/
def canFullyFill (s : OrderBook) (side : OrderSide) (limitPx : Option Price) (qty : Int) :
    Bool :=
  let need :=
    match side with
    | .BUY => canFullyFillWalk .BUY limitPx s.asks_ qty
    | .SELL => canFullyFillWalk .SELL limitPx s.bids_.reverse qty
  decide (need ≤ 0)

/-- Translation of `OrderBook::match<SIDE>`: the book and the aggressor after the call. -/
def match_ (side : OrderSide) (s : OrderBook) (incoming : Order) : OrderBook × Order :=
  let limit : Option Price :=
    if incoming.type = OrderType.LIMIT then some incoming.priceTicks else none
  if incoming.tif = TimeInForce.FOK ∧ canFullyFill s side limit incoming.quantity = false then
    (s, incoming)
  else matchLoop side (s.opp side).length s incoming

/-! ## `orderbook.cpp`: the dispatcher -/

/-- Translation of `OrderBook::addOrder`. -/
def addOrder (s : OrderBook) (o_in : Order) : Bool × OrderBook :=
  let o : Order := if o_in.id = 0 then { o_in with id := s.nextOrderId_ } else o_in
  let s0 : OrderBook :=
    if o_in.id = 0 then { s with nextOrderId_ := s.nextOrderId_ + 1 } else s
  if o.type = OrderType.MARKET then
    let r := match_ o.side s0 o
    (true, emitQuoteIfChanged r.1 r.2.timestamp)
  else
    let r := match_ o.side s0 o
    let s2 :=
      if r.2.quantity > 0 ∧ r.2.tif ≠ TimeInForce.IOC ∧ r.2.tif ≠ TimeInForce.FOK then
        restOrder r.1 r.2
      else r.1
    (true, emitQuoteIfChanged s2 r.2.timestamp)

/-- Translation of `OrderBook::cancelOrder`; `none` when the stored iterator does not
refer to a node of the level found for it. -/
def cancelOrder (s : OrderBook) (orderId : Int) (ts : String) : Option (Bool × OrderBook) :=
  match s.idIndex_.find orderId with
  | none => some (false, s)
  | some e =>
    match (s.book e.side).find e.px with
    | none => some (false, s)
    | some lvl =>
      match findNode e.lit lvl.orders with
      | none => none
      | some n =>
        let lvl1 : LevelInfo :=
          { orders := eraseNode e.lit lvl.orders,
            totalQty := lvl.totalQty - n.order.quantity }
        let s1 := s.setBook e.side ((s.book e.side).put e.px lvl1)
        let s2 := { s1 with idIndex_ := s1.idIndex_.erase orderId }
        let s3 := if lvl1.orders.isEmpty then eraseLevelIfEmpty s2 e.side e.px else s2
        some (true, emitQuoteIfChanged (updateBestOnChange s3) ts)

/-- Translation of `OrderBook::modifyOrder`; `none` when the stored iterator does not
refer to a node of the level found for it. -/
def modifyOrder (s : OrderBook) (orderId : Int) (newPxTicks : Price) (newQty : Int)
    (ts : String) : Option (Bool × OrderBook) :=
  if newQty ≤ 0 then cancelOrder s orderId ts
  else
    match s.idIndex_.find orderId with
    | none => some (false, s)
    | some e =>
      match (s.book e.side).find e.px with
      | none => some (false, s)
      | some lvl =>
        match findNode e.lit lvl.orders with
        | none => none
        | some n =>
          let o := n.order
          let s1 := { s with idIndex_ := s.idIndex_.erase orderId }
          let lvl1 : LevelInfo :=
            { orders := eraseNode e.lit lvl.orders,
              totalQty := lvl.totalQty - o.quantity }
          let s2 := s1.setBook e.side ((s1.book e.side).put e.px lvl1)
          let s3 := if lvl1.orders.isEmpty then eraseLevelIfEmpty s2 e.side e.px else s2
          let o1 : Order := { o with priceTicks := newPxTicks, quantity := newQty }
          let r := match_ e.side s3 o1
          let s4 := if r.2.quantity > 0 then restOrder r.1 r.2 else r.1
          some (true, emitQuoteIfChanged (updateBestOnChange s4) ts)

/-! ## Closed forms of the two loops of `match`

The functions of this section are not translations: they describe what the loops of
`match` compute, and the theorems `matchInner_eq` and `matchLoop_spec` below relate
them to the translations above. -/

/-- One execution of the body of the inner loop: the level price, the maker as it stood
before the fill, and the traded quantity. -/
structure Fill where
  px : Price
  maker : Node
  traded : Int
  deriving DecidableEq, Repr

/-- Whether the fill emptied the maker (`maker.quantity == 0` after the fill). -/
def Fill.removed (f : Fill) : Bool :=
  decide (f.maker.order.quantity - f.traded = 0)

/-- The trade logged for a fill. -/
def Fill.toTrade (side : OrderSide) (ts : String) (incomingId : Int) (f : Fill) : Trade :=
  mkTrade side ts f.px f.traded incomingId f.maker.order.id

/-- The ids passed to `idIndex_.erase` by a sequence of fills. -/
def erasedIds (fills : List Fill) : List Int :=
  (fills.filter Fill.removed).map (fun f => f.maker.order.id)

/-- Successive `idIndex_.erase(id)` calls. -/
def eraseIds (ids : List Int) (m : Index) : Index :=
  ids.foldl (fun acc i => Index.erase i acc) m

/-- The effect of a sequence of fills on the trade log and the index. -/
def applyFills (side : OrderSide) (ts : String) (incomingId : Int) (s : OrderBook)
    (fills : List Fill) : OrderBook :=
  { s with
    trades_ := s.trades_ ++ fills.map (Fill.toTrade side ts incomingId),
    idIndex_ := eraseIds (erasedIds fills) s.idIndex_ }

/-- Result of consuming one FIFO. -/
structure FifoFill where
  residual : Int
  orders : List Node
  fills : List Fill
  deriving DecidableEq, Repr

/-- Consumption of one FIFO by an aggressor with quantity `q`. -/
def fillFifo (px : Price) : Int → List Node → FifoFill
  | q, [] => { residual := q, orders := [], fills := [] }
  | q, m :: rest =>
    if q > 0 then
      let t := min q m.order.quantity
      if m.order.quantity - t = 0 then
        let r := fillFifo px (q - t) rest
        { residual := r.residual, orders := r.orders,
          fills := { px := px, maker := m, traded := t } :: r.fills }
      else
        { residual := q - t,
          orders := { m with order := { m.order with quantity := m.order.quantity - t } } :: rest,
          fills := [{ px := px, maker := m, traded := t }] }
    else { residual := q, orders := m :: rest, fills := [] }

/-- Sum of the traded quantities of a sequence of fills. -/
def fillSum (fills : List Fill) : Int :=
  (fills.map (fun f => f.traded)).sum

/-- Result of walking the opposite levels. -/
structure WalkOut where
  residual : Int
  levels : List (Price × LevelInfo)
  fills : List Fill
  deriving DecidableEq, Repr

/-- Consumption of the opposite levels, listed from the best one inward, by an aggressor
with remaining quantity `q`; `cr` is the cross predicate of the aggressor. -/
def walkLevels (cr : Price → Bool) : Int → List (Price × LevelInfo) → WalkOut
  | q, [] => { residual := q, levels := [], fills := [] }
  | q, (px, lvl) :: rest =>
    if q > 0 ∧ cr px = true then
      let r := fillFifo px q lvl.orders
      if r.orders = [] then
        let w := walkLevels cr r.residual rest
        { residual := w.residual, levels := w.levels, fills := r.fills ++ w.fills }
      else
        { residual := r.residual,
          levels := (px, { orders := r.orders, totalQty := lvl.totalQty - fillSum r.fills })
            :: rest,
          fills := r.fills }
    else { residual := q, levels := (px, lvl) :: rest, fills := [] }

/-- The levels of `opp` listed from the best one inward (and back: the map is an
involution). -/
def bestFirst (side : OrderSide) (opp : BookSide) : List (Price × LevelInfo) :=
  match side with
  | .BUY => opp
  | .SELL => opp.reverse

/-- The fields of the book that `match` neither reads nor writes. -/
def OrderBook.aux (s : OrderBook) :
    Int × Nat × Price × Int × Price × Int × Bool × List QuoteRow :=
  (s.nextOrderId_, s.nextNode, s.lastQuotedBid_, s.lastQuotedBidQty_, s.lastQuotedAsk_,
    s.lastQuotedAskQty_, s.quotesOpen, s.quotes)

/-- Keys strictly ascending: the ordering invariant of `std::map`. -/
def KeysAsc (b : BookSide) : Prop :=
  b.Pairwise (fun x y => x.1 < y.1)

/-- What `match` does to the book and the aggressor, in terms of the closed form `w` of
the walk over the opposite side: `r` is the pair returned by the translation. -/
structure MatchSpec (side : OrderSide) (s : OrderBook) (incoming : Order) (w : WalkOut)
    (r : OrderBook × Order) : Prop where
  incoming_eq : r.2 = { incoming with quantity := w.residual }
  opp_eq : bestFirst side (r.1.opp side) = w.levels
  book_eq : r.1.book side = s.book side
  index_eq : r.1.idIndex_ = eraseIds (erasedIds w.fills) s.idIndex_
  trades_eq : r.1.trades_ =
    s.trades_ ++ w.fills.map (Fill.toTrade side incoming.timestamp incoming.id)
  aux_eq : r.1.aux = s.aux

/-! ## Invariants of the book -/

/-- What holds of every resting order: `side` and `px` are the side and the level key
under which the node is stored, `bound` is the allocator counter. -/
def NodeOk (side : OrderSide) (px : Price) (bound : Nat) (n : Node) : Prop :=
  n.order.quantity > 0 ∧ n.order.priceTicks = px ∧ n.order.side = side ∧
    n.order.type = OrderType.LIMIT ∧
    (n.order.tif = TimeInForce.GTC ∨ n.order.tif = TimeInForce.DAY) ∧ n.handle < bound

/-- Sum of the `quantity` fields of a FIFO. -/
def qtySum (orders : List Node) : Int :=
  (orders.map (fun n => n.order.quantity)).sum

/-- What holds of every level stored under key `px`: the FIFO is non-empty, the cached
total is the sum of the quantities, every node is well formed, and the FIFO lists the
nodes in the order in which they were created. -/
def LevelOk (side : OrderSide) (bound : Nat) (px : Price) (l : LevelInfo) : Prop :=
  l.orders ≠ [] ∧ l.totalQty = qtySum l.orders ∧ (∀ n ∈ l.orders, NodeOk side px bound n) ∧
    (l.orders.map (fun n => n.handle)).Pairwise (fun a b => a < b)

/-- What holds of each side container. -/
def SideOk (side : OrderSide) (bound : Nat) (b : BookSide) : Prop :=
  KeysAsc b ∧ ∀ e ∈ b, LevelOk side bound e.1 e.2

/-- No bid level is priced at or above an ask level. -/
def NoCross (s : OrderBook) : Prop :=
  ∀ b ∈ s.bids_, ∀ a ∈ s.asks_, b.1 < a.1

/-- Every index entry leads to a node of the level it names, holding the indexed id. -/
def IndexSound (s : OrderBook) : Prop :=
  ∀ id e, s.idIndex_.find id = some e →
    ∃ lvl n, (s.book e.side).find e.px = some lvl ∧ findNode e.lit lvl.orders = some n ∧
      n.order.id = id

/-- The invariant of the book. -/
structure Inv (s : OrderBook) : Prop where
  bids : SideOk OrderSide.BUY s.nextNode s.bids_
  asks : SideOk OrderSide.SELL s.nextNode s.asks_
  noCross : NoCross s
  index : IndexSound s

/-- The states the three dispatcher operations produce from a newly constructed book. -/
inductive Reachable : OrderBook → Prop where
  | init (quotesOpen : Bool) : Reachable (OrderBook.init quotesOpen)
  | add {s : OrderBook} (o : Order) : Reachable s → Reachable (addOrder s o).2
  | cancel {s : OrderBook} (orderId : Int) (ts : String) {r : Bool × OrderBook} :
      Reachable s → cancelOrder s orderId ts = some r → Reachable r.2
  | modify {s : OrderBook} (orderId : Int) (newPxTicks : Price) (newQty : Int) (ts : String)
      {r : Bool × OrderBook} :
      Reachable s → modifyOrder s orderId newPxTicks newQty ts = some r → Reachable r.2

/-- The side opposite to `side`. -/
def OrderSide.other : OrderSide → OrderSide
  | .BUY => .SELL
  | .SELL => .BUY

/-- A resting order of side `side` at price `p` does not cross an opposite level at `q`. -/
def pxBefore (side : OrderSide) (p q : Price) : Prop :=
  match side with
  | .BUY => p < q
  | .SELL => q < p

/-- The book after the node of index entry `e` (found as `n` in level `lvl`) has been
unlinked, its index entry erased, and its level erased if it became empty: the steps
`cancelOrder` and `modifyOrder` have in common. -/
def unlinkResting (s : OrderBook) (orderId : Int) (e : IndexEntry) (lvl : LevelInfo)
    (n : Node) : OrderBook :=
  let lvl1 : LevelInfo :=
    { orders := eraseNode e.lit lvl.orders, totalQty := lvl.totalQty - n.order.quantity }
  let s1 := s.setBook e.side ((s.book e.side).put e.px lvl1)
  let s2 := { s1 with idIndex_ := s1.idIndex_.erase orderId }
  if lvl1.orders.isEmpty then eraseLevelIfEmpty s2 e.side e.px else s2

/-- The level `restOrder` stores under `o.priceTicks`: the level found there (or a
default-constructed one) with `o` appended. -/
def restLevel (s : OrderBook) (o : Order) : LevelInfo :=
  { orders := (((s.book o.side).find o.priceTicks).getD
      { orders := [], totalQty := 0 }).orders ++ [{ handle := s.nextNode, order := o }],
    totalQty := (((s.book o.side).find o.priceTicks).getD
      { orders := [], totalQty := 0 }).totalQty + o.quantity }

/-- The order `addOrder` works on: the caller's order, with the next id when `id == 0`. -/
def assignId (s : OrderBook) (o_in : Order) : Order :=
  if o_in.id = 0 then { o_in with id := s.nextOrderId_ } else o_in

/-- The book after `addOrder` has drawn an id (`nextOrderId_++` when `id == 0`). -/
def bumpNextId (s : OrderBook) (o_in : Order) : OrderBook :=
  if o_in.id = 0 then { s with nextOrderId_ := s.nextOrderId_ + 1 } else s

/-- The book `addOrder` hands to `emitQuoteIfChanged`. -/
def addCore (s : OrderBook) (o_in : Order) : OrderBook :=
  let r := match_ (assignId s o_in).side (bumpNextId s o_in) (assignId s o_in)
  if (assignId s o_in).type ≠ OrderType.MARKET ∧ r.2.quantity > 0 ∧
      r.2.tif ≠ TimeInForce.IOC ∧ r.2.tif ≠ TimeInForce.FOK then
    restOrder r.1 r.2
  else r.1

/-- The book `modifyOrder` hands to `updateBestOnChange`, for a resting order. -/
def modifyCore (s : OrderBook) (orderId : Int) (newPxTicks : Price) (newQty : Int)
    (e : IndexEntry) (lvl : LevelInfo) (n : Node) : OrderBook :=
  let r := match_ e.side (unlinkResting s orderId e lvl n)
    { n.order with priceTicks := newPxTicks, quantity := newQty }
  if r.2.quantity > 0 then restOrder r.1 r.2 else r.1

/-! ## Example books -/

/-- A book with one bid (99.00 x 5, id 2) and one ask (101.00 x 5, id 1). -/
def exTwoSided : OrderBook :=
  (addOrder
    (addOrder (OrderBook.init true)
      { id := 1, timestamp := "t1", side := .SELL, type := .LIMIT, tif := .GTC,
        priceTicks := 10100, quantity := 5 }).2
    { id := 2, timestamp := "t2", side := .BUY, type := .LIMIT, tif := .GTC,
      priceTicks := 9900, quantity := 5 }).2

/-- Every node of the book is indexed, under its id, by an entry naming its side, its
level and its node. -/
def IndexComplete (s : OrderBook) : Prop :=
  ∀ side e, e ∈ s.book side → ∀ n ∈ e.2.orders,
    s.idIndex_.find n.order.id = some { side := side, px := e.1, lit := n.handle }

/-- The id of every resting order satisfies `P`. -/
def AllIds (P : Int → Prop) (s : OrderBook) : Prop :=
  ∀ side e, e ∈ s.book side → ∀ n ∈ e.2.orders, P n.order.id

/-! ## Event sequences -/

/-- The three events the dispatcher applies. -/
inductive Event where
  | add (o : Order)
  | cancel (orderId : Int) (ts : String)
  | modify (orderId : Int) (newPxTicks : Price) (newQty : Int) (ts : String)
  deriving DecidableEq, Repr

/-- The book after one event; `none` when a stored iterator is dereferenced that does not
refer to a node of its level. -/
def applyEvent (s : OrderBook) : Event → Option OrderBook
  | .add o => some (addOrder s o).2
  | .cancel orderId ts => (cancelOrder s orderId ts).map (fun r => r.2)
  | .modify orderId newPxTicks newQty ts =>
    (modifyOrder s orderId newPxTicks newQty ts).map (fun r => r.2)

/-- The ids an event adds to the run: the id under which `addOrder` processes its order
(the caller's id, or the one drawn from `nextOrderId_` when the caller's id is 0). -/
def eventIds (s : OrderBook) : Event → List Int
  | .add o => [(assignId s o).id]
  | _ => []

/-- Run a sequence of events from `s`; returns the final book and the ids of all orders
added so far, most recent first (`ids` are the ids added before the run). -/
def runEvents : OrderBook → List Int → List Event → Option (OrderBook × List Int)
  | s, ids, [] => some (s, ids)
  | s, ids, ev :: rest =>
    match applyEvent s ev with
    | none => none
    | some s1 => runEvents s1 (eventIds s ev ++ ids) rest

/-- The invariant of runs with distinct ids: the book invariant, a complete index, and
every resting id among the ids added so far. -/
structure InvD (s : OrderBook) (used : List Int) : Prop where
  inv : Inv s
  complete : IndexComplete s
  idsIn : AllIds (fun i => i ∈ used) s

/-- Scenario B of the specification: two asks, then a buy that walks the book. -/
def exEventsB : List Event :=
  [ Event.add { id := 1, timestamp := "t1", side := .SELL, type := .LIMIT, tif := .GTC,
                priceTicks := 10000, quantity := 3 },
    Event.add { id := 2, timestamp := "t2", side := .SELL, type := .LIMIT, tif := .GTC,
                priceTicks := 10050, quantity := 5 },
    Event.add { id := 3, timestamp := "t3", side := .BUY, type := .LIMIT, tif := .GTC,
                priceTicks := 10050, quantity := 6 } ]

/-- The book after Scenario B. -/
def exBookB : OrderBook :=
  (addOrder
    (addOrder
      (addOrder (OrderBook.init true)
        { id := 1, timestamp := "t1", side := .SELL, type := .LIMIT, tif := .GTC,
          priceTicks := 10000, quantity := 3 }).2
      { id := 2, timestamp := "t2", side := .SELL, type := .LIMIT, tif := .GTC,
        priceTicks := 10050, quantity := 5 }).2
    { id := 3, timestamp := "t3", side := .BUY, type := .LIMIT, tif := .GTC,
      priceTicks := 10050, quantity := 6 }).2

/-- In the sequence `fills`, `fA` comes strictly before `fB`. -/
def FillBefore (fA fB : Fill) (fills : List Fill) : Prop :=
  ∃ f1 f2 f3, fills = f1 ++ fA :: f2 ++ fB :: f3

/-- The fills of one call of `match`, in the order in which the loop makes them: none
when the FOK pre-check fails, those of the walk over the opposite side otherwise. -/
def matchFills (side : OrderSide) (s : OrderBook) (incoming : Order) : List Fill :=
  if incoming.tif = TimeInForce.FOK ∧
      canFullyFill s side
        (if incoming.type = OrderType.LIMIT then some incoming.priceTicks else none)
        incoming.quantity = false then []
  else (walkLevels (crosses side incoming) incoming.quantity
    (bestFirst side (s.opp side))).fills

/-- The trades one call of `match` appends to the trade log. -/
def matchTrades (side : OrderSide) (s : OrderBook) (incoming : Order) : List Trade :=
  (matchFills side s incoming).map (Fill.toTrade side incoming.timestamp incoming.id)

/-- A book with two bids at 99.00 (id 1 rested first, then id 2). -/
def exTwoBids : OrderBook :=
  (addOrder
    (addOrder (OrderBook.init true)
      { id := 1, timestamp := "t1", side := .BUY, type := .LIMIT, tif := .GTC,
        priceTicks := 9900, quantity := 5 }).2
    { id := 2, timestamp := "t2", side := .BUY, type := .LIMIT, tif := .GTC,
      priceTicks := 9900, quantity := 5 }).2

/-- The first node of the level of `exTwoBids`. -/
def exNodeA : Node :=
  { handle := 0,
    order := { id := 1, timestamp := "t1", side := .BUY, type := .LIMIT, tif := .GTC,
               priceTicks := 9900, quantity := 5 } }

/-- The second node of the level of `exTwoBids`. -/
def exNodeB : Node :=
  { handle := 1,
    order := { id := 2, timestamp := "t2", side := .BUY, type := .LIMIT, tif := .GTC,
               priceTicks := 9900, quantity := 5 } }

/-- A book with asks 100.00 x 3 (id 1) and 100.50 x 5 (id 2): Scenario B before the buy. -/
def exTwoAsks : OrderBook :=
  (addOrder
    (addOrder (OrderBook.init true)
      { id := 1, timestamp := "t1", side := .SELL, type := .LIMIT, tif := .GTC,
        priceTicks := 10000, quantity := 3 }).2
    { id := 2, timestamp := "t2", side := .SELL, type := .LIMIT, tif := .GTC,
      priceTicks := 10050, quantity := 5 }).2

/-- The buy of Scenario B: 6 at 100.50, id 3. -/
def exBuyB : Order :=
  { id := 3, timestamp := "t3", side := .BUY, type := .LIMIT, tif := .GTC,
    priceTicks := 10050, quantity := 6 }

/-- The books on which the dispatcher calls `match`: `addOrder` calls it on the reachable
book it was given, after drawing an id when the order has none; `modifyOrder` calls it
after unlinking the order being modified.  Every reachable book is included. -/
inductive MatchPoint : OrderBook → Prop where
  | reach {s : OrderBook} : Reachable s → MatchPoint s
  | add {s : OrderBook} (o : Order) : Reachable s → MatchPoint (bumpNextId s o)
  | modify {s : OrderBook} (orderId : Int) (e : IndexEntry) (lvl : LevelInfo) (n : Node) :
      Reachable s → s.idIndex_.find orderId = some e →
      (s.book e.side).find e.px = some lvl → findNode e.lit lvl.orders = some n →
      MatchPoint (unlinkResting s orderId e lvl n)

/-- Whether a level at price `px` is at a price no worse than the limit of `o` (any price
for a MARKET order): the cross predicate in the words of the specification. -/
def priceAcceptable (o : Order) (px : Price) : Bool :=
  match o.type, o.side with
  | .MARKET, _ => true
  | .LIMIT, .BUY => decide (px ≤ o.priceTicks)
  | .LIMIT, .SELL => decide (px ≥ o.priceTicks)

/-- Sum of `totalQty` over the levels of `levels` whose price satisfies `cr`. -/
def depthWhere (cr : Price → Bool) (levels : List (Price × LevelInfo)) : Int :=
  ((levels.filter (fun e => cr e.1)).map (fun e => e.2.totalQty)).sum

/-- The units the opposing side `opp` holds at prices no worse than the limit of `o`. -/
def acceptableDepth (o : Order) (opp : BookSide) : Int :=
  depthWhere (priceAcceptable o) opp

/-- The limit `match` hands to `canFullyFill`: the price for a LIMIT order, none for a
MARKET order. -/
def fokLimit (incoming : Order) : Option Price :=
  if incoming.type = OrderType.LIMIT then some incoming.priceTicks else none

/-- A book with a single ask 100.50 x 2 (id 2). -/
def exAskTwo : OrderBook :=
  (addOrder (OrderBook.init true)
    { id := 2, timestamp := "t2", side := .SELL, type := .LIMIT, tif := .GTC,
      priceTicks := 10050, quantity := 2 }).2

/-- The order of Scenario C: a FOK buy of 5 at 100.50, id 4. -/
def exFokBuy : Order :=
  { id := 4, timestamp := "t4", side := .BUY, type := .LIMIT, tif := .FOK,
    priceTicks := 10050, quantity := 5 }

/-- The cached top-of-book of a book. -/
def OrderBook.topOfBook (s : OrderBook) : Price × Int × Price × Int :=
  (s.bestBidPx_, s.bestBidQty_, s.bestAskPx_, s.bestAskQty_)

/-- Scenario F before the IOC order: a single ask 100.00 x 3 (id 1). -/
def exAskThree : OrderBook :=
  (addOrder (OrderBook.init true)
    { id := 1, timestamp := "t1", side := .SELL, type := .LIMIT, tif := .GTC,
      priceTicks := 10000, quantity := 3 }).2

/-- The order of Scenario F: an IOC buy of 10 at 100.00, id 2. -/
def exIocBuy : Order :=
  { id := 2, timestamp := "t2", side := .BUY, type := .LIMIT, tif := .IOC,
    priceTicks := 10000, quantity := 10 }

/-! ## Accounting per order id -/

/-- Sum of the quantities of the nodes of a FIFO that hold an order with id `X`. -/
def lvlQ (X : Int) (l : List Node) : Int :=
  ((l.filter (fun n => n.order.id = X)).map (fun n => n.order.quantity)).sum

/-- Sum of the quantities of the nodes of a side container that hold an order with id
`X`. -/
def restQ (X : Int) (b : List (Price × LevelInfo)) : Int :=
  (b.map (fun e => lvlQ X e.2.orders)).sum

/-- The residual quantity of order `X` if it is resting on side `sd`, 0 otherwise. -/
def restingQty (sd : OrderSide) (X : Int) (s : OrderBook) : Int :=
  restQ X (s.book sd)

/-- Sum of the quantities of the trades attributable to order `X` of side `sd`: those with
`buyId = X` for a buy, those with `sellId = X` for a sell. -/
def filledQty (sd : OrderSide) (X : Int) (trades : List Trade) : Int :=
  match sd with
  | .BUY => ((trades.filter (fun t => t.buyId = X)).map (fun t => t.quantity)).sum
  | .SELL => ((trades.filter (fun t => t.sellId = X)).map (fun t => t.quantity)).sum

/-- Traded quantity plus resting quantity of order `X` of side `sd`. -/
def acct (sd : OrderSide) (X : Int) (s : OrderBook) : Int :=
  filledQty sd X s.trades_ + restingQty sd X s

/-- Sum of the traded quantities of the fills whose maker holds an order with id `X`. -/
def makerFilled (X : Int) (fills : List Fill) : Int :=
  ((fills.filter (fun f => f.maker.order.id = X)).map (fun f => f.traded)).sum

/-- The level found under `px`, or a default-constructed one. -/
def levelAt (b : BookSide) (px : Price) : LevelInfo :=
  (b.find px).getD { orders := [], totalQty := 0 }

/-- Every id in the trade log is among `used`. -/
def TradesIn (used : List Int) (s : OrderBook) : Prop :=
  ∀ t ∈ s.trades_, t.buyId ∈ used ∧ t.sellId ∈ used

/-- The invariant that ties the ids in the book and in the trade log to the ids added so
far. -/
structure Ledger (s : OrderBook) (used : List Int) : Prop where
  inv : Inv s
  idsIn : AllIds (fun i => i ∈ used) s
  tradesIn : TradesIn used s

/-- Whether the event cancels or modifies the order with id `X`. -/
def Event.targets (X : Int) : Event → Bool
  | .add _ => false
  | .cancel orderId _ => decide (orderId = X)
  | .modify orderId _ _ _ => decide (orderId = X)

/-- Whether the event re-sizes the order with id `X`: a `modifyOrder` of `X` with a
positive new quantity (with `newQty <= 0` the call is a cancel). -/
def Event.resizes (X : Int) : Event → Bool
  | .modify orderId _ newQty _ => decide (orderId = X) && decide (newQty > 0)
  | _ => false

/-- A resting ask 100.00 x 3 with id 1. -/
def exSell1 : Order :=
  { id := 1, timestamp := "t1", side := .SELL, type := .LIMIT, tif := .GTC,
    priceTicks := 10000, quantity := 3 }

/-- A buy of 10 at 100.00 with id 2 that may rest. -/
def exBuy2 : Order :=
  { id := 2, timestamp := "t2", side := .BUY, type := .LIMIT, tif := .GTC,
    priceTicks := 10000, quantity := 10 }

/-- A sell of 4 at 100.00 with id 3. -/
def exSell3 : Order :=
  { id := 3, timestamp := "t3", side := .SELL, type := .LIMIT, tif := .GTC,
    priceTicks := 10000, quantity := 4 }

/-- The book after `exSell1`, `exBuy2`, `exSell3`. -/
def exBookConserve : OrderBook :=
  (addOrder (addOrder (addOrder (OrderBook.init true) exSell1).2 exBuy2).2 exSell3).2

/-- A buy of 5 at 99.00 with id 1. -/
def exBuyFive : Order :=
  { id := 1, timestamp := "t1", side := .BUY, type := .LIMIT, tif := .GTC,
    priceTicks := 9900, quantity := 5 }

/-- A sell of 8 at 99.00 with id 2. -/
def exSellEight : Order :=
  { id := 2, timestamp := "t3", side := .SELL, type := .LIMIT, tif := .GTC,
    priceTicks := 9900, quantity := 8 }

/-- A run that re-sizes order 1 from 5 to 8 and then fills it. -/
def exEventsResize : List Event :=
  [Event.add exBuyFive, Event.modify 1 9900 8 "t2", Event.add exSellEight]

/-- A run that fills order 1 partly and then cancels it. -/
def exEventsCancel : List Event :=
  [Event.add exBuyFive,
   Event.add { id := 2, timestamp := "t2", side := .SELL, type := .LIMIT, tif := .GTC,
               priceTicks := 9900, quantity := 3 },
   Event.cancel 1 "t3"]

/-- The book at the end of `exEventsResize`. -/
def exBookResize : OrderBook :=
  match runEvents (OrderBook.init true) [] exEventsResize with
  | some r => r.1
  | none => OrderBook.init true

/-- The book at the end of `exEventsCancel`. -/
def exBookCancel : OrderBook :=
  match runEvents (OrderBook.init true) [] exEventsCancel with
  | some r => r.1
  | none => OrderBook.init true

/-! ## The cached top of book and books that agree on their containers -/

/-- The top of book read off the two side containers, as `updateBestOnChange` computes
it: price and `totalQty` of `bids_.rbegin()` and of `asks_.begin()`, with the two
sentinels for an empty side. -/
def OrderBook.bookTop (s : OrderBook) : Price × Int × Price × Int :=
  ((match s.bids_.getLast? with
      | none => priceMin
      | some e => e.1),
   (match s.bids_.getLast? with
      | none => 0
      | some e => e.2.totalQty),
   (match s.asks_.head? with
      | none => priceMax
      | some e => e.1),
   (match s.asks_.head? with
      | none => 0
      | some e => e.2.totalQty))

/-- The cached top of book agrees with the side containers. -/
def CacheOk (s : OrderBook) : Prop :=
  s.topOfBook = s.bookTop

/-- Two books with the same side containers, index, trade log and allocator counter;
they may differ in the cached top of book, the quote fields and `nextOrderId_`. -/
def CoreEq (a b : OrderBook) : Prop :=
  a.bids_ = b.bids_ ∧ a.asks_ = b.asks_ ∧ a.idIndex_ = b.idIndex_ ∧
    a.trades_ = b.trades_ ∧ a.nextNode = b.nextNode

/-- The ids in the book are proper ids: `nextOrderId_` is positive, so no resting order
carries the id 0 that `addOrder` reads as a request to draw one. -/
structure IdsOk (s : OrderBook) : Prop where
  next : 0 < s.nextOrderId_
  ids : AllIds (fun i => i ≠ 0) s

/-- The buy of Scenario D: 10 at 99.00, id 1. -/
def exBuyD : Order :=
  { id := 1, timestamp := "t1", side := .BUY, type := .LIMIT, tif := .GTC,
    priceTicks := 9900, quantity := 10 }

/-- The sell of Scenario D: 10 at 99.00, id 2. -/
def exSellD : Order :=
  { id := 2, timestamp := "t3", side := .SELL, type := .LIMIT, tif := .GTC,
    priceTicks := 9900, quantity := 10 }

/-- A MARKET buy of 10, id 3. -/
def exMarketBuy : Order :=
  { id := 3, timestamp := "t3", side := .BUY, type := .MARKET, tif := .GTC,
    priceTicks := 0, quantity := 10 }

/-- The resting orders of the levels `levels`, each with the price of its level, in the
order of the levels and, within a level, of its FIFO. -/
def priorityOrder : List (Price × LevelInfo) → List (Price × Node)
  | [] => []
  | (px, lvl) :: rest => lvl.orders.map (fun n => (px, n)) ++ priorityOrder rest

/-- Scenario A before the buy: a single ask 100.50 x 10 (id 1). -/
def exAskTen : OrderBook :=
  (addOrder (OrderBook.init true)
    { id := 1, timestamp := "t1", side := .SELL, type := .LIMIT, tif := .GTC,
      priceTicks := 10050, quantity := 10 }).2

/-- The buy of Scenario A: 4 at 100.50, id 2. -/
def exBuyA : Order :=
  { id := 2, timestamp := "t2", side := .BUY, type := .LIMIT, tif := .GTC,
    priceTicks := 10050, quantity := 4 }

/-- The maker of a fill as the fill leaves it: its quantity reduced by the traded
amount. -/
def Fill.reduced (f : Fill) : Node :=
  { f.maker with order := { f.maker.order with quantity := f.maker.order.quantity - f.traded } }

/-- Two nodes that are the same, or are both the node with handle `h` holding the order
with id `id`, stored with tif GTC in the second and differing from it in the tif field
only, which is DAY in the first. -/
def NodeRel (h : Nat) (id : Int) (x y : Node) : Prop :=
  x = y ∨
    (x.handle = h ∧ y.handle = h ∧ y.order.id = id ∧ y.order.tif = TimeInForce.GTC ∧
      x.order = { y.order with tif := TimeInForce.DAY })

/-- Two levels with the same price and total whose FIFOs hold related nodes at the same
positions. -/
def LevelRel (h : Nat) (id : Int) (a b : Price × LevelInfo) : Prop :=
  a.1 = b.1 ∧ a.2.totalQty = b.2.totalQty ∧ List.Forall₂ (NodeRel h id) a.2.orders b.2.orders

/-- Two side containers holding related levels at the same positions. -/
def SideRel (h : Nat) (id : Int) (A B : BookSide) : Prop :=
  List.Forall₂ (LevelRel h id) A B

/-- The book without its side containers. -/
def OrderBook.shell (s : OrderBook) : OrderBook :=
  { s with bids_ := [], asks_ := [] }

/-- Two books that agree in every field but the side containers, which are related. -/
structure BookRel (h : Nat) (id : Int) (a b : OrderBook) : Prop where
  bids : SideRel h id a.bids_ b.bids_
  asks : SideRel h id a.asks_ b.asks_
  shell : a.shell = b.shell

/-- The observable top of book: for each side, nothing when the side is empty, and the
cached best price and quantity otherwise. -/
def OrderBook.obsTop (s : OrderBook) : Option (Price × Int) × Option (Price × Int) :=
  (if s.bids_.isEmpty then none else some (s.bestBidPx_, s.bestBidQty_),
   if s.asks_.isEmpty then none else some (s.bestAskPx_, s.bestAskQty_))

/-- The observable values of a quote row: for each side, nothing when the price cell is
empty, and the price and quantity cells otherwise. -/
def QuoteRow.obs (r : QuoteRow) : Option (Price × Int) × Option (Price × Int) :=
  (r.bestBid.map (fun p => (p, r.bidQty)), r.bestAsk.map (fun p => (p, r.askQty)))

/-- The previously emitted snapshot: the observable values of the last row written, and
two absent sides when no row has been written yet. -/
def lastObs (quotes : List QuoteRow) : Option (Price × Int) × Option (Price × Int) :=
  match quotes.getLast? with
  | none => (none, none)
  | some r => r.obs

/-- The row `emitQuoteIfChanged` writes when it writes one. -/
def OrderBook.currentRow (s : OrderBook) (ts : String) : QuoteRow :=
  { timestamp := ts,
    bestBid := if s.bids_.isEmpty then none else some s.bestBidPx_,
    bidQty := s.bestBidQty_,
    bestAsk := if s.asks_.isEmpty then none else some s.bestAskPx_,
    askQty := s.bestAskQty_ }

/-- The fields `emitQuoteIfChanged` writes, with the flag of the sink. -/
def OrderBook.qaux (s : OrderBook) : Price × Int × Price × Int × Bool × List QuoteRow :=
  (s.lastQuotedBid_, s.lastQuotedBidQty_, s.lastQuotedAsk_, s.lastQuotedAskQty_,
    s.quotesOpen, s.quotes)

/-- How `LastQuoted` records the previously emitted snapshot: an absent side as the
sentinel price, a present side as its price and quantity. -/
def QuoteInv (s : OrderBook) : Prop :=
  (match (lastObs s.quotes).1 with
    | none => s.lastQuotedBid_ = priceMin
    | some pq => s.lastQuotedBid_ = pq.1 ∧ s.lastQuotedBidQty_ = pq.2) ∧
  (match (lastObs s.quotes).2 with
    | none => s.lastQuotedAsk_ = priceMax
    | some pq => s.lastQuotedAsk_ = pq.1 ∧ s.lastQuotedAskQty_ = pq.2)

/-- The flag `changed` of `emitQuoteIfChanged`. -/
def quoteChanged (s : OrderBook) : Bool :=
  (s.bids_.isEmpty != decide (s.lastQuotedBid_ = priceMin)) ||
  (s.asks_.isEmpty != decide (s.lastQuotedAsk_ = priceMax)) ||
  (!s.bids_.isEmpty &&
    (decide (s.bestBidPx_ ≠ s.lastQuotedBid_) ||
     decide (s.bestBidQty_ ≠ s.lastQuotedBidQty_))) ||
  (!s.asks_.isEmpty &&
    (decide (s.bestAskPx_ ≠ s.lastQuotedAsk_) ||
     decide (s.bestAskQty_ ≠ s.lastQuotedAskQty_)))

/-- The books on which the dispatcher calls `emitQuoteIfChanged`: at the end of
`addOrder`, of a `cancelOrder` that found its order, and of a `modifyOrder` that found its
order. -/
inductive QuotePoint : OrderBook → Prop where
  | add {s : OrderBook} (o : Order) : Reachable s → QuotePoint (addCore s o)
  | cancel {s : OrderBook} (orderId : Int) (e : IndexEntry) (lvl : LevelInfo) (n : Node) :
      Reachable s → s.idIndex_.find orderId = some e →
      (s.book e.side).find e.px = some lvl → findNode e.lit lvl.orders = some n →
      QuotePoint (updateBestOnChange (unlinkResting s orderId e lvl n))
  | modify {s : OrderBook} (orderId : Int) (newPxTicks : Price) (newQty : Int)
      (e : IndexEntry) (lvl : LevelInfo) (n : Node) :
      Reachable s → s.idIndex_.find orderId = some e →
      (s.book e.side).find e.px = some lvl → findNode e.lit lvl.orders = some n →
      QuotePoint (updateBestOnChange (modifyCore s orderId newPxTicks newQty e lvl n))

/-- A buy of 5 at the lowest value of `Price`, id 1. -/
def exBuyAtMin : Order :=
  { id := 1, timestamp := "t1", side := .BUY, type := .LIMIT, tif := .GTC,
    priceTicks := priceMin, quantity := 5 }

/-- The book holding only `exBuyAtMin`, after its quote row has been written. -/
def exBidAtMin : OrderBook :=
  (addOrder (OrderBook.init true) exBuyAtMin).2

/-- The book on which `cancelOrder exBidAtMin 1` calls `emitQuoteIfChanged`. -/
def exAfterUnlink : OrderBook :=
  updateBestOnChange
    (unlinkResting exBidAtMin 1 { side := .BUY, px := priceMin, lit := 0 }
      { orders := [{ handle := 0, order := exBuyAtMin }], totalQty := 5 }
      { handle := 0, order := exBuyAtMin })

/-! ## One iteration of each loop of `match` -/

/-- The guard of the inner loop of `match` is false: the aggressor is exhausted or the
FIFO is empty. -/
def innerDone (incoming : Order) (lvl : LevelInfo) : Bool :=
  !(decide (incoming.quantity > 0) && !lvl.orders.isEmpty)

/-- The outer loop of `match` is left without another iteration: its guard is false, or
the best opposite level does not cross (`break`). -/
def loopDone (side : OrderSide) (s : OrderBook) (incoming : Order) : Bool :=
  !(decide (incoming.quantity > 0) && !(s.opp side).isEmpty) ||
    match bestOpp side (s.opp side) with
    | none => true
    | some (px, _) => !crosses side incoming px

/-- One execution of the body of the inner loop of `match`, on a FIFO with head `maker`
and tail `rest`. -/
def innerBody (side : OrderSide) (px : Price) (s : OrderBook) (incoming : Order)
    (lvl : LevelInfo) (maker : Node) (rest : List Node) : OrderBook × Order × LevelInfo :=
  let traded := min incoming.quantity maker.order.quantity
  let s1 := logTrade s
    (mkTrade side incoming.timestamp px traded incoming.id maker.order.id)
  let incoming1 := { incoming with quantity := incoming.quantity - traded }
  let maker1 : Node :=
    { maker with order := { maker.order with quantity := maker.order.quantity - traded } }
  let total1 := lvl.totalQty - traded
  if maker1.order.quantity = 0 then
    ({ s1 with idIndex_ := s1.idIndex_.erase maker.order.id }, incoming1,
      { orders := rest, totalQty := total1 })
  else (s1, incoming1, { orders := maker1 :: rest, totalQty := total1 })

/-- One execution of the body of the outer loop of `match` up to `updateBestOnChange()`,
on the best opposite level `(px, lvl)`. -/
def outerBody (side : OrderSide) (s : OrderBook) (incoming : Order) (px : Price)
    (lvl : LevelInfo) : OrderBook × Order :=
  let r := matchInner side px lvl.orders.length s incoming lvl
  let opp1 :=
    if r.2.2.orders.isEmpty then (r.1.opp side).erase px
    else (r.1.opp side).put px r.2.2
  (updateBestOnChange (r.1.setOpp side opp1), r.2.1)

/-- An ask side no sequence of orders builds: a level holding a maker of quantity 0, one
of quantity -2 and one of quantity 4, a level with an empty FIFO, and a level with one
maker of quantity 5. -/
def exOddBook : OrderBook :=
  { OrderBook.init true with
    asks_ :=
      [(10000,
        { orders :=
            [{ handle := 0,
               order := { id := 1, timestamp := "t1", side := .SELL, type := .LIMIT,
                          tif := .GTC, priceTicks := 10000, quantity := 0 } },
             { handle := 1,
               order := { id := 2, timestamp := "t2", side := .SELL, type := .LIMIT,
                          tif := .GTC, priceTicks := 10000, quantity := -2 } },
             { handle := 2,
               order := { id := 3, timestamp := "t3", side := .SELL, type := .LIMIT,
                          tif := .GTC, priceTicks := 10000, quantity := 4 } }],
          totalQty := 2 }),
       (10100, { orders := [], totalQty := 0 }),
       (10200,
        { orders :=
            [{ handle := 3,
               order := { id := 4, timestamp := "t4", side := .SELL, type := .LIMIT,
                          tif := .GTC, priceTicks := 10200, quantity := 5 } }],
          totalQty := 5 })],
    nextNode := 4 }

/-- A market buy of 3. -/
def exMarketBuy3 : Order :=
  { id := 9, timestamp := "t5", side := .BUY, type := .MARKET, tif := .GTC,
    priceTicks := 0, quantity := 3 }

/-! ## The `int` fields at machine width

`quantity`, `totalQty`, `need` and `nextOrderId_` are `int` in the source.  The functions
above compute them exactly.  The functions of this section are the same translations
with every `int` result reduced to the 32-bit two's-complement range, which is what the
compiled program stores when an addition or subtraction leaves that range. -/

/-- The value an `int` holds after a computation whose exact result is `x`. -/
def wrapInt (x : Int) : Int :=
  (x + 2147483648) % 4294967296 - 2147483648

/-- Translation of `OrderBook::restOrder`, `lvl.totalQty += o.quantity` computed in
`int`. -/
def Machine.restOrder (s : OrderBook) (o : Order) : OrderBook :=
  let book := s.book o.side
  let lvl := (book.find o.priceTicks).getD { orders := [], totalQty := 0 }
  let it := s.nextNode
  let lvl1 : LevelInfo :=
    { orders := lvl.orders ++ [{ handle := it, order := o }],
      totalQty := wrapInt (lvl.totalQty + o.quantity) }
  let s1 := s.setBook o.side (book.put o.priceTicks lvl1)
  let s2 := { s1 with
    nextNode := s.nextNode + 1,
    idIndex_ := s1.idIndex_.insert o.id { side := o.side, px := o.priceTicks, lit := it } }
  updateBestOnAdd s2 o.side o.priceTicks

/-- The inner loop of `match`, the three `-= traded` computed in `int`. -/
def Machine.matchInner (side : OrderSide) (px : Price) :
    Nat → OrderBook → Order → LevelInfo → OrderBook × Order × LevelInfo
  | 0, s, incoming, lvl => (s, incoming, lvl)
  | fuel + 1, s, incoming, lvl =>
    if incoming.quantity > 0 then
      match lvl.orders with
      | [] => (s, incoming, lvl)
      | maker :: rest =>
        let traded := min incoming.quantity maker.order.quantity
        let s1 := logTrade s
          (mkTrade side incoming.timestamp px traded incoming.id maker.order.id)
        let incoming1 := { incoming with quantity := wrapInt (incoming.quantity - traded) }
        let maker1 : Node :=
          { maker with
            order := { maker.order with quantity := wrapInt (maker.order.quantity - traded) } }
        let total1 := wrapInt (lvl.totalQty - traded)
        if maker1.order.quantity = 0 then
          Machine.matchInner side px fuel
            { s1 with idIndex_ := s1.idIndex_.erase maker.order.id } incoming1
            { orders := rest, totalQty := total1 }
        else
          Machine.matchInner side px fuel s1 incoming1
            { orders := maker1 :: rest, totalQty := total1 }
    else (s, incoming, lvl)

/-- The outer loop of `match` over `Machine.matchInner`. -/
def Machine.matchLoop (side : OrderSide) : Nat → OrderBook → Order → OrderBook × Order
  | 0, s, incoming => (s, incoming)
  | fuel + 1, s, incoming =>
    if incoming.quantity > 0 then
      match bestOpp side (s.opp side) with
      | none => (s, incoming)
      | some (px, lvl) =>
        if !crosses side incoming px then (s, incoming)
        else
          let r := Machine.matchInner side px lvl.orders.length s incoming lvl
          let s1 := r.1
          let incoming1 := r.2.1
          let lvl1 := r.2.2
          let opp1 :=
            if lvl1.orders.isEmpty then (s1.opp side).erase px
            else (s1.opp side).put px lvl1
          let s2 := updateBestOnChange (s1.setOpp side opp1)
          if incoming1.type = OrderType.MARKET then
            if opp1.isEmpty then (s2, incoming1)
            else Machine.matchLoop side fuel s2 incoming1
          else
            match bestOpp side opp1 with
            | none => (s2, incoming1)
            | some (nextTop, _) =>
              if !crosses side incoming1 nextTop then (s2, incoming1)
              else Machine.matchLoop side fuel s2 incoming1
    else (s, incoming)

/-- The walk of `canFullyFill`, `need -= it->second.totalQty` computed in `int`. -/
def Machine.canFullyFillWalk (side : OrderSide) (limitPx : Option Price) :
    List (Price × LevelInfo) → Int → Int
  | [], need => need
  | (px, lvl) :: rest, need =>
    if need > 0 then
      if pastLimit side limitPx px then need
      else Machine.canFullyFillWalk side limitPx rest (wrapInt (need - lvl.totalQty))
    else need

/-- Translation of `OrderBook::canFullyFill` over `Machine.canFullyFillWalk`. -/
def Machine.canFullyFill (s : OrderBook) (side : OrderSide) (limitPx : Option Price)
    (qty : Int) : Bool :=
  let need :=
    match side with
    | .BUY => Machine.canFullyFillWalk .BUY limitPx s.asks_ qty
    | .SELL => Machine.canFullyFillWalk .SELL limitPx s.bids_.reverse qty
  decide (need ≤ 0)

/-- Translation of `OrderBook::match<SIDE>` over the functions of this section. -/
def Machine.match_ (side : OrderSide) (s : OrderBook) (incoming : Order) :
    OrderBook × Order :=
  let limit : Option Price :=
    if incoming.type = OrderType.LIMIT then some incoming.priceTicks else none
  if incoming.tif = TimeInForce.FOK ∧
      Machine.canFullyFill s side limit incoming.quantity = false then
    (s, incoming)
  else Machine.matchLoop side (s.opp side).length s incoming

/-- Translation of `OrderBook::addOrder` over the functions of this section, with
`nextOrderId_++` computed in `int`. -/
def Machine.addOrder (s : OrderBook) (o_in : Order) : Bool × OrderBook :=
  let o : Order := if o_in.id = 0 then { o_in with id := s.nextOrderId_ } else o_in
  let s0 : OrderBook :=
    if o_in.id = 0 then { s with nextOrderId_ := wrapInt (s.nextOrderId_ + 1) } else s
  if o.type = OrderType.MARKET then
    let r := Machine.match_ o.side s0 o
    (true, emitQuoteIfChanged r.1 r.2.timestamp)
  else
    let r := Machine.match_ o.side s0 o
    let s2 :=
      if r.2.quantity > 0 ∧ r.2.tif ≠ TimeInForce.IOC ∧ r.2.tif ≠ TimeInForce.FOK then
        Machine.restOrder r.1 r.2
      else r.1
    (true, emitQuoteIfChanged s2 r.2.timestamp)

/-- Translation of `OrderBook::cancelOrder`, `lvl.totalQty -= lit->quantity` computed in
`int`. -/
def Machine.cancelOrder (s : OrderBook) (orderId : Int) (ts : String) :
    Option (Bool × OrderBook) :=
  match s.idIndex_.find orderId with
  | none => some (false, s)
  | some e =>
    match (s.book e.side).find e.px with
    | none => some (false, s)
    | some lvl =>
      match findNode e.lit lvl.orders with
      | none => none
      | some n =>
        let lvl1 : LevelInfo :=
          { orders := eraseNode e.lit lvl.orders,
            totalQty := wrapInt (lvl.totalQty - n.order.quantity) }
        let s1 := s.setBook e.side ((s.book e.side).put e.px lvl1)
        let s2 := { s1 with idIndex_ := s1.idIndex_.erase orderId }
        let s3 := if lvl1.orders.isEmpty then eraseLevelIfEmpty s2 e.side e.px else s2
        some (true, emitQuoteIfChanged (updateBestOnChange s3) ts)

/-- Translation of `OrderBook::modifyOrder` over the functions of this section. -/
def Machine.modifyOrder (s : OrderBook) (orderId : Int) (newPxTicks : Price) (newQty : Int)
    (ts : String) : Option (Bool × OrderBook) :=
  if newQty ≤ 0 then Machine.cancelOrder s orderId ts
  else
    match s.idIndex_.find orderId with
    | none => some (false, s)
    | some e =>
      match (s.book e.side).find e.px with
      | none => some (false, s)
      | some lvl =>
        match findNode e.lit lvl.orders with
        | none => none
        | some n =>
          let o := n.order
          let s1 := { s with idIndex_ := s.idIndex_.erase orderId }
          let lvl1 : LevelInfo :=
            { orders := eraseNode e.lit lvl.orders,
              totalQty := wrapInt (lvl.totalQty - o.quantity) }
          let s2 := s1.setBook e.side ((s1.book e.side).put e.px lvl1)
          let s3 := if lvl1.orders.isEmpty then eraseLevelIfEmpty s2 e.side e.px else s2
          let o1 : Order := { o with priceTicks := newPxTicks, quantity := newQty }
          let r := Machine.match_ e.side s3 o1
          let s4 := if r.2.quantity > 0 then Machine.restOrder r.1 r.2 else r.1
          some (true, emitQuoteIfChanged (updateBestOnChange s4) ts)

/-- A sell of 2147483647 at 100.00, id 1. -/
def exSellMaxA : Order :=
  { id := 1, timestamp := "t1", side := .SELL, type := .LIMIT, tif := .GTC,
    priceTicks := 10000, quantity := 2147483647 }

/-- A second sell of 2147483647 at 100.00, id 2. -/
def exSellMaxB : Order :=
  { id := 2, timestamp := "t2", side := .SELL, type := .LIMIT, tif := .GTC,
    priceTicks := 10000, quantity := 2147483647 }

/-- The book of the program after `exSellMaxA` and `exSellMaxB`. -/
def exTwoMax : OrderBook :=
  (Machine.addOrder (Machine.addOrder (OrderBook.init true) exSellMaxA).2 exSellMaxB).2

/-- A FOK buy of 5 at 100.00, id 3. -/
def exFokBuy5 : Order :=
  { id := 3, timestamp := "t3", side := .BUY, type := .LIMIT, tif := .FOK,
    priceTicks := 10000, quantity := 5 }

/-- A GTC buy of 5 at 100.00, id 3. -/
def exGtcBuy5 : Order :=
  { id := 3, timestamp := "t3", side := .BUY, type := .LIMIT, tif := .GTC,
    priceTicks := 10000, quantity := 5 }

/-! ## `Trade.price`: the conversion of `logTrade`

`logTrade` stores `fromTicks(pxTicks)`, a `double`, in the field `price` of the trade it
pushes.  A finite `double` is written here as the rational number it denotes. -/

/-- Nearest integer, ties to the even one. -/
def roundHalfEven (x : ℚ) : Int :=
  if x - ⌊x⌋ < 1 / 2 then ⌊x⌋
  else if 1 / 2 < x - ⌊x⌋ then ⌊x⌋ + 1
  else if ⌊x⌋ % 2 = 0 then ⌊x⌋ else ⌊x⌋ + 1

/-- For `x ≠ 0`, the exponent `e` with `2 ^ e ≤ |x| < 2 ^ (e + 1)`: the difference of the
bit lengths of numerator and denominator, or one less. -/
def floorLog2 (x : ℚ) : Int :=
  if (2 : ℚ) ^ ((Nat.log2 x.num.natAbs : Int) - (Nat.log2 x.den : Int)) ≤ |x| then
    (Nat.log2 x.num.natAbs : Int) - (Nat.log2 x.den : Int)
  else (Nat.log2 x.num.natAbs : Int) - (Nat.log2 x.den : Int) - 1

/-- The `double` nearest to `x` (53-bit significand, round to nearest, ties to even), for
`x` within the range of the normal doubles; every value formed below from two 64-bit
integers is. -/
def roundDouble (x : ℚ) : ℚ :=
  if x = 0 then 0
  else (roundHalfEven (x / 2 ^ (floorLog2 x - 52)) : ℚ) * 2 ^ (floorLog2 x - 52)

/-- The conversion `static_cast<double>(n)` of a 64-bit integer. -/
def toDouble (n : Int) : ℚ := roundDouble n

/-- Translation of `OrderBook::fromTicks` for a book constructed with `tickScale`:
`static_cast<double>(p) / static_cast<double>(tickScale_)`; `none` when the quotient is
not finite (`tickScale_ == 0`). -/
def fromTicks (tickScale : Int) (p : Price) : Option ℚ :=
  if toDouble tickScale = 0 then none
  else some (roundDouble (toDouble p / toDouble tickScale))

/-- The `Trade` of `order.h` as `logTrade` stores it. -/
structure TradeRecord where
  timestamp : String
  price : Option ℚ
  quantity : Int
  buyId : Int
  sellId : Int
  deriving DecidableEq

/-- The record `logTrade` pushes for the call recorded as `t`, in a book constructed with
`tickScale`: `Trade{ts, fromTicks(pxTicks), qty, buyId, sellId}`. -/
def Trade.stored (tickScale : Int) (t : Trade) : TradeRecord :=
  { timestamp := t.timestamp, price := fromTicks tickScale t.priceTicks,
    quantity := t.quantity, buyId := t.buyId, sellId := t.sellId }

/-- The vector `trades_` of the program, for a book constructed with `tickScale`. -/
def OrderBook.storedTrades (s : OrderBook) (tickScale : Int) : List TradeRecord :=
  s.trades_.map (Trade.stored tickScale)

/-- A book with a single ask of 3 at tick 9007199254740993 (id 1). -/
def exHighAsk : OrderBook :=
  (addOrder (OrderBook.init true)
    { id := 1, timestamp := "t1", side := .SELL, type := .LIMIT, tif := .GTC,
      priceTicks := 9007199254740993, quantity := 3 }).2

/-- A buy of 3 at tick 9007199254740993, id 2. -/
def exHighBuy : Order :=
  { id := 2, timestamp := "t2", side := .BUY, type := .LIMIT, tif := .GTC,
    priceTicks := 9007199254740993, quantity := 3 }

/-! ## Runs on which no `int` overflows -/

/-- What the inner loop needs of a level for its `int` arithmetic to stay in range. -/
def GoodLevel (l : LevelInfo) : Prop :=
  (∀ n ∈ l.orders, 0 < n.order.quantity) ∧ l.totalQty = qtySum l.orders ∧
    l.totalQty ≤ 2147483647

/-- What `match` needs of the opposite side for its `int` arithmetic to stay in range. -/
def GoodSide (b : BookSide) : Prop := ∀ e ∈ b, GoodLevel e.2

/-- No level total of the book exceeds `INT_MAX`. -/
def IntBounded (s : OrderBook) : Prop :=
  ∀ side, ∀ e ∈ s.book side, e.2.totalQty ≤ 2147483647

/-- One event applied by the functions of `Machine`. -/
def Machine.applyEvent (s : OrderBook) : Event → Option OrderBook
  | .add o => some (Machine.addOrder s o).2
  | .cancel orderId ts => (Machine.cancelOrder s orderId ts).map (fun r => r.2)
  | .modify orderId newPxTicks newQty ts =>
    (Machine.modifyOrder s orderId newPxTicks newQty ts).map (fun r => r.2)

/-- A sequence of events applied by the functions of `Machine`. -/
def Machine.runEvents : OrderBook → List Event → Option OrderBook
  | s, [] => some s
  | s, ev :: rest =>
    match Machine.applyEvent s ev with
    | none => none
    | some s1 => Machine.runEvents s1 rest

/-- The `int` arguments of an event are not at their limit: a quantity is at most
`INT_MAX`, and an order that draws its id finds the counter below `INT_MAX`. -/
def EventInRange (s : OrderBook) : Event → Prop
  | .add o => o.quantity ≤ 2147483647 ∧ s.nextOrderId_ < 2147483647
  | .cancel _ _ => True
  | .modify _ _ newQty _ => newQty ≤ 2147483647

/-- Along the run of `evs` from `s`, computed exactly, every event is in range and no
level total exceeds `INT_MAX`. -/
def RunInRange : OrderBook → List Event → Prop
  | _, [] => True
  | s, ev :: rest =>
    EventInRange s ev ∧
      match applyEvent s ev with
      | none => True
      | some s1 => IntBounded s1 ∧ RunInRange s1 rest

/-- The test `RunInRange`, as a computation. -/
def runInRangeCheck : OrderBook → List Event → Bool
  | _, [] => true
  | s, ev :: rest =>
    (match ev with
      | .add o => decide (o.quantity ≤ 2147483647) && decide (s.nextOrderId_ < 2147483647)
      | .cancel _ _ => true
      | .modify _ _ newQty _ => decide (newQty ≤ 2147483647)) &&
    (match applyEvent s ev with
      | none => true
      | some s1 =>
        s1.bids_.all (fun e => decide (e.2.totalQty ≤ 2147483647)) &&
        s1.asks_.all (fun e => decide (e.2.totalQty ≤ 2147483647)) &&
        runInRangeCheck s1 rest)

/-! # Theorems -/

/-! ## Projections through the helpers -/

@[simp] theorem opp_setOpp (s : OrderBook) (side : OrderSide) (b : BookSide) :
    (s.setOpp side b).opp side = b := by
  cases side <;> rfl

@[simp] theorem book_setOpp (s : OrderBook) (side : OrderSide) (b : BookSide) :
    (s.setOpp side b).book side = s.book side := by
  cases side <;> rfl

@[simp] theorem book_setBook (s : OrderBook) (side : OrderSide) (b : BookSide) :
    (s.setBook side b).book side = b := by
  cases side <;> rfl

@[simp] theorem opp_setBook (s : OrderBook) (side : OrderSide) (b : BookSide) :
    (s.setBook side b).opp side = s.opp side := by
  cases side <;> rfl

@[simp] theorem idIndex_setOpp (s : OrderBook) (side : OrderSide) (b : BookSide) :
    (s.setOpp side b).idIndex_ = s.idIndex_ := by
  cases side <;> rfl

@[simp] theorem trades_setOpp (s : OrderBook) (side : OrderSide) (b : BookSide) :
    (s.setOpp side b).trades_ = s.trades_ := by
  cases side <;> rfl

@[simp] theorem aux_setOpp (s : OrderBook) (side : OrderSide) (b : BookSide) :
    (s.setOpp side b).aux = s.aux := by
  cases side <;> rfl

@[simp] theorem idIndex_setBook (s : OrderBook) (side : OrderSide) (b : BookSide) :
    (s.setBook side b).idIndex_ = s.idIndex_ := by
  cases side <;> rfl

@[simp] theorem trades_setBook (s : OrderBook) (side : OrderSide) (b : BookSide) :
    (s.setBook side b).trades_ = s.trades_ := by
  cases side <;> rfl

@[simp] theorem aux_setBook (s : OrderBook) (side : OrderSide) (b : BookSide) :
    (s.setBook side b).aux = s.aux := by
  cases side <;> rfl

@[simp] theorem bids_updateBest (s : OrderBook) : (updateBestOnChange s).bids_ = s.bids_ := by
  unfold updateBestOnChange
  cases s.bids_.getLast? <;> cases h : s.asks_.head? <;> simp [h]

@[simp] theorem asks_updateBest (s : OrderBook) : (updateBestOnChange s).asks_ = s.asks_ := by
  unfold updateBestOnChange
  cases s.bids_.getLast? <;> cases h : s.asks_.head? <;> simp [h]

@[simp] theorem idIndex_updateBest (s : OrderBook) :
    (updateBestOnChange s).idIndex_ = s.idIndex_ := by
  unfold updateBestOnChange
  cases s.bids_.getLast? <;> cases h : s.asks_.head? <;> simp [h]

@[simp] theorem trades_updateBest (s : OrderBook) :
    (updateBestOnChange s).trades_ = s.trades_ := by
  unfold updateBestOnChange
  cases s.bids_.getLast? <;> cases h : s.asks_.head? <;> simp [h]

@[simp] theorem aux_updateBest (s : OrderBook) : (updateBestOnChange s).aux = s.aux := by
  unfold updateBestOnChange
  cases s.bids_.getLast? <;> cases h : s.asks_.head? <;> simp [h, OrderBook.aux]

@[simp] theorem opp_updateBest (s : OrderBook) (side : OrderSide) :
    (updateBestOnChange s).opp side = s.opp side := by
  cases side <;> simp [OrderBook.opp]

@[simp] theorem book_updateBest (s : OrderBook) (side : OrderSide) :
    (updateBestOnChange s).book side = s.book side := by
  cases side <;> simp [OrderBook.book]

@[simp] theorem opp_applyFills (side : OrderSide) (ts : String) (i : Int) (s : OrderBook)
    (fills : List Fill) (sd : OrderSide) :
    (applyFills side ts i s fills).opp sd = s.opp sd := by
  cases sd <;> rfl

@[simp] theorem book_applyFills (side : OrderSide) (ts : String) (i : Int) (s : OrderBook)
    (fills : List Fill) (sd : OrderSide) :
    (applyFills side ts i s fills).book sd = s.book sd := by
  cases sd <;> rfl

@[simp] theorem aux_applyFills (side : OrderSide) (ts : String) (i : Int) (s : OrderBook)
    (fills : List Fill) : (applyFills side ts i s fills).aux = s.aux := rfl

@[simp] theorem idIndex_applyFills (side : OrderSide) (ts : String) (i : Int) (s : OrderBook)
    (fills : List Fill) :
    (applyFills side ts i s fills).idIndex_ = eraseIds (erasedIds fills) s.idIndex_ := rfl

@[simp] theorem trades_applyFills (side : OrderSide) (ts : String) (i : Int) (s : OrderBook)
    (fills : List Fill) :
    (applyFills side ts i s fills).trades_ =
      s.trades_ ++ fills.map (Fill.toTrade side ts i) := rfl

theorem applyFills_nil (side : OrderSide) (ts : String) (i : Int) (s : OrderBook) :
    applyFills side ts i s [] = s := by
  cases s; simp [applyFills, erasedIds, eraseIds]

theorem eraseIds_append (a b : List Int) (m : Index) :
    eraseIds (a ++ b) m = eraseIds b (eraseIds a m) := by
  simp [eraseIds, List.foldl_append]

theorem erasedIds_append (a b : List Fill) :
    erasedIds (a ++ b) = erasedIds a ++ erasedIds b := by
  simp [erasedIds]

theorem applyFills_append (side : OrderSide) (ts : String) (i : Int) (s : OrderBook)
    (a b : List Fill) :
    applyFills side ts i (applyFills side ts i s a) b = applyFills side ts i s (a ++ b) := by
  simp [applyFills, erasedIds_append, eraseIds_append]

theorem fillSum_cons (f : Fill) (fs : List Fill) : fillSum (f :: fs) = f.traded + fillSum fs := by
  simp [fillSum]

theorem matchInner_of_nonpos (side : OrderSide) (px : Price) (fuel : Nat) (s : OrderBook)
    (incoming : Order) (lvl : LevelInfo) (h : incoming.quantity ≤ 0) :
    matchInner side px fuel s incoming lvl = (s, incoming, lvl) := by
  cases fuel with
  | zero => rfl
  | succ n => simp [matchInner, not_lt.mpr h]

theorem matchInner_eq (side : OrderSide) (px : Price) :
    ∀ (fuel : Nat) (s : OrderBook) (incoming : Order) (lvl : LevelInfo),
      lvl.orders.length ≤ fuel →
      matchInner side px fuel s incoming lvl =
        (applyFills side incoming.timestamp incoming.id s
            (fillFifo px incoming.quantity lvl.orders).fills,
         { incoming with quantity := (fillFifo px incoming.quantity lvl.orders).residual },
         { orders := (fillFifo px incoming.quantity lvl.orders).orders,
           totalQty := lvl.totalQty -
             fillSum (fillFifo px incoming.quantity lvl.orders).fills }) := by
  intro fuel
  induction fuel with
  | zero =>
    intro s incoming lvl h
    have h0 : lvl.orders = [] := List.length_eq_zero.mp (Nat.le_zero.mp h)
    cases lvl with
    | mk orders total =>
      simp only at h0
      subst h0
      simp [matchInner, fillFifo, applyFills_nil, fillSum]
  | succ fuel ih =>
    intro s incoming lvl h
    cases lvl with
    | mk orders total =>
      cases orders with
      | nil =>
        by_cases hq : incoming.quantity > 0 <;>
          simp [matchInner, fillFifo, applyFills_nil, fillSum, hq]
      | cons m rest =>
        by_cases hq : incoming.quantity > 0
        · by_cases hz : m.order.quantity - min incoming.quantity m.order.quantity = 0
          · have hlen : rest.length ≤ fuel := by simpa using h
            have := ih (logTrade s (mkTrade side incoming.timestamp px
                (min incoming.quantity m.order.quantity) incoming.id m.order.id) |>
                fun s1 => { s1 with idIndex_ := s1.idIndex_.erase m.order.id })
              { incoming with quantity := incoming.quantity - min incoming.quantity m.order.quantity }
              { orders := rest, totalQty := total - min incoming.quantity m.order.quantity } hlen
            simp only [matchInner, hq, if_true, hz]
            rw [this]
            simp [fillFifo, hq, hz, fillSum_cons, applyFills, logTrade, Fill.toTrade, erasedIds,
              Fill.removed, eraseIds, sub_sub]
          · have ht : min incoming.quantity m.order.quantity = incoming.quantity := by
              rcases min_choice incoming.quantity m.order.quantity with h1 | h1
              · exact h1
              · exact absurd (by rw [h1]; simp) hz
            simp only [matchInner, hq, if_true, hz, if_false]
            rw [matchInner_of_nonpos _ _ _ _ _ _ (by simp [ht])]
            simp [fillFifo, hq, hz, fillSum, applyFills, logTrade, Fill.toTrade, erasedIds,
              Fill.removed, eraseIds]
        · simp [matchInner, fillFifo, applyFills_nil, fillSum, hq]

/-! ## Ordered association lists -/

theorem KeysAsc.tail {e : Price × LevelInfo} {b : BookSide} (h : KeysAsc (e :: b)) :
    KeysAsc b :=
  (List.pairwise_cons.mp h).2

theorem KeysAsc.head_lt {e : Price × LevelInfo} {b : BookSide} (h : KeysAsc (e :: b)) :
    ∀ x ∈ b, e.1 < x.1 :=
  (List.pairwise_cons.mp h).1

theorem keysAsc_erase {b : BookSide} (h : KeysAsc b) (px : Price) : KeysAsc (b.erase px) :=
  List.Pairwise.filter _ h

theorem mem_of_find {b : BookSide} {px : Price} {l : LevelInfo} (h : b.find px = some l) :
    (px, l) ∈ b := by
  induction b with
  | nil => simp [BookSide.find] at h
  | cons e rest ih =>
    obtain ⟨p, l0⟩ := e
    by_cases hp : p = px
    · simp [BookSide.find, hp] at h
      simp [hp, h]
    · simp [BookSide.find, hp] at h
      exact List.mem_cons_of_mem _ (ih h)

theorem find_of_mem {b : BookSide} (hb : KeysAsc b) {px : Price} {l : LevelInfo}
    (h : (px, l) ∈ b) : b.find px = some l := by
  induction b with
  | nil => simp at h
  | cons e rest ih =>
    obtain ⟨p, l0⟩ := e
    rcases List.mem_cons.mp h with h1 | h1
    · cases h1
      simp [BookSide.find]
    · have hlt := hb.head_lt _ h1
      have hne : p ≠ px := ne_of_lt hlt
      simp [BookSide.find, hne]
      exact ih hb.tail h1

theorem find_eq_none_iff {b : BookSide} {px : Price} :
    b.find px = none ↔ ∀ e ∈ b, e.1 ≠ px := by
  induction b with
  | nil => simp [BookSide.find]
  | cons e rest ih =>
    obtain ⟨p, l0⟩ := e
    by_cases hp : p = px
    · simp [BookSide.find, hp]
    · simp [BookSide.find, hp, ih]

theorem erase_eq_self {b : BookSide} {px : Price} (h : ∀ e ∈ b, e.1 ≠ px) :
    b.erase px = b := by
  unfold BookSide.erase
  rw [List.filter_eq_self]
  intro e he
  simpa using h e he

theorem erase_cons_self {px : Price} {l : LevelInfo} {rest : BookSide}
    (h : KeysAsc ((px, l) :: rest)) : BookSide.erase px ((px, l) :: rest) = rest := by
  have h1 : ∀ e ∈ rest, e.1 ≠ px := fun e he => ne_of_gt (h.head_lt e he)
  have h2 := erase_eq_self h1
  unfold BookSide.erase at h2 ⊢
  rw [List.filter_cons]
  simp only [ne_eq, not_true_eq_false, decide_False, Bool.false_eq_true, if_false]
  exact h2

theorem keysAsc_append_singleton {rest : BookSide} {e : Price × LevelInfo} :
    KeysAsc (rest ++ [e]) ↔ KeysAsc rest ∧ ∀ x ∈ rest, x.1 < e.1 := by
  unfold KeysAsc
  rw [List.pairwise_append]
  simp

theorem erase_append_self {px : Price} {l : LevelInfo} {rest : BookSide}
    (h : KeysAsc (rest ++ [(px, l)])) : BookSide.erase px (rest ++ [(px, l)]) = rest := by
  have h1 : ∀ e ∈ rest, e.1 ≠ px :=
    fun e he => ne_of_lt ((keysAsc_append_singleton.mp h).2 e he)
  have h2 := erase_eq_self h1
  unfold BookSide.erase at h2 ⊢
  rw [List.filter_append, h2]
  simp

theorem put_cons_self (px : Price) (l l1 : LevelInfo) (rest : BookSide) :
    BookSide.put px l1 ((px, l) :: rest) = (px, l1) :: rest := by
  simp [BookSide.put]

theorem put_append_self {px : Price} {l : LevelInfo} (l1 : LevelInfo) {rest : BookSide}
    (h : ∀ x ∈ rest, x.1 < px) :
    BookSide.put px l1 (rest ++ [(px, l)]) = rest ++ [(px, l1)] := by
  induction rest with
  | nil => simp [BookSide.put]
  | cons e rest ih =>
    obtain ⟨p, l0⟩ := e
    have hp : p < px := h (p, l0) (List.mem_cons_self _ _)
    have h1 : ¬ px < p := not_lt.mpr (le_of_lt hp)
    have h2 : ¬ px = p := ne_of_gt hp
    have ih1 := ih (fun x hx => h x (List.mem_cons_of_mem _ hx))
    simp only [List.cons_append, BookSide.put, h1, h2, if_false]
    exact congrArg _ ih1

/-! ## Best-first view of the opposite side -/

theorem bestFirst_bestFirst (side : OrderSide) (b : BookSide) :
    bestFirst side (bestFirst side b) = b := by
  cases side <;> simp [bestFirst]

theorem length_bestFirst (side : OrderSide) (b : BookSide) :
    (bestFirst side b).length = b.length := by
  cases side <;> simp [bestFirst]

theorem mem_bestFirst {side : OrderSide} {b : BookSide} {e : Price × LevelInfo} :
    e ∈ bestFirst side b ↔ e ∈ b := by
  cases side <;> simp [bestFirst]

theorem bestOpp_eq (side : OrderSide) (opp : BookSide) :
    bestOpp side opp = (bestFirst side opp).head? := by
  cases side
  · rfl
  · simp [bestOpp, bestFirst, List.head?_reverse]

theorem eq_of_bestFirst_cons {side : OrderSide} {opp : BookSide} {e : Price × LevelInfo}
    {rest : List (Price × LevelInfo)} (h : bestFirst side opp = e :: rest) :
    opp = bestFirst side (e :: rest) := by
  rw [← h, bestFirst_bestFirst]

theorem bestFirst_erase {side : OrderSide} {opp : BookSide} (hk : KeysAsc opp) {px : Price}
    {l : LevelInfo} {rest : List (Price × LevelInfo)}
    (h : bestFirst side opp = (px, l) :: rest) : bestFirst side (opp.erase px) = rest := by
  have ho := eq_of_bestFirst_cons h
  subst ho
  cases side
  · simp only [bestFirst] at hk ⊢
    exact erase_cons_self hk
  · simp only [bestFirst, List.reverse_cons] at hk ⊢
    rw [erase_append_self hk, List.reverse_reverse]

theorem bestFirst_put {side : OrderSide} {opp : BookSide} (hk : KeysAsc opp) {px : Price}
    {l : LevelInfo} (l1 : LevelInfo) {rest : List (Price × LevelInfo)}
    (h : bestFirst side opp = (px, l) :: rest) :
    bestFirst side (opp.put px l1) = (px, l1) :: rest := by
  have ho := eq_of_bestFirst_cons h
  subst ho
  cases side
  · simp only [bestFirst]
    exact put_cons_self px l l1 rest
  · simp only [bestFirst, List.reverse_cons] at hk ⊢
    rw [put_append_self l1 (keysAsc_append_singleton.mp hk).2]
    simp

/-! ## The loops of `match` compute `walkLevels` -/

theorem fillFifo_nonpos (px : Price) {q : Int} (h : q ≤ 0) (l : List Node) :
    fillFifo px q l = { residual := q, orders := l, fills := [] } := by
  cases l <;> simp [fillFifo, not_lt.mpr h]

theorem fillFifo_residual_nonpos (px : Price) :
    ∀ (l : List Node) (q : Int), (fillFifo px q l).orders ≠ [] →
      (fillFifo px q l).residual ≤ 0 := by
  intro l
  induction l with
  | nil => intro q h; simp [fillFifo] at h
  | cons m rest ih =>
    intro q h
    by_cases hq : q > 0
    · by_cases hz : m.order.quantity - min q m.order.quantity = 0
      · simp only [fillFifo, hq, if_true, hz] at h ⊢
        exact ih _ h
      · have ht : min q m.order.quantity = q := by
          rcases min_choice q m.order.quantity with h1 | h1
          · exact h1
          · exact absurd (by rw [h1]; simp) hz
        have hz1 : ¬ m.order.quantity - q = 0 := by rw [ht] at hz; exact hz
        simp [fillFifo, hq, ht, hz1]
    · rw [fillFifo_nonpos px (not_lt.mp hq)]
      exact not_lt.mp hq

theorem walkLevels_nonpos (cr : Price → Bool) {q : Int} (h : q ≤ 0)
    (l : List (Price × LevelInfo)) :
    walkLevels cr q l = { residual := q, levels := l, fills := [] } := by
  cases l with
  | nil => simp [walkLevels]
  | cons e rest =>
    obtain ⟨p, l0⟩ := e
    simp [walkLevels, not_lt.mpr h]

theorem matchLoop_of_nonpos (side : OrderSide) (fuel : Nat) (s : OrderBook)
    (incoming : Order) (h : incoming.quantity ≤ 0) :
    matchLoop side fuel s incoming = (s, incoming) := by
  cases fuel with
  | zero => rfl
  | succ n => simp [matchLoop, not_lt.mpr h]

/-- The exit tests at the bottom of the outer loop repeat the tests at its top. -/
theorem matchLoop_bottom (side : OrderSide) (fuel : Nat) (s2 : OrderBook) (incoming1 : Order) :
    (if incoming1.type = OrderType.MARKET then
        if (s2.opp side).isEmpty then (s2, incoming1)
        else matchLoop side fuel s2 incoming1
      else
        match bestOpp side (s2.opp side) with
        | none => (s2, incoming1)
        | some (nextTop, _) =>
          if !crosses side incoming1 nextTop then (s2, incoming1)
          else matchLoop side fuel s2 incoming1) = matchLoop side fuel s2 incoming1 := by
  cases fuel with
  | zero =>
    simp only [matchLoop]
    split
    · split <;> rfl
    · split
      · rfl
      · split <;> rfl
  | succ n =>
    by_cases hq : incoming1.quantity > 0
    · by_cases hm : incoming1.type = OrderType.MARKET
      · simp only [hm, if_true]
        cases ho : s2.opp side with
        | nil => simp [matchLoop, ho, bestOpp_eq, bestFirst, hq]; cases side <;> simp
        | cons e rest => simp
      · simp only [hm, if_false]
        cases hb : bestOpp side (s2.opp side) with
        | none => simp [matchLoop, hb, hq]
        | some e =>
          obtain ⟨nextTop, l⟩ := e
          by_cases hc : crosses side incoming1 nextTop = true
          · simp [hc]
          · simp [hc, matchLoop, hb, hq]
    · rw [matchLoop_of_nonpos _ _ _ _ (not_lt.mp hq)]
      split
      · split <;> rfl
      · split
        · rfl
        · split <;> rfl

theorem matchLoop_succ (side : OrderSide) (fuel : Nat) (s : OrderBook) (incoming : Order)
    (px : Price) (lvl : LevelInfo) (hq : incoming.quantity > 0)
    (hb : bestOpp side (s.opp side) = some (px, lvl))
    (hc : crosses side incoming px = true) :
    matchLoop side (fuel + 1) s incoming =
      matchLoop side fuel
        (updateBestOnChange
          ((applyFills side incoming.timestamp incoming.id s
              (fillFifo px incoming.quantity lvl.orders).fills).setOpp side
            (if (fillFifo px incoming.quantity lvl.orders).orders.isEmpty then
              (s.opp side).erase px
             else (s.opp side).put px
              { orders := (fillFifo px incoming.quantity lvl.orders).orders,
                totalQty := lvl.totalQty -
                  fillSum (fillFifo px incoming.quantity lvl.orders).fills })))
        { incoming with quantity := (fillFifo px incoming.quantity lvl.orders).residual } := by
  rw [matchLoop]
  simp only [hq, if_true, hb, hc, Bool.not_true, Bool.false_eq_true, if_false]
  rw [matchInner_eq _ _ _ _ _ _ le_rfl]
  simp only [opp_applyFills]
  have := matchLoop_bottom side fuel
    (updateBestOnChange
          ((applyFills side incoming.timestamp incoming.id s
              (fillFifo px incoming.quantity lvl.orders).fills).setOpp side
            (if (fillFifo px incoming.quantity lvl.orders).orders.isEmpty then
              (s.opp side).erase px
             else (s.opp side).put px
              { orders := (fillFifo px incoming.quantity lvl.orders).orders,
                totalQty := lvl.totalQty -
                  fillSum (fillFifo px incoming.quantity lvl.orders).fills })))
    { incoming with quantity := (fillFifo px incoming.quantity lvl.orders).residual }
  simp only [opp_updateBest, opp_setOpp] at this
  exact this

theorem crosses_setQuantity (side : OrderSide) (incoming : Order) (q : Int) :
    crosses side { incoming with quantity := q } = crosses side incoming := rfl

theorem matchLoop_spec (side : OrderSide) :
    ∀ (fuel : Nat) (s : OrderBook) (incoming : Order),
      KeysAsc (s.opp side) → (s.opp side).length ≤ fuel →
      MatchSpec side s incoming
        (walkLevels (crosses side incoming) incoming.quantity (bestFirst side (s.opp side)))
        (matchLoop side fuel s incoming) := by
  intro fuel
  induction fuel with
  | zero =>
    intro s incoming _ hlen
    have h0 : s.opp side = [] := List.length_eq_zero.mp (Nat.le_zero.mp hlen)
    have hb : bestFirst side (s.opp side) = [] := by rw [h0]; cases side <;> rfl
    rw [hb]
    simp only [matchLoop, walkLevels]
    exact ⟨rfl, hb, rfl, rfl, by simp, rfl⟩
  | succ fuel ih =>
    intro s incoming hk hlen
    by_cases hq : incoming.quantity > 0
    · cases hbf : bestFirst side (s.opp side) with
      | nil =>
        have hb : bestOpp side (s.opp side) = none := by rw [bestOpp_eq, hbf]; rfl
        simp only [matchLoop, hq, if_true, hb, walkLevels]
        exact ⟨rfl, hbf, rfl, rfl, by simp, rfl⟩
      | cons e rest =>
        obtain ⟨px, lvl⟩ := e
        have hb : bestOpp side (s.opp side) = some (px, lvl) := by rw [bestOpp_eq, hbf]; rfl
        by_cases hc : crosses side incoming px = true
        · rw [matchLoop_succ side fuel s incoming px lvl hq hb hc]
          by_cases he : (fillFifo px incoming.quantity lvl.orders).orders = []
          · have hbf1 := bestFirst_erase hk hbf
            have hlen1 : ((s.opp side).erase px).length ≤ fuel := by
              have h1 := length_bestFirst side ((s.opp side).erase px)
              have h2 := length_bestFirst side (s.opp side)
              rw [hbf1] at h1
              rw [hbf] at h2
              simp only [List.length_cons] at h2
              omega
            have hI := ih
              (updateBestOnChange
                ((applyFills side incoming.timestamp incoming.id s
                  (fillFifo px incoming.quantity lvl.orders).fills).setOpp side
                  ((s.opp side).erase px)))
              { incoming with quantity := (fillFifo px incoming.quantity lvl.orders).residual }
              (by simpa using keysAsc_erase hk px) (by simpa using hlen1)
            simp only [he, List.isEmpty_nil, if_true]
            simp only [opp_updateBest, opp_setOpp, hbf1, crosses_setQuantity] at hI
            simp only [walkLevels, hq, hc, and_self, if_true, he]
            obtain ⟨h1, h2, h3, h4, h5, h6⟩ := hI
            refine ⟨h1, h2, ?_, ?_, ?_, ?_⟩
            · simpa using h3
            · rw [h4]; simp [erasedIds_append, eraseIds_append]
            · rw [h5]; simp
            · simpa using h6
          · have hne : (fillFifo px incoming.quantity lvl.orders).orders.isEmpty = false := by
              cases hf : (fillFifo px incoming.quantity lvl.orders).orders with
              | nil => exact absurd hf he
              | cons a b => rfl
            have hres := fillFifo_residual_nonpos px lvl.orders incoming.quantity he
            rw [matchLoop_of_nonpos _ _ _ _ hres]
            simp only [hne, Bool.false_eq_true, if_false]
            simp only [walkLevels, hq, hc, and_self, if_true, he, if_false]
            refine ⟨rfl, ?_, ?_, ?_, ?_, ?_⟩
            · simpa using bestFirst_put hk _ hbf
            · simp
            · simp
            · simp
            · simp
        · have hc' : crosses side incoming px = false := by simpa using hc
          simp only [matchLoop, hq, if_true, hb, hc', Bool.not_false, walkLevels,
            Bool.false_eq_true, and_false, if_false]
          exact ⟨rfl, hbf, rfl, rfl, by simp, rfl⟩
    · rw [matchLoop_of_nonpos _ _ _ _ (not_lt.mp hq),
        walkLevels_nonpos _ (not_lt.mp hq)]
      exact ⟨rfl, rfl, rfl, rfl, by simp, rfl⟩

/-! ## Facts about `fillFifo` -/

theorem min_eq_left_of_sub_ne {q m : Int} (hz : ¬ m - min q m = 0) : min q m = q := by
  rcases min_choice q m with h1 | h1
  · exact h1
  · exact absurd (by rw [h1]; simp) hz

theorem fillFifo_cons_remove (px : Price) {q : Int} {m : Node} (rest : List Node)
    (hq : q > 0) (hz : m.order.quantity - min q m.order.quantity = 0) :
    fillFifo px q (m :: rest) =
      { residual := (fillFifo px (q - min q m.order.quantity) rest).residual,
        orders := (fillFifo px (q - min q m.order.quantity) rest).orders,
        fills := { px := px, maker := m, traded := min q m.order.quantity } ::
          (fillFifo px (q - min q m.order.quantity) rest).fills } := by
  simp [fillFifo, hq, hz]

theorem fillFifo_cons_keep (px : Price) {q : Int} {m : Node} (rest : List Node)
    (hq : q > 0) (hz : ¬ m.order.quantity - min q m.order.quantity = 0) :
    fillFifo px q (m :: rest) =
      { residual := 0,
        orders := { m with order := { m.order with quantity := m.order.quantity - q } } :: rest,
        fills := [{ px := px, maker := m, traded := q }] } := by
  have ht := min_eq_left_of_sub_ne hz
  have hz1 : ¬ m.order.quantity - q = 0 := by rw [ht] at hz; exact hz
  simp [fillFifo, hq, ht, hz1]

/-- Induction principle for `fillFifo`: the three ways an iteration can go. -/
theorem fillFifo_induct (px : Price) (P : Int → List Node → FifoFill → Prop)
    (hstop : ∀ q l, q ≤ 0 ∨ l = [] → P q l { residual := q, orders := l, fills := [] })
    (hremove : ∀ q m rest, q > 0 → m.order.quantity ≤ q →
      P (q - m.order.quantity) rest (fillFifo px (q - m.order.quantity) rest) →
      P q (m :: rest)
        { residual := (fillFifo px (q - m.order.quantity) rest).residual,
          orders := (fillFifo px (q - m.order.quantity) rest).orders,
          fills := { px := px, maker := m, traded := m.order.quantity } ::
            (fillFifo px (q - m.order.quantity) rest).fills })
    (hkeep : ∀ q m rest, q > 0 → q < m.order.quantity →
      P q (m :: rest)
        { residual := 0,
          orders := { m with order := { m.order with quantity := m.order.quantity - q } } :: rest,
          fills := [{ px := px, maker := m, traded := q }] }) :
    ∀ (l : List Node) (q : Int), P q l (fillFifo px q l) := by
  intro l
  induction l with
  | nil => intro q; simpa [fillFifo] using hstop q [] (Or.inr rfl)
  | cons m rest ih =>
    intro q
    by_cases hq : q > 0
    · by_cases hz : m.order.quantity - min q m.order.quantity = 0
      · have hm : min q m.order.quantity = m.order.quantity := by omega
        have hle : m.order.quantity ≤ q := by rw [← hm]; exact min_le_left _ _
        rw [fillFifo_cons_remove px rest hq hz, hm]
        exact hremove q m rest hq hle (ih _)
      · have ht := min_eq_left_of_sub_ne hz
        have hlt : q < m.order.quantity := by
          rcases lt_or_ge q m.order.quantity with h | h
          · exact h
          · exact absurd (by rw [min_eq_right h]; simp) hz
        rw [fillFifo_cons_keep px rest hq hz]
        exact hkeep q m rest hq hlt
    · rw [fillFifo_nonpos px (not_lt.mp hq)]
      exact hstop q _ (Or.inl (not_lt.mp hq))

theorem qtySum_cons (m : Node) (rest : List Node) :
    qtySum (m :: rest) = m.order.quantity + qtySum rest := by
  simp [qtySum]

theorem fillSum_nil : fillSum [] = 0 := rfl

/-- The aggressor loses exactly what the fills traded. -/
theorem fillFifo_residual (px : Price) (l : List Node) (q : Int) :
    (fillFifo px q l).residual = q - fillSum (fillFifo px q l).fills := by
  refine fillFifo_induct px (fun q _ r => r.residual = q - fillSum r.fills) ?_ ?_ ?_ l q
  · intro q l _; simp [fillSum]
  · intro q m rest _ _ ih
    simp only [fillSum_cons]
    rw [ih]; ring
  · intro q m rest _ _
    simp [fillSum]

/-- The FIFO loses exactly what the fills traded. -/
theorem fillFifo_qtySum (px : Price) (l : List Node) (q : Int) :
    qtySum (fillFifo px q l).orders = qtySum l - fillSum (fillFifo px q l).fills := by
  refine fillFifo_induct px (fun _ l r => qtySum r.orders = qtySum l - fillSum r.fills)
    ?_ ?_ ?_ l q
  · intro q l _; simp [fillSum]
  · intro q m rest _ _ ih
    simp only [fillSum_cons, qtySum_cons]
    rw [ih]; ring
  · intro q m rest _ _
    simp [fillSum, qtySum]; ring

theorem fillFifo_handles_sublist (px : Price) (l : List Node) (q : Int) :
    ((fillFifo px q l).orders.map (fun n => n.handle)).Sublist (l.map (fun n => n.handle)) := by
  refine fillFifo_induct px
    (fun _ l r => (r.orders.map (fun n => n.handle)).Sublist (l.map (fun n => n.handle)))
    ?_ ?_ ?_ l q
  · intro q l _; exact List.Sublist.refl _
  · intro q m rest _ _ ih
    exact List.Sublist.cons _ ih
  · intro q m rest _ _
    simp

theorem fillFifo_nodeOk (px : Price) (side : OrderSide) (p : Price) (bound : Nat)
    (l : List Node) (q : Int) (h : ∀ n ∈ l, NodeOk side p bound n) :
    ∀ n ∈ (fillFifo px q l).orders, NodeOk side p bound n := by
  revert h
  refine fillFifo_induct px
    (fun _ l r => (∀ n ∈ l, NodeOk side p bound n) → ∀ n ∈ r.orders, NodeOk side p bound n)
    ?_ ?_ ?_ l q
  · intro q l _ h; exact h
  · intro q m rest _ _ ih h
    exact ih (fun n hn => h n (List.mem_cons_of_mem _ hn))
  · intro q m rest hq hlt h n hn
    rcases List.mem_cons.mp hn with h1 | h1
    · have hm := h m (List.mem_cons_self _ _)
      subst h1
      obtain ⟨_, h2, h3, h4, h5, h6⟩ := hm
      exact ⟨by simp; omega, h2, h3, h4, h5, h6⟩
    · exact h n (List.mem_cons_of_mem _ h1)

theorem findNode_cons (h : Nat) (m : Node) (rest : List Node) :
    findNode h (m :: rest) = if m.handle = h then some m else findNode h rest := by
  by_cases hm : m.handle = h <;> simp [findNode, List.find?_cons, hm]

theorem erasedIds_cons (f : Fill) (fs : List Fill) :
    erasedIds (f :: fs) =
      if f.maker.order.quantity - f.traded = 0 then f.maker.order.id :: erasedIds fs
      else erasedIds fs := by
  by_cases h : f.maker.order.quantity - f.traded = 0 <;>
    simp [erasedIds, List.filter_cons, Fill.removed, h]

/-- A node whose id is not erased from the index is still found under its handle. -/
theorem fillFifo_findNode (px : Price) (l : List Node) (q : Int) (h : Nat) (n : Node)
    (hf : findNode h l = some n)
    (hid : n.order.id ∉ erasedIds (fillFifo px q l).fills) :
    ∃ n1, findNode h (fillFifo px q l).orders = some n1 ∧ n1.order.id = n.order.id ∧
      n1.handle = n.handle := by
  revert hf hid
  refine fillFifo_induct px
    (fun _ l r => findNode h l = some n → n.order.id ∉ erasedIds r.fills →
      ∃ n1, findNode h r.orders = some n1 ∧ n1.order.id = n.order.id ∧ n1.handle = n.handle)
    ?_ ?_ ?_ l q
  · intro q l _ hf _; exact ⟨n, hf, rfl, rfl⟩
  · intro q m rest _ _ ih hf hid
    rw [erasedIds_cons] at hid
    simp only [sub_self, if_true, List.mem_cons, not_or] at hid
    rw [findNode_cons] at hf
    by_cases hm : m.handle = h
    · simp only [hm, if_true, Option.some.injEq] at hf
      exact absurd (by rw [hf]) hid.1
    · simp only [hm, if_false] at hf
      exact ih hf hid.2
  · intro q m rest _ _ hf _
    rw [findNode_cons] at hf ⊢
    by_cases hm : m.handle = h
    · simp only [hm, if_true, Option.some.injEq] at hf ⊢
      exact ⟨_, rfl, by rw [← hf], by rw [← hf]; exact hm.symm⟩
    · simp only [hm, if_false] at hf ⊢
      exact ⟨n, hf, rfl, rfl⟩

/-! ## Facts about `walkLevels` -/

theorem walkLevels_cons_erase (cr : Price → Bool) {q : Int} {px : Price} {lvl : LevelInfo}
    (rest : List (Price × LevelInfo)) (hq : q > 0) (hc : cr px = true)
    (he : (fillFifo px q lvl.orders).orders = []) :
    walkLevels cr q ((px, lvl) :: rest) =
      { residual := (walkLevels cr (fillFifo px q lvl.orders).residual rest).residual,
        levels := (walkLevels cr (fillFifo px q lvl.orders).residual rest).levels,
        fills := (fillFifo px q lvl.orders).fills ++
          (walkLevels cr (fillFifo px q lvl.orders).residual rest).fills } := by
  simp [walkLevels, hq, hc, he]

theorem walkLevels_cons_keep (cr : Price → Bool) {q : Int} {px : Price} {lvl : LevelInfo}
    (rest : List (Price × LevelInfo)) (hq : q > 0) (hc : cr px = true)
    (he : (fillFifo px q lvl.orders).orders ≠ []) :
    walkLevels cr q ((px, lvl) :: rest) =
      { residual := (fillFifo px q lvl.orders).residual,
        levels := (px, { orders := (fillFifo px q lvl.orders).orders,
                         totalQty := lvl.totalQty - fillSum (fillFifo px q lvl.orders).fills })
          :: rest,
        fills := (fillFifo px q lvl.orders).fills } := by
  simp [walkLevels, hq, hc, he]

theorem walkLevels_cons_stop (cr : Price → Bool) {q : Int} {px : Price} (lvl : LevelInfo)
    (rest : List (Price × LevelInfo)) (h : q ≤ 0 ∨ cr px = false) :
    walkLevels cr q ((px, lvl) :: rest) =
      { residual := q, levels := (px, lvl) :: rest, fills := [] } := by
  rcases h with h | h
  · exact walkLevels_nonpos cr h _
  · simp [walkLevels, h]

/-- Induction principle for `walkLevels`: the three ways an iteration can go. -/
theorem walkLevels_induct (cr : Price → Bool)
    (P : Int → List (Price × LevelInfo) → WalkOut → Prop)
    (hstop : ∀ q L, (q ≤ 0 ∨ L = [] ∨ ∃ e rest, L = e :: rest ∧ cr e.1 = false) →
      P q L { residual := q, levels := L, fills := [] })
    (herase : ∀ q px lvl rest, q > 0 → cr px = true →
      (fillFifo px q lvl.orders).orders = [] →
      P (fillFifo px q lvl.orders).residual rest
        (walkLevels cr (fillFifo px q lvl.orders).residual rest) →
      P q ((px, lvl) :: rest)
        { residual := (walkLevels cr (fillFifo px q lvl.orders).residual rest).residual,
          levels := (walkLevels cr (fillFifo px q lvl.orders).residual rest).levels,
          fills := (fillFifo px q lvl.orders).fills ++
            (walkLevels cr (fillFifo px q lvl.orders).residual rest).fills })
    (hkeep : ∀ q px lvl rest, q > 0 → cr px = true →
      (fillFifo px q lvl.orders).orders ≠ [] →
      P q ((px, lvl) :: rest)
        { residual := (fillFifo px q lvl.orders).residual,
          levels := (px, { orders := (fillFifo px q lvl.orders).orders,
                           totalQty := lvl.totalQty -
                             fillSum (fillFifo px q lvl.orders).fills }) :: rest,
          fills := (fillFifo px q lvl.orders).fills }) :
    ∀ (L : List (Price × LevelInfo)) (q : Int), P q L (walkLevels cr q L) := by
  intro L
  induction L with
  | nil => intro q; simpa [walkLevels] using hstop q [] (Or.inr (Or.inl rfl))
  | cons e rest ih =>
    intro q
    obtain ⟨px, lvl⟩ := e
    by_cases hq : q > 0
    · by_cases hc : cr px = true
      · by_cases he : (fillFifo px q lvl.orders).orders = []
        · rw [walkLevels_cons_erase cr rest hq hc he]
          exact herase q px lvl rest hq hc he (ih _)
        · rw [walkLevels_cons_keep cr rest hq hc he]
          exact hkeep q px lvl rest hq hc he
      · have hc' : cr px = false := by simpa using hc
        rw [walkLevels_cons_stop cr lvl rest (Or.inr hc')]
        exact hstop q _ (Or.inr (Or.inr ⟨(px, lvl), rest, rfl, hc'⟩))
    · rw [walkLevels_nonpos cr (not_lt.mp hq)]
      exact hstop q _ (Or.inl (not_lt.mp hq))

theorem fillSum_append (a b : List Fill) : fillSum (a ++ b) = fillSum a + fillSum b := by
  simp [fillSum]

/-- The aggressor loses exactly what the fills traded. -/
theorem walkLevels_residual (cr : Price → Bool) (L : List (Price × LevelInfo)) (q : Int) :
    (walkLevels cr q L).residual = q - fillSum (walkLevels cr q L).fills := by
  refine walkLevels_induct cr (fun q _ w => w.residual = q - fillSum w.fills) ?_ ?_ ?_ L q
  · intro q L _; simp [fillSum]
  · intro q px lvl rest _ _ _ ih
    simp only [fillSum_append]
    rw [ih, fillFifo_residual]; ring
  · intro q px lvl rest _ _ _
    exact fillFifo_residual _ _ _

/-- The loop stops with the aggressor exhausted, the opposite side empty, or a best
opposite level that does not cross. -/
theorem walkLevels_exit (cr : Price → Bool) (L : List (Price × LevelInfo)) (q : Int) :
    (walkLevels cr q L).residual ≤ 0 ∨ (walkLevels cr q L).levels = [] ∨
      ∃ e rest, (walkLevels cr q L).levels = e :: rest ∧ cr e.1 = false := by
  refine walkLevels_induct cr
    (fun _ _ w => w.residual ≤ 0 ∨ w.levels = [] ∨
      ∃ e rest, w.levels = e :: rest ∧ cr e.1 = false) ?_ ?_ ?_ L q
  · intro q L h; exact h
  · intro q px lvl rest _ _ _ ih; exact ih
  · intro q px lvl rest _ _ he
    exact Or.inl (fillFifo_residual_nonpos px _ _ he)

/-- The remaining levels are a tail of the input, up to the contents of the first one. -/
theorem walkLevels_keys (cr : Price → Bool) (L : List (Price × LevelInfo)) (q : Int) :
    ((walkLevels cr q L).levels.map Prod.fst).Sublist (L.map Prod.fst) := by
  refine walkLevels_induct cr
    (fun _ L w => (w.levels.map Prod.fst).Sublist (L.map Prod.fst)) ?_ ?_ ?_ L q
  · intro q L _; exact List.Sublist.refl _
  · intro q px lvl rest _ _ _ ih
    exact List.Sublist.cons _ ih
  · intro q px lvl rest _ _ _
    simp

theorem levelOk_fillFifo {side : OrderSide} {bound : Nat} {px : Price} {lvl : LevelInfo}
    (h : LevelOk side bound px lvl) (q : Int)
    (he : (fillFifo px q lvl.orders).orders ≠ []) :
    LevelOk side bound px
      { orders := (fillFifo px q lvl.orders).orders,
        totalQty := lvl.totalQty - fillSum (fillFifo px q lvl.orders).fills } := by
  obtain ⟨_, h2, h3, h4⟩ := h
  refine ⟨he, ?_, fillFifo_nodeOk px side px bound _ q h3, ?_⟩
  · simp only
    rw [fillFifo_qtySum, h2]
  · exact List.Pairwise.sublist (fillFifo_handles_sublist px _ q) h4

theorem walkLevels_levelOk (cr : Price → Bool) (side : OrderSide) (bound : Nat)
    (L : List (Price × LevelInfo)) (q : Int) (h : ∀ e ∈ L, LevelOk side bound e.1 e.2) :
    ∀ e ∈ (walkLevels cr q L).levels, LevelOk side bound e.1 e.2 := by
  revert h
  refine walkLevels_induct cr
    (fun _ L w => (∀ e ∈ L, LevelOk side bound e.1 e.2) →
      ∀ e ∈ w.levels, LevelOk side bound e.1 e.2) ?_ ?_ ?_ L q
  · intro q L _ h; exact h
  · intro q px lvl rest _ _ _ ih h
    exact ih (fun e he => h e (List.mem_cons_of_mem _ he))
  · intro q px lvl rest _ _ he h e hm
    rcases List.mem_cons.mp hm with h1 | h1
    · subst h1
      exact levelOk_fillFifo (h (px, lvl) (List.mem_cons_self _ _)) q he
    · exact h e (List.mem_cons_of_mem _ h1)

theorem erasedIds_nil : erasedIds [] = [] := rfl

/-- A node whose id is not erased from the index is still found, under its handle, in the
level with the same key. -/
theorem walkLevels_findNode (cr : Price → Bool) (L : List (Price × LevelInfo)) (q : Int)
    (px : Price) (lvl : LevelInfo) (h : Nat) (n : Node) (hm : (px, lvl) ∈ L)
    (hf : findNode h lvl.orders = some n)
    (hid : n.order.id ∉ erasedIds (walkLevels cr q L).fills) :
    ∃ lvl1 n1, (px, lvl1) ∈ (walkLevels cr q L).levels ∧
      findNode h lvl1.orders = some n1 ∧ n1.order.id = n.order.id ∧ n1.handle = n.handle := by
  revert hm hid
  refine walkLevels_induct cr
    (fun _ L w => (px, lvl) ∈ L → n.order.id ∉ erasedIds w.fills →
      ∃ lvl1 n1, (px, lvl1) ∈ w.levels ∧
        findNode h lvl1.orders = some n1 ∧ n1.order.id = n.order.id ∧ n1.handle = n.handle)
    ?_ ?_ ?_ L q
  · intro q L _ hm _; exact ⟨lvl, n, hm, hf, rfl, rfl⟩
  · intro q px0 lvl0 rest _ _ he ih hm hid
    rw [erasedIds_append, List.mem_append, not_or] at hid
    rcases List.mem_cons.mp hm with h1 | h1
    · cases h1
      obtain ⟨n1, hn1, _⟩ := fillFifo_findNode px lvl.orders q h n hf hid.1
      rw [he] at hn1
      simp [findNode] at hn1
    · exact ih h1 hid.2
  · intro q px0 lvl0 rest _ _ _ hm hid
    rcases List.mem_cons.mp hm with h1 | h1
    · cases h1
      obtain ⟨n1, hn1, hn2⟩ := fillFifo_findNode px lvl.orders q h n hf hid
      exact ⟨_, n1, List.mem_cons_self _ _, hn1, hn2⟩
    · exact ⟨lvl, n, List.mem_cons_of_mem _ h1, hf, rfl, rfl⟩

/-! ## More on the containers -/

theorem opp_eq_book_other (s : OrderBook) (side : OrderSide) :
    s.opp side = s.book side.other := by
  cases side <;> rfl

theorem book_other_eq_opp (s : OrderBook) (side : OrderSide) :
    s.book side.other = s.opp side := by
  cases side <;> rfl

theorem side_eq_or_other (side sd : OrderSide) : sd = side ∨ sd = side.other := by
  cases side <;> cases sd <;> simp [OrderSide.other]

theorem other_ne (side : OrderSide) : side.other ≠ side := by
  cases side <;> simp [OrderSide.other]

theorem book_setOpp_other (s : OrderBook) (side : OrderSide) (b : BookSide) :
    (s.setOpp side b).book side.other = b := by
  cases side <;> rfl

theorem opp_setBook_other (s : OrderBook) (side : OrderSide) (b : BookSide) :
    (s.setBook side b).book side.other = s.book side.other := by
  cases side <;> rfl

theorem keysAsc_iff_map (b : BookSide) :
    KeysAsc b ↔ (b.map Prod.fst).Pairwise (fun a c => a < c) := by
  unfold KeysAsc
  rw [List.pairwise_map]

theorem find_cons (p : Price) (p0 : Price) (l0 : LevelInfo) (rest : BookSide) :
    BookSide.find p ((p0, l0) :: rest) = if p0 = p then some l0 else BookSide.find p rest :=
  rfl

theorem put_cons_lt {px p0 : Price} (h : px < p0) (l l0 : LevelInfo) (rest : BookSide) :
    BookSide.put px l ((p0, l0) :: rest) = (px, l) :: (p0, l0) :: rest := by
  simp [BookSide.put, h]

theorem put_cons_gt {px p0 : Price} (h : p0 < px) (l l0 : LevelInfo) (rest : BookSide) :
    BookSide.put px l ((p0, l0) :: rest) = (p0, l0) :: BookSide.put px l rest := by
  have h1 : ¬ px < p0 := not_lt.mpr (le_of_lt h)
  have h2 : ¬ px = p0 := ne_of_gt h
  simp [BookSide.put, h1, h2]

theorem find_put (px : Price) (l : LevelInfo) (b : BookSide) (p : Price) :
    (b.put px l).find p = if p = px then some l else b.find p := by
  induction b with
  | nil =>
    show BookSide.find p [(px, l)] = _
    rw [find_cons]
    by_cases hp : p = px
    · simp [hp]
    · have hp' : ¬ px = p := fun h => hp h.symm
      simp [hp, hp']
  | cons e rest ih =>
    obtain ⟨p0, l0⟩ := e
    rcases lt_trichotomy px p0 with h1 | h1 | h1
    · rw [put_cons_lt h1, find_cons]
      by_cases hp : p = px
      · simp [hp]
      · have hp' : ¬ px = p := fun h => hp h.symm
        simp [hp, hp']
    · subst h1
      rw [put_cons_self, find_cons, find_cons]
      by_cases hp : p = px
      · simp [hp]
      · have hp' : ¬ px = p := fun h => hp h.symm
        simp [hp, hp']
    · rw [put_cons_gt h1, find_cons, find_cons, ih]
      by_cases hp : p = px
      · have h3 : ¬ p0 = px := ne_of_lt h1
        simp [hp, h3]
      · simp [hp]

theorem mem_put_imp {px : Price} {l : LevelInfo} {b : BookSide} {e : Price × LevelInfo}
    (h : e ∈ b.put px l) : e = (px, l) ∨ e ∈ b := by
  induction b with
  | nil => simpa [BookSide.put] using h
  | cons e0 rest ih =>
    obtain ⟨p0, l0⟩ := e0
    by_cases h1 : px < p0
    · simp only [BookSide.put, h1, if_true, List.mem_cons] at h
      rcases h with h | h | h
      · exact Or.inl h
      · exact Or.inr (by simp [h])
      · exact Or.inr (List.mem_cons_of_mem _ h)
    · by_cases h2 : px = p0
      · subst h2
        simp only [BookSide.put, lt_self_iff_false, if_false, if_true, List.mem_cons] at h
        rcases h with h | h
        · exact Or.inl h
        · exact Or.inr (List.mem_cons_of_mem _ h)
      · simp only [BookSide.put, h1, h2, if_false, List.mem_cons] at h
        rcases h with h | h
        · exact Or.inr (by simp [h])
        · rcases ih h with h3 | h3
          · exact Or.inl h3
          · exact Or.inr (List.mem_cons_of_mem _ h3)

theorem keysAsc_put {b : BookSide} (hb : KeysAsc b) (px : Price) (l : LevelInfo) :
    KeysAsc (b.put px l) := by
  induction b with
  | nil => simp [BookSide.put, KeysAsc]
  | cons e0 rest ih =>
    obtain ⟨p0, l0⟩ := e0
    have hlt := hb.head_lt
    by_cases h1 : px < p0
    · simp only [BookSide.put, h1, if_true]
      refine List.pairwise_cons.mpr ⟨?_, hb⟩
      intro x hx
      rcases List.mem_cons.mp hx with h | h
      · rw [h]; exact h1
      · exact lt_trans h1 (hlt x h)
    · by_cases h2 : px = p0
      · subst h2
        simp only [BookSide.put, lt_self_iff_false, if_false, if_true]
        exact List.pairwise_cons.mpr ⟨fun x hx => hlt x hx, hb.tail⟩
      · simp only [BookSide.put, h1, h2, if_false]
        refine List.pairwise_cons.mpr ⟨?_, ih hb.tail⟩
        intro x hx
        rcases mem_put_imp hx with h | h
        · rw [h]
          exact lt_of_le_of_ne (not_lt.mp h1) (fun h3 => h2 h3.symm)
        · exact hlt x h

theorem erase_cons (px : Price) (p0 : Price) (l0 : LevelInfo) (rest : BookSide) :
    BookSide.erase px ((p0, l0) :: rest) =
      if p0 = px then BookSide.erase px rest else (p0, l0) :: BookSide.erase px rest := by
  unfold BookSide.erase
  by_cases h : p0 = px <;> simp [List.filter_cons, h]

theorem find_erase (px : Price) (b : BookSide) (p : Price) :
    (b.erase px).find p = if p = px then none else b.find p := by
  induction b with
  | nil => simp [BookSide.erase, BookSide.find]
  | cons e rest ih =>
    obtain ⟨p0, l0⟩ := e
    rw [erase_cons]
    by_cases h0 : p0 = px
    · rw [if_pos h0, ih, find_cons]
      by_cases hp : p = px
      · simp [hp]
      · have hp' : ¬ p0 = p := fun h => hp (h.symm.trans h0)
        simp [hp, hp']
    · rw [if_neg h0, find_cons, find_cons, ih]
      by_cases hp : p = px
      · simp [hp, h0]
      · simp [hp]

theorem mem_erase_book {px : Price} {b : BookSide} {e : Price × LevelInfo} :
    e ∈ b.erase px ↔ e ∈ b ∧ e.1 ≠ px := by
  simp [BookSide.erase]

theorem mem_iff_find {b : BookSide} (hb : KeysAsc b) (p : Price) (l : LevelInfo) :
    (p, l) ∈ b ↔ b.find p = some l :=
  ⟨find_of_mem hb, mem_of_find⟩

theorem mem_put_iff {b : BookSide} (hb : KeysAsc b) (px : Price) (l : LevelInfo)
    (e : Price × LevelInfo) : e ∈ b.put px l ↔ e = (px, l) ∨ (e ∈ b ∧ e.1 ≠ px) := by
  obtain ⟨p, l0⟩ := e
  rw [mem_iff_find (keysAsc_put hb px l), find_put, mem_iff_find hb]
  by_cases hp : p = px
  · subst hp
    simp
    constructor <;> intro h <;> exact h.symm
  · simp [hp]

/-! ## The index -/

theorem index_find_cons (id : Int) (k0 : Int) (e0 : IndexEntry) (rest : Index) :
    Index.find id ((k0, e0) :: rest) = if k0 = id then some e0 else Index.find id rest :=
  rfl

theorem index_erase_cons (k : Int) (k0 : Int) (e0 : IndexEntry) (rest : Index) :
    Index.erase k ((k0, e0) :: rest) =
      if k0 = k then Index.erase k rest else (k0, e0) :: Index.erase k rest := by
  unfold Index.erase
  by_cases h : k0 = k <;> simp [List.filter_cons, h]

theorem index_find_erase (k : Int) (m : Index) (id : Int) :
    (Index.erase k m).find id = if id = k then none else m.find id := by
  induction m with
  | nil => simp [Index.erase, Index.find]
  | cons e rest ih =>
    obtain ⟨k0, e0⟩ := e
    rw [index_erase_cons]
    by_cases h0 : k0 = k
    · rw [if_pos h0, ih, index_find_cons]
      by_cases hp : id = k
      · simp [hp]
      · have hp' : ¬ k0 = id := fun h => hp (h.symm.trans h0)
        simp [hp, hp']
    · rw [if_neg h0, index_find_cons, index_find_cons, ih]
      by_cases hp : id = k
      · simp [hp, h0]
      · simp [hp]

theorem index_find_insert (k : Int) (e : IndexEntry) (m : Index) (id : Int) :
    (Index.insert k e m).find id = if id = k then some e else m.find id := by
  unfold Index.insert
  rw [index_find_cons, index_find_erase]
  by_cases h : id = k
  · simp [h]
  · have h' : ¬ k = id := fun h1 => h h1.symm
    simp [h, h']

theorem index_find_eraseIds (ids : List Int) (m : Index) (id : Int) :
    (eraseIds ids m).find id = if id ∈ ids then none else m.find id := by
  induction ids generalizing m with
  | nil => simp [eraseIds]
  | cons k rest ih =>
    have : eraseIds (k :: rest) m = eraseIds rest (Index.erase k m) := rfl
    rw [this, ih, index_find_erase]
    by_cases h1 : id ∈ rest
    · simp [h1]
    · by_cases h2 : id = k
      · simp [h2]
      · simp [h1, h2]

/-! ## FIFO nodes -/

theorem findNode_mem {h : Nat} {l : List Node} {n : Node} (hf : findNode h l = some n) :
    n ∈ l ∧ n.handle = h := by
  unfold findNode at hf
  exact ⟨List.mem_of_find?_eq_some hf, by simpa using List.find?_some hf⟩

theorem findNode_append_left {h : Nat} {l : List Node} {n : Node} (extra : List Node)
    (hf : findNode h l = some n) : findNode h (l ++ extra) = some n := by
  unfold findNode at hf ⊢
  rw [List.find?_append, hf]
  rfl

theorem findNode_append_new {h : Nat} {l : List Node} (n : Node) (hn : n.handle = h)
    (hl : ∀ m ∈ l, m.handle ≠ h) : findNode h (l ++ [n]) = some n := by
  unfold findNode
  rw [List.find?_append]
  have : List.find? (fun n => decide (n.handle = h)) l = none := by
    rw [List.find?_eq_none]
    intro m hm
    simpa using hl m hm
  rw [this]
  simp [hn]

theorem eraseNode_sublist (h : Nat) (l : List Node) : (eraseNode h l).Sublist l := by
  induction l with
  | nil => exact List.Sublist.refl _
  | cons m rest ih =>
    by_cases hm : m.handle = h
    · simp only [eraseNode, hm, if_true]
      exact List.sublist_cons_self _ _
    · simp only [eraseNode, hm, if_false]
      exact List.Sublist.cons₂ _ ih

theorem qtySum_eraseNode {h : Nat} {l : List Node} {n : Node} (hf : findNode h l = some n) :
    qtySum (eraseNode h l) = qtySum l - n.order.quantity := by
  induction l with
  | nil => simp [findNode] at hf
  | cons m rest ih =>
    rw [findNode_cons] at hf
    by_cases hm : m.handle = h
    · simp only [hm, if_true, Option.some.injEq] at hf
      subst hf
      simp only [eraseNode, hm, if_true, qtySum_cons]
      ring
    · simp only [hm, if_false] at hf
      simp only [eraseNode, hm, if_false, qtySum_cons, ih hf]
      ring

theorem findNode_eraseNode_ne {h h1 : Nat} (hne : h1 ≠ h) (l : List Node) :
    findNode h1 (eraseNode h l) = findNode h1 l := by
  induction l with
  | nil => rfl
  | cons m rest ih =>
    by_cases hm : m.handle = h
    · have hm1 : ¬ m.handle = h1 := fun h2 => hne (h2.symm.trans hm)
      rw [findNode_cons, if_neg hm1]
      simp only [eraseNode, hm, if_true]
    · simp only [eraseNode, hm, if_false, findNode_cons, ih]

/-! ## The invariant, side by side -/

theorem nextNode_of_aux {s s1 : OrderBook} (h : s1.aux = s.aux) : s1.nextNode = s.nextNode :=
  congrArg (fun a => a.2.1) h

theorem nextOrderId_of_aux {s s1 : OrderBook} (h : s1.aux = s.aux) :
    s1.nextOrderId_ = s.nextOrderId_ :=
  congrArg (fun a => a.1) h

theorem nodeOk_mono {side : OrderSide} {px : Price} {b b1 : Nat} (hle : b ≤ b1) {n : Node}
    (h : NodeOk side px b n) : NodeOk side px b1 n := by
  obtain ⟨h1, h2, h3, h4, h5, h6⟩ := h
  exact ⟨h1, h2, h3, h4, h5, lt_of_lt_of_le h6 hle⟩

theorem levelOk_mono {side : OrderSide} {px : Price} {b b1 : Nat} (hle : b ≤ b1)
    {l : LevelInfo} (h : LevelOk side b px l) : LevelOk side b1 px l := by
  obtain ⟨h1, h2, h3, h4⟩ := h
  exact ⟨h1, h2, fun n hn => nodeOk_mono hle (h3 n hn), h4⟩

theorem sideOk_mono {side : OrderSide} {b b1 : Nat} (hle : b ≤ b1) {bk : BookSide}
    (h : SideOk side b bk) : SideOk side b1 bk :=
  ⟨h.1, fun e he => levelOk_mono hle (h.2 e he)⟩

theorem noCross_iff (s : OrderBook) (side : OrderSide) :
    NoCross s ↔ ∀ e ∈ s.book side, ∀ o ∈ s.opp side, pxBefore side e.1 o.1 := by
  cases side
  · exact Iff.rfl
  · constructor
    · intro h e he o ho; exact h o ho e he
    · intro h b hb a ha; exact h a ha b hb

theorem Inv.book {s : OrderBook} (h : Inv s) (side : OrderSide) :
    SideOk side s.nextNode (s.book side) := by
  cases side
  · exact h.bids
  · exact h.asks

theorem Inv.oppOk {s : OrderBook} (h : Inv s) (side : OrderSide) :
    SideOk side.other s.nextNode (s.opp side) := by
  cases side
  · exact h.asks
  · exact h.bids

theorem Inv.ofParts {s : OrderBook} (side : OrderSide)
    (hb : SideOk side s.nextNode (s.book side))
    (ho : SideOk side.other s.nextNode (s.opp side))
    (hx : ∀ e ∈ s.book side, ∀ o ∈ s.opp side, pxBefore side e.1 o.1)
    (hi : IndexSound s) : Inv s := by
  cases side
  · exact ⟨hb, ho, (noCross_iff s OrderSide.BUY).mpr hx, hi⟩
  · exact ⟨ho, hb, (noCross_iff s OrderSide.SELL).mpr hx, hi⟩

theorem pxBefore_trans {side : OrderSide} {p a b : Price} (h1 : pxBefore side p a)
    (h2 : pxBefore side a b) : pxBefore side p b := by
  cases side
  · exact lt_trans h1 h2
  · exact lt_trans h2 h1

theorem pxBefore_of_not_crosses {side : OrderSide} {incoming : Order} {p : Price}
    (ht : incoming.type = OrderType.LIMIT) (h : crosses side incoming p = false) :
    pxBefore side incoming.priceTicks p := by
  cases side <;> simp [crosses, ht] at h <;> exact h

theorem keysAsc_bestFirst (side : OrderSide) (L : List (Price × LevelInfo)) :
    KeysAsc (bestFirst side L) ↔ L.Pairwise (fun x y => pxBefore side x.1 y.1) := by
  cases side
  · exact Iff.rfl
  · unfold KeysAsc bestFirst pxBefore
    rw [List.pairwise_reverse]

theorem keys_sublist_bestFirst {side : OrderSide} {A B : List (Price × LevelInfo)}
    (h : (A.map Prod.fst).Sublist ((bestFirst side B).map Prod.fst)) :
    ((bestFirst side A).map Prod.fst).Sublist (B.map Prod.fst) := by
  cases side
  · exact h
  · simp only [bestFirst, List.map_reverse] at h ⊢
    have := h.reverse
    simpa using this

theorem key_mem_of_sublist {A B : List (Price × LevelInfo)}
    (h : (A.map Prod.fst).Sublist (B.map Prod.fst)) {e : Price × LevelInfo} (he : e ∈ A) :
    ∃ e1 ∈ B, e1.1 = e.1 := by
  have h1 : e.1 ∈ A.map Prod.fst := List.mem_map_of_mem _ he
  have h2 := h.subset h1
  obtain ⟨e1, he1, h3⟩ := List.mem_map.mp h2
  exact ⟨e1, he1, h3⟩

/-! ## `match` keeps the invariant -/

theorem match_cases (side : OrderSide) (s : OrderBook) (incoming : Order)
    (hk : KeysAsc (s.opp side)) :
    (incoming.tif = TimeInForce.FOK ∧ match_ side s incoming = (s, incoming)) ∨
    MatchSpec side s incoming
      (walkLevels (crosses side incoming) incoming.quantity (bestFirst side (s.opp side)))
      (match_ side s incoming) := by
  by_cases hf : incoming.tif = TimeInForce.FOK ∧
      canFullyFill s side
        (if incoming.type = OrderType.LIMIT then some incoming.priceTicks else none)
        incoming.quantity = false
  · left
    refine ⟨hf.1, ?_⟩
    unfold match_
    simp only [hf, and_self, if_true]
  · right
    have : match_ side s incoming = matchLoop side (s.opp side).length s incoming := by
      unfold match_
      simp only [hf, if_false]
    rw [this]
    exact matchLoop_spec side _ s incoming hk le_rfl

theorem matchSpec_opp {side : OrderSide} {s : OrderBook} {incoming : Order} {w : WalkOut}
    {r : OrderBook × Order} (h : MatchSpec side s incoming w r) :
    r.1.opp side = bestFirst side w.levels := by
  rw [← h.opp_eq, bestFirst_bestFirst]

theorem book_cases (s : OrderBook) (side sd : OrderSide) :
    (sd = side ∧ s.book sd = s.book side) ∨ (sd = side.other ∧ s.book sd = s.opp side) := by
  cases side <;> cases sd <;> simp [OrderSide.other, OrderBook.book, OrderBook.opp]

theorem inv_of_matchSpec {side : OrderSide} {s : OrderBook} {incoming : Order}
    {r : OrderBook × Order} (hs : Inv s)
    (h : MatchSpec side s incoming
      (walkLevels (crosses side incoming) incoming.quantity (bestFirst side (s.opp side))) r) :
    Inv r.1 := by
  have hopp := matchSpec_opp h
  have hn : r.1.nextNode = s.nextNode := nextNode_of_aux h.aux_eq
  have hkeys := keys_sublist_bestFirst
    (walkLevels_keys (crosses side incoming) (bestFirst side (s.opp side)) incoming.quantity)
  rw [← hopp] at hkeys
  have hoOk : SideOk side.other r.1.nextNode (r.1.opp side) := by
    rw [hn]
    refine ⟨?_, ?_⟩
    · rw [keysAsc_iff_map]
      exact List.Pairwise.sublist hkeys ((keysAsc_iff_map _).mp (hs.oppOk side).1)
    · intro e he
      rw [hopp, mem_bestFirst] at he
      refine walkLevels_levelOk _ side.other s.nextNode _ _ ?_ e he
      intro e1 he1
      exact (hs.oppOk side).2 e1 (mem_bestFirst.mp he1)
  refine Inv.ofParts side ?_ hoOk ?_ ?_
  · rw [h.book_eq, hn]; exact hs.book side
  · intro e he o ho
    rw [h.book_eq] at he
    obtain ⟨o1, ho1, hk⟩ := key_mem_of_sublist hkeys ho
    rw [← hk]
    exact (noCross_iff s side).mp hs.noCross e he o1 ho1
  · intro id e hf
    rw [h.index_eq, index_find_eraseIds] at hf
    by_cases hid : id ∈ erasedIds
        (walkLevels (crosses side incoming) incoming.quantity
          (bestFirst side (s.opp side))).fills
    · simp [hid] at hf
    · simp only [hid, if_false] at hf
      obtain ⟨lvl, n, h1, h2, h3⟩ := hs.index id e hf
      rcases book_cases s side e.side with ⟨hsd, hb⟩ | ⟨hsd, hb⟩
      · refine ⟨lvl, n, ?_, h2, h3⟩
        rw [hsd, h.book_eq, ← hsd]; exact h1
      · rw [hb] at h1
        have hm : (e.px, lvl) ∈ bestFirst side (s.opp side) :=
          mem_bestFirst.mpr (mem_of_find h1)
        rw [← h3] at hid
        obtain ⟨lvl1, n1, hm1, hf1, hid1, _⟩ :=
          walkLevels_findNode _ _ _ e.px lvl e.lit n hm h2 hid
        refine ⟨lvl1, n1, ?_, hf1, hid1.trans h3⟩
        rw [hsd, book_other_eq_opp]
        refine find_of_mem hoOk.1 ?_
        rw [hopp, mem_bestFirst]
        exact hm1

theorem inv_match (side : OrderSide) (s : OrderBook) (incoming : Order) (hs : Inv s) :
    Inv (match_ side s incoming).1 := by
  rcases match_cases side s incoming (hs.oppOk side).1 with ⟨_, h⟩ | h
  · rw [h]; exact hs
  · exact inv_of_matchSpec hs h

/-- After `match`, a LIMIT aggressor that is not FOK and has quantity left does not
cross any remaining opposite level. -/
theorem match_rest_safe (side : OrderSide) (s : OrderBook) (incoming : Order)
    (hk : KeysAsc (s.opp side)) (hfok : incoming.tif ≠ TimeInForce.FOK)
    (ht : incoming.type = OrderType.LIMIT)
    (hq : (match_ side s incoming).2.quantity > 0) :
    ∀ o ∈ (match_ side s incoming).1.opp side, pxBefore side incoming.priceTicks o.1 := by
  rcases match_cases side s incoming hk with ⟨h, _⟩ | h
  · exact absurd h hfok
  · have hopp := matchSpec_opp h
    have hkeys := keys_sublist_bestFirst
      (walkLevels_keys (crosses side incoming) (bestFirst side (s.opp side))
        incoming.quantity)
    rw [← hopp] at hkeys
    have hk1 : KeysAsc ((match_ side s incoming).1.opp side) := by
      rw [keysAsc_iff_map]
      exact List.Pairwise.sublist hkeys ((keysAsc_iff_map _).mp hk)
    rw [h.incoming_eq] at hq
    simp only at hq
    intro o ho
    rw [hopp] at hk1 ho
    rw [keysAsc_bestFirst] at hk1
    rw [mem_bestFirst] at ho
    rcases walkLevels_exit (crosses side incoming) (bestFirst side (s.opp side))
      incoming.quantity with h1 | h1 | ⟨e, rest, h1, h2⟩
    · omega
    · rw [h1] at ho; simp at ho
    · rw [h1] at ho hk1
      have hp := pxBefore_of_not_crosses ht h2
      rcases List.mem_cons.mp ho with h3 | h3
      · rw [h3]; exact hp
      · exact pxBefore_trans hp ((List.pairwise_cons.mp hk1).1 o h3)

/-! ## The invariant only reads the containers, the index and the allocator -/

theorem indexSound_congr {s s1 : OrderBook} (hb : s1.bids_ = s.bids_)
    (ha : s1.asks_ = s.asks_) (hi : s1.idIndex_ = s.idIndex_) (h : IndexSound s) :
    IndexSound s1 := by
  intro id e hf
  rw [hi] at hf
  obtain ⟨lvl, n, h1, h2, h3⟩ := h id e hf
  refine ⟨lvl, n, ?_, h2, h3⟩
  cases hsd : e.side <;> rw [hsd] at h1 <;> simp only [OrderBook.book] at h1 ⊢
  · rw [hb]; exact h1
  · rw [ha]; exact h1

theorem inv_congr {s s1 : OrderBook} (hb : s1.bids_ = s.bids_) (ha : s1.asks_ = s.asks_)
    (hi : s1.idIndex_ = s.idIndex_) (hn : s1.nextNode = s.nextNode) (h : Inv s) : Inv s1 := by
  refine ⟨?_, ?_, ?_, indexSound_congr hb ha hi h.index⟩
  · rw [hb, hn]; exact h.bids
  · rw [ha, hn]; exact h.asks
  · intro b hb1 a ha1
    rw [hb] at hb1
    rw [ha] at ha1
    exact h.noCross b hb1 a ha1

@[simp] theorem bids_emitQuote (s : OrderBook) (ts : String) :
    (emitQuoteIfChanged s ts).bids_ = s.bids_ := by
  unfold emitQuoteIfChanged
  dsimp only
  split_ifs <;> rfl

@[simp] theorem asks_emitQuote (s : OrderBook) (ts : String) :
    (emitQuoteIfChanged s ts).asks_ = s.asks_ := by
  unfold emitQuoteIfChanged
  dsimp only
  split_ifs <;> rfl

@[simp] theorem idIndex_emitQuote (s : OrderBook) (ts : String) :
    (emitQuoteIfChanged s ts).idIndex_ = s.idIndex_ := by
  unfold emitQuoteIfChanged
  dsimp only
  split_ifs <;> rfl

@[simp] theorem trades_emitQuote (s : OrderBook) (ts : String) :
    (emitQuoteIfChanged s ts).trades_ = s.trades_ := by
  unfold emitQuoteIfChanged
  dsimp only
  split_ifs <;> rfl

@[simp] theorem nextNode_emitQuote (s : OrderBook) (ts : String) :
    (emitQuoteIfChanged s ts).nextNode = s.nextNode := by
  unfold emitQuoteIfChanged
  dsimp only
  split_ifs <;> rfl

@[simp] theorem nextOrderId_emitQuote (s : OrderBook) (ts : String) :
    (emitQuoteIfChanged s ts).nextOrderId_ = s.nextOrderId_ := by
  unfold emitQuoteIfChanged
  dsimp only
  split_ifs <;> rfl

@[simp] theorem nextNode_updateBest (s : OrderBook) :
    (updateBestOnChange s).nextNode = s.nextNode :=
  nextNode_of_aux (aux_updateBest s)

@[simp] theorem nextOrderId_updateBest (s : OrderBook) :
    (updateBestOnChange s).nextOrderId_ = s.nextOrderId_ :=
  nextOrderId_of_aux (aux_updateBest s)

@[simp] theorem book_emitQuote (s : OrderBook) (ts : String) (side : OrderSide) :
    (emitQuoteIfChanged s ts).book side = s.book side := by
  cases side <;> simp [OrderBook.book]

@[simp] theorem opp_emitQuote (s : OrderBook) (ts : String) (side : OrderSide) :
    (emitQuoteIfChanged s ts).opp side = s.opp side := by
  cases side <;> simp [OrderBook.opp]

theorem inv_emitQuote {s : OrderBook} (ts : String) (h : Inv s) :
    Inv (emitQuoteIfChanged s ts) :=
  inv_congr (by simp) (by simp) (by simp) (by simp) h

theorem inv_updateBest {s : OrderBook} (h : Inv s) : Inv (updateBestOnChange s) :=
  inv_congr (by simp) (by simp) (by simp) (by simp) h

/-! ## `restOrder` keeps the invariant -/

theorem book_restOrder (s : OrderBook) (o : Order) :
    (restOrder s o).book o.side =
      (s.book o.side).put o.priceTicks (restLevel s o) := by
  unfold restOrder updateBestOnAdd restLevel
  simp only [book_updateBest]
  cases o.side <;> rfl

theorem opp_restOrder (s : OrderBook) (o : Order) :
    (restOrder s o).opp o.side = s.opp o.side := by
  unfold restOrder updateBestOnAdd
  simp only [opp_updateBest]
  cases o.side <;> rfl

theorem idIndex_restOrder (s : OrderBook) (o : Order) :
    (restOrder s o).idIndex_ =
      s.idIndex_.insert o.id { side := o.side, px := o.priceTicks, lit := s.nextNode } := by
  unfold restOrder updateBestOnAdd
  simp only [idIndex_updateBest]
  cases o.side <;> rfl

theorem nextNode_restOrder (s : OrderBook) (o : Order) :
    (restOrder s o).nextNode = s.nextNode + 1 := by
  unfold restOrder updateBestOnAdd
  simp only [nextNode_updateBest]

theorem trades_restOrder (s : OrderBook) (o : Order) :
    (restOrder s o).trades_ = s.trades_ := by
  unfold restOrder updateBestOnAdd
  simp only [trades_updateBest]
  cases o.side <;> rfl

theorem nextOrderId_restOrder (s : OrderBook) (o : Order) :
    (restOrder s o).nextOrderId_ = s.nextOrderId_ := by
  unfold restOrder updateBestOnAdd
  simp only [nextOrderId_updateBest]
  cases o.side <;> rfl

theorem qtySum_append_singleton (l : List Node) (n : Node) :
    qtySum (l ++ [n]) = qtySum l + n.order.quantity := by
  simp [qtySum]

/-- The level `restOrder` writes is well formed. -/
theorem levelOk_rest {side : OrderSide} {bound : Nat} {px : Price} {o : Order}
    (hq : o.quantity > 0) (hp : o.priceTicks = px) (hsd : o.side = side)
    (ht : o.type = OrderType.LIMIT)
    (htif : o.tif = TimeInForce.GTC ∨ o.tif = TimeInForce.DAY)
    (orders : List Node) (total : Int) (htot : total = qtySum orders)
    (hn : ∀ n ∈ orders, NodeOk side px bound n)
    (hh : (orders.map (fun n => n.handle)).Pairwise (fun a b => a < b)) :
    LevelOk side (bound + 1) px
      { orders := orders ++ [{ handle := bound, order := o }], totalQty := total + o.quantity } := by
  refine ⟨by simp, ?_, ?_, ?_⟩
  · simp only [qtySum_append_singleton, htot]
  · intro n hn1
    rcases List.mem_append.mp hn1 with h | h
    · exact nodeOk_mono (Nat.le_succ _) (hn n h)
    · simp only [List.mem_singleton] at h
      subst h
      exact ⟨hq, hp, hsd, ht, htif, Nat.lt_succ_self _⟩
  · simp only [List.map_append, List.map_cons, List.map_nil]
    rw [List.pairwise_append]
    refine ⟨hh, by simp, ?_⟩
    intro a ha b hb
    simp only [List.mem_singleton] at hb
    subst hb
    obtain ⟨n, hn1, hn2⟩ := List.mem_map.mp ha
    rw [← hn2]
    exact (hn n hn1).2.2.2.2.2

theorem inv_restOrder {s : OrderBook} {o : Order} (hs : Inv s) (hq : o.quantity > 0)
    (ht : o.type = OrderType.LIMIT)
    (htif : o.tif = TimeInForce.GTC ∨ o.tif = TimeInForce.DAY)
    (hx : ∀ e ∈ s.opp o.side, pxBefore o.side o.priceTicks e.1) : Inv (restOrder s o) := by
  have hbk := hs.book o.side
  have hnn := nextNode_restOrder s o
  -- the level before the call
  have hlvl : ∀ lvl, (s.book o.side).find o.priceTicks = some lvl →
      LevelOk o.side s.nextNode o.priceTicks lvl :=
    fun lvl hf => hbk.2 (o.priceTicks, lvl) (mem_of_find hf)
  have hnew : LevelOk o.side (s.nextNode + 1) o.priceTicks (restLevel s o) := by
    unfold restLevel
    cases hf : (s.book o.side).find o.priceTicks with
    | none =>
      simp only [Option.getD_none]
      exact levelOk_rest hq rfl rfl ht htif [] 0 rfl (by simp) (by simp)
    | some lvl =>
      simp only [Option.getD_some]
      obtain ⟨_, h2, h3, h4⟩ := hlvl lvl hf
      exact levelOk_rest hq rfl rfl ht htif lvl.orders lvl.totalQty h2 h3 h4
  refine Inv.ofParts o.side ?_ ?_ ?_ ?_
  · rw [book_restOrder, hnn]
    refine ⟨keysAsc_put hbk.1 _ _, ?_⟩
    intro e he
    rcases (mem_put_iff hbk.1 _ _ e).mp he with h | ⟨h, _⟩
    · rw [h]; exact hnew
    · exact levelOk_mono (Nat.le_succ _) (hbk.2 e h)
  · rw [opp_restOrder, hnn]
    exact sideOk_mono (Nat.le_succ _) (hs.oppOk o.side)
  · intro e he p hp
    rw [book_restOrder] at he
    rw [opp_restOrder] at hp
    rcases (mem_put_iff hbk.1 _ _ e).mp he with h | ⟨h, _⟩
    · rw [h]; exact hx p hp
    · exact (noCross_iff s o.side).mp hs.noCross e h p hp
  · intro id e hf
    rw [idIndex_restOrder, index_find_insert] at hf
    by_cases hid : id = o.id
    · simp only [hid, if_true, Option.some.injEq] at hf
      subst hf
      refine ⟨restLevel s o, { handle := s.nextNode, order := o }, ?_, ?_, hid.symm⟩
      · simp only
        rw [book_restOrder, find_put]
        simp
      · simp only [restLevel]
        refine findNode_append_new _ rfl ?_
        intro m hm
        cases hf : (s.book o.side).find o.priceTicks with
        | none => rw [hf] at hm; simp at hm
        | some lvl =>
          rw [hf] at hm
          simp only [Option.getD_some] at hm
          exact ne_of_lt ((hlvl lvl hf).2.2.1 m hm).2.2.2.2.2
    · simp only [hid, if_false] at hf
      obtain ⟨lvl, n, h1, h2, h3⟩ := hs.index id e hf
      rcases book_cases s o.side e.side with ⟨hsd, hb⟩ | ⟨hsd, hb⟩
      · rw [hsd] at h1 ⊢
        by_cases hp : e.px = o.priceTicks
        · rw [hp] at h1 ⊢
          refine ⟨restLevel s o, n, ?_, ?_, h3⟩
          · rw [book_restOrder, find_put]
            simp
          · simp only [restLevel, h1, Option.getD_some]
            exact findNode_append_left _ h2
        · refine ⟨lvl, n, ?_, h2, h3⟩
          rw [book_restOrder, find_put]
          simp only [hp, if_false]
          exact h1
      · refine ⟨lvl, n, ?_, h2, h3⟩
        rw [hsd, book_other_eq_opp, opp_restOrder, ← book_other_eq_opp, ← hsd]
        exact h1

/-! ## Unlinking a resting order keeps the invariant -/

theorem book_unlinkResting (s : OrderBook) (orderId : Int) (e : IndexEntry) (lvl : LevelInfo)
    (n : Node) :
    (unlinkResting s orderId e lvl n).book e.side =
      if (eraseNode e.lit lvl.orders).isEmpty then
        ((s.book e.side).put e.px
          { orders := eraseNode e.lit lvl.orders,
            totalQty := lvl.totalQty - n.order.quantity }).erase e.px
      else
        (s.book e.side).put e.px
          { orders := eraseNode e.lit lvl.orders,
            totalQty := lvl.totalQty - n.order.quantity } := by
  unfold unlinkResting eraseLevelIfEmpty
  by_cases he : (eraseNode e.lit lvl.orders).isEmpty = true
  · simp only [he, if_true]
    have hb : ∀ (s1 : OrderBook) (b : BookSide) (i : Index),
        ({ s1.setBook e.side b with idIndex_ := i } : OrderBook).book e.side = b := by
      intro s1 b i; cases e.side <;> rfl
    rw [hb, find_put]
    simp only [if_true, he]
    cases e.side <;> rfl
  · simp only [he, if_false]
    cases e.side <;> rfl

theorem opp_unlinkResting (s : OrderBook) (orderId : Int) (e : IndexEntry) (lvl : LevelInfo)
    (n : Node) : (unlinkResting s orderId e lvl n).opp e.side = s.opp e.side := by
  unfold unlinkResting eraseLevelIfEmpty
  by_cases he : (eraseNode e.lit lvl.orders).isEmpty = true
  · simp only [he, if_true]
    have hb : ∀ (s1 : OrderBook) (b : BookSide) (i : Index),
        ({ s1.setBook e.side b with idIndex_ := i } : OrderBook).book e.side = b := by
      intro s1 b i; cases e.side <;> rfl
    rw [hb, find_put]
    simp only [if_true, he]
    cases e.side <;> rfl
  · simp only [he, if_false]
    cases e.side <;> rfl

theorem idIndex_unlinkResting (s : OrderBook) (orderId : Int) (e : IndexEntry)
    (lvl : LevelInfo) (n : Node) :
    (unlinkResting s orderId e lvl n).idIndex_ = s.idIndex_.erase orderId := by
  unfold unlinkResting eraseLevelIfEmpty
  by_cases he : (eraseNode e.lit lvl.orders).isEmpty = true
  · simp only [he, if_true]
    have hb : ∀ (s1 : OrderBook) (b : BookSide) (i : Index),
        ({ s1.setBook e.side b with idIndex_ := i } : OrderBook).book e.side = b := by
      intro s1 b i; cases e.side <;> rfl
    rw [hb, find_put]
    simp only [if_true, he]
    cases e.side <;> rfl
  · simp only [he, if_false]
    cases e.side <;> rfl

theorem aux_unlinkResting (s : OrderBook) (orderId : Int) (e : IndexEntry)
    (lvl : LevelInfo) (n : Node) : (unlinkResting s orderId e lvl n).aux = s.aux := by
  unfold unlinkResting eraseLevelIfEmpty
  by_cases he : (eraseNode e.lit lvl.orders).isEmpty = true
  · simp only [he, if_true]
    have hb : ∀ (s1 : OrderBook) (b : BookSide) (i : Index),
        ({ s1.setBook e.side b with idIndex_ := i } : OrderBook).book e.side = b := by
      intro s1 b i; cases e.side <;> rfl
    rw [hb, find_put]
    simp only [if_true, he]
    cases e.side <;> rfl
  · simp only [he, if_false]
    cases e.side <;> rfl

theorem trades_unlinkResting (s : OrderBook) (orderId : Int) (e : IndexEntry)
    (lvl : LevelInfo) (n : Node) : (unlinkResting s orderId e lvl n).trades_ = s.trades_ := by
  unfold unlinkResting eraseLevelIfEmpty
  by_cases he : (eraseNode e.lit lvl.orders).isEmpty = true
  · simp only [he, if_true]
    have hb : ∀ (s1 : OrderBook) (b : BookSide) (i : Index),
        ({ s1.setBook e.side b with idIndex_ := i } : OrderBook).book e.side = b := by
      intro s1 b i; cases e.side <;> rfl
    rw [hb, find_put]
    simp only [if_true, he]
    cases e.side <;> rfl
  · simp only [he, if_false]
    cases e.side <;> rfl

theorem levelOk_eraseNode {side : OrderSide} {bound : Nat} {px : Price} {lvl : LevelInfo}
    (h : LevelOk side bound px lvl) {hd : Nat} {n : Node}
    (hf : findNode hd lvl.orders = some n) (hne : eraseNode hd lvl.orders ≠ []) :
    LevelOk side bound px
      { orders := eraseNode hd lvl.orders, totalQty := lvl.totalQty - n.order.quantity } := by
  obtain ⟨_, h2, h3, h4⟩ := h
  refine ⟨hne, ?_, ?_, ?_⟩
  · simp only
    rw [qtySum_eraseNode hf, h2]
  · intro m hm
    exact h3 m ((eraseNode_sublist hd lvl.orders).subset hm)
  · exact List.Pairwise.sublist ((eraseNode_sublist hd lvl.orders).map _) h4

theorem isEmpty_eq_true_iff {α : Type} (l : List α) : l.isEmpty = true ↔ l = [] := by
  cases l <;> simp

/-- Membership in the side container after unlinking. -/
theorem mem_book_unlinkResting {s : OrderBook} (hs : Inv s) (orderId : Int) (e : IndexEntry)
    (lvl : LevelInfo) (n : Node) (x : Price × LevelInfo)
    (hx : x ∈ (unlinkResting s orderId e lvl n).book e.side) :
    (x ∈ s.book e.side ∧ x.1 ≠ e.px) ∨
      (eraseNode e.lit lvl.orders ≠ [] ∧
        x = (e.px, { orders := eraseNode e.lit lvl.orders,
                     totalQty := lvl.totalQty - n.order.quantity })) := by
  have hk := (hs.book e.side).1
  rw [book_unlinkResting] at hx
  by_cases he : (eraseNode e.lit lvl.orders).isEmpty = true
  · simp only [he, if_true] at hx
    obtain ⟨h1, h2⟩ := mem_erase_book.mp hx
    rcases (mem_put_iff hk _ _ x).mp h1 with h3 | h3
    · rw [h3] at h2; exact absurd rfl h2
    · exact Or.inl h3
  · simp only [he, if_false] at hx
    rcases (mem_put_iff hk _ _ x).mp hx with h3 | h3
    · exact Or.inr ⟨fun h => he ((isEmpty_eq_true_iff _).mpr h), h3⟩
    · exact Or.inl h3

theorem keysAsc_book_unlinkResting {s : OrderBook} (hs : Inv s) (orderId : Int)
    (e : IndexEntry) (lvl : LevelInfo) (n : Node) :
    KeysAsc ((unlinkResting s orderId e lvl n).book e.side) := by
  have hk := (hs.book e.side).1
  rw [book_unlinkResting]
  split
  · exact keysAsc_erase (keysAsc_put hk _ _) _
  · exact keysAsc_put hk _ _

theorem find_book_unlinkResting_ne {s : OrderBook} (orderId : Int) (e : IndexEntry)
    (lvl : LevelInfo) (n : Node) {p : Price} (hp : p ≠ e.px) :
    ((unlinkResting s orderId e lvl n).book e.side).find p = (s.book e.side).find p := by
  rw [book_unlinkResting]
  split
  · rw [find_erase, find_put]; simp [hp]
  · rw [find_put]; simp [hp]

theorem inv_unlinkResting {s : OrderBook} (hs : Inv s) {orderId : Int} {e : IndexEntry}
    {lvl : LevelInfo} {n : Node} (h1 : s.idIndex_.find orderId = some e)
    (h2 : (s.book e.side).find e.px = some lvl) (h3 : findNode e.lit lvl.orders = some n) :
    Inv (unlinkResting s orderId e lvl n) := by
  have hbk := hs.book e.side
  have hlvl : LevelOk e.side s.nextNode e.px lvl := hbk.2 (e.px, lvl) (mem_of_find h2)
  have hn : (unlinkResting s orderId e lvl n).nextNode = s.nextNode :=
    nextNode_of_aux (aux_unlinkResting s orderId e lvl n)
  have hid : n.order.id = orderId := by
    obtain ⟨lvl0, n0, g1, g2, g3⟩ := hs.index orderId e h1
    rw [h2] at g1
    cases g1
    rw [h3] at g2
    cases g2
    exact g3
  refine Inv.ofParts e.side ?_ ?_ ?_ ?_
  · refine ⟨keysAsc_book_unlinkResting hs orderId e lvl n, ?_⟩
    intro x hx
    rw [hn]
    rcases mem_book_unlinkResting hs orderId e lvl n x hx with ⟨g1, _⟩ | ⟨g1, g2⟩
    · exact hbk.2 x g1
    · rw [g2]; exact levelOk_eraseNode hlvl h3 g1
  · rw [opp_unlinkResting, hn]; exact hs.oppOk e.side
  · intro x hx o ho
    rw [opp_unlinkResting] at ho
    rcases mem_book_unlinkResting hs orderId e lvl n x hx with ⟨g1, _⟩ | ⟨_, g2⟩
    · exact (noCross_iff s e.side).mp hs.noCross x g1 o ho
    · rw [g2]
      exact (noCross_iff s e.side).mp hs.noCross (e.px, lvl) (mem_of_find h2) o ho
  · intro id e1 hf
    rw [idIndex_unlinkResting, index_find_erase] at hf
    by_cases hne : id = orderId
    · simp [hne] at hf
    · simp only [hne, if_false] at hf
      obtain ⟨lvl1, n1, g1, g2, g3⟩ := hs.index id e1 hf
      rcases book_cases s e.side e1.side with ⟨hsd, _⟩ | ⟨hsd, hb⟩
      · rw [hsd] at g1 ⊢
        by_cases hp : e1.px = e.px
        · rw [hp] at g1 ⊢
          rw [h2] at g1
          cases g1
          have hlit : e1.lit ≠ e.lit := by
            intro hl
            rw [hl, h3] at g2
            cases g2
            exact hne (g3.symm.trans hid)
          have g4 : findNode e1.lit (eraseNode e.lit lvl.orders) = some n1 := by
            rw [findNode_eraseNode_ne hlit]; exact g2
          have hnonempty : eraseNode e.lit lvl.orders ≠ [] := by
            intro h0
            rw [h0] at g4
            simp [findNode] at g4
          have hemp : (eraseNode e.lit lvl.orders).isEmpty = false := by
            cases hh : eraseNode e.lit lvl.orders with
            | nil => exact absurd hh hnonempty
            | cons a b => rfl
          refine ⟨{ orders := eraseNode e.lit lvl.orders,
                    totalQty := lvl.totalQty - n.order.quantity }, n1, ?_, g4, g3⟩
          rw [book_unlinkResting]
          simp only [hemp, Bool.false_eq_true, if_false]
          rw [find_put]
          simp
        · refine ⟨lvl1, n1, ?_, g2, g3⟩
          rw [find_book_unlinkResting_ne orderId e lvl n hp]
          exact g1
      · refine ⟨lvl1, n1, ?_, g2, g3⟩
        rw [hsd, book_other_eq_opp, opp_unlinkResting, ← book_other_eq_opp, ← hsd]
        exact g1

/-! ## The dispatcher operations, case by case -/

theorem cancelOrder_eq {s : OrderBook} {orderId : Int} (ts : String) {e : IndexEntry}
    {lvl : LevelInfo} {n : Node} (h1 : s.idIndex_.find orderId = some e)
    (h2 : (s.book e.side).find e.px = some lvl) (h3 : findNode e.lit lvl.orders = some n) :
    cancelOrder s orderId ts =
      some (true, emitQuoteIfChanged (updateBestOnChange (unlinkResting s orderId e lvl n)) ts) := by
  unfold cancelOrder unlinkResting
  simp only [h1, h2, h3]

theorem modifyOrder_eq {s : OrderBook} {orderId : Int} (newPxTicks : Price) {newQty : Int}
    (ts : String) (hq : newQty > 0) {e : IndexEntry}
    {lvl : LevelInfo} {n : Node} (h1 : s.idIndex_.find orderId = some e)
    (h2 : (s.book e.side).find e.px = some lvl) (h3 : findNode e.lit lvl.orders = some n) :
    modifyOrder s orderId newPxTicks newQty ts =
      some (true, emitQuoteIfChanged (updateBestOnChange
        (if (match_ e.side (unlinkResting s orderId e lvl n)
              { n.order with priceTicks := newPxTicks, quantity := newQty }).2.quantity > 0 then
          restOrder
            (match_ e.side (unlinkResting s orderId e lvl n)
              { n.order with priceTicks := newPxTicks, quantity := newQty }).1
            (match_ e.side (unlinkResting s orderId e lvl n)
              { n.order with priceTicks := newPxTicks, quantity := newQty }).2
         else
          (match_ e.side (unlinkResting s orderId e lvl n)
              { n.order with priceTicks := newPxTicks, quantity := newQty }).1)) ts) := by
  have hs3 : (if (eraseNode e.lit lvl.orders).isEmpty then
        eraseLevelIfEmpty
          (({ s with idIndex_ := s.idIndex_.erase orderId } : OrderBook).setBook e.side
            ((({ s with idIndex_ := s.idIndex_.erase orderId } : OrderBook).book e.side).put e.px
              { orders := eraseNode e.lit lvl.orders,
                totalQty := lvl.totalQty - n.order.quantity })) e.side e.px
      else
        (({ s with idIndex_ := s.idIndex_.erase orderId } : OrderBook).setBook e.side
            ((({ s with idIndex_ := s.idIndex_.erase orderId } : OrderBook).book e.side).put e.px
              { orders := eraseNode e.lit lvl.orders,
                totalQty := lvl.totalQty - n.order.quantity }))) =
      unlinkResting s orderId e lvl n := by
    unfold unlinkResting
    cases e.side <;> rfl
  unfold modifyOrder
  simp only [not_le.mpr hq, if_false, h1, h2, h3]
  rw [hs3]

theorem cancelOrder_cases {s : OrderBook} (hs : Inv s) (orderId : Int) (ts : String) :
    (s.idIndex_.find orderId = none ∧ cancelOrder s orderId ts = some (false, s)) ∨
    ∃ e lvl n, s.idIndex_.find orderId = some e ∧ (s.book e.side).find e.px = some lvl ∧
      findNode e.lit lvl.orders = some n ∧ n.order.id = orderId ∧
      cancelOrder s orderId ts =
        some (true,
          emitQuoteIfChanged (updateBestOnChange (unlinkResting s orderId e lvl n)) ts) := by
  cases h1 : s.idIndex_.find orderId with
  | none =>
    left
    refine ⟨rfl, ?_⟩
    unfold cancelOrder
    simp only [h1]
  | some e =>
    right
    obtain ⟨lvl, n, h2, h3, h4⟩ := hs.index orderId e h1
    exact ⟨e, lvl, n, rfl, h2, h3, h4, cancelOrder_eq ts h1 h2 h3⟩

theorem inv_cancelOrder {s : OrderBook} (hs : Inv s) {orderId : Int} {ts : String}
    {r : Bool × OrderBook} (h : cancelOrder s orderId ts = some r) : Inv r.2 := by
  rcases cancelOrder_cases hs orderId ts with ⟨_, h1⟩ | ⟨e, lvl, n, h1, h2, h3, _, h4⟩
  · rw [h1] at h
    cases h
    exact hs
  · rw [h4] at h
    cases h
    exact inv_emitQuote _ (inv_updateBest (inv_unlinkResting hs h1 h2 h3))

theorem addOrder_eq (s : OrderBook) (o_in : Order) :
    addOrder s o_in =
      (true, emitQuoteIfChanged (addCore s o_in)
        (match_ (assignId s o_in).side (bumpNextId s o_in) (assignId s o_in)).2.timestamp) := by
  by_cases hm : (assignId s o_in).type = OrderType.MARKET
  · have h1 : addOrder s o_in =
        (true, emitQuoteIfChanged
          (match_ (assignId s o_in).side (bumpNextId s o_in) (assignId s o_in)).1
          (match_ (assignId s o_in).side (bumpNextId s o_in) (assignId s o_in)).2.timestamp) := by
      show (if (assignId s o_in).type = OrderType.MARKET then _ else _) = _
      rw [if_pos hm]
      rfl
    rw [h1]
    unfold addCore
    simp [hm]
  · have h1 : addOrder s o_in =
        (true, emitQuoteIfChanged
          (if (match_ (assignId s o_in).side (bumpNextId s o_in) (assignId s o_in)).2.quantity > 0 ∧
              (match_ (assignId s o_in).side (bumpNextId s o_in) (assignId s o_in)).2.tif ≠
                TimeInForce.IOC ∧
              (match_ (assignId s o_in).side (bumpNextId s o_in) (assignId s o_in)).2.tif ≠
                TimeInForce.FOK then
            restOrder (match_ (assignId s o_in).side (bumpNextId s o_in) (assignId s o_in)).1
              (match_ (assignId s o_in).side (bumpNextId s o_in) (assignId s o_in)).2
           else (match_ (assignId s o_in).side (bumpNextId s o_in) (assignId s o_in)).1)
          (match_ (assignId s o_in).side (bumpNextId s o_in) (assignId s o_in)).2.timestamp) := by
      show (if (assignId s o_in).type = OrderType.MARKET then _ else _) = _
      rw [if_neg hm]
      rfl
    rw [h1]
    unfold addCore
    simp [hm]

theorem modifyOrder_eq_core {s : OrderBook} {orderId : Int} (newPxTicks : Price)
    {newQty : Int} (ts : String) (hq : newQty > 0) {e : IndexEntry}
    {lvl : LevelInfo} {n : Node} (h1 : s.idIndex_.find orderId = some e)
    (h2 : (s.book e.side).find e.px = some lvl) (h3 : findNode e.lit lvl.orders = some n) :
    modifyOrder s orderId newPxTicks newQty ts =
      some (true, emitQuoteIfChanged (updateBestOnChange
        (modifyCore s orderId newPxTicks newQty e lvl n)) ts) :=
  modifyOrder_eq newPxTicks ts hq h1 h2 h3

theorem modifyOrder_cases {s : OrderBook} (hs : Inv s) (orderId : Int) (newPxTicks : Price)
    {newQty : Int} (ts : String) (hq : newQty > 0) :
    (s.idIndex_.find orderId = none ∧
      modifyOrder s orderId newPxTicks newQty ts = some (false, s)) ∨
    ∃ e lvl n, s.idIndex_.find orderId = some e ∧ (s.book e.side).find e.px = some lvl ∧
      findNode e.lit lvl.orders = some n ∧ n.order.id = orderId ∧
      modifyOrder s orderId newPxTicks newQty ts =
        some (true, emitQuoteIfChanged (updateBestOnChange
          (modifyCore s orderId newPxTicks newQty e lvl n)) ts) := by
  cases h1 : s.idIndex_.find orderId with
  | none =>
    left
    refine ⟨rfl, ?_⟩
    unfold modifyOrder
    simp only [not_le.mpr hq, if_false, h1]
  | some e =>
    right
    obtain ⟨lvl, n, h2, h3, h4⟩ := hs.index orderId e h1
    exact ⟨e, lvl, n, rfl, h2, h3, h4, modifyOrder_eq_core newPxTicks ts hq h1 h2 h3⟩

theorem modifyOrder_nonpos (s : OrderBook) (orderId : Int) (newPxTicks : Price)
    {newQty : Int} (ts : String) (hq : newQty ≤ 0) :
    modifyOrder s orderId newPxTicks newQty ts = cancelOrder s orderId ts := by
  unfold modifyOrder
  simp only [hq, if_true]

/-- The aggressor returned by `match` differs from the one passed in only in `quantity`. -/
theorem match_incoming (side : OrderSide) (s : OrderBook) (incoming : Order)
    (hk : KeysAsc (s.opp side)) :
    ∃ q, (match_ side s incoming).2 = { incoming with quantity := q } := by
  rcases match_cases side s incoming hk with ⟨_, h⟩ | h
  · exact ⟨incoming.quantity, by rw [h]⟩
  · exact ⟨_, h.incoming_eq⟩

theorem match_aux (side : OrderSide) (s : OrderBook) (incoming : Order)
    (hk : KeysAsc (s.opp side)) : (match_ side s incoming).1.aux = s.aux := by
  rcases match_cases side s incoming hk with ⟨_, h⟩ | h
  · rw [h]
  · exact h.aux_eq

theorem match_book (side : OrderSide) (s : OrderBook) (incoming : Order)
    (hk : KeysAsc (s.opp side)) : (match_ side s incoming).1.book side = s.book side := by
  rcases match_cases side s incoming hk with ⟨_, h⟩ | h
  · rw [h]
  · exact h.book_eq

theorem inv_bumpNextId {s : OrderBook} (hs : Inv s) (o_in : Order) :
    Inv (bumpNextId s o_in) := by
  unfold bumpNextId
  split
  · exact inv_congr (s := s) rfl rfl rfl rfl hs
  · exact hs

theorem tif_cases (t : TimeInForce) (h1 : t ≠ TimeInForce.IOC) (h2 : t ≠ TimeInForce.FOK) :
    t = TimeInForce.GTC ∨ t = TimeInForce.DAY := by
  cases t <;> simp at h1 h2 ⊢

theorem type_cases (t : OrderType) (h : t ≠ OrderType.MARKET) : t = OrderType.LIMIT := by
  cases t <;> simp at h ⊢

theorem inv_addCore {s : OrderBook} (hs : Inv s) (o_in : Order) : Inv (addCore s o_in) := by
  have hs0 := inv_bumpNextId hs o_in
  have hk := (hs0.oppOk (assignId s o_in).side).1
  have hm := inv_match (assignId s o_in).side _ (assignId s o_in) hs0
  obtain ⟨q, hq⟩ := match_incoming (assignId s o_in).side (bumpNextId s o_in)
    (assignId s o_in) hk
  unfold addCore
  simp only
  split
  · rename_i h
    obtain ⟨h1, h2, h3, h4⟩ := h
    have ht : (assignId s o_in).type = OrderType.LIMIT := type_cases _ h1
    have htif : (assignId s o_in).tif ≠ TimeInForce.FOK := by
      rw [hq] at h4; exact h4
    refine inv_restOrder hm h2 ?_ (tif_cases _ h3 h4) ?_
    · rw [hq]; exact ht
    · have hsafe := match_rest_safe _ _ _ hk htif ht h2
      rw [hq]
      exact hsafe
  · exact hm

theorem inv_addOrder {s : OrderBook} (hs : Inv s) (o : Order) : Inv (addOrder s o).2 := by
  rw [addOrder_eq]
  exact inv_emitQuote _ (inv_addCore hs o)

theorem inv_modifyCore {s : OrderBook} (hs : Inv s) {orderId : Int} (newPxTicks : Price)
    (newQty : Int) {e : IndexEntry} {lvl : LevelInfo} {n : Node}
    (h1 : s.idIndex_.find orderId = some e)
    (h2 : (s.book e.side).find e.px = some lvl) (h3 : findNode e.lit lvl.orders = some n) :
    Inv (modifyCore s orderId newPxTicks newQty e lvl n) := by
  have hs3 := inv_unlinkResting hs h1 h2 h3
  have hk := (hs3.oppOk e.side).1
  have hn : NodeOk e.side e.px s.nextNode n :=
    ((hs.book e.side).2 (e.px, lvl) (mem_of_find h2)).2.2.1 n (findNode_mem h3).1
  obtain ⟨_, _, hsd, ht, htif, _⟩ := hn
  have hm := inv_match e.side (unlinkResting s orderId e lvl n)
    { n.order with priceTicks := newPxTicks, quantity := newQty } hs3
  obtain ⟨q, hq⟩ := match_incoming e.side (unlinkResting s orderId e lvl n)
    { n.order with priceTicks := newPxTicks, quantity := newQty } hk
  unfold modifyCore
  simp only
  split
  · rename_i h
    have hfok : ({ n.order with priceTicks := newPxTicks, quantity := newQty } : Order).tif ≠
        TimeInForce.FOK := by
      simp only
      rcases htif with h5 | h5 <;> rw [h5] <;> simp
    refine inv_restOrder hm h ?_ ?_ ?_
    · rw [hq]; exact ht
    · rw [hq]; exact htif
    · have hsafe := match_rest_safe e.side _ _ hk hfok ht h
      rw [hq]
      simp only [hsd] at hsafe ⊢
      exact hsafe
  · exact hm

theorem inv_modifyOrder {s : OrderBook} (hs : Inv s) {orderId : Int} {newPxTicks : Price}
    {newQty : Int} {ts : String} {r : Bool × OrderBook}
    (h : modifyOrder s orderId newPxTicks newQty ts = some r) : Inv r.2 := by
  by_cases hq : newQty > 0
  · rcases modifyOrder_cases hs orderId newPxTicks ts hq with
      ⟨_, h1⟩ | ⟨e, lvl, n, h1, h2, h3, _, h4⟩
    · rw [h1] at h
      cases h
      exact hs
    · rw [h4] at h
      cases h
      exact inv_emitQuote _ (inv_updateBest (inv_modifyCore hs newPxTicks newQty h1 h2 h3))
  · rw [modifyOrder_nonpos s orderId newPxTicks ts (not_lt.mp hq)] at h
    exact inv_cancelOrder hs h

theorem inv_init (q : Bool) : Inv (OrderBook.init q) := by
  refine ⟨⟨?_, ?_⟩, ⟨?_, ?_⟩, ?_, ?_⟩
  · simp [OrderBook.init, KeysAsc]
  · intro e he; simp [OrderBook.init] at he
  · simp [OrderBook.init, KeysAsc]
  · intro e he; simp [OrderBook.init] at he
  · intro b hb; simp [OrderBook.init] at hb
  · intro id e hf; simp [OrderBook.init, Index.find] at hf

/-- Every reachable book satisfies the invariant. -/
theorem inv_of_reachable {s : OrderBook} (h : Reachable s) : Inv s := by
  induction h with
  | init q => exact inv_init q
  | add o _ ih => exact inv_addOrder ih o
  | cancel orderId ts _ hc ih => exact inv_cancelOrder ih hc
  | modify orderId px q ts _ hm ih => exact inv_modifyOrder ih hm

theorem reachable_exTwoSided : Reachable exTwoSided :=
  Reachable.add _ (Reachable.add _ (Reachable.init true))

/-- C1. Books never cross: in every state reachable from the empty book by `addOrder`,
`cancelOrder` and `modifyOrder`, both side containers keep their keys strictly ascending,
every bid price is strictly below every ask price, and so the highest bid price (the last
bid level) is strictly below the lowest ask price (the first ask level) whenever both
sides are non-empty. -/
theorem books_never_cross (s : OrderBook) (h : Reachable s) :
    KeysAsc s.bids_ ∧ KeysAsc s.asks_ ∧
      (∀ b ∈ s.bids_, ∀ a ∈ s.asks_, b.1 < a.1) ∧
      ∀ b a, s.bids_.getLast? = some b → s.asks_.head? = some a → b.1 < a.1 := by
  have hi := inv_of_reachable h
  refine ⟨hi.bids.1, hi.asks.1, hi.noCross, ?_⟩
  intro b a hb ha
  exact hi.noCross b (List.mem_of_getLast?_eq_some hb) a (List.mem_of_mem_head? ha)

theorem books_never_cross_witness :
    Reachable exTwoSided ∧
      exTwoSided.bids_.map Prod.fst = [9900] ∧ exTwoSided.asks_.map Prod.fst = [10100] ∧
      (KeysAsc exTwoSided.bids_ ∧ KeysAsc exTwoSided.asks_ ∧
        (∀ b ∈ exTwoSided.bids_, ∀ a ∈ exTwoSided.asks_, b.1 < a.1) ∧
        ∀ b a, exTwoSided.bids_.getLast? = some b → exTwoSided.asks_.head? = some a →
          b.1 < a.1) :=
  ⟨reachable_exTwoSided, by decide, by decide, books_never_cross exTwoSided reachable_exTwoSided⟩

/-- With the level totals computed exactly: in every state reachable from the empty
book by `addOrder`, `cancelOrder` and `modifyOrder`, every level present in `bids_` or
`asks_` has a non-empty FIFO, and its `totalQty` equals the sum of the `quantity` fields
of the orders in that FIFO.  For the total the program stores when that sum leaves the
`int` range see `level_total_overflow`. -/
theorem level_total_is_fifo_sum (s : OrderBook) (h : Reachable s) :
    ∀ e, e ∈ s.bids_ ∨ e ∈ s.asks_ →
      e.2.orders ≠ [] ∧ e.2.totalQty = (e.2.orders.map (fun n => n.order.quantity)).sum := by
  have hi := inv_of_reachable h
  intro e he
  rcases he with he | he
  · exact ⟨(hi.bids.2 e he).1, (hi.bids.2 e he).2.1⟩
  · exact ⟨(hi.asks.2 e he).1, (hi.asks.2 e he).2.1⟩

theorem level_total_is_fifo_sum_witness :
    Reachable exTwoSided ∧
      exTwoSided.asks_.map (fun e => (e.1, e.2.totalQty)) = [(10100, 5)] ∧
      ∀ e, e ∈ exTwoSided.bids_ ∨ e ∈ exTwoSided.asks_ →
        e.2.orders ≠ [] ∧
          e.2.totalQty = (e.2.orders.map (fun n => n.order.quantity)).sum :=
  ⟨reachable_exTwoSided, by decide, level_total_is_fifo_sum exTwoSided reachable_exTwoSided⟩

/-! ## Where the remaining nodes and the erased ids of a walk come from -/

theorem fillFifo_origin (px : Price) (l : List Node) (q : Int) :
    ∀ n1 ∈ (fillFifo px q l).orders,
      ∃ n ∈ l, n.order.id = n1.order.id ∧ n.handle = n1.handle := by
  refine fillFifo_induct px
    (fun _ l r => ∀ n1 ∈ r.orders, ∃ n ∈ l, n.order.id = n1.order.id ∧ n.handle = n1.handle)
    ?_ ?_ ?_ l q
  · intro q l _ n1 hn1; exact ⟨n1, hn1, rfl, rfl⟩
  · intro q m rest _ _ ih n1 hn1
    obtain ⟨n, hn, h1, h2⟩ := ih n1 hn1
    exact ⟨n, List.mem_cons_of_mem _ hn, h1, h2⟩
  · intro q m rest _ _ n1 hn1
    rcases List.mem_cons.mp hn1 with h | h
    · subst h
      exact ⟨m, List.mem_cons_self _ _, rfl, rfl⟩
    · exact ⟨n1, List.mem_cons_of_mem _ h, rfl, rfl⟩

theorem fillFifo_erased (px : Price) (l : List Node) (q : Int)
    (hh : (l.map (fun n => n.handle)).Pairwise (fun a b => a < b)) :
    ∀ i ∈ erasedIds (fillFifo px q l).fills,
      ∃ m ∈ l, m.order.id = i ∧ ∀ n1 ∈ (fillFifo px q l).orders, n1.handle ≠ m.handle := by
  revert hh
  refine fillFifo_induct px
    (fun q l r => (l.map (fun n => n.handle)).Pairwise (fun a b => a < b) →
      ∀ i ∈ erasedIds r.fills,
        ∃ m ∈ l, m.order.id = i ∧ ∀ n1 ∈ r.orders, n1.handle ≠ m.handle)
    ?_ ?_ ?_ l q
  · intro q l _ _ i hi; simp [erasedIds] at hi
  · intro q m rest _ _ ih hh i hi
    simp only [List.map_cons, List.pairwise_cons] at hh
    rw [erasedIds_cons] at hi
    simp only [sub_self, if_true, List.mem_cons] at hi
    rcases hi with hi | hi
    · refine ⟨m, List.mem_cons_self _ _, hi.symm, ?_⟩
      intro n1 hn1
      have hsub := (fillFifo_handles_sublist px rest (q - m.order.quantity)).subset
        (List.mem_map_of_mem (fun n => n.handle) hn1)
      exact ne_of_gt (hh.1 _ hsub)
    · obtain ⟨m1, hm1, h1, h2⟩ := ih hh.2 i hi
      exact ⟨m1, List.mem_cons_of_mem _ hm1, h1, h2⟩
  · intro q m rest _ hlt _ i hi
    rw [erasedIds_cons] at hi
    have : ¬ m.order.quantity - q = 0 := by omega
    simp only [this, if_false] at hi
    simp [erasedIds] at hi

theorem walkLevels_origin (cr : Price → Bool) (L : List (Price × LevelInfo)) (q : Int) :
    ∀ e1 ∈ (walkLevels cr q L).levels, ∀ n1 ∈ e1.2.orders,
      ∃ lvl n, (e1.1, lvl) ∈ L ∧ n ∈ lvl.orders ∧ n.order.id = n1.order.id ∧
        n.handle = n1.handle := by
  refine walkLevels_induct cr
    (fun _ L w => ∀ e1 ∈ w.levels, ∀ n1 ∈ e1.2.orders,
      ∃ lvl n, (e1.1, lvl) ∈ L ∧ n ∈ lvl.orders ∧ n.order.id = n1.order.id ∧
        n.handle = n1.handle) ?_ ?_ ?_ L q
  · intro q L _ e1 he1 n1 hn1
    exact ⟨e1.2, n1, he1, hn1, rfl, rfl⟩
  · intro q px lvl rest _ _ _ ih e1 he1 n1 hn1
    obtain ⟨lvl0, n, h1, h2⟩ := ih e1 he1 n1 hn1
    exact ⟨lvl0, n, List.mem_cons_of_mem _ h1, h2⟩
  · intro q px lvl rest _ _ _ e1 he1 n1 hn1
    rcases List.mem_cons.mp he1 with h | h
    · subst h
      obtain ⟨n, hn, h1, h2⟩ := fillFifo_origin px lvl.orders q n1 hn1
      exact ⟨lvl, n, List.mem_cons_self _ _, hn, h1, h2⟩
    · exact ⟨e1.2, n1, List.mem_cons_of_mem _ h, hn1, rfl, rfl⟩

theorem walkLevels_erased (cr : Price → Bool) (L : List (Price × LevelInfo)) (q : Int)
    (hk : L.Pairwise (fun x y => x.1 ≠ y.1))
    (hh : ∀ e ∈ L, (e.2.orders.map (fun n => n.handle)).Pairwise (fun a b => a < b)) :
    ∀ i ∈ erasedIds (walkLevels cr q L).fills,
      ∃ px lvl m, (px, lvl) ∈ L ∧ m ∈ lvl.orders ∧ m.order.id = i ∧
        ∀ lvl1, (px, lvl1) ∈ (walkLevels cr q L).levels →
          ∀ n1 ∈ lvl1.orders, n1.handle ≠ m.handle := by
  revert hk hh
  refine walkLevels_induct cr
    (fun _ L w => L.Pairwise (fun x y => x.1 ≠ y.1) →
      (∀ e ∈ L, (e.2.orders.map (fun n => n.handle)).Pairwise (fun a b => a < b)) →
      ∀ i ∈ erasedIds w.fills,
        ∃ px lvl m, (px, lvl) ∈ L ∧ m ∈ lvl.orders ∧ m.order.id = i ∧
          ∀ lvl1, (px, lvl1) ∈ w.levels → ∀ n1 ∈ lvl1.orders, n1.handle ≠ m.handle)
    ?_ ?_ ?_ L q
  · intro q L _ _ _ i hi; simp [erasedIds] at hi
  · intro q px lvl rest hq hc he ih hk hh i hi
    rw [List.pairwise_cons] at hk
    rw [erasedIds_append, List.mem_append] at hi
    rcases hi with hi | hi
    · obtain ⟨m, hm, h1, _⟩ :=
        fillFifo_erased px lvl.orders q (hh (px, lvl) (List.mem_cons_self _ _)) i hi
      refine ⟨px, lvl, m, List.mem_cons_self _ _, hm, h1, ?_⟩
      intro lvl1 hl1
      obtain ⟨e0, he0, hkey⟩ := key_mem_of_sublist
        (walkLevels_keys cr rest (fillFifo px q lvl.orders).residual) hl1
      exact absurd hkey.symm (hk.1 e0 he0)
    · obtain ⟨px1, lvl1, m, h1, h2, h3, h4⟩ :=
        ih hk.2 (fun e he => hh e (List.mem_cons_of_mem _ he)) i hi
      exact ⟨px1, lvl1, m, List.mem_cons_of_mem _ h1, h2, h3, h4⟩
  · intro q px lvl rest hq hc he hk hh i hi
    rw [List.pairwise_cons] at hk
    obtain ⟨m, hm, h1, h2⟩ :=
      fillFifo_erased px lvl.orders q (hh (px, lvl) (List.mem_cons_self _ _)) i hi
    refine ⟨px, lvl, m, List.mem_cons_self _ _, hm, h1, ?_⟩
    intro lvl1 hl1
    rcases List.mem_cons.mp hl1 with h | h
    · cases h
      exact h2
    · exact absurd rfl (hk.1 (px, lvl1) h)

theorem eraseNode_handle_ne {h : Nat} {l : List Node}
    (hh : (l.map (fun n => n.handle)).Pairwise (fun a b => a < b)) :
    ∀ x ∈ eraseNode h l, x.handle ≠ h := by
  induction l with
  | nil => intro x hx; simp [eraseNode] at hx
  | cons m rest ih =>
    simp only [List.map_cons, List.pairwise_cons] at hh
    intro x hx
    by_cases hm : m.handle = h
    · simp only [eraseNode, hm, if_true] at hx
      rw [← hm]
      exact ne_of_gt (hh.1 _ (List.mem_map_of_mem (fun n => n.handle) hx))
    · simp only [eraseNode, hm, if_false] at hx
      rcases List.mem_cons.mp hx with h1 | h1
      · rw [h1]; exact hm
      · exact ih hh.2 x h1

theorem keys_ne_of_keysAsc {b : BookSide} (h : KeysAsc b) :
    b.Pairwise (fun x y => x.1 ≠ y.1) :=
  List.Pairwise.imp (fun hxy => ne_of_lt hxy) h

theorem keys_ne_bestFirst {side : OrderSide} {b : BookSide} (h : KeysAsc b) :
    (bestFirst side b).Pairwise (fun x y => x.1 ≠ y.1) := by
  cases side
  · exact keys_ne_of_keysAsc h
  · unfold bestFirst
    rw [List.pairwise_reverse]
    exact List.Pairwise.imp (fun hxy => ne_of_gt hxy) h

/-! ## Index completeness -/

/-- Every node of the book after `match` is a node of the book before it, at the same
side and price, with the same id and handle. -/
theorem origin_of_matchSpec {side : OrderSide} {s : OrderBook} {incoming : Order}
    {r : OrderBook × Order}
    (h : MatchSpec side s incoming
      (walkLevels (crosses side incoming) incoming.quantity (bestFirst side (s.opp side))) r)
    (sd : OrderSide) (e1 : Price × LevelInfo) (he1 : e1 ∈ r.1.book sd) (n1 : Node)
    (hn1 : n1 ∈ e1.2.orders) :
    ∃ lvl n, (e1.1, lvl) ∈ s.book sd ∧ n ∈ lvl.orders ∧ n.order.id = n1.order.id ∧
      n.handle = n1.handle := by
  rcases side_eq_or_other side sd with hsd | hsd
  · subst hsd
    rw [h.book_eq] at he1
    exact ⟨e1.2, n1, he1, hn1, rfl, rfl⟩
  · subst hsd
    rw [book_other_eq_opp, matchSpec_opp h, mem_bestFirst] at he1
    obtain ⟨lvl, n, g1, g2⟩ := walkLevels_origin _ _ _ e1 he1 n1 hn1
    refine ⟨lvl, n, ?_, g2⟩
    rw [book_other_eq_opp]
    exact mem_bestFirst.mp g1

theorem allIds_of_matchSpec {P : Int → Prop} {side : OrderSide} {s : OrderBook}
    {incoming : Order} {r : OrderBook × Order} (hp : AllIds P s)
    (h : MatchSpec side s incoming
      (walkLevels (crosses side incoming) incoming.quantity (bestFirst side (s.opp side))) r) :
    AllIds P r.1 := by
  intro sd e1 he1 n1 hn1
  obtain ⟨lvl, n, g1, g2, g3, _⟩ := origin_of_matchSpec h sd e1 he1 n1 hn1
  rw [← g3]
  exact hp sd (e1.1, lvl) g1 n g2

theorem allIds_match {P : Int → Prop} (side : OrderSide) {s : OrderBook} (incoming : Order)
    (hs : Inv s) (hp : AllIds P s) : AllIds P (match_ side s incoming).1 := by
  rcases match_cases side s incoming (hs.oppOk side).1 with ⟨_, h⟩ | h
  · rw [h]; exact hp
  · exact allIds_of_matchSpec hp h

theorem complete_of_matchSpec {side : OrderSide} {s : OrderBook} {incoming : Order}
    {r : OrderBook × Order} (hs : Inv s) (hc : IndexComplete s)
    (h : MatchSpec side s incoming
      (walkLevels (crosses side incoming) incoming.quantity (bestFirst side (s.opp side))) r) :
    IndexComplete r.1 := by
  intro sd e1 he1 n1 hn1
  obtain ⟨lvl, n, g1, g2, g3, g4⟩ := origin_of_matchSpec h sd e1 he1 n1 hn1
  have hold := hc sd (e1.1, lvl) g1 n g2
  simp only at hold
  rw [h.index_eq, index_find_eraseIds]
  by_cases hE : n1.order.id ∈ erasedIds
      (walkLevels (crosses side incoming) incoming.quantity
        (bestFirst side (s.opp side))).fills
  · exfalso
    have hko := (hs.oppOk side).1
    obtain ⟨px, lvlm, m, k1, k2, k3, k4⟩ :=
      walkLevels_erased (crosses side incoming) (bestFirst side (s.opp side))
        incoming.quantity (keys_ne_bestFirst hko)
        (fun e he => ((hs.oppOk side).2 e (mem_bestFirst.mp he)).2.2.2) _ hE
    have hm := hc side.other (px, lvlm)
      (by rw [book_other_eq_opp]; exact mem_bestFirst.mp k1) m k2
    simp only at hm
    rw [k3, ← g3, hold] at hm
    simp only [Option.some.injEq, IndexEntry.mk.injEq] at hm
    obtain ⟨m1, m2, m3⟩ := hm
    subst m1
    rw [book_other_eq_opp, matchSpec_opp h, mem_bestFirst] at he1
    have : (px, e1.2) ∈ (walkLevels (crosses side incoming) incoming.quantity
        (bestFirst side (s.opp side))).levels := by
      rw [← m2]; exact he1
    exact k4 e1.2 this n1 hn1 (g4.symm.trans m3)
  · simp only [hE, if_false]
    rw [← g3, ← g4]
    exact hold

theorem complete_match (side : OrderSide) {s : OrderBook} (incoming : Order) (hs : Inv s)
    (hc : IndexComplete s) : IndexComplete (match_ side s incoming).1 := by
  rcases match_cases side s incoming (hs.oppOk side).1 with ⟨_, h⟩ | h
  · rw [h]; exact hc
  · exact complete_of_matchSpec hs hc h

theorem complete_congr {s s1 : OrderBook} (hb : s1.bids_ = s.bids_) (ha : s1.asks_ = s.asks_)
    (hi : s1.idIndex_ = s.idIndex_) (h : IndexComplete s) : IndexComplete s1 := by
  intro sd e he n hn
  rw [hi]
  refine h sd e ?_ n hn
  cases sd <;> simp only [OrderBook.book] at he ⊢
  · rw [← hb]; exact he
  · rw [← ha]; exact he

theorem allIds_congr {P : Int → Prop} {s s1 : OrderBook} (hb : s1.bids_ = s.bids_)
    (ha : s1.asks_ = s.asks_) (h : AllIds P s) : AllIds P s1 := by
  intro sd e he n hn
  refine h sd e ?_ n hn
  cases sd <;> simp only [OrderBook.book] at he ⊢
  · rw [← hb]; exact he
  · rw [← ha]; exact he

theorem allIds_mono {P Q : Int → Prop} {s : OrderBook} (hpq : ∀ i, P i → Q i)
    (h : AllIds P s) : AllIds Q s :=
  fun sd e he n hn => hpq _ (h sd e he n hn)

/-- Membership in the side container after `restOrder`. -/
theorem mem_book_restOrder {s : OrderBook} (hs : Inv s) (o : Order) (sd : OrderSide)
    (e : Price × LevelInfo) (he : e ∈ (restOrder s o).book sd) :
    (e ∈ s.book sd ∧ (sd = o.side → e.1 ≠ o.priceTicks)) ∨
      (sd = o.side ∧ e = (o.priceTicks, restLevel s o)) := by
  rcases side_eq_or_other o.side sd with hsd | hsd
  · subst hsd
    rw [book_restOrder] at he
    rcases (mem_put_iff (hs.book o.side).1 _ _ e).mp he with h | h
    · exact Or.inr ⟨rfl, h⟩
    · exact Or.inl ⟨h.1, fun _ => h.2⟩
  · subst hsd
    rw [book_other_eq_opp, opp_restOrder, ← book_other_eq_opp] at he
    exact Or.inl ⟨he, fun h => absurd h (other_ne _)⟩

theorem mem_restLevel {s : OrderBook} {o : Order} {n : Node}
    (hn : n ∈ (restLevel s o).orders) :
    (∃ lvl, (o.priceTicks, lvl) ∈ s.book o.side ∧ n ∈ lvl.orders) ∨
      n = { handle := s.nextNode, order := o } := by
  unfold restLevel at hn
  simp only [List.mem_append, List.mem_singleton] at hn
  rcases hn with h | h
  · left
    cases hf : (s.book o.side).find o.priceTicks with
    | none => rw [hf] at h; simp at h
    | some lvl =>
      rw [hf] at h
      exact ⟨lvl, mem_of_find hf, h⟩
  · exact Or.inr h

theorem allIds_restOrder {P : Int → Prop} {s : OrderBook} (hs : Inv s) {o : Order}
    (hp : AllIds P s) (ho : P o.id) : AllIds P (restOrder s o) := by
  intro sd e he n hn
  rcases mem_book_restOrder hs o sd e he with ⟨h, _⟩ | ⟨h1, h2⟩
  · exact hp sd e h n hn
  · subst h2
    rcases mem_restLevel hn with ⟨lvl, g1, g2⟩ | g
    · exact hp o.side _ g1 n g2
    · rw [g]; exact ho

theorem complete_restOrder {s : OrderBook} (hs : Inv s) {o : Order} (hc : IndexComplete s)
    (hfresh : AllIds (fun i => i ≠ o.id) s) : IndexComplete (restOrder s o) := by
  intro sd e he n hn
  rw [idIndex_restOrder, index_find_insert]
  rcases mem_book_restOrder hs o sd e he with ⟨h, _⟩ | ⟨h1, h2⟩
  · have hne := hfresh sd e h n hn
    simp only [hne, if_false]
    exact hc sd e h n hn
  · subst h2
    rcases mem_restLevel hn with ⟨lvl, g1, g2⟩ | g
    · have hne := hfresh o.side _ g1 n g2
      simp only [hne, if_false]
      rw [h1]
      exact hc o.side _ g1 n g2
    · rw [g]
      simp [h1]

/-- Membership in a side container after unlinking. -/
theorem mem_book_unlinkResting_any {s : OrderBook} (hs : Inv s) (orderId : Int)
    (e : IndexEntry) (lvl : LevelInfo) (n : Node) (sd : OrderSide) (x : Price × LevelInfo)
    (hx : x ∈ (unlinkResting s orderId e lvl n).book sd) :
    (x ∈ s.book sd ∧ (sd = e.side → x.1 ≠ e.px)) ∨
      (sd = e.side ∧
        x = (e.px, { orders := eraseNode e.lit lvl.orders,
                     totalQty := lvl.totalQty - n.order.quantity })) := by
  rcases side_eq_or_other e.side sd with hsd | hsd
  · subst hsd
    rcases mem_book_unlinkResting hs orderId e lvl n x hx with h | h
    · exact Or.inl ⟨h.1, fun _ => h.2⟩
    · exact Or.inr ⟨rfl, h.2⟩
  · subst hsd
    rw [book_other_eq_opp, opp_unlinkResting, ← book_other_eq_opp] at hx
    exact Or.inl ⟨hx, fun h => absurd h (other_ne _)⟩

theorem allIds_unlinkResting {P : Int → Prop} {s : OrderBook} (hs : Inv s) {orderId : Int}
    {e : IndexEntry} {lvl : LevelInfo} {n : Node}
    (h2 : (s.book e.side).find e.px = some lvl) (hp : AllIds P s) :
    AllIds P (unlinkResting s orderId e lvl n) := by
  intro sd x hx m hm
  rcases mem_book_unlinkResting_any hs orderId e lvl n sd x hx with ⟨h, _⟩ | ⟨g1, g2⟩
  · exact hp sd x h m hm
  · subst g2
    exact hp e.side (e.px, lvl) (mem_of_find h2) m
      ((eraseNode_sublist e.lit lvl.orders).subset hm)

/-- With a complete index, unlinking the order indexed under `orderId` leaves no resting
order with that id. -/
theorem noId_unlinkResting {s : OrderBook} (hs : Inv s) (hc : IndexComplete s)
    {orderId : Int} {e : IndexEntry} {lvl : LevelInfo} {n : Node}
    (h1 : s.idIndex_.find orderId = some e)
    (h2 : (s.book e.side).find e.px = some lvl) :
    AllIds (fun i => i ≠ orderId) (unlinkResting s orderId e lvl n) := by
  intro sd x hx m hm hid
  rcases mem_book_unlinkResting_any hs orderId e lvl n sd x hx with ⟨g1, g2⟩ | ⟨g1, g2⟩
  · have := hc sd x g1 m hm
    rw [hid, h1] at this
    simp only [Option.some.injEq] at this
    rw [this] at g2
    exact g2 rfl rfl
  · subst g2
    have hmem := (eraseNode_sublist e.lit lvl.orders).subset hm
    have := hc e.side (e.px, lvl) (mem_of_find h2) m hmem
    rw [hid, h1] at this
    simp only [Option.some.injEq] at this
    have hlit : m.handle = e.lit := by rw [this]
    have hh := ((hs.book e.side).2 (e.px, lvl) (mem_of_find h2)).2.2.2
    exact eraseNode_handle_ne hh m hm hlit

theorem complete_unlinkResting {s : OrderBook} (hs : Inv s) (hc : IndexComplete s)
    {orderId : Int} {e : IndexEntry} {lvl : LevelInfo} {n : Node}
    (h1 : s.idIndex_.find orderId = some e)
    (h2 : (s.book e.side).find e.px = some lvl) :
    IndexComplete (unlinkResting s orderId e lvl n) := by
  intro sd x hx m hm
  have hne := noId_unlinkResting (n := n) hs hc h1 h2 sd x hx m hm
  rw [idIndex_unlinkResting, index_find_erase]
  simp only [hne, if_false]
  rcases mem_book_unlinkResting_any hs orderId e lvl n sd x hx with ⟨g1, _⟩ | ⟨g1, g2⟩
  · exact hc sd x g1 m hm
  · subst g2
    rw [g1]
    exact hc e.side (e.px, lvl) (mem_of_find h2) m
      ((eraseNode_sublist e.lit lvl.orders).subset hm)

theorem complete_emitQuote {s : OrderBook} (ts : String) (h : IndexComplete s) :
    IndexComplete (emitQuoteIfChanged s ts) :=
  complete_congr (by simp) (by simp) (by simp) h

theorem complete_updateBest {s : OrderBook} (h : IndexComplete s) :
    IndexComplete (updateBestOnChange s) :=
  complete_congr (by simp) (by simp) (by simp) h

theorem allIds_emitQuote {P : Int → Prop} {s : OrderBook} (ts : String) (h : AllIds P s) :
    AllIds P (emitQuoteIfChanged s ts) :=
  allIds_congr (by simp) (by simp) h

theorem allIds_updateBest {P : Int → Prop} {s : OrderBook} (h : AllIds P s) :
    AllIds P (updateBestOnChange s) :=
  allIds_congr (by simp) (by simp) h

theorem bids_bumpNextId (s : OrderBook) (o : Order) : (bumpNextId s o).bids_ = s.bids_ := by
  unfold bumpNextId; split <;> rfl

theorem asks_bumpNextId (s : OrderBook) (o : Order) : (bumpNextId s o).asks_ = s.asks_ := by
  unfold bumpNextId; split <;> rfl

theorem idIndex_bumpNextId (s : OrderBook) (o : Order) :
    (bumpNextId s o).idIndex_ = s.idIndex_ := by
  unfold bumpNextId; split <;> rfl

theorem trades_bumpNextId (s : OrderBook) (o : Order) :
    (bumpNextId s o).trades_ = s.trades_ := by
  unfold bumpNextId; split <;> rfl

theorem nextNode_bumpNextId (s : OrderBook) (o : Order) :
    (bumpNextId s o).nextNode = s.nextNode := by
  unfold bumpNextId; split <;> rfl

theorem match_id (side : OrderSide) (s : OrderBook) (incoming : Order)
    (hk : KeysAsc (s.opp side)) : (match_ side s incoming).2.id = incoming.id := by
  obtain ⟨q, hq⟩ := match_incoming side s incoming hk
  rw [hq]

theorem invD_addCore {s : OrderBook} {used : List Int} (h : InvD s used) (o : Order)
    (hfresh : (assignId s o).id ∉ used) :
    InvD (addCore s o) ((assignId s o).id :: used) := by
  have hs0 := inv_bumpNextId h.inv o
  have hc0 : IndexComplete (bumpNextId s o) :=
    complete_congr (bids_bumpNextId s o) (asks_bumpNextId s o) (idIndex_bumpNextId s o)
      h.complete
  have hi0 : AllIds (fun i => i ∈ used) (bumpNextId s o) :=
    allIds_congr (bids_bumpNextId s o) (asks_bumpNextId s o) h.idsIn
  have hk := (hs0.oppOk (assignId s o).side).1
  have hm := inv_match (assignId s o).side _ (assignId s o) hs0
  have hcm := complete_match (assignId s o).side (assignId s o) hs0 hc0
  have him := allIds_match (assignId s o).side (assignId s o) hs0 hi0
  have hid := match_id (assignId s o).side (bumpNextId s o) (assignId s o) hk
  refine ⟨inv_addCore h.inv o, ?_, ?_⟩
  · unfold addCore
    simp only
    split
    · refine complete_restOrder hm hcm ?_
      rw [hid]
      exact allIds_mono (fun i hi heq => hfresh (heq ▸ hi)) him
    · exact hcm
  · unfold addCore
    simp only
    split
    · refine allIds_restOrder hm ?_ ?_
      · exact allIds_mono (fun i hi => List.mem_cons_of_mem _ hi) him
      · rw [hid]; exact List.mem_cons_self _ _
    · exact allIds_mono (fun i hi => List.mem_cons_of_mem _ hi) him

theorem invD_unlinkResting {s : OrderBook} {used : List Int} (h : InvD s used)
    {orderId : Int} {e : IndexEntry} {lvl : LevelInfo} {n : Node}
    (h1 : s.idIndex_.find orderId = some e)
    (h2 : (s.book e.side).find e.px = some lvl) (h3 : findNode e.lit lvl.orders = some n) :
    InvD (unlinkResting s orderId e lvl n) used :=
  ⟨inv_unlinkResting h.inv h1 h2 h3, complete_unlinkResting h.inv h.complete h1 h2,
    allIds_unlinkResting h.inv h2 h.idsIn⟩

theorem invD_modifyCore {s : OrderBook} {used : List Int} (h : InvD s used)
    {orderId : Int} (newPxTicks : Price) (newQty : Int) {e : IndexEntry} {lvl : LevelInfo}
    {n : Node} (h1 : s.idIndex_.find orderId = some e)
    (h2 : (s.book e.side).find e.px = some lvl) (h3 : findNode e.lit lvl.orders = some n)
    (h4 : n.order.id = orderId) :
    InvD (modifyCore s orderId newPxTicks newQty e lvl n) used := by
  have hu := invD_unlinkResting h h1 h2 h3
  have hno := noId_unlinkResting (n := n) h.inv h.complete h1 h2
  have hk := (hu.inv.oppOk e.side).1
  have hm := inv_match e.side _
    { n.order with priceTicks := newPxTicks, quantity := newQty } hu.inv
  have hcm := complete_match e.side
    { n.order with priceTicks := newPxTicks, quantity := newQty } hu.inv hu.complete
  have him := allIds_match e.side
    { n.order with priceTicks := newPxTicks, quantity := newQty } hu.inv hu.idsIn
  have hnm := allIds_match e.side
    { n.order with priceTicks := newPxTicks, quantity := newQty } hu.inv hno
  have hid := match_id e.side (unlinkResting s orderId e lvl n)
    { n.order with priceTicks := newPxTicks, quantity := newQty } hk
  simp only at hid
  have hused : orderId ∈ used := by
    rw [← h4]
    exact h.idsIn e.side (e.px, lvl) (mem_of_find h2) n (findNode_mem h3).1
  refine ⟨inv_modifyCore h.inv newPxTicks newQty h1 h2 h3, ?_, ?_⟩
  · unfold modifyCore
    simp only
    split
    · refine complete_restOrder hm hcm ?_
      rw [hid, h4]
      exact hnm
    · exact hcm
  · unfold modifyCore
    simp only
    split
    · refine allIds_restOrder hm him ?_
      rw [hid, h4]
      exact hused
    · exact him

theorem invD_applyEvent {s s1 : OrderBook} {used : List Int} (h : InvD s used) (ev : Event)
    (hev : applyEvent s ev = some s1) (hfresh : ∀ i ∈ eventIds s ev, i ∉ used) :
    InvD s1 (eventIds s ev ++ used) := by
  cases ev with
  | add o =>
    simp only [applyEvent, Option.some.injEq] at hev
    subst hev
    rw [addOrder_eq]
    have := invD_addCore h o (hfresh _ (by simp [eventIds]))
    exact ⟨inv_emitQuote _ this.inv, complete_emitQuote _ this.complete,
      allIds_emitQuote _ this.idsIn⟩
  | cancel orderId ts =>
    simp only [applyEvent, Option.map_eq_some'] at hev
    obtain ⟨r, hr, hr2⟩ := hev
    subst hr2
    simp only [eventIds, List.nil_append]
    rcases cancelOrder_cases h.inv orderId ts with ⟨_, g⟩ | ⟨e, lvl, n, g1, g2, g3, _, g⟩
    · rw [g] at hr
      cases hr
      exact h
    · rw [g] at hr
      cases hr
      have hu := invD_unlinkResting h g1 g2 g3
      exact ⟨inv_emitQuote _ (inv_updateBest hu.inv),
        complete_emitQuote _ (complete_updateBest hu.complete),
        allIds_emitQuote _ (allIds_updateBest hu.idsIn)⟩
  | modify orderId px q ts =>
    simp only [applyEvent, Option.map_eq_some'] at hev
    obtain ⟨r, hr, hr2⟩ := hev
    subst hr2
    simp only [eventIds, List.nil_append]
    by_cases hq : q > 0
    · rcases modifyOrder_cases h.inv orderId px ts hq with
        ⟨_, g⟩ | ⟨e, lvl, n, g1, g2, g3, g4, g⟩
      · rw [g] at hr
        cases hr
        exact h
      · rw [g] at hr
        cases hr
        have hu := invD_modifyCore h px q g1 g2 g3 g4
        exact ⟨inv_emitQuote _ (inv_updateBest hu.inv),
          complete_emitQuote _ (complete_updateBest hu.complete),
          allIds_emitQuote _ (allIds_updateBest hu.idsIn)⟩
    · rw [modifyOrder_nonpos s orderId px ts (not_lt.mp hq)] at hr
      rcases cancelOrder_cases h.inv orderId ts with ⟨_, g⟩ | ⟨e, lvl, n, g1, g2, g3, _, g⟩
      · rw [g] at hr
        cases hr
        exact h
      · rw [g] at hr
        cases hr
        have hu := invD_unlinkResting h g1 g2 g3
        exact ⟨inv_emitQuote _ (inv_updateBest hu.inv),
          complete_emitQuote _ (complete_updateBest hu.complete),
          allIds_emitQuote _ (allIds_updateBest hu.idsIn)⟩

/-- The ids collected by a run extend the ids it started from. -/
theorem runEvents_suffix :
    ∀ (evs : List Event) (s : OrderBook) (used : List Int) (s1 : OrderBook)
      (used1 : List Int), runEvents s used evs = some (s1, used1) → used <:+ used1 := by
  intro evs
  induction evs with
  | nil =>
    intro s used s1 used1 h
    simp only [runEvents, Option.some.injEq, Prod.mk.injEq] at h
    rw [h.2]
  | cons ev rest ih =>
    intro s used s1 used1 h
    simp only [runEvents] at h
    cases ha : applyEvent s ev with
    | none => rw [ha] at h; simp at h
    | some s2 =>
      rw [ha] at h
      exact (List.suffix_append _ _).trans (ih _ _ _ _ h)

theorem invD_runEvents :
    ∀ (evs : List Event) (s : OrderBook) (used : List Int) (s1 : OrderBook)
      (used1 : List Int), InvD s used → runEvents s used evs = some (s1, used1) →
      used1.Nodup → InvD s1 used1 := by
  intro evs
  induction evs with
  | nil =>
    intro s used s1 used1 hI h _
    simp only [runEvents, Option.some.injEq, Prod.mk.injEq] at h
    rw [← h.1, ← h.2]
    exact hI
  | cons ev rest ih =>
    intro s used s1 used1 hI h hnd
    simp only [runEvents] at h
    cases ha : applyEvent s ev with
    | none => rw [ha] at h; simp at h
    | some s2 =>
      rw [ha] at h
      have hsuf := runEvents_suffix _ _ _ _ _ h
      have hnd2 : (eventIds s ev ++ used).Nodup := hnd.sublist hsuf.sublist
      refine ih _ _ _ _ (invD_applyEvent hI ev ha ?_) h hnd
      intro i hi hu
      exact (List.disjoint_of_nodup_append hnd2) hi hu

theorem invD_init (q : Bool) : InvD (OrderBook.init q) [] := by
  refine ⟨inv_init q, ?_, ?_⟩
  · intro sd e he
    cases sd <;> simp [OrderBook.init, OrderBook.book] at he
  · intro sd e he
    cases sd <;> simp [OrderBook.init, OrderBook.book] at he

theorem findNode_of_mem {l : List Node}
    (hh : (l.map (fun n => n.handle)).Pairwise (fun a b => a < b)) {n : Node} (hn : n ∈ l) :
    findNode n.handle l = some n := by
  induction l with
  | nil => simp at hn
  | cons m rest ih =>
    simp only [List.map_cons, List.pairwise_cons] at hh
    rw [findNode_cons]
    rcases List.mem_cons.mp hn with h | h
    · subst h; simp
    · have hlt := hh.1 _ (List.mem_map_of_mem (fun n => n.handle) h)
      have hne : ¬ m.handle = n.handle := ne_of_lt hlt
      simp only [hne, if_false]
      exact ih hh.2 h

theorem runEvents_exEventsB :
    runEvents (OrderBook.init true) [] exEventsB = some (exBookB, [3, 2, 1]) := by
  decide

/-- C3. Order-index consistency: for every event sequence run from a newly constructed
book in which the ids of all added orders (caller-supplied, or assigned by the dispatcher
when `id == 0`) are distinct, the index maps each indexed id to a (side, price, FIFO slot)
that holds an order with that id, and every order in any FIFO is indexed under its id by
the entry naming exactly its side, its level and its own slot.  The sequence is
arbitrary, so this holds after every `addOrder`, `cancelOrder` and `modifyOrder`. -/
theorem index_consistent (q : Bool) (evs : List Event) (s : OrderBook) (ids : List Int)
    (hrun : runEvents (OrderBook.init q) [] evs = some (s, ids)) (hd : ids.Nodup) :
    (∀ id e, s.idIndex_.find id = some e →
      ∃ lvl n, (s.book e.side).find e.px = some lvl ∧
        findNode e.lit lvl.orders = some n ∧ n.order.id = id) ∧
    (∀ side px lvl n, (s.book side).find px = some lvl → n ∈ lvl.orders →
      s.idIndex_.find n.order.id = some { side := side, px := px, lit := n.handle } ∧
        findNode n.handle lvl.orders = some n) := by
  have hI := invD_runEvents evs _ _ _ _ (invD_init q) hrun hd
  refine ⟨hI.inv.index, ?_⟩
  intro side px lvl n hf hn
  refine ⟨hI.complete side (px, lvl) (mem_of_find hf) n hn, ?_⟩
  exact findNode_of_mem ((hI.inv.book side).2 (px, lvl) (mem_of_find hf)).2.2.2 hn

theorem index_consistent_witness :
    runEvents (OrderBook.init true) [] exEventsB = some (exBookB, [3, 2, 1]) ∧
      [3, 2, (1 : Int)].Nodup ∧
      exBookB.idIndex_ = [(2, { side := .SELL, px := 10050, lit := 1 })] ∧
      ((∀ id e, exBookB.idIndex_.find id = some e →
        ∃ lvl n, (exBookB.book e.side).find e.px = some lvl ∧
          findNode e.lit lvl.orders = some n ∧ n.order.id = id) ∧
      (∀ side px lvl n, (exBookB.book side).find px = some lvl → n ∈ lvl.orders →
        exBookB.idIndex_.find n.order.id =
            some { side := side, px := px, lit := n.handle } ∧
          findNode n.handle lvl.orders = some n)) :=
  ⟨runEvents_exEventsB, by decide, by decide,
    index_consistent true exEventsB exBookB [3, 2, 1] runEvents_exEventsB (by decide)⟩

/-! ## The fills of a walk -/

theorem fillBefore_cons {fA fB : Fill} {fills : List Fill} (f : Fill)
    (h : FillBefore fA fB fills) : FillBefore fA fB (f :: fills) := by
  obtain ⟨f1, f2, f3, h⟩ := h
  exact ⟨f :: f1, f2, f3, by rw [h]; simp⟩

theorem fillBefore_append_left {fA fB : Fill} {fills : List Fill} (more : List Fill)
    (h : FillBefore fA fB fills) : FillBefore fA fB (fills ++ more) := by
  obtain ⟨f1, f2, f3, h⟩ := h
  exact ⟨f1, f2, f3 ++ more, by rw [h]; simp⟩

theorem fillBefore_append_right {fA fB : Fill} {fills : List Fill} (more : List Fill)
    (h : FillBefore fA fB fills) : FillBefore fA fB (more ++ fills) := by
  obtain ⟨f1, f2, f3, h⟩ := h
  exact ⟨more ++ f1, f2, f3, by rw [h]; simp⟩

theorem fillBefore_head {fA fB : Fill} {fills : List Fill} (h : fB ∈ fills) :
    FillBefore fA fB (fA :: fills) := by
  obtain ⟨f2, f3, h⟩ := List.append_of_mem h
  exact ⟨[], f2, f3, by rw [h]; simp⟩

/-- Every fill of a FIFO is a fill at the level price of a node of the FIFO, for a
positive quantity not above what the maker holds. -/
theorem fillFifo_fills (px : Price) (l : List Node) (q : Int)
    (hpos : ∀ n ∈ l, n.order.quantity > 0) :
    ∀ f ∈ (fillFifo px q l).fills,
      f.px = px ∧ f.maker ∈ l ∧ 0 < f.traded ∧ f.traded ≤ f.maker.order.quantity := by
  revert hpos
  refine fillFifo_induct px
    (fun _ l r => (∀ n ∈ l, n.order.quantity > 0) →
      ∀ f ∈ r.fills,
        f.px = px ∧ f.maker ∈ l ∧ 0 < f.traded ∧ f.traded ≤ f.maker.order.quantity)
    ?_ ?_ ?_ l q
  · intro q l _ _ f hf; simp at hf
  · intro q m rest _ _ ih hpos f hf
    rcases List.mem_cons.mp hf with h | h
    · subst h
      exact ⟨rfl, List.mem_cons_self _ _, hpos m (List.mem_cons_self _ _), le_refl _⟩
    · obtain ⟨h1, h2, h3⟩ := ih (fun n hn => hpos n (List.mem_cons_of_mem _ hn)) f h
      exact ⟨h1, List.mem_cons_of_mem _ h2, h3⟩
  · intro q m rest hq hlt _ f hf
    simp only [List.mem_singleton] at hf
    subst hf
    exact ⟨rfl, List.mem_cons_self _ _, hq, le_of_lt hlt⟩

/-- Every fill of a walk is a fill at the key of a level of the input, of a node of that
level, for a positive quantity not above what the maker holds. -/
theorem walkLevels_fills (cr : Price → Bool) (L : List (Price × LevelInfo)) (q : Int)
    (hpos : ∀ e ∈ L, ∀ n ∈ e.2.orders, n.order.quantity > 0) :
    ∀ f ∈ (walkLevels cr q L).fills,
      cr f.px = true ∧ (∃ lvl, (f.px, lvl) ∈ L ∧ f.maker ∈ lvl.orders) ∧ 0 < f.traded ∧
        f.traded ≤ f.maker.order.quantity := by
  revert hpos
  refine walkLevels_induct cr
    (fun _ L w => (∀ e ∈ L, ∀ n ∈ e.2.orders, n.order.quantity > 0) →
      ∀ f ∈ w.fills,
        cr f.px = true ∧ (∃ lvl, (f.px, lvl) ∈ L ∧ f.maker ∈ lvl.orders) ∧ 0 < f.traded ∧
          f.traded ≤ f.maker.order.quantity) ?_ ?_ ?_ L q
  · intro q L _ _ f hf; simp at hf
  · intro q px lvl rest _ hc _ ih hpos f hf
    rcases List.mem_append.mp hf with h | h
    · obtain ⟨h1, h2, h3⟩ :=
        fillFifo_fills px lvl.orders q (hpos (px, lvl) (List.mem_cons_self _ _)) f h
      exact ⟨by rw [h1]; exact hc, ⟨lvl, by rw [h1]; exact List.mem_cons_self _ _, h2⟩, h3⟩
    · obtain ⟨h0, ⟨lvl1, h1, h2⟩, h3⟩ :=
        ih (fun e he => hpos e (List.mem_cons_of_mem _ he)) f h
      exact ⟨h0, ⟨lvl1, List.mem_cons_of_mem _ h1, h2⟩, h3⟩
  · intro q px lvl rest _ hc _ hpos f hf
    obtain ⟨h1, h2, h3⟩ :=
      fillFifo_fills px lvl.orders q (hpos (px, lvl) (List.mem_cons_self _ _)) f hf
    exact ⟨by rw [h1]; exact hc, ⟨lvl, by rw [h1]; exact List.mem_cons_self _ _, h2⟩, h3⟩

theorem handle_lt_of_before {pre mid post : List Node} {A B : Node}
    (hh : ((pre ++ A :: mid ++ B :: post).map (fun n => n.handle)).Pairwise
      (fun a b => a < b)) :
    ∀ x ∈ pre ++ A :: mid, x.handle < B.handle := by
  rw [List.pairwise_map, List.pairwise_append] at hh
  intro x hx
  exact hh.2.2 x hx B (List.mem_cons_self _ _)

/-- Within one FIFO, a fill of `B` comes after a complete fill of every `A` that precedes
`B`. -/
theorem fillFifo_priority (px : Price) (l : List Node) (q : Int) :
    (l.map (fun n => n.handle)).Pairwise (fun a b => a < b) →
    ∀ pre A mid B post, l = pre ++ A :: mid ++ B :: post →
      ∀ fB ∈ (fillFifo px q l).fills, fB.maker.handle = B.handle →
        ∃ fA, FillBefore fA fB (fillFifo px q l).fills ∧ fA.px = px ∧ fA.maker = A ∧
          fA.traded = A.order.quantity := by
  refine fillFifo_induct px
    (fun _ l r => (l.map (fun n => n.handle)).Pairwise (fun a b => a < b) →
      ∀ pre A mid B post, l = pre ++ A :: mid ++ B :: post →
        ∀ fB ∈ r.fills, fB.maker.handle = B.handle →
          ∃ fA, FillBefore fA fB r.fills ∧ fA.px = px ∧ fA.maker = A ∧
            fA.traded = A.order.quantity) ?_ ?_ ?_ l q
  · intro q l _ _ pre A mid B post _ fB hfB; simp at hfB
  · intro q m rest _ _ ih hh pre A mid B post hl fB hfB hB
    have hlt := handle_lt_of_before (hl ▸ hh)
    rcases List.mem_cons.mp hfB with h | h
    · subst h
      have hm : m ∈ pre ++ A :: mid := by
        cases pre with
        | nil => simp only [List.nil_append, List.cons_append, List.cons.injEq] at hl
                 rw [hl.1]; simp
        | cons p pre1 => simp only [List.cons_append, List.cons.injEq] at hl
                         rw [hl.1]; simp
      exact absurd hB (ne_of_lt (hlt m hm))
    · cases pre with
      | nil =>
        simp only [List.nil_append, List.cons_append, List.cons.injEq] at hl
        exact ⟨{ px := px, maker := m, traded := m.order.quantity }, fillBefore_head h,
          rfl, hl.1, congrArg (fun n => n.order.quantity) hl.1⟩
      | cons p pre1 =>
        simp only [List.cons_append, List.cons.injEq] at hl
        simp only [List.map_cons, List.pairwise_cons] at hh
        obtain ⟨fA, g1, g2⟩ := ih hh.2 pre1 A mid B post (by rw [hl.2]) fB h hB
        exact ⟨fA, fillBefore_cons _ g1, g2⟩
  · intro q m rest _ _ hh pre A mid B post hl fB hfB hB
    have hlt := handle_lt_of_before (hl ▸ hh)
    simp only [List.mem_singleton] at hfB
    subst hfB
    have hm : m ∈ pre ++ A :: mid := by
      cases pre with
      | nil => simp only [List.nil_append, List.cons_append, List.cons.injEq] at hl
               rw [hl.1]; simp
      | cons p pre1 => simp only [List.cons_append, List.cons.injEq] at hl
                       rw [hl.1]; simp
    exact absurd hB (ne_of_lt (hlt m hm))

/-- Across a walk, a fill of `B` at the level with key `px` comes after a complete fill of
every `A` that precedes `B` in the FIFO of that level. -/
theorem walkLevels_priority (cr : Price → Bool) (L : List (Price × LevelInfo)) (q : Int)
    (px : Price) (lvl : LevelInfo) :
    L.Pairwise (fun x y => x.1 ≠ y.1) →
    (∀ e ∈ L, (e.2.orders.map (fun n => n.handle)).Pairwise (fun a b => a < b)) →
    (∀ e ∈ L, ∀ n ∈ e.2.orders, n.order.quantity > 0) →
    (px, lvl) ∈ L →
    ∀ pre A mid B post, lvl.orders = pre ++ A :: mid ++ B :: post →
      ∀ fB ∈ (walkLevels cr q L).fills, fB.px = px → fB.maker.handle = B.handle →
        ∃ fA, FillBefore fA fB (walkLevels cr q L).fills ∧ fA.px = px ∧ fA.maker = A ∧
          fA.traded = A.order.quantity := by
  refine walkLevels_induct cr
    (fun _ L w => L.Pairwise (fun x y => x.1 ≠ y.1) →
      (∀ e ∈ L, (e.2.orders.map (fun n => n.handle)).Pairwise (fun a b => a < b)) →
      (∀ e ∈ L, ∀ n ∈ e.2.orders, n.order.quantity > 0) →
      (px, lvl) ∈ L →
      ∀ pre A mid B post, lvl.orders = pre ++ A :: mid ++ B :: post →
        ∀ fB ∈ w.fills, fB.px = px → fB.maker.handle = B.handle →
          ∃ fA, FillBefore fA fB w.fills ∧ fA.px = px ∧ fA.maker = A ∧
            fA.traded = A.order.quantity) ?_ ?_ ?_ L q
  · intro q L _ _ _ _ _ pre A mid B post _ fB hfB; simp at hfB
  · intro q px0 lvl0 rest _ _ _ ih hk hh hpos hm pre A mid B post hl fB hfB hpx hB
    rw [List.pairwise_cons] at hk
    rcases List.mem_append.mp hfB with h | h
    · have h0 := (fillFifo_fills px0 lvl0.orders q
        (hpos (px0, lvl0) (List.mem_cons_self _ _)) fB h).1
      have hpe : px0 = px := h0.symm.trans hpx
      subst hpe
      have hlv : lvl = lvl0 := by
        rcases List.mem_cons.mp hm with g | g
        · cases g; rfl
        · exact absurd rfl (hk.1 (px0, lvl) g)
      subst hlv
      obtain ⟨fA, g1, g2⟩ := fillFifo_priority px0 lvl.orders q
        (hh (px0, lvl) (List.mem_cons_self _ _)) pre A mid B post hl fB h hB
      exact ⟨fA, fillBefore_append_left _ g1, g2⟩
    · obtain ⟨_, ⟨lvl1, h1, _⟩, _⟩ := walkLevels_fills cr rest _
        (fun e he => hpos e (List.mem_cons_of_mem _ he)) fB h
      rw [hpx] at h1
      have hm1 : (px, lvl) ∈ rest := by
        rcases List.mem_cons.mp hm with g | g
        · cases g
          exact absurd rfl (hk.1 (px, lvl1) h1)
        · exact g
      obtain ⟨fA, g1, g2⟩ := ih hk.2 (fun e he => hh e (List.mem_cons_of_mem _ he))
        (fun e he => hpos e (List.mem_cons_of_mem _ he)) hm1 pre A mid B post hl fB h hpx hB
      exact ⟨fA, fillBefore_append_right _ g1, g2⟩
  · intro q px0 lvl0 rest _ _ _ hk hh hpos hm pre A mid B post hl fB hfB hpx hB
    rw [List.pairwise_cons] at hk
    have h0 := (fillFifo_fills px0 lvl0.orders q
      (hpos (px0, lvl0) (List.mem_cons_self _ _)) fB hfB).1
    have hpe : px0 = px := h0.symm.trans hpx
    subst hpe
    have hlv : lvl = lvl0 := by
      rcases List.mem_cons.mp hm with g | g
      · cases g; rfl
      · exact absurd rfl (hk.1 (px0, lvl) g)
    subst hlv
    exact fillFifo_priority px0 lvl.orders q
      (hh (px0, lvl) (List.mem_cons_self _ _)) pre A mid B post hl fB hfB hB

/-- Two nodes of a FIFO with ascending handles: the one with the smaller handle comes
first. -/
theorem split_of_handle_lt {l : List Node}
    (hh : (l.map (fun n => n.handle)).Pairwise (fun a b => a < b)) {A B : Node}
    (hA : A ∈ l) (hB : B ∈ l) (hlt : A.handle < B.handle) :
    ∃ pre mid post, l = pre ++ A :: mid ++ B :: post := by
  obtain ⟨pre, rest, hl⟩ := List.append_of_mem hA
  subst hl
  rw [List.pairwise_map, List.pairwise_append] at hh
  rcases List.mem_append.mp hB with h | h
  · have := hh.2.2 B h A (List.mem_cons_self _ _)
    omega
  · rcases List.mem_cons.mp h with h1 | h1
    · subst h1; omega
    · obtain ⟨mid, post, hr⟩ := List.append_of_mem h1
      exact ⟨pre, mid, post, by rw [hr]; simp⟩

/-! ## The trades of one call of `match` -/

theorem match_trades (side : OrderSide) (s : OrderBook) (incoming : Order)
    (hk : KeysAsc (s.opp side)) :
    (match_ side s incoming).1.trades_ = s.trades_ ++ matchTrades side s incoming := by
  unfold matchTrades matchFills
  by_cases hf : incoming.tif = TimeInForce.FOK ∧
      canFullyFill s side
        (if incoming.type = OrderType.LIMIT then some incoming.priceTicks else none)
        incoming.quantity = false
  · have : match_ side s incoming = (s, incoming) := by
      unfold match_
      simp only [hf, and_self, if_true]
    rw [this, if_pos hf]
    simp
  · have : match_ side s incoming = matchLoop side (s.opp side).length s incoming := by
      unfold match_
      simp only [hf, if_false]
    rw [this, if_neg hf]
    exact (matchLoop_spec side _ s incoming hk le_rfl).trades_eq

theorem matchFills_sub (side : OrderSide) (s : OrderBook) (incoming : Order) :
    matchFills side s incoming = [] ∨
      matchFills side s incoming =
        (walkLevels (crosses side incoming) incoming.quantity
          (bestFirst side (s.opp side))).fills := by
  by_cases hf : incoming.tif = TimeInForce.FOK ∧
      canFullyFill s side
        (if incoming.type = OrderType.LIMIT then some incoming.priceTicks else none)
        incoming.quantity = false
  · left
    unfold matchFills
    rw [if_pos hf]
  · right
    unfold matchFills
    rw [if_neg hf]

theorem inv_of_matchPoint {s : OrderBook} (h : MatchPoint s) : Inv s := by
  cases h with
  | reach hr => exact inv_of_reachable hr
  | add o hr => exact inv_bumpNextId (inv_of_reachable hr) o
  | modify orderId e lvl n hr h1 h2 h3 =>
    exact inv_unlinkResting (inv_of_reachable hr) h1 h2 h3

theorem reachable_exTwoBids : Reachable exTwoBids :=
  Reachable.add _ (Reachable.add _ (Reachable.init true))

theorem reachable_exTwoAsks : Reachable exTwoAsks :=
  Reachable.add _ (Reachable.add _ (Reachable.init true))

/-- C4. Price-time priority.  Handles are issued by `restOrder` from the counter
`nextNode`, so `A.handle < B.handle` says that `A` was rested before `B`; a cancelled or
modified order leaves its node, so two nodes found in one FIFO are orders that were
neither cancelled nor modified since they rested.  In every book on which the dispatcher
calls `match` (every reachable book is one), for two nodes `A`, `B` of the same level
(same side, same price) with `A` rested before `B`:
`A` precedes `B` in the FIFO, and for every later aggressor the fills `match` makes (whose
trades are exactly what the call appends to the trade log) contain a fill of `B` only
after a fill of `A` for the whole quantity of `A`. -/
theorem price_time_priority (s : OrderBook) (hs : MatchPoint s) (side : OrderSide)
    (px : Price) (lvl : LevelInfo) (hf : (s.opp side).find px = some lvl) (A B : Node)
    (hA : A ∈ lvl.orders) (hB : B ∈ lvl.orders) (hAB : A.handle < B.handle) :
    (∃ pre mid post, lvl.orders = pre ++ A :: mid ++ B :: post) ∧
    ∀ incoming : Order,
      (match_ side s incoming).1.trades_ =
        s.trades_ ++ (matchFills side s incoming).map
          (Fill.toTrade side incoming.timestamp incoming.id) ∧
      ∀ fB ∈ matchFills side s incoming, fB.px = px → fB.maker.handle = B.handle →
        ∃ fA, FillBefore fA fB (matchFills side s incoming) ∧ fA.px = px ∧ fA.maker = A ∧
          fA.traded = A.order.quantity := by
  have hi := inv_of_matchPoint hs
  have ho := hi.oppOk side
  have hlv := ho.2 (px, lvl) (mem_of_find hf)
  obtain ⟨pre, mid, post, hl⟩ := split_of_handle_lt hlv.2.2.2 hA hB hAB
  refine ⟨⟨pre, mid, post, hl⟩, ?_⟩
  intro incoming
  refine ⟨match_trades side s incoming ho.1, ?_⟩
  intro fB hfB hpx hh
  rcases matchFills_sub side s incoming with h0 | h0
  · rw [h0] at hfB; simp at hfB
  · rw [h0] at hfB ⊢
    exact walkLevels_priority _ _ _ px lvl (keys_ne_bestFirst ho.1)
      (fun e he => (ho.2 e (mem_bestFirst.mp he)).2.2.2)
      (fun e he n hn => ((ho.2 e (mem_bestFirst.mp he)).2.2.1 n hn).1)
      (mem_bestFirst.mpr (mem_of_find hf)) pre A mid B post hl fB hfB hpx hh

theorem price_time_priority_witness :
    Reachable exTwoBids ∧
    (exTwoBids.opp OrderSide.SELL).find 9900 =
      some { orders := [exNodeA, exNodeB], totalQty := 10 } ∧
    (match_ OrderSide.SELL exTwoBids
        { id := 3, timestamp := "t3", side := .SELL, type := .LIMIT, tif := .GTC,
          priceTicks := 9900, quantity := 7 }).1.trades_ =
      [{ timestamp := "t3", priceTicks := 9900, quantity := 5, buyId := 1, sellId := 3 },
       { timestamp := "t3", priceTicks := 9900, quantity := 2, buyId := 2, sellId := 3 }] ∧
    ((∃ pre mid post, [exNodeA, exNodeB] = pre ++ exNodeA :: mid ++ exNodeB :: post) ∧
      ∀ incoming : Order,
        (match_ OrderSide.SELL exTwoBids incoming).1.trades_ =
          exTwoBids.trades_ ++ (matchFills OrderSide.SELL exTwoBids incoming).map
            (Fill.toTrade OrderSide.SELL incoming.timestamp incoming.id) ∧
        ∀ fB ∈ matchFills OrderSide.SELL exTwoBids incoming, fB.px = 9900 →
          fB.maker.handle = exNodeB.handle →
          ∃ fA, FillBefore fA fB (matchFills OrderSide.SELL exTwoBids incoming) ∧
            fA.px = 9900 ∧ fA.maker = exNodeA ∧ fA.traded = exNodeA.order.quantity) :=
  ⟨reachable_exTwoBids, by decide, by decide,
    price_time_priority exTwoBids (MatchPoint.reach reachable_exTwoBids) OrderSide.SELL 9900
      { orders := [exNodeA, exNodeB], totalQty := 10 } (by decide) exNodeA exNodeB
      (by decide) (by decide) (by decide)⟩

/-- Every call of `logTrade` that `match` makes, on any book on which the dispatcher
calls it, passes a quantity above 0 and, as `pxTicks`, the `priceTicks` of the resting
maker order the fill is against (a node of the opposite side as it stood before the
call; the tick is also the key of its level); `buyId` and `sellId` are the aggressor's
and the maker's ids for a BUY aggressor, and the other way round for a SELL aggressor. -/
theorem matchTrades_maker (s : OrderBook) (hs : MatchPoint s) (side : OrderSide)
    (incoming : Order) :
    (match_ side s incoming).1.trades_ = s.trades_ ++ matchTrades side s incoming ∧
    ∀ t ∈ matchTrades side s incoming,
      t.quantity > 0 ∧
      ∃ px lvl maker, (s.opp side).find px = some lvl ∧ maker ∈ lvl.orders ∧
        t.priceTicks = maker.order.priceTicks ∧ t.priceTicks = px ∧
        (side = OrderSide.BUY → t.buyId = incoming.id ∧ t.sellId = maker.order.id) ∧
        (side = OrderSide.SELL → t.buyId = maker.order.id ∧ t.sellId = incoming.id) := by
  have hi := inv_of_matchPoint hs
  have ho := hi.oppOk side
  refine ⟨match_trades side s incoming ho.1, ?_⟩
  intro t ht
  unfold matchTrades at ht
  obtain ⟨f, hf, hft⟩ := List.mem_map.mp ht
  rcases matchFills_sub side s incoming with h0 | h0
  · rw [h0] at hf; simp at hf
  · rw [h0] at hf
    obtain ⟨_, ⟨lvl, h1, h2⟩, h3, _⟩ := walkLevels_fills _ _ _
      (fun e he n hn => ((ho.2 e (mem_bestFirst.mp he)).2.2.1 n hn).1) f hf
    have hmem := mem_bestFirst.mp h1
    have hnode := (ho.2 (f.px, lvl) hmem).2.2.1 f.maker h2
    subst hft
    refine ⟨?_, f.px, lvl, f.maker, find_of_mem ho.1 hmem, h2, ?_, ?_, ?_, ?_⟩
    · cases side <;> exact h3
    · cases side <;> exact hnode.2.1.symm
    · cases side <;> rfl
    · intro hsd; subst hsd; exact ⟨rfl, rfl⟩
    · intro hsd; subst hsd; exact ⟨rfl, rfl⟩

/-! ## How much a walk fills -/

theorem crosses_eq_priceAcceptable (o : Order) :
    crosses o.side o = priceAcceptable o := by
  funext px
  unfold crosses priceAcceptable
  cases h1 : o.type <;> cases h2 : o.side <;> simp

theorem depthWhere_nil (cr : Price → Bool) : depthWhere cr [] = 0 := rfl

theorem depthWhere_cons (cr : Price → Bool) (e : Price × LevelInfo)
    (rest : List (Price × LevelInfo)) :
    depthWhere cr (e :: rest) =
      (if cr e.1 = true then e.2.totalQty else 0) + depthWhere cr rest := by
  unfold depthWhere
  by_cases h : cr e.1 = true <;> simp [List.filter_cons, h]

theorem depthWhere_reverse (cr : Price → Bool) (L : List (Price × LevelInfo)) :
    depthWhere cr L.reverse = depthWhere cr L := by
  unfold depthWhere
  rw [List.filter_reverse, List.map_reverse, List.sum_reverse]

theorem depthWhere_bestFirst (cr : Price → Bool) (side : OrderSide) (b : BookSide) :
    depthWhere cr (bestFirst side b) = depthWhere cr b := by
  cases side
  · rfl
  · exact depthWhere_reverse cr b

theorem depthWhere_nonneg (cr : Price → Bool) (L : List (Price × LevelInfo))
    (h : ∀ e ∈ L, 0 ≤ e.2.totalQty) : 0 ≤ depthWhere cr L := by
  induction L with
  | nil => simp [depthWhere]
  | cons e rest ih =>
    rw [depthWhere_cons]
    have h1 := h e (List.mem_cons_self _ _)
    have h2 := ih (fun x hx => h x (List.mem_cons_of_mem _ hx))
    split <;> omega

theorem depthWhere_eq_zero (cr : Price → Bool) (L : List (Price × LevelInfo))
    (h : ∀ e ∈ L, cr e.1 = false) : depthWhere cr L = 0 := by
  induction L with
  | nil => rfl
  | cons e rest ih =>
    rw [depthWhere_cons, ih (fun x hx => h x (List.mem_cons_of_mem _ hx))]
    simp [h e (List.mem_cons_self _ _)]

theorem qtySum_nonneg (l : List Node) (h : ∀ n ∈ l, n.order.quantity > 0) : 0 ≤ qtySum l := by
  induction l with
  | nil => simp [qtySum]
  | cons m rest ih =>
    rw [qtySum_cons]
    have h1 := h m (List.mem_cons_self _ _)
    have h2 := ih (fun x hx => h x (List.mem_cons_of_mem _ hx))
    omega

theorem qtySum_pos (l : List Node) (hne : l ≠ []) (h : ∀ n ∈ l, n.order.quantity > 0) :
    0 < qtySum l := by
  cases l with
  | nil => exact absurd rfl hne
  | cons m rest =>
    rw [qtySum_cons]
    have h1 := h m (List.mem_cons_self _ _)
    have h2 := qtySum_nonneg rest (fun x hx => h x (List.mem_cons_of_mem _ hx))
    omega

/-- One FIFO gives the aggressor the smaller of what it wants and what the FIFO holds. -/
theorem fillFifo_fillSum (px : Price) (l : List Node) (q : Int) :
    0 ≤ q → (∀ n ∈ l, n.order.quantity > 0) →
      fillSum (fillFifo px q l).fills = min q (qtySum l) := by
  refine fillFifo_induct px
    (fun q l r => 0 ≤ q → (∀ n ∈ l, n.order.quantity > 0) →
      fillSum r.fills = min q (qtySum l)) ?_ ?_ ?_ l q
  · intro q l h hq hpos
    have h2 := qtySum_nonneg l hpos
    rcases h with h | h
    · have : q = 0 := le_antisymm h hq
      subst this
      simp [fillSum, h2]
    · subst h
      simp [fillSum, qtySum, hq]
  · intro q m rest _ hle ih hq hpos
    have h1 := ih (by omega) (fun n hn => hpos n (List.mem_cons_of_mem _ hn))
    rw [fillSum_cons, h1, qtySum_cons]
    simp only
    rcases le_total (q - m.order.quantity) (qtySum rest) with h | h
    · rw [min_eq_left h, min_eq_left (by omega)]; ring
    · rw [min_eq_right h, min_eq_right (by omega)]
  · intro q m rest _ hlt hq hpos
    have h2 := qtySum_nonneg rest (fun n hn => hpos n (List.mem_cons_of_mem _ hn))
    rw [qtySum_cons]
    simp only [fillSum, List.map_cons, List.map_nil, List.sum_cons, List.sum_nil, add_zero]
    rw [min_eq_left (by omega)]

/-- A walk gives the aggressor the smaller of what it wants and what the crossing levels
hold, when the crossing levels come first. -/
theorem walkLevels_fillSum (cr : Price → Bool) (L : List (Price × LevelInfo)) (q : Int) :
    0 ≤ q →
    (∀ e ∈ L, e.2.orders ≠ [] ∧ e.2.totalQty = qtySum e.2.orders ∧
      ∀ n ∈ e.2.orders, n.order.quantity > 0) →
    L.Pairwise (fun x y => cr x.1 = false → cr y.1 = false) →
    fillSum (walkLevels cr q L).fills = min q (depthWhere cr L) := by
  refine walkLevels_induct cr
    (fun q L w => 0 ≤ q →
      (∀ e ∈ L, e.2.orders ≠ [] ∧ e.2.totalQty = qtySum e.2.orders ∧
        ∀ n ∈ e.2.orders, n.order.quantity > 0) →
      L.Pairwise (fun x y => cr x.1 = false → cr y.1 = false) →
      fillSum w.fills = min q (depthWhere cr L)) ?_ ?_ ?_ L q
  · intro q L h hq hok hpw
    have hd : 0 ≤ depthWhere cr L := depthWhere_nonneg cr L (fun e he => by
      rw [(hok e he).2.1]; exact qtySum_nonneg _ (hok e he).2.2)
    rcases h with h | h | ⟨e, rest, h1, h2⟩
    · have : q = 0 := le_antisymm h hq
      subst this
      simp [fillSum, hd]
    · subst h
      simp [fillSum, depthWhere, hq]
    · subst h1
      rw [List.pairwise_cons] at hpw
      have hz : depthWhere cr (e :: rest) = 0 := by
        refine depthWhere_eq_zero cr _ ?_
        intro x hx
        rcases List.mem_cons.mp hx with g | g
        · rw [g]; exact h2
        · exact hpw.1 x g h2
      rw [hz]
      simp [fillSum, hq]
  · intro q px lvl rest hq0 hc he ih hq hok hpw
    rw [List.pairwise_cons] at hpw
    obtain ⟨_, htot, hpos⟩ := hok (px, lvl) (List.mem_cons_self _ _)
    simp only at htot hpos
    have h1 := fillFifo_fillSum px lvl.orders q hq hpos
    have h2 := fillFifo_qtySum px lvl.orders q
    have h3 := fillFifo_residual px lvl.orders q
    rw [he] at h2
    simp only [qtySum, List.map_nil, List.sum_nil] at h2
    have hpos2 := qtySum_nonneg lvl.orders hpos
    have hres : 0 ≤ (fillFifo px q lvl.orders).residual := by
      rw [h3, h1]
      have := min_le_left q (qtySum lvl.orders)
      omega
    have h4 := ih hres (fun e he => hok e (List.mem_cons_of_mem _ he)) hpw.2
    have hqs : qtySum lvl.orders = fillSum (fillFifo px q lvl.orders).fills := by
      have : qtySum lvl.orders = (lvl.orders.map (fun n => n.order.quantity)).sum := rfl
      omega
    rw [fillSum_append, h4, depthWhere_cons]
    simp only [hc, if_true, htot]
    rw [h3]
    have hd : 0 ≤ depthWhere cr rest := depthWhere_nonneg cr rest (fun e he => by
      rw [(hok e (List.mem_cons_of_mem _ he)).2.1]
      exact qtySum_nonneg _ (hok e (List.mem_cons_of_mem _ he)).2.2)
    have hle : fillSum (fillFifo px q lvl.orders).fills ≤ q := by
      rw [h1]; exact min_le_left _ _
    rcases le_total (q - fillSum (fillFifo px q lvl.orders).fills) (depthWhere cr rest)
      with h | h
    · rw [min_eq_left h, min_eq_left (by omega)]; ring
    · rw [min_eq_right h, min_eq_right (by omega)]; omega
  · intro q px lvl rest hq0 hc he hq hok hpw
    obtain ⟨_, htot, hpos⟩ := hok (px, lvl) (List.mem_cons_self _ _)
    simp only at htot hpos
    have h1 := fillFifo_fillSum px lvl.orders q hq hpos
    have h3 := fillFifo_residual px lvl.orders q
    have h5 := fillFifo_residual_nonpos px lvl.orders q he
    have hd : 0 ≤ depthWhere cr rest := depthWhere_nonneg cr rest (fun e he => by
      rw [(hok e (List.mem_cons_of_mem _ he)).2.1]
      exact qtySum_nonneg _ (hok e (List.mem_cons_of_mem _ he)).2.2)
    rw [depthWhere_cons]
    simp only [hc, if_true, htot]
    have hle : fillSum (fillFifo px q lvl.orders).fills ≤ q := by
      rw [h1]; exact min_le_left _ _
    have hle2 : fillSum (fillFifo px q lvl.orders).fills ≤ qtySum lvl.orders := by
      rw [h1]; exact min_le_right _ _
    rw [min_eq_left (by omega)]
    omega

/-! ## The FOK pre-check -/

theorem canFullyFill_eq (s : OrderBook) (side : OrderSide) (lim : Option Price) (q : Int) :
    canFullyFill s side lim q =
      decide (canFullyFillWalk side lim (bestFirst side (s.opp side)) q ≤ 0) := by
  cases side <;> rfl

theorem crosses_mono {side : OrderSide} {incoming : Order} {x y : Price}
    (h : crosses side incoming x = false) (hxy : pxBefore side x y) :
    crosses side incoming y = false := by
  unfold crosses at h ⊢
  by_cases ht : incoming.type = OrderType.MARKET
  · simp [ht] at h
  · rw [if_neg ht] at h ⊢
    cases side
    · have h1 : ¬ x ≤ incoming.priceTicks := by simpa using h
      have h2 : x < y := hxy
      have h3 : ¬ y ≤ incoming.priceTicks := not_le.mpr (lt_trans (not_le.mp h1) h2)
      simpa using h3
    · have h1 : ¬ x ≥ incoming.priceTicks := by simpa using h
      have h2 : y < x := hxy
      have h3 : ¬ y ≥ incoming.priceTicks := not_le.mpr (lt_trans h2 (not_le.mp h1))
      simpa using h3

theorem pastLimit_eq (side : OrderSide) (incoming : Order) (px : Price) :
    pastLimit side (fokLimit incoming) px = !crosses side incoming px := by
  unfold pastLimit fokLimit crosses
  cases ht : incoming.type
  · cases side
    · simp only [if_true]
      by_cases h : px ≤ incoming.priceTicks
      · simp [h, not_lt.mpr h]
      · simp [h, not_le.mp h]
    · simp only [if_true]
      by_cases h : px ≥ incoming.priceTicks
      · simp [h, not_lt.mpr h]
      · simp [h, not_le.mp h]
  · cases side <;> simp

theorem crPrefix_bestFirst (side : OrderSide) (incoming : Order) {b : BookSide}
    (hk : KeysAsc b) :
    (bestFirst side b).Pairwise
      (fun x y => crosses side incoming x.1 = false → crosses side incoming y.1 = false) := by
  have h := (keysAsc_bestFirst side (bestFirst side b)).mp (by rw [bestFirst_bestFirst]; exact hk)
  exact List.Pairwise.imp (fun hxy hx => crosses_mono hx hxy) h

/-- The walk of `canFullyFill` ends with `need <= 0` exactly when the crossing levels
hold at least `need`. -/
theorem canFullyFillWalk_spec (side : OrderSide) (incoming : Order) :
    ∀ (L : List (Price × LevelInfo)) (need : Int),
      (∀ e ∈ L, 0 ≤ e.2.totalQty) →
      L.Pairwise
        (fun x y => crosses side incoming x.1 = false → crosses side incoming y.1 = false) →
      (canFullyFillWalk side (fokLimit incoming) L need ≤ 0 ↔
        need ≤ depthWhere (crosses side incoming) L) := by
  intro L
  induction L with
  | nil =>
    intro need _ _
    simp [canFullyFillWalk, depthWhere]
  | cons e rest ih =>
    intro need hnn hpw
    obtain ⟨px, lvl⟩ := e
    rw [List.pairwise_cons] at hpw
    have hd : 0 ≤ depthWhere (crosses side incoming) ((px, lvl) :: rest) :=
      depthWhere_nonneg _ _ hnn
    by_cases hneed : need > 0
    · have hworse := pastLimit_eq side incoming px
      by_cases hc : crosses side incoming px = true
      · have h1 : canFullyFillWalk side (fokLimit incoming) ((px, lvl) :: rest) need =
            canFullyFillWalk side (fokLimit incoming) rest (need - lvl.totalQty) := by
          simp only [canFullyFillWalk, hneed, if_true, hworse, hc, Bool.not_true,
            Bool.false_eq_true, if_false]
        rw [h1, ih _ (fun x hx => hnn x (List.mem_cons_of_mem _ hx)) hpw.2, depthWhere_cons]
        simp only [hc, if_true]
        constructor <;> intro h <;> omega
      · have hc' : crosses side incoming px = false := by simpa using hc
        have h1 : canFullyFillWalk side (fokLimit incoming) ((px, lvl) :: rest) need =
            need := by
          simp only [canFullyFillWalk, hneed, if_true, hworse, hc', Bool.not_false]
        have hz : depthWhere (crosses side incoming) ((px, lvl) :: rest) = 0 := by
          refine depthWhere_eq_zero _ _ ?_
          intro x hx
          rcases List.mem_cons.mp hx with g | g
          · rw [g]; exact hc'
          · exact hpw.1 x g hc'
        rw [h1, hz]
    · have h1 : canFullyFillWalk side (fokLimit incoming) ((px, lvl) :: rest) need =
          need := by
        simp only [canFullyFillWalk, hneed, if_false]
      rw [h1]
      constructor <;> intro _ <;> omega

theorem levels_ok_of_sideOk {side : OrderSide} {bound : Nat} {b : BookSide}
    (h : SideOk side bound b) :
    ∀ e ∈ b, e.2.orders ≠ [] ∧ e.2.totalQty = qtySum e.2.orders ∧
      ∀ n ∈ e.2.orders, n.order.quantity > 0 :=
  fun e he => ⟨(h.2 e he).1, (h.2 e he).2.1, fun n hn => ((h.2 e he).2.2.1 n hn).1⟩

theorem totals_nonneg_of_sideOk {side : OrderSide} {bound : Nat} {b : BookSide}
    (h : SideOk side bound b) : ∀ e ∈ b, 0 ≤ e.2.totalQty := by
  intro e he
  rw [(h.2 e he).2.1]
  exact qtySum_nonneg _ (fun n hn => ((h.2 e he).2.2.1 n hn).1)

/-- On a well-formed book the FOK pre-check succeeds exactly when the crossing levels of
the opposite side hold at least `qty`. -/
theorem canFullyFill_iff {s : OrderBook} (hs : Inv s) (side : OrderSide) (incoming : Order)
    (q : Int) :
    canFullyFill s side (fokLimit incoming) q = true ↔
      q ≤ depthWhere (crosses side incoming) (s.opp side) := by
  have ho := hs.oppOk side
  rw [canFullyFill_eq, decide_eq_true_iff,
    canFullyFillWalk_spec side incoming _ q
      (fun e he => totals_nonneg_of_sideOk ho e (mem_bestFirst.mp he))
      (crPrefix_bestFirst side incoming ho.1),
    depthWhere_bestFirst]

/-- On a well-formed book the walk of `match` trades the smaller of the aggressor's
quantity and the depth of the crossing levels. -/
theorem walk_fillSum_of_inv {s : OrderBook} (hs : Inv s) (side : OrderSide)
    (incoming : Order) (hq : 0 ≤ incoming.quantity) :
    fillSum (walkLevels (crosses side incoming) incoming.quantity
        (bestFirst side (s.opp side))).fills =
      min incoming.quantity (depthWhere (crosses side incoming) (s.opp side)) := by
  have ho := hs.oppOk side
  rw [walkLevels_fillSum _ _ _ hq
      (fun e he => levels_ok_of_sideOk ho e (mem_bestFirst.mp he))
      (crPrefix_bestFirst side incoming ho.1),
    depthWhere_bestFirst]

theorem quantity_sum_toTrade (side : OrderSide) (ts : String) (i : Int) (fills : List Fill) :
    ((fills.map (Fill.toTrade side ts i)).map (fun t => t.quantity)).sum = fillSum fills := by
  unfold fillSum
  rw [List.map_map]
  congr 1
  apply List.map_congr_left
  intro f _
  cases side <;> rfl

theorem matchFills_fok_fail {side : OrderSide} {s : OrderBook} {incoming : Order}
    (ht : incoming.tif = TimeInForce.FOK)
    (hc : canFullyFill s side (fokLimit incoming) incoming.quantity = false) :
    matchFills side s incoming = [] := by
  unfold matchFills
  rw [if_pos ⟨ht, hc⟩]

theorem matchFills_pass {side : OrderSide} {s : OrderBook} {incoming : Order}
    (hc : ¬ (incoming.tif = TimeInForce.FOK ∧
      canFullyFill s side (fokLimit incoming) incoming.quantity = false)) :
    matchFills side s incoming =
      (walkLevels (crosses side incoming) incoming.quantity
        (bestFirst side (s.opp side))).fills := by
  unfold matchFills
  unfold fokLimit at hc
  rw [if_neg hc]

/-! ## Facts about `assignId` and `bumpNextId` -/

theorem assignId_fields (s : OrderBook) (o : Order) :
    (assignId s o).side = o.side ∧ (assignId s o).type = o.type ∧
      (assignId s o).tif = o.tif ∧ (assignId s o).priceTicks = o.priceTicks ∧
      (assignId s o).quantity = o.quantity ∧ (assignId s o).timestamp = o.timestamp := by
  unfold assignId
  split <;> exact ⟨rfl, rfl, rfl, rfl, rfl, rfl⟩

theorem crosses_assignId (side : OrderSide) (s : OrderBook) (o : Order) :
    crosses side (assignId s o) = crosses side o := by
  funext px
  unfold assignId
  split <;> rfl

theorem opp_bumpNextId (s : OrderBook) (o : Order) (side : OrderSide) :
    (bumpNextId s o).opp side = s.opp side := by
  unfold bumpNextId
  split <;> cases side <;> rfl

theorem book_bumpNextId (s : OrderBook) (o : Order) (side : OrderSide) :
    (bumpNextId s o).book side = s.book side := by
  unfold bumpNextId
  split <;> cases side <;> rfl

theorem index_sub_of_match (side : OrderSide) (s : OrderBook) (incoming : Order)
    (hk : KeysAsc (s.opp side)) (id : Int) (e : IndexEntry)
    (h : (match_ side s incoming).1.idIndex_.find id = some e) :
    s.idIndex_.find id = some e := by
  rcases match_cases side s incoming hk with ⟨_, h1⟩ | h1
  · rw [h1] at h; exact h
  · rw [h1.index_eq, index_find_eraseIds] at h
    split at h
    · simp at h
    · exact h

/-! ## FOK orders -/

/-- For a FOK aggressor with positive quantity on a well-formed book, `match` trades
nothing or the whole quantity, and nothing exactly when the crossing depth is short. -/
theorem fok_match {s : OrderBook} (hs : Inv s) (side : OrderSide) (incoming : Order)
    (htif : incoming.tif = TimeInForce.FOK) (hq : incoming.quantity > 0) :
    (matchTrades side s incoming = [] ∨
      ((matchTrades side s incoming).map (fun t => t.quantity)).sum = incoming.quantity) ∧
    (matchTrades side s incoming = [] ↔
      depthWhere (crosses side incoming) (s.opp side) < incoming.quantity) := by
  have hiff := canFullyFill_iff hs side incoming incoming.quantity
  by_cases hc : canFullyFill s side (fokLimit incoming) incoming.quantity = false
  · have hT : matchTrades side s incoming = [] := by
      unfold matchTrades
      rw [matchFills_fok_fail htif hc]
      rfl
    have hd : depthWhere (crosses side incoming) (s.opp side) < incoming.quantity := by
      rcases lt_or_ge (depthWhere (crosses side incoming) (s.opp side)) incoming.quantity
        with h | h
      · exact h
      · rw [hiff.mpr h] at hc
        simp at hc
    exact ⟨Or.inl hT, ⟨fun _ => hd, fun _ => hT⟩⟩
  · have hc1 : canFullyFill s side (fokLimit incoming) incoming.quantity = true := by
      simpa using hc
    have hle := hiff.mp hc1
    have hsum : ((matchTrades side s incoming).map (fun t => t.quantity)).sum =
        incoming.quantity := by
      unfold matchTrades
      rw [matchFills_pass (fun h => hc h.2), quantity_sum_toTrade,
        walk_fillSum_of_inv hs side incoming (le_of_lt hq), min_eq_left hle]
    refine ⟨Or.inr hsum, ⟨?_, ?_⟩⟩
    · intro hT
      rw [hT] at hsum
      simp only [List.map_nil, List.sum_nil] at hsum
      rw [← hsum] at hq
      exact absurd hq (lt_irrefl _)
    · intro hd
      exact absurd hle (not_le.mpr hd)

theorem addCore_no_rest {s : OrderBook} (hs : Inv s) (o : Order)
    (h : o.type = OrderType.MARKET ∨ o.tif = TimeInForce.IOC ∨ o.tif = TimeInForce.FOK) :
    addCore s o = (match_ (assignId s o).side (bumpNextId s o) (assignId s o)).1 := by
  have hs0 := inv_bumpNextId hs o
  have hk := (hs0.oppOk (assignId s o).side).1
  obtain ⟨q, hq⟩ := match_incoming (assignId s o).side (bumpNextId s o) (assignId s o) hk
  obtain ⟨_, f2, f3, _⟩ := assignId_fields s o
  unfold addCore
  simp only
  rw [if_neg]
  rw [hq]
  simp only [f2, f3]
  rcases h with h | h | h
  · simp [h]
  · simp [h]
  · simp [h]

theorem trades_addOrder (s : OrderBook) (o : Order) :
    (addOrder s o).2.trades_ = (addCore s o).trades_ := by
  rw [addOrder_eq]
  simp

theorem book_addOrder (s : OrderBook) (o : Order) (sd : OrderSide) :
    (addOrder s o).2.book sd = (addCore s o).book sd := by
  rw [addOrder_eq]
  simp

theorem nextNode_addOrder (s : OrderBook) (o : Order) :
    (addOrder s o).2.nextNode = (addCore s o).nextNode := by
  rw [addOrder_eq]
  simp

theorem idIndex_addOrder (s : OrderBook) (o : Order) :
    (addOrder s o).2.idIndex_ = (addCore s o).idIndex_ := by
  rw [addOrder_eq]
  simp

/-- What `addOrder` does with an order that must not rest: it only runs `match`. -/
theorem addOrder_no_rest {s : OrderBook} (hs : Inv s) (o : Order)
    (h : o.type = OrderType.MARKET ∨ o.tif = TimeInForce.IOC ∨ o.tif = TimeInForce.FOK) :
    (addOrder s o).2.trades_ = s.trades_ ++ matchTrades o.side (bumpNextId s o) (assignId s o) ∧
    (addOrder s o).2.book o.side = s.book o.side ∧
    (addOrder s o).2.nextNode = s.nextNode ∧
    ∀ id e, (addOrder s o).2.idIndex_.find id = some e → s.idIndex_.find id = some e := by
  have hs0 := inv_bumpNextId hs o
  have hk := (hs0.oppOk (assignId s o).side).1
  obtain ⟨f1, _⟩ := assignId_fields s o
  have hcore := addCore_no_rest hs o h
  refine ⟨?_, ?_, ?_, ?_⟩
  · rw [trades_addOrder, hcore, match_trades _ _ _ hk, trades_bumpNextId, f1]
  · rw [book_addOrder, hcore, ← f1, match_book _ _ _ hk, book_bumpNextId]
  · rw [nextNode_addOrder, hcore, nextNode_of_aux (match_aux _ _ _ hk), nextNode_bumpNextId]
  · intro id e hf
    rw [idIndex_addOrder, hcore] at hf
    have := index_sub_of_match _ _ _ hk id e hf
    rw [idIndex_bumpNextId] at this
    exact this

/-- With the level totals and `need` computed exactly: for every reachable state and
every order with `tif == FOK` and quantity `q > 0` (LIMIT or MARKET), the trades `T` that
`addOrder` appends to the trade log are either none at all or have quantities summing to
exactly `q`; there are none exactly when the opposing side holds fewer than `q` units at
prices no worse than the limit (any price for MARKET); and the order never rests: its
own side of the book is unchanged, no list node is created and no index entry is added.
For the pre-check of the program on a level whose total has left the `int` range see
`fok_refused_despite_depth`. -/
theorem fok_all_or_nothing (s : OrderBook) (hs : Reachable s) (o : Order)
    (htif : o.tif = TimeInForce.FOK) (hq : o.quantity > 0) :
    ∃ T : List Trade,
      (addOrder s o).2.trades_ = s.trades_ ++ T ∧
      (T = [] ∨ (T.map (fun t => t.quantity)).sum = o.quantity) ∧
      (T = [] ↔ acceptableDepth o (s.opp o.side) < o.quantity) ∧
      (addOrder s o).2.book o.side = s.book o.side ∧
      (addOrder s o).2.nextNode = s.nextNode ∧
      ∀ id e, (addOrder s o).2.idIndex_.find id = some e →
        s.idIndex_.find id = some e := by
  have hi := inv_of_reachable hs
  have hs0 := inv_bumpNextId hi o
  obtain ⟨f1, f2, f3, f4, f5, f6⟩ := assignId_fields s o
  obtain ⟨g1, g2, g3, g4⟩ := addOrder_no_rest hi o (Or.inr (Or.inr htif))
  have hm := fok_match hs0 o.side (assignId s o) (by rw [f3]; exact htif) (by rw [f5]; exact hq)
  rw [f5, crosses_assignId, opp_bumpNextId, crosses_eq_priceAcceptable] at hm
  exact ⟨_, g1, hm.1, hm.2, g2, g3, g4⟩

theorem fok_all_or_nothing_witness :
    Reachable exAskTwo ∧
    (addOrder exAskTwo exFokBuy).2.trades_ = [] ∧
    acceptableDepth exFokBuy (exAskTwo.opp OrderSide.BUY) = 2 ∧
    ∃ T : List Trade,
      (addOrder exAskTwo exFokBuy).2.trades_ = exAskTwo.trades_ ++ T ∧
      (T = [] ∨ (T.map (fun t => t.quantity)).sum = exFokBuy.quantity) ∧
      (T = [] ↔ acceptableDepth exFokBuy (exAskTwo.opp exFokBuy.side) < exFokBuy.quantity) ∧
      (addOrder exAskTwo exFokBuy).2.book exFokBuy.side = exAskTwo.book exFokBuy.side ∧
      (addOrder exAskTwo exFokBuy).2.nextNode = exAskTwo.nextNode ∧
      ∀ id e, (addOrder exAskTwo exFokBuy).2.idIndex_.find id = some e →
        exAskTwo.idIndex_.find id = some e :=
  ⟨Reachable.add _ (Reachable.init true), by decide, by decide,
    fok_all_or_nothing exAskTwo (Reachable.add _ (Reachable.init true)) exFokBuy
      (by decide) (by decide)⟩

/-! ## A FOK order whose pre-check fails -/

theorem match_fok_fail (side : OrderSide) (s : OrderBook) (incoming : Order)
    (ht : incoming.tif = TimeInForce.FOK)
    (hc : canFullyFill s side (fokLimit incoming) incoming.quantity = false) :
    match_ side s incoming = (s, incoming) := by
  unfold fokLimit at hc
  unfold match_
  simp only [ht, hc, and_self, if_true]

@[simp] theorem topOfBook_emitQuote (s : OrderBook) (ts : String) :
    (emitQuoteIfChanged s ts).topOfBook = s.topOfBook := by
  unfold emitQuoteIfChanged
  dsimp only
  split_ifs <;> rfl

theorem topOfBook_bumpNextId (s : OrderBook) (o : Order) :
    (bumpNextId s o).topOfBook = s.topOfBook := by
  unfold bumpNextId
  split <;> rfl

theorem canFullyFill_bumpNextId (s : OrderBook) (o : Order) (side : OrderSide)
    (lim : Option Price) (q : Int) :
    canFullyFill (bumpNextId s o) side lim q = canFullyFill s side lim q := by
  rw [canFullyFill_eq, canFullyFill_eq, opp_bumpNextId]

theorem fokLimit_assignId (s : OrderBook) (o : Order) :
    fokLimit (assignId s o) = fokLimit o := by
  unfold assignId
  split <;> rfl

/-- C7. A FOK order whose pre-check fails leaves the book unchanged: for every state (in
particular every reachable one) and every FOK order for which `canFullyFill` is false,
after `addOrder` the bid levels, the ask levels, the order index, the cached top-of-book
and the trade log are identical to those before the call. -/
theorem fok_fail_unchanged (s : OrderBook) (o : Order) (htif : o.tif = TimeInForce.FOK)
    (hc : canFullyFill s o.side (fokLimit o) o.quantity = false) :
    (addOrder s o).2.bids_ = s.bids_ ∧ (addOrder s o).2.asks_ = s.asks_ ∧
      (addOrder s o).2.idIndex_ = s.idIndex_ ∧
      (addOrder s o).2.topOfBook = s.topOfBook ∧
      (addOrder s o).2.trades_ = s.trades_ := by
  obtain ⟨f1, f2, f3, f4, f5, f6⟩ := assignId_fields s o
  have hm : match_ (assignId s o).side (bumpNextId s o) (assignId s o) =
      (bumpNextId s o, assignId s o) := by
    refine match_fok_fail _ _ _ (by rw [f3]; exact htif) ?_
    rw [canFullyFill_bumpNextId, fokLimit_assignId, f1, f5]
    exact hc
  have hcore : addCore s o = bumpNextId s o := by
    unfold addCore
    simp only [hm, f3, htif, ne_eq, not_true_eq_false, and_false, if_false]
  rw [addOrder_eq, hcore]
  refine ⟨?_, ?_, ?_, ?_, ?_⟩
  · rw [bids_emitQuote, bids_bumpNextId]
  · rw [asks_emitQuote, asks_bumpNextId]
  · rw [idIndex_emitQuote, idIndex_bumpNextId]
  · rw [topOfBook_emitQuote, topOfBook_bumpNextId]
  · rw [trades_emitQuote, trades_bumpNextId]

theorem fok_fail_unchanged_witness :
    exBookB.asks_.map (fun e => (e.1, e.2.totalQty)) = [(10050, 2)] ∧
    exFokBuy.tif = TimeInForce.FOK ∧
    canFullyFill exBookB exFokBuy.side (fokLimit exFokBuy) exFokBuy.quantity = false ∧
    ((addOrder exBookB exFokBuy).2.bids_ = exBookB.bids_ ∧
      (addOrder exBookB exFokBuy).2.asks_ = exBookB.asks_ ∧
      (addOrder exBookB exFokBuy).2.idIndex_ = exBookB.idIndex_ ∧
      (addOrder exBookB exFokBuy).2.topOfBook = exBookB.topOfBook ∧
      (addOrder exBookB exFokBuy).2.trades_ = exBookB.trades_) :=
  ⟨by decide, by decide, by decide,
    fok_fail_unchanged exBookB exFokBuy (by decide) (by decide)⟩

/-! ## Orders that must not rest -/

theorem handles_lt_of_inv {s : OrderBook} (hs : Inv s) :
    ∀ sd e, e ∈ s.book sd → ∀ n ∈ e.2.orders, n.handle < s.nextNode :=
  fun sd e he n hn => (((hs.book sd).2 e he).2.2.1 n hn).2.2.2.2.2

theorem allIds_addOrder_no_rest {P : Int → Prop} {s : OrderBook} (hs : Inv s) (o : Order)
    (h : o.type = OrderType.MARKET ∨ o.tif = TimeInForce.IOC ∨ o.tif = TimeInForce.FOK)
    (hp : AllIds P s) : AllIds P (addOrder s o).2 := by
  have hs0 := inv_bumpNextId hs o
  rw [addOrder_eq]
  refine allIds_emitQuote _ ?_
  rw [addCore_no_rest hs o h]
  exact allIds_match _ _ hs0 (allIds_congr (bids_bumpNextId s o) (asks_bumpNextId s o) hp)

/-- C8. Orders that must not rest never rest.  In every reachable state `s`: (1) after
`addOrder` of an order with type MARKET or tif IOC or FOK, whatever residual it has left,
the order's own side of the book is unchanged, every node of every FIFO was created
before the call (its handle is below the one the call would have used), no index entry
was added, and, when the id under which the order is processed was not resting and not
indexed before, no FIFO holds an order with that id and the index has no entry for it;
(2) every resting order has type LIMIT and tif GTC or DAY. -/
theorem must_not_rest (s : OrderBook) (hs : Reachable s) :
    (∀ o : Order,
      (o.type = OrderType.MARKET ∨ o.tif = TimeInForce.IOC ∨ o.tif = TimeInForce.FOK) →
      (addOrder s o).2.book o.side = s.book o.side ∧
      (addOrder s o).2.nextNode = s.nextNode ∧
      (∀ sd e, e ∈ (addOrder s o).2.book sd → ∀ n ∈ e.2.orders, n.handle < s.nextNode) ∧
      (∀ id e, (addOrder s o).2.idIndex_.find id = some e → s.idIndex_.find id = some e) ∧
      (AllIds (fun i => i ≠ (assignId s o).id) s →
        s.idIndex_.find (assignId s o).id = none →
        AllIds (fun i => i ≠ (assignId s o).id) (addOrder s o).2 ∧
          (addOrder s o).2.idIndex_.find (assignId s o).id = none)) ∧
    (∀ sd e, e ∈ s.book sd → ∀ n ∈ e.2.orders,
      n.order.type = OrderType.LIMIT ∧
        (n.order.tif = TimeInForce.GTC ∨ n.order.tif = TimeInForce.DAY)) := by
  have hi := inv_of_reachable hs
  refine ⟨?_, ?_⟩
  · intro o ho
    obtain ⟨_, g2, g3, g4⟩ := addOrder_no_rest hi o ho
    have hi1 : Inv (addOrder s o).2 := inv_addOrder hi o
    refine ⟨g2, g3, ?_, g4, ?_⟩
    · intro sd e he n hn
      rw [← g3]
      exact handles_lt_of_inv hi1 sd e he n hn
    · intro hfresh hidx
      refine ⟨allIds_addOrder_no_rest hi o ho hfresh, ?_⟩
      cases hf : (addOrder s o).2.idIndex_.find (assignId s o).id with
      | none => rfl
      | some e =>
        have := g4 _ e hf
        rw [hidx] at this
        exact absurd this (by simp)
  · intro sd e he n hn
    have := ((hi.book sd).2 e he).2.2.1 n hn
    exact ⟨this.2.2.2.1, this.2.2.2.2.1⟩

theorem must_not_rest_witness :
    Reachable exAskThree ∧
    (addOrder exAskThree exIocBuy).2.trades_ =
      [{ timestamp := "t2", priceTicks := 10000, quantity := 3, buyId := 2, sellId := 1 }] ∧
    (addOrder exAskThree exIocBuy).2.bids_ = [] ∧
    (addOrder exAskThree exIocBuy).2.idIndex_ = [] ∧
    ((∀ o : Order,
      (o.type = OrderType.MARKET ∨ o.tif = TimeInForce.IOC ∨ o.tif = TimeInForce.FOK) →
      (addOrder exAskThree o).2.book o.side = exAskThree.book o.side ∧
      (addOrder exAskThree o).2.nextNode = exAskThree.nextNode ∧
      (∀ sd e, e ∈ (addOrder exAskThree o).2.book sd → ∀ n ∈ e.2.orders,
        n.handle < exAskThree.nextNode) ∧
      (∀ id e, (addOrder exAskThree o).2.idIndex_.find id = some e →
        exAskThree.idIndex_.find id = some e) ∧
      (AllIds (fun i => i ≠ (assignId exAskThree o).id) exAskThree →
        exAskThree.idIndex_.find (assignId exAskThree o).id = none →
        AllIds (fun i => i ≠ (assignId exAskThree o).id) (addOrder exAskThree o).2 ∧
          (addOrder exAskThree o).2.idIndex_.find (assignId exAskThree o).id = none)) ∧
    (∀ sd e, e ∈ exAskThree.book sd → ∀ n ∈ e.2.orders,
      n.order.type = OrderType.LIMIT ∧
        (n.order.tif = TimeInForce.GTC ∨ n.order.tif = TimeInForce.DAY))) :=
  ⟨Reachable.add _ (Reachable.init true), by decide, by decide, by decide,
    must_not_rest exAskThree (Reachable.add _ (Reachable.init true))⟩

theorem lvlQ_nil (X : Int) : lvlQ X [] = 0 := rfl

theorem lvlQ_cons (X : Int) (m : Node) (rest : List Node) :
    lvlQ X (m :: rest) = (if m.order.id = X then m.order.quantity else 0) + lvlQ X rest := by
  unfold lvlQ
  by_cases h : m.order.id = X <;> simp [List.filter_cons, h]

theorem lvlQ_append (X : Int) (a b : List Node) : lvlQ X (a ++ b) = lvlQ X a + lvlQ X b := by
  unfold lvlQ
  simp [List.filter_append]

theorem restQ_nil (X : Int) : restQ X [] = 0 := rfl

theorem restQ_cons (X : Int) (e : Price × LevelInfo) (rest : List (Price × LevelInfo)) :
    restQ X (e :: rest) = lvlQ X e.2.orders + restQ X rest := by
  simp [restQ]

theorem restQ_reverse (X : Int) (L : List (Price × LevelInfo)) :
    restQ X L.reverse = restQ X L := by
  unfold restQ
  rw [List.map_reverse, List.sum_reverse]

theorem restQ_bestFirst (X : Int) (side : OrderSide) (b : BookSide) :
    restQ X (bestFirst side b) = restQ X b := by
  cases side
  · rfl
  · exact restQ_reverse X b

theorem makerFilled_nil (X : Int) : makerFilled X [] = 0 := rfl

theorem makerFilled_cons (X : Int) (f : Fill) (fs : List Fill) :
    makerFilled X (f :: fs) =
      (if f.maker.order.id = X then f.traded else 0) + makerFilled X fs := by
  unfold makerFilled
  by_cases h : f.maker.order.id = X <;> simp [List.filter_cons, h]

theorem makerFilled_append (X : Int) (a b : List Fill) :
    makerFilled X (a ++ b) = makerFilled X a + makerFilled X b := by
  unfold makerFilled
  simp [List.filter_append]

theorem filledQty_nil (sd : OrderSide) (X : Int) : filledQty sd X [] = 0 := by
  cases sd <;> rfl

theorem filledQty_append (sd : OrderSide) (X : Int) (a b : List Trade) :
    filledQty sd X (a ++ b) = filledQty sd X a + filledQty sd X b := by
  cases sd <;> simp [filledQty, List.filter_append]

/-- What the makers with id `X` lose in a FIFO is what the fills against them traded. -/
theorem fillFifo_lvlQ (X : Int) (px : Price) (l : List Node) (q : Int) :
    lvlQ X (fillFifo px q l).orders + makerFilled X (fillFifo px q l).fills = lvlQ X l := by
  refine fillFifo_induct px
    (fun _ l r => lvlQ X r.orders + makerFilled X r.fills = lvlQ X l) ?_ ?_ ?_ l q
  · intro q l _; simp [makerFilled]
  · intro q m rest _ _ ih
    rw [makerFilled_cons, lvlQ_cons]
    simp only
    omega
  · intro q m rest _ _
    rw [makerFilled_cons, lvlQ_cons, lvlQ_cons, makerFilled_nil]
    simp only
    split <;> omega

/-- What the makers with id `X` lose in a walk is what the fills against them traded. -/
theorem walkLevels_restQ (X : Int) (cr : Price → Bool) (L : List (Price × LevelInfo))
    (q : Int) :
    restQ X (walkLevels cr q L).levels + makerFilled X (walkLevels cr q L).fills =
      restQ X L := by
  refine walkLevels_induct cr
    (fun _ L w => restQ X w.levels + makerFilled X w.fills = restQ X L) ?_ ?_ ?_ L q
  · intro q L _; simp [makerFilled]
  · intro q px lvl rest _ _ he ih
    have h1 := fillFifo_lvlQ X px lvl.orders q
    rw [he, lvlQ_nil] at h1
    rw [makerFilled_append, restQ_cons]
    simp only
    omega
  · intro q px lvl rest _ _ _
    have h1 := fillFifo_lvlQ X px lvl.orders q
    rw [restQ_cons, restQ_cons]
    simp only
    omega

/-- The trades of a sequence of fills attributable to order `X` of side `sd`: the whole
traded quantity when `X` is the aggressor on its own side, what was traded against the
makers with id `X` when the aggressor is on the other side. -/
theorem filledQty_toTrade (sd side : OrderSide) (X : Int) (ts : String) (i : Int)
    (fills : List Fill) :
    filledQty sd X (fills.map (Fill.toTrade side ts i)) =
      if sd = side then (if i = X then fillSum fills else 0) else makerFilled X fills := by
  induction fills with
  | nil => cases sd <;> cases side <;> simp [filledQty, fillSum, makerFilled]
  | cons f rest ih =>
    have hc : filledQty sd X ((f :: rest).map (Fill.toTrade side ts i)) =
        filledQty sd X [Fill.toTrade side ts i f] +
          filledQty sd X (rest.map (Fill.toTrade side ts i)) := by
      rw [← filledQty_append]; rfl
    rw [hc, ih, fillSum_cons, makerFilled_cons]
    by_cases h1 : i = X <;> by_cases h2 : f.maker.order.id = X <;>
      cases sd <;> cases side <;>
      simp [filledQty, Fill.toTrade, mkTrade, List.filter_cons, h1, h2]

theorem levelAt_cons (p0 : Price) (l0 : LevelInfo) (rest : BookSide) (px : Price) :
    levelAt ((p0, l0) :: rest) px = if p0 = px then l0 else levelAt rest px := by
  unfold levelAt
  rw [find_cons]
  split <;> rfl

theorem levelAt_of_find {b : BookSide} {px : Price} {l : LevelInfo}
    (h : b.find px = some l) : levelAt b px = l := by
  unfold levelAt
  rw [h]
  rfl

theorem levelAt_of_lt {b : BookSide} {px : Price} (h : ∀ e ∈ b, px < e.1) :
    levelAt b px = { orders := [], totalQty := 0 } := by
  unfold levelAt
  rw [find_eq_none_iff.mpr (fun e he => ne_of_gt (h e he))]
  rfl

theorem restQ_put (X : Int) {b : BookSide} (hk : KeysAsc b) (px : Price) (l1 : LevelInfo) :
    restQ X (b.put px l1) = restQ X b - lvlQ X (levelAt b px).orders + lvlQ X l1.orders := by
  induction b with
  | nil =>
    show restQ X [(px, l1)] = _
    rw [restQ_cons, restQ_nil]
    simp [levelAt, BookSide.find, lvlQ_nil]
  | cons e rest ih =>
    obtain ⟨p0, l0⟩ := e
    rcases lt_trichotomy px p0 with h | h | h
    · rw [put_cons_lt h, restQ_cons, levelAt_of_lt, lvlQ_nil]
      · simp only; ring
      · intro x hx
        rcases List.mem_cons.mp hx with g | g
        · rw [g]; exact h
        · exact lt_trans h (hk.head_lt x g)
    · subst h
      rw [put_cons_self, restQ_cons, restQ_cons, levelAt_cons]
      simp only [if_true]
      ring
    · rw [put_cons_gt h, restQ_cons, restQ_cons, levelAt_cons, if_neg (ne_of_lt h),
        ih hk.tail]
      simp only
      ring

theorem restQ_erase (X : Int) {b : BookSide} (hk : KeysAsc b) (px : Price) :
    restQ X (b.erase px) = restQ X b - lvlQ X (levelAt b px).orders := by
  induction b with
  | nil => simp [BookSide.erase, restQ, levelAt, BookSide.find, lvlQ]
  | cons e rest ih =>
    obtain ⟨p0, l0⟩ := e
    rw [erase_cons]
    by_cases h : p0 = px
    · subst h
      rw [if_pos rfl, erase_eq_self (fun x hx => ne_of_gt (hk.head_lt x hx)), restQ_cons,
        levelAt_cons, if_pos rfl]
      simp only
      ring
    · rw [if_neg h, restQ_cons, restQ_cons, levelAt_cons, if_neg h, ih hk.tail]
      simp only
      ring

theorem lvlQ_eraseNode (X : Int) {h : Nat} {l : List Node} {n : Node}
    (hf : findNode h l = some n) :
    lvlQ X (eraseNode h l) = lvlQ X l - (if n.order.id = X then n.order.quantity else 0) := by
  induction l with
  | nil => simp [findNode] at hf
  | cons m rest ih =>
    rw [findNode_cons] at hf
    by_cases hm : m.handle = h
    · simp only [hm, if_true, Option.some.injEq] at hf
      subst hf
      simp only [eraseNode, hm, if_true, lvlQ_cons]
      ring
    · simp only [hm, if_false] at hf
      simp only [eraseNode, hm, if_false, lvlQ_cons, ih hf]
      ring

/-! ## What each step does to the account of an order -/

theorem acct_congr {s s1 : OrderBook} (hb : s1.bids_ = s.bids_) (ha : s1.asks_ = s.asks_)
    (ht : s1.trades_ = s.trades_) (sd : OrderSide) (X : Int) : acct sd X s1 = acct sd X s := by
  unfold acct restingQty
  rw [ht]
  cases sd <;> simp only [OrderBook.book]
  · rw [hb]
  · rw [ha]

theorem acct_emitQuote (s : OrderBook) (ts : String) (sd : OrderSide) (X : Int) :
    acct sd X (emitQuoteIfChanged s ts) = acct sd X s :=
  acct_congr (by simp) (by simp) (by simp) sd X

theorem acct_updateBest (s : OrderBook) (sd : OrderSide) (X : Int) :
    acct sd X (updateBestOnChange s) = acct sd X s :=
  acct_congr (by simp) (by simp) (by simp) sd X

theorem acct_bumpNextId (s : OrderBook) (o : Order) (sd : OrderSide) (X : Int) :
    acct sd X (bumpNextId s o) = acct sd X s :=
  acct_congr (bids_bumpNextId s o) (asks_bumpNextId s o) (trades_bumpNextId s o) sd X

/-- The call of `match` moves quantity of the makers from the book into the trade log, and adds to
the account of the aggressor what it traded. -/
theorem acct_match {s : OrderBook} (hs : Inv s) (side : OrderSide) (incoming : Order)
    (sd : OrderSide) (X : Int) :
    acct sd X (match_ side s incoming).1 =
      acct sd X s +
        (if sd = side ∧ incoming.id = X then fillSum (matchFills side s incoming) else 0) := by
  have hk := (hs.oppOk side).1
  unfold acct
  rw [match_trades side s incoming hk, filledQty_append]
  unfold matchTrades
  rw [filledQty_toTrade]
  rcases side_eq_or_other side sd with hsd | hsd
  · subst hsd
    unfold restingQty
    rw [match_book sd s incoming hk]
    by_cases hid : incoming.id = X
    · simp [hid]; ring
    · simp [hid]
  · subst hsd
    have hne : ¬ side.other = side := other_ne side
    simp only [hne, if_false, false_and]
    unfold restingQty
    rw [book_other_eq_opp, book_other_eq_opp]
    by_cases hf : incoming.tif = TimeInForce.FOK ∧
        canFullyFill s side (fokLimit incoming) incoming.quantity = false
    · rw [match_fok_fail side s incoming hf.1 hf.2, matchFills_fok_fail hf.1 hf.2]
      simp [makerFilled]
    · rcases match_cases side s incoming hk with ⟨h1, h2⟩ | h2
      · -- the pre-check did not fail, so the book is unchanged only if nothing was filled
        have hq := matchLoop_spec side (s.opp side).length s incoming hk le_rfl
        have hm : match_ side s incoming = matchLoop side (s.opp side).length s incoming := by
          unfold match_
          unfold fokLimit at hf
          simp only [hf, if_false]
        rw [hm, matchFills_pass hf, matchSpec_opp hq, restQ_bestFirst]
        have := walkLevels_restQ X (crosses side incoming) (bestFirst side (s.opp side))
          incoming.quantity
        rw [restQ_bestFirst] at this
        omega
      · rw [matchFills_pass hf, matchSpec_opp h2, restQ_bestFirst]
        have := walkLevels_restQ X (crosses side incoming) (bestFirst side (s.opp side))
          incoming.quantity
        rw [restQ_bestFirst] at this
        omega

theorem levelAt_restLevel (X : Int) (s : OrderBook) (o : Order) :
    lvlQ X (restLevel s o).orders =
      lvlQ X (levelAt (s.book o.side) o.priceTicks).orders +
        (if o.id = X then o.quantity else 0) := by
  unfold restLevel levelAt
  rw [lvlQ_append, lvlQ_cons, lvlQ_nil]
  simp

/-- The call of `restOrder` adds the quantity of the order to its account. -/
theorem acct_restOrder {s : OrderBook} (hs : Inv s) (o : Order) (sd : OrderSide) (X : Int) :
    acct sd X (restOrder s o) =
      acct sd X s + (if sd = o.side ∧ o.id = X then o.quantity else 0) := by
  unfold acct
  rw [trades_restOrder]
  unfold restingQty
  rcases side_eq_or_other o.side sd with hsd | hsd
  · subst hsd
    rw [book_restOrder, restQ_put X (hs.book o.side).1, levelAt_restLevel]
    by_cases hid : o.id = X
    · simp [hid]; ring
    · simp [hid]
  · subst hsd
    have hne : ¬ o.side.other = o.side := other_ne o.side
    rw [book_other_eq_opp, opp_restOrder, ← book_other_eq_opp]
    simp [hne]

/-- Unlinking a resting order takes its quantity out of its account. -/
theorem acct_unlinkResting {s : OrderBook} (hs : Inv s) (orderId : Int) {e : IndexEntry}
    {lvl : LevelInfo} {n : Node} (h2 : (s.book e.side).find e.px = some lvl)
    (h3 : findNode e.lit lvl.orders = some n) (sd : OrderSide) (X : Int) :
    acct sd X (unlinkResting s orderId e lvl n) =
      acct sd X s - (if sd = e.side ∧ n.order.id = X then n.order.quantity else 0) := by
  unfold acct
  rw [trades_unlinkResting]
  unfold restingQty
  have hk := (hs.book e.side).1
  rcases side_eq_or_other e.side sd with hsd | hsd
  · subst hsd
    rw [book_unlinkResting]
    have hl := lvlQ_eraseNode X h3
    have hput := restQ_put X hk e.px
      { orders := eraseNode e.lit lvl.orders, totalQty := lvl.totalQty - n.order.quantity }
    rw [levelAt_of_find h2] at hput
    simp only at hput
    by_cases hemp : (eraseNode e.lit lvl.orders).isEmpty = true
    · rw [if_pos hemp, restQ_erase X (keysAsc_put hk _ _), hput,
        levelAt_of_find
          (l := { orders := eraseNode e.lit lvl.orders,
                  totalQty := lvl.totalQty - n.order.quantity })
          (by rw [find_put]; simp)]
      have hz : lvlQ X (eraseNode e.lit lvl.orders) = 0 := by
        rw [(isEmpty_eq_true_iff _).mp hemp]; rfl
      simp only
      by_cases hid : n.order.id = X
      · simp only [hid, if_true, and_self] at hl ⊢
        omega
      · simp only [hid, if_false, and_false] at hl ⊢
        omega
    · rw [if_neg hemp, hput]
      by_cases hid : n.order.id = X
      · simp only [hid, if_true, and_self] at hl ⊢
        omega
      · simp only [hid, if_false, and_false] at hl ⊢
        omega
  · subst hsd
    have hne : ¬ e.side.other = e.side := other_ne e.side
    rw [book_other_eq_opp, opp_unlinkResting, ← book_other_eq_opp]
    simp [hne]

theorem restQ_nonneg (X : Int) (b : BookSide)
    (h : ∀ e ∈ b, ∀ n ∈ e.2.orders, n.order.quantity > 0) : 0 ≤ restQ X b := by
  unfold restQ
  apply List.sum_nonneg
  intro x hx
  obtain ⟨e, he, hxe⟩ := List.mem_map.mp hx
  subst hxe
  unfold lvlQ
  apply List.sum_nonneg
  intro y hy
  obtain ⟨n, hn, hyn⟩ := List.mem_map.mp hy
  subst hyn
  exact le_of_lt (h e he n (List.mem_of_mem_filter hn))

theorem restingQty_nonneg {s : OrderBook} (hs : Inv s) (sd : OrderSide) (X : Int) :
    0 ≤ restingQty sd X s :=
  restQ_nonneg X _ (fun e he n hn => (((hs.book sd).2 e he).2.2.1 n hn).1)

/-! ## Accounts along a run -/

theorem filledQty_eq_zero (sd : OrderSide) (X : Int) (trades : List Trade)
    (h : ∀ t ∈ trades, t.buyId ≠ X ∧ t.sellId ≠ X) : filledQty sd X trades = 0 := by
  cases sd
  · unfold filledQty
    simp only
    rw [List.filter_eq_nil_iff.mpr]
    · rfl
    · intro t ht
      simpa using (h t ht).1
  · unfold filledQty
    simp only
    rw [List.filter_eq_nil_iff.mpr]
    · rfl
    · intro t ht
      simpa using (h t ht).2

theorem restQ_eq_zero (X : Int) (b : BookSide)
    (h : ∀ e ∈ b, ∀ n ∈ e.2.orders, n.order.id ≠ X) : restQ X b = 0 := by
  unfold restQ
  apply List.sum_eq_zero
  intro x hx
  obtain ⟨e, he, hxe⟩ := List.mem_map.mp hx
  subst hxe
  unfold lvlQ
  rw [List.filter_eq_nil_iff.mpr]
  · rfl
  · intro n hn
    simpa using h e he n hn

/-- An id that was never added has an empty account. -/
theorem acct_eq_zero_of_fresh {s : OrderBook} {used : List Int} (h : Ledger s used)
    (sd : OrderSide) {X : Int} (hX : X ∉ used) : acct sd X s = 0 := by
  unfold acct restingQty
  rw [filledQty_eq_zero sd X _ (fun t ht =>
      ⟨fun he => hX (he ▸ (h.tradesIn t ht).1), fun he => hX (he ▸ (h.tradesIn t ht).2)⟩),
    restQ_eq_zero X _ (fun e he n hn heq => hX (heq ▸ h.idsIn sd e he n hn))]
  rfl

theorem tradesIn_congr {used : List Int} {s s1 : OrderBook} (ht : s1.trades_ = s.trades_)
    (h : TradesIn used s) : TradesIn used s1 := by
  intro t htm
  rw [ht] at htm
  exact h t htm

theorem tradesIn_mono {used used1 : List Int} {s : OrderBook} (hsub : ∀ i ∈ used, i ∈ used1)
    (h : TradesIn used s) : TradesIn used1 s :=
  fun t ht => ⟨hsub _ (h t ht).1, hsub _ (h t ht).2⟩

theorem tradesIn_match {used : List Int} {s : OrderBook} (hs : Inv s)
    (hids : AllIds (fun i => i ∈ used) s) (side : OrderSide) (incoming : Order)
    (hin : incoming.id ∈ used) (ht : TradesIn used s) :
    TradesIn used (match_ side s incoming).1 := by
  have ho := hs.oppOk side
  intro t htm
  rw [match_trades side s incoming ho.1] at htm
  rcases List.mem_append.mp htm with h | h
  · exact ht t h
  · unfold matchTrades at h
    obtain ⟨f, hf, hft⟩ := List.mem_map.mp h
    rcases matchFills_sub side s incoming with h0 | h0
    · rw [h0] at hf; simp at hf
    · rw [h0] at hf
      obtain ⟨_, ⟨lvl, h1, h2⟩, _⟩ := walkLevels_fills _ _ _
        (fun e he n hn => ((ho.2 e (mem_bestFirst.mp he)).2.2.1 n hn).1) f hf
      have hmk : f.maker.order.id ∈ used := by
        have := hids side.other (f.px, lvl)
          (by rw [book_other_eq_opp]; exact mem_bestFirst.mp h1) f.maker h2
        exact this
      subst hft
      cases side
      · exact ⟨hin, hmk⟩
      · exact ⟨hmk, hin⟩

theorem ledger_addCore {s : OrderBook} {used : List Int} (h : Ledger s used) (o : Order) :
    Ledger (addCore s o) ((assignId s o).id :: used) := by
  have hs0 := inv_bumpNextId h.inv o
  have hk := (hs0.oppOk (assignId s o).side).1
  have hi0 : AllIds (fun i => i ∈ (assignId s o).id :: used) (bumpNextId s o) :=
    allIds_mono (fun i hi => List.mem_cons_of_mem _ hi)
      (allIds_congr (bids_bumpNextId s o) (asks_bumpNextId s o) h.idsIn)
  have ht0 : TradesIn ((assignId s o).id :: used) (bumpNextId s o) :=
    tradesIn_mono (fun i hi => List.mem_cons_of_mem _ hi)
      (tradesIn_congr (trades_bumpNextId s o) h.tradesIn)
  have hm := inv_match (assignId s o).side _ (assignId s o) hs0
  have him := allIds_match (assignId s o).side (assignId s o) hs0 hi0
  have htm := tradesIn_match hs0 hi0 (assignId s o).side (assignId s o)
    (List.mem_cons_self _ _) ht0
  have hid := match_id (assignId s o).side (bumpNextId s o) (assignId s o) hk
  refine ⟨inv_addCore h.inv o, ?_, ?_⟩
  · unfold addCore
    simp only
    split
    · exact allIds_restOrder hm him (by rw [hid]; exact List.mem_cons_self _ _)
    · exact him
  · unfold addCore
    simp only
    split
    · exact tradesIn_congr (trades_restOrder _ _) htm
    · exact htm

theorem ledger_unlinkResting {s : OrderBook} {used : List Int} (h : Ledger s used)
    {orderId : Int} {e : IndexEntry} {lvl : LevelInfo} {n : Node}
    (h1 : s.idIndex_.find orderId = some e)
    (h2 : (s.book e.side).find e.px = some lvl) (h3 : findNode e.lit lvl.orders = some n) :
    Ledger (unlinkResting s orderId e lvl n) used :=
  ⟨inv_unlinkResting h.inv h1 h2 h3, allIds_unlinkResting h.inv h2 h.idsIn,
    tradesIn_congr (trades_unlinkResting _ _ _ _ _) h.tradesIn⟩

theorem ledger_modifyCore {s : OrderBook} {used : List Int} (h : Ledger s used)
    {orderId : Int} (newPxTicks : Price) (newQty : Int) {e : IndexEntry} {lvl : LevelInfo}
    {n : Node} (h1 : s.idIndex_.find orderId = some e)
    (h2 : (s.book e.side).find e.px = some lvl) (h3 : findNode e.lit lvl.orders = some n) :
    Ledger (modifyCore s orderId newPxTicks newQty e lvl n) used := by
  have hu := ledger_unlinkResting h h1 h2 h3
  have hk := (hu.inv.oppOk e.side).1
  have hused : n.order.id ∈ used :=
    h.idsIn e.side (e.px, lvl) (mem_of_find h2) n (findNode_mem h3).1
  have hm := inv_match e.side _
    { n.order with priceTicks := newPxTicks, quantity := newQty } hu.inv
  have him := allIds_match e.side
    { n.order with priceTicks := newPxTicks, quantity := newQty } hu.inv hu.idsIn
  have htm := tradesIn_match hu.inv hu.idsIn e.side
    { n.order with priceTicks := newPxTicks, quantity := newQty } hused hu.tradesIn
  have hid := match_id e.side (unlinkResting s orderId e lvl n)
    { n.order with priceTicks := newPxTicks, quantity := newQty } hk
  simp only at hid
  refine ⟨inv_modifyCore h.inv newPxTicks newQty h1 h2 h3, ?_, ?_⟩
  · unfold modifyCore
    simp only
    split
    · exact allIds_restOrder hm him (by rw [hid]; exact hused)
    · exact him
  · unfold modifyCore
    simp only
    split
    · exact tradesIn_congr (trades_restOrder _ _) htm
    · exact htm

theorem ledger_wrap {s : OrderBook} {used : List Int} (ts : String) (h : Ledger s used) :
    Ledger (emitQuoteIfChanged (updateBestOnChange s) ts) used :=
  ⟨inv_emitQuote _ (inv_updateBest h.inv), allIds_emitQuote _ (allIds_updateBest h.idsIn),
    tradesIn_congr (by simp) h.tradesIn⟩

theorem ledger_cancelOrder {s : OrderBook} {used : List Int} (h : Ledger s used)
    {orderId : Int} {ts : String} {r : Bool × OrderBook}
    (hr : cancelOrder s orderId ts = some r) : Ledger r.2 used := by
  rcases cancelOrder_cases h.inv orderId ts with ⟨_, g⟩ | ⟨e, lvl, n, g1, g2, g3, _, g⟩
  · rw [g] at hr
    cases hr
    exact h
  · rw [g] at hr
    cases hr
    exact ledger_wrap ts (ledger_unlinkResting h g1 g2 g3)

theorem ledger_modifyOrder {s : OrderBook} {used : List Int} (h : Ledger s used)
    {orderId : Int} {px : Price} {q : Int} {ts : String} {r : Bool × OrderBook}
    (hr : modifyOrder s orderId px q ts = some r) : Ledger r.2 used := by
  by_cases hq : q > 0
  · rcases modifyOrder_cases h.inv orderId px ts hq with
      ⟨_, g⟩ | ⟨e, lvl, n, g1, g2, g3, _, g⟩
    · rw [g] at hr
      cases hr
      exact h
    · rw [g] at hr
      cases hr
      exact ledger_wrap ts (ledger_modifyCore h px q g1 g2 g3)
  · rw [modifyOrder_nonpos s orderId px ts (not_lt.mp hq)] at hr
    exact ledger_cancelOrder h hr

theorem ledger_applyEvent {s s1 : OrderBook} {used : List Int} (h : Ledger s used)
    (ev : Event) (hev : applyEvent s ev = some s1) : Ledger s1 (eventIds s ev ++ used) := by
  cases ev with
  | add o =>
    simp only [applyEvent, Option.some.injEq] at hev
    subst hev
    rw [addOrder_eq]
    have := ledger_addCore h o
    exact ⟨inv_emitQuote _ this.inv, allIds_emitQuote _ this.idsIn,
      tradesIn_congr (by simp) this.tradesIn⟩
  | cancel orderId ts =>
    simp only [applyEvent, Option.map_eq_some'] at hev
    obtain ⟨r, hr, hr2⟩ := hev
    subst hr2
    exact ledger_cancelOrder h hr
  | modify orderId px q ts =>
    simp only [applyEvent, Option.map_eq_some'] at hev
    obtain ⟨r, hr, hr2⟩ := hev
    subst hr2
    exact ledger_modifyOrder h hr

theorem ledger_runEvents :
    ∀ (evs : List Event) (s : OrderBook) (used : List Int) (s1 : OrderBook)
      (used1 : List Int), Ledger s used → runEvents s used evs = some (s1, used1) →
      Ledger s1 used1 := by
  intro evs
  induction evs with
  | nil =>
    intro s used s1 used1 hL h
    simp only [runEvents, Option.some.injEq, Prod.mk.injEq] at h
    rw [← h.1, ← h.2]
    exact hL
  | cons ev rest ih =>
    intro s used s1 used1 hL h
    simp only [runEvents] at h
    cases ha : applyEvent s ev with
    | none => rw [ha] at h; simp at h
    | some s2 =>
      rw [ha] at h
      exact ih _ _ _ _ (ledger_applyEvent hL ev ha) h

theorem ledger_init (q : Bool) : Ledger (OrderBook.init q) [] := by
  refine ⟨inv_init q, (invD_init q).idsIn, ?_⟩
  intro t ht
  simp [OrderBook.init] at ht

theorem runEvents_append :
    ∀ (a b : List Event) (s : OrderBook) (used : List Int),
      runEvents s used (a ++ b) =
        match runEvents s used a with
        | none => none
        | some r => runEvents r.1 r.2 b := by
  intro a
  induction a with
  | nil => intro b s used; rfl
  | cons ev rest ih =>
    intro b s used
    simp only [List.cons_append, runEvents]
    cases applyEvent s ev with
    | none => rfl
    | some s1 => exact ih b s1 _

theorem match_residual {s : OrderBook} (hs : Inv s) (side : OrderSide) (incoming : Order) :
    (match_ side s incoming).2.quantity =
      incoming.quantity - fillSum (matchFills side s incoming) := by
  have hk := (hs.oppOk side).1
  by_cases hf : incoming.tif = TimeInForce.FOK ∧
      canFullyFill s side (fokLimit incoming) incoming.quantity = false
  · rw [match_fok_fail side s incoming hf.1 hf.2, matchFills_fok_fail hf.1 hf.2]
    simp [fillSum]
  · have hq := matchLoop_spec side (s.opp side).length s incoming hk le_rfl
    have hm : match_ side s incoming = matchLoop side (s.opp side).length s incoming := by
      unfold match_
      unfold fokLimit at hf
      simp only [hf, if_false]
    rw [hm, matchFills_pass hf, hq.incoming_eq]
    exact walkLevels_residual _ _ _

theorem fillSum_matchFills_bounds {s : OrderBook} (hs : Inv s) (side : OrderSide)
    (incoming : Order) (hq : 0 ≤ incoming.quantity) :
    0 ≤ fillSum (matchFills side s incoming) ∧
      fillSum (matchFills side s incoming) ≤ incoming.quantity := by
  rcases matchFills_sub side s incoming with h | h
  · rw [h]
    exact ⟨le_refl _, hq⟩
  · rw [h, walk_fillSum_of_inv hs side incoming hq]
    have hd : 0 ≤ depthWhere (crosses side incoming) (s.opp side) :=
      depthWhere_nonneg _ _ (totals_nonneg_of_sideOk (hs.oppOk side))
    exact ⟨le_min hq hd, min_le_left _ _⟩

/-- What `addOrder` does to an account: nothing when the order has another id or another
side, and otherwise it adds what was traded plus what was rested. -/
theorem acct_addCore {s : OrderBook} (hs : Inv s) (o : Order) (sd : OrderSide) (X : Int) :
    acct sd X (addCore s o) =
      acct sd X s +
        (if sd = o.side ∧ (assignId s o).id = X then
          fillSum (matchFills o.side (bumpNextId s o) (assignId s o)) +
            (if (assignId s o).type ≠ OrderType.MARKET ∧
                (match_ o.side (bumpNextId s o) (assignId s o)).2.quantity > 0 ∧
                o.tif ≠ TimeInForce.IOC ∧ o.tif ≠ TimeInForce.FOK then
              (match_ o.side (bumpNextId s o) (assignId s o)).2.quantity else 0)
         else 0) := by
  have hs0 := inv_bumpNextId hs o
  obtain ⟨f1, f2, f3, f4, f5, f6⟩ := assignId_fields s o
  have hk := (hs0.oppOk (assignId s o).side).1
  have hm := inv_match (assignId s o).side _ (assignId s o) hs0
  obtain ⟨q, hq⟩ := match_incoming (assignId s o).side (bumpNextId s o) (assignId s o) hk
  have hside : (match_ (assignId s o).side (bumpNextId s o) (assignId s o)).2.side = o.side := by
    rw [hq]; exact f1
  have hid : (match_ (assignId s o).side (bumpNextId s o) (assignId s o)).2.id =
      (assignId s o).id := by rw [hq]
  have htif : (match_ (assignId s o).side (bumpNextId s o) (assignId s o)).2.tif = o.tif := by
    rw [hq]; exact f3
  have hmatch := acct_match hs0 (assignId s o).side (assignId s o) sd X
  rw [acct_bumpNextId] at hmatch
  unfold addCore
  simp only [htif]
  rw [f1] at hmatch hside hid htif hm ⊢
  by_cases hrest : (assignId s o).type ≠ OrderType.MARKET ∧
      (match_ o.side (bumpNextId s o) (assignId s o)).2.quantity > 0 ∧
      o.tif ≠ TimeInForce.IOC ∧ o.tif ≠ TimeInForce.FOK
  · rw [if_pos hrest, acct_restOrder hm, hmatch, hside, hid]
    by_cases hc : sd = o.side ∧ (assignId s o).id = X
    · rw [if_pos hc, if_pos hc, if_pos hc, if_pos hrest]
      ring
    · rw [if_neg hc, if_neg hc, if_neg hc]
      ring
  · rw [if_neg hrest, hmatch]
    by_cases hc : sd = o.side ∧ (assignId s o).id = X
    · rw [if_pos hc, if_pos hc, if_neg hrest]
      ring
    · rw [if_neg hc, if_neg hc]

theorem acct_addOrder (s : OrderBook) (o : Order) (sd : OrderSide) (X : Int) :
    acct sd X (addOrder s o).2 = acct sd X (addCore s o) := by
  rw [addOrder_eq]
  exact acct_emitQuote _ _ _ _

/-- An order with another id leaves the account alone. -/
theorem acct_addOrder_other {s : OrderBook} (hs : Inv s) (o : Order) (sd : OrderSide)
    {X : Int} (hne : (assignId s o).id ≠ X) : acct sd X (addOrder s o).2 = acct sd X s := by
  rw [acct_addOrder, acct_addCore hs]
  simp [hne]

/-- Adding an order raises no account by more than the quantity of the order. -/
theorem acct_addOrder_le {s : OrderBook} (hs : Inv s) (o : Order) (hq : 0 ≤ o.quantity)
    (sd : OrderSide) (X : Int) : acct sd X (addOrder s o).2 ≤ acct sd X s + o.quantity := by
  have hs0 := inv_bumpNextId hs o
  obtain ⟨f1, f2, f3, f4, f5, f6⟩ := assignId_fields s o
  have hres := match_residual hs0 o.side (assignId s o)
  have hb := fillSum_matchFills_bounds hs0 o.side (assignId s o) (by rw [f5]; exact hq)
  rw [f5] at hres hb
  rw [acct_addOrder, acct_addCore hs]
  split
  · split
    · omega
    · omega
  · omega

/-- A LIMIT order that may rest, with non-negative quantity, adds exactly its quantity to
its own account. -/
theorem acct_addOrder_self {s : OrderBook} (hs : Inv s) (o : Order)
    (ht : o.type = OrderType.LIMIT)
    (htif : o.tif = TimeInForce.GTC ∨ o.tif = TimeInForce.DAY) (hq : 0 ≤ o.quantity) :
    acct o.side (assignId s o).id (addOrder s o).2 =
      acct o.side (assignId s o).id s + o.quantity := by
  have hs0 := inv_bumpNextId hs o
  obtain ⟨f1, f2, f3, f4, f5, f6⟩ := assignId_fields s o
  have hres := match_residual hs0 o.side (assignId s o)
  have hb := fillSum_matchFills_bounds hs0 o.side (assignId s o) (by rw [f5]; exact hq)
  rw [f5] at hres hb
  have h1 : (assignId s o).type ≠ OrderType.MARKET := by rw [f2, ht]; simp
  have h2 : o.tif ≠ TimeInForce.IOC ∧ o.tif ≠ TimeInForce.FOK := by
    rcases htif with h | h <;> rw [h] <;> simp
  rw [acct_addOrder, acct_addCore hs]
  simp only [and_self, if_true, h1, h2, ne_eq, not_false_eq_true, true_and, and_true]
  split
  · omega
  · omega

theorem acct_wrap (s : OrderBook) (ts : String) (sd : OrderSide) (X : Int) :
    acct sd X (emitQuoteIfChanged (updateBestOnChange s) ts) = acct sd X s := by
  rw [acct_emitQuote, acct_updateBest]

/-- A cancel raises no account, and leaves the accounts of the other ids alone. -/
theorem acct_cancelOrder {s : OrderBook} (hs : Inv s) {orderId : Int} {ts : String}
    {r : Bool × OrderBook} (hr : cancelOrder s orderId ts = some r) (sd : OrderSide)
    (X : Int) :
    acct sd X r.2 ≤ acct sd X s ∧ (orderId ≠ X → acct sd X r.2 = acct sd X s) := by
  rcases cancelOrder_cases hs orderId ts with ⟨_, g⟩ | ⟨e, lvl, n, g1, g2, g3, g4, g⟩
  · rw [g] at hr
    cases hr
    exact ⟨le_refl _, fun _ => rfl⟩
  · rw [g] at hr
    cases hr
    have hpos : n.order.quantity > 0 :=
      (((hs.book e.side).2 (e.px, lvl) (mem_of_find g2)).2.2.1 n (findNode_mem g3).1).1
    simp only
    rw [acct_wrap, acct_unlinkResting hs orderId g2 g3, g4]
    constructor
    · split <;> omega
    · intro hne
      simp [hne]

/-- A modify of another id leaves the account alone. -/
theorem acct_modifyOrder_other {s : OrderBook} (hs : Inv s) {orderId : Int} {px : Price}
    {q : Int} {ts : String} {r : Bool × OrderBook}
    (hr : modifyOrder s orderId px q ts = some r) (sd : OrderSide) {X : Int}
    (hne : orderId ≠ X) : acct sd X r.2 = acct sd X s := by
  by_cases hq : q > 0
  · rcases modifyOrder_cases hs orderId px ts hq with
      ⟨_, g⟩ | ⟨e, lvl, n, g1, g2, g3, g4, g⟩
    · rw [g] at hr
      cases hr
      rfl
    · rw [g] at hr
      cases hr
      have hu := inv_unlinkResting hs g1 g2 g3
      have hk := (hu.oppOk e.side).1
      have hm := inv_match e.side _ { n.order with priceTicks := px, quantity := q } hu
      have hid := match_id e.side (unlinkResting s orderId e lvl n)
        { n.order with priceTicks := px, quantity := q } hk
      simp only at hid
      have hmatch := acct_match hu e.side { n.order with priceTicks := px, quantity := q } sd X
      have hunl := acct_unlinkResting hs orderId g2 g3 sd X
      have hne1 : ¬ n.order.id = X := by rw [g4]; exact hne
      simp only [hne1, and_false, if_false, add_zero, sub_zero] at hmatch hunl
      simp only
      rw [acct_wrap]
      unfold modifyCore
      simp only
      split
      · rw [acct_restOrder hm, hid]
        simp only [hne1, and_false, if_false, add_zero]
        rw [hmatch, hunl]
      · rw [hmatch, hunl]
  · rw [modifyOrder_nonpos s orderId px ts (not_lt.mp hq)] at hr
    exact (acct_cancelOrder hs hr sd X).2 hne

theorem inv_applyEvent {s s1 : OrderBook} (hs : Inv s) (ev : Event)
    (hev : applyEvent s ev = some s1) : Inv s1 := by
  cases ev with
  | add o =>
    simp only [applyEvent, Option.some.injEq] at hev
    subst hev
    exact inv_addOrder hs o
  | cancel orderId ts =>
    simp only [applyEvent, Option.map_eq_some'] at hev
    obtain ⟨r, hr, hr2⟩ := hev
    subst hr2
    exact inv_cancelOrder hs hr
  | modify orderId px q ts =>
    simp only [applyEvent, Option.map_eq_some'] at hev
    obtain ⟨r, hr, hr2⟩ := hev
    subst hr2
    exact inv_modifyOrder hs hr

/-- One event that adds another id and does not re-size `X` raises the account of `X`
by nothing; if it also does not cancel `X`, it leaves the account alone. -/
theorem acct_applyEvent {s s1 : OrderBook} (hs : Inv s) (ev : Event)
    (hev : applyEvent s ev = some s1) (sd : OrderSide) {X : Int}
    (hfresh : ∀ i ∈ eventIds s ev, i ≠ X) (hno : ev.resizes X = false) :
    acct sd X s1 ≤ acct sd X s ∧ (ev.targets X = false → acct sd X s1 = acct sd X s) := by
  cases ev with
  | add o =>
    simp only [applyEvent, Option.some.injEq] at hev
    subst hev
    have := acct_addOrder_other hs o sd (hfresh _ (by simp [eventIds]))
    exact ⟨le_of_eq this, fun _ => this⟩
  | cancel orderId ts =>
    simp only [applyEvent, Option.map_eq_some'] at hev
    obtain ⟨r, hr, hr2⟩ := hev
    subst hr2
    have := acct_cancelOrder hs hr sd X
    refine ⟨this.1, fun ht => this.2 ?_⟩
    simpa [Event.targets] using ht
  | modify orderId px q ts =>
    simp only [applyEvent, Option.map_eq_some'] at hev
    obtain ⟨r, hr, hr2⟩ := hev
    subst hr2
    by_cases hid : orderId = X
    · have hq : q ≤ 0 := by
        simp only [Event.resizes, hid, decide_True, Bool.true_and, decide_eq_false_iff_not,
          not_lt] at hno
        exact hno
      rw [modifyOrder_nonpos s orderId px ts hq] at hr
      refine ⟨(acct_cancelOrder hs hr sd X).1, fun ht => ?_⟩
      simp [Event.targets, hid] at ht
    · have := acct_modifyOrder_other hs hr sd hid
      exact ⟨le_of_eq this, fun _ => this⟩

/-- Along a run with distinct ids that does not re-size `X`, the account of `X` does not
grow; if the run does not cancel or modify `X` either, the account stays the same. -/
theorem acct_runEvents (sd : OrderSide) (X : Int) :
    ∀ (evs : List Event) (s : OrderBook) (used : List Int) (s1 : OrderBook)
      (used1 : List Int), Inv s → X ∈ used → runEvents s used evs = some (s1, used1) →
      used1.Nodup → (∀ ev ∈ evs, ev.resizes X = false) →
      acct sd X s1 ≤ acct sd X s ∧
        ((∀ ev ∈ evs, ev.targets X = false) → acct sd X s1 = acct sd X s) := by
  intro evs
  induction evs with
  | nil =>
    intro s used s1 used1 _ _ h _ _
    simp only [runEvents, Option.some.injEq, Prod.mk.injEq] at h
    rw [← h.1]
    exact ⟨le_refl _, fun _ => rfl⟩
  | cons ev rest ih =>
    intro s used s1 used1 hs hX h hnd hno
    simp only [runEvents] at h
    cases ha : applyEvent s ev with
    | none => rw [ha] at h; simp at h
    | some s2 =>
      rw [ha] at h
      have hsuf := runEvents_suffix _ _ _ _ _ h
      have hnd2 : (eventIds s ev ++ used).Nodup := hnd.sublist hsuf.sublist
      have hfresh : ∀ i ∈ eventIds s ev, i ≠ X := by
        intro i hi heq
        exact (List.disjoint_of_nodup_append hnd2) hi (heq ▸ hX)
      have hstep := acct_applyEvent hs ev ha sd hfresh (hno ev (List.mem_cons_self _ _))
      have hrest := ih s2 _ s1 used1 (inv_applyEvent hs ev ha)
        (List.mem_append_right _ hX) h hnd
        (fun e he => hno e (List.mem_cons_of_mem _ he))
      refine ⟨le_trans hrest.1 hstep.1, fun ht => ?_⟩
      rw [hrest.2 (fun e he => ht e (List.mem_cons_of_mem _ he)),
        hstep.2 (ht ev (List.mem_cons_self _ _))]

/-! ## Quantity conservation and the fill bound -/

theorem resizes_of_targets {X : Int} {ev : Event} (h : ev.targets X = false) :
    ev.resizes X = false := by
  cases ev with
  | add o => rfl
  | cancel orderId ts => rfl
  | modify orderId px q ts =>
    simp only [Event.targets, decide_eq_false_iff_not] at h
    simp [Event.resizes, h]

/-- The state of a run just after one of its adds, and the account of the added order
there. -/
theorem run_split {q : Bool} {pre post : List Event} {o : Order} {sp s : OrderBook}
    {idsp ids : List Int}
    (hpre : runEvents (OrderBook.init q) [] pre = some (sp, idsp))
    (hrun : runEvents (OrderBook.init q) [] (pre ++ Event.add o :: post) = some (s, ids))
    (hd : ids.Nodup) :
    runEvents (addOrder sp o).2 ((assignId sp o).id :: idsp) post = some (s, ids) ∧
      Inv sp ∧ ∀ sd, acct sd (assignId sp o).id sp = 0 := by
  rw [runEvents_append, hpre] at hrun
  have hpost : runEvents (addOrder sp o).2 ((assignId sp o).id :: idsp) post =
      some (s, ids) := hrun
  have hL := ledger_runEvents pre _ _ _ _ (ledger_init q) hpre
  have hsuf := runEvents_suffix _ _ _ _ _ hpost
  have hnd : ((assignId sp o).id :: idsp).Nodup := hd.sublist hsuf.sublist
  have hX : (assignId sp o).id ∉ idsp := (List.nodup_cons.mp hnd).1
  exact ⟨hpost, hL.inv, fun sd => acct_eq_zero_of_fresh hL sd hX⟩

/-- C9 (as stated) fails in Scenario F: the IOC buy of 10 with id 2 trades 3 against the
ask and its residual of 7 is discarded, so the trades with `buyId = 2` sum to 3, order 2
is not resting, and 3 + 0 is not the original quantity 10. -/
theorem quantity_conservation_counterexample :
    runEvents (OrderBook.init true) [] [Event.add exSell1, Event.add exIocBuy] =
        some ((addOrder exAskThree exIocBuy).2, [2, 1]) ∧
      exIocBuy.side = OrderSide.BUY ∧ exIocBuy.id = 2 ∧ exIocBuy.quantity = 10 ∧
      filledQty OrderSide.BUY 2 (addOrder exAskThree exIocBuy).2.trades_ = 3 ∧
      restingQty OrderSide.BUY 2 (addOrder exAskThree exIocBuy).2 = 0 ∧
      ¬ (filledQty OrderSide.BUY 2 (addOrder exAskThree exIocBuy).2.trades_ +
          restingQty OrderSide.BUY 2 (addOrder exAskThree exIocBuy).2 =
        exIocBuy.quantity) := by
  decide

/-- C9 (amended). Quantity conservation for orders that may rest: in a run from a newly
constructed book in which the ids of all added orders are distinct, for every order `o`
submitted through `addOrder` with type LIMIT, tif GTC or DAY and a quantity that is not
negative, processed under the id `X`, at every later point of the run up to which `X` is
neither cancelled nor modified, the sum of the quantities of all emitted trades
attributable to `X` (`buyId = X` for a BUY, `sellId = X` for a SELL) plus the residual
quantity of `X` if it is resting equals the original quantity of `o`. -/
theorem quantity_conservation (q : Bool) (pre post : List Event) (o : Order)
    (sp s : OrderBook) (idsp ids : List Int)
    (hpre : runEvents (OrderBook.init q) [] pre = some (sp, idsp))
    (hrun : runEvents (OrderBook.init q) [] (pre ++ Event.add o :: post) = some (s, ids))
    (hd : ids.Nodup) (ht : o.type = OrderType.LIMIT)
    (htif : o.tif = TimeInForce.GTC ∨ o.tif = TimeInForce.DAY) (hq : 0 ≤ o.quantity)
    (hno : ∀ ev ∈ post, ev.targets (assignId sp o).id = false) :
    filledQty o.side (assignId sp o).id s.trades_ + restingQty o.side (assignId sp o).id s =
      o.quantity := by
  obtain ⟨hpost, hinv, hzero⟩ := run_split hpre hrun hd
  have hadd := acct_addOrder_self hinv o ht htif hq
  rw [hzero, zero_add] at hadd
  have hrest := (acct_runEvents o.side (assignId sp o).id post _ _ _ _
    (inv_addOrder hinv o) (List.mem_cons_self _ _) hpost hd
    (fun ev hev => resizes_of_targets (hno ev hev))).2 hno
  rw [hadd] at hrest
  exact hrest

theorem quantity_conservation_witness :
    runEvents (OrderBook.init true) [] [Event.add exSell1] = some (exAskThree, [1]) ∧
    runEvents (OrderBook.init true) [] ([Event.add exSell1] ++ Event.add exBuy2 ::
        [Event.add exSell3]) = some (exBookConserve, [3, 2, 1]) ∧
    filledQty OrderSide.BUY 2 exBookConserve.trades_ = 7 ∧
    restingQty OrderSide.BUY 2 exBookConserve = 3 ∧
    filledQty exBuy2.side (assignId exAskThree exBuy2).id exBookConserve.trades_ +
        restingQty exBuy2.side (assignId exAskThree exBuy2).id exBookConserve =
      exBuy2.quantity :=
  ⟨by decide, by decide, by decide, by decide,
    quantity_conservation true [Event.add exSell1] [Event.add exSell3] exBuy2 exAskThree
      exBookConserve [1] [3, 2, 1] (by decide) (by decide) (by decide) (by decide)
      (by decide) (by decide) (by decide)⟩

/-- C10 (as stated) fails when an order is re-sized: order 1 is added as a buy of 5,
`modifyOrder` sets its quantity to 8, and a sell of 8 then fills it completely; the ids 1
and 2 are distinct and the trades with `buyId = 1` sum to 8, which exceeds the quantity 5
the order had when it was added. -/
theorem fill_upper_bound_counterexample :
    runEvents (OrderBook.init true) [] exEventsResize = some (exBookResize, [2, 1]) ∧
      [2, (1 : Int)].Nodup ∧ exBuyFive.id = 1 ∧ exBuyFive.side = OrderSide.BUY ∧
      exBuyFive.quantity = 5 ∧
      exBookResize.trades_ =
        [{ timestamp := "t3", priceTicks := 9900, quantity := 8, buyId := 1, sellId := 2 }] ∧
      filledQty OrderSide.BUY 1 exBookResize.trades_ = 8 ∧
      ¬ (filledQty OrderSide.BUY 1 exBookResize.trades_ ≤ exBuyFive.quantity) := by
  decide

/-- C10 (amended). Fill upper bound: in a run from a newly constructed book in which the
ids of all added orders are distinct, for every order `o` added with a quantity that is
not negative, processed under the id `X`, at every later point of the run up to which no
`modifyOrder` has re-sized `X` (a `modifyOrder` of `X` with a positive new quantity), the
sum of the quantities of all emitted trades attributable to `X` (`buyId = X` for a BUY,
`sellId = X` for a SELL) does not exceed the quantity `o` had when it was added. -/
theorem fill_upper_bound (q : Bool) (pre post : List Event) (o : Order)
    (sp s : OrderBook) (idsp ids : List Int)
    (hpre : runEvents (OrderBook.init q) [] pre = some (sp, idsp))
    (hrun : runEvents (OrderBook.init q) [] (pre ++ Event.add o :: post) = some (s, ids))
    (hd : ids.Nodup) (hq : 0 ≤ o.quantity)
    (hno : ∀ ev ∈ post, ev.resizes (assignId sp o).id = false) :
    filledQty o.side (assignId sp o).id s.trades_ ≤ o.quantity := by
  obtain ⟨hpost, hinv, hzero⟩ := run_split hpre hrun hd
  have hadd := acct_addOrder_le hinv o hq o.side (assignId sp o).id
  rw [hzero, zero_add] at hadd
  have hrest := (acct_runEvents o.side (assignId sp o).id post _ _ _ _
    (inv_addOrder hinv o) (List.mem_cons_self _ _) hpost hd hno).1
  have hL := ledger_runEvents _ _ _ _ _ (ledger_init q) hrun
  have hnn := restingQty_nonneg hL.inv o.side (assignId sp o).id
  unfold acct at hrest hadd
  omega

theorem fill_upper_bound_witness :
    runEvents (OrderBook.init true) [] [] = some (OrderBook.init true, []) ∧
    runEvents (OrderBook.init true) [] ([] ++ Event.add exBuyFive :: exEventsCancel.tail) =
      some (exBookCancel, [2, 1]) ∧
    filledQty OrderSide.BUY 1 exBookCancel.trades_ = 3 ∧
    restingQty OrderSide.BUY 1 exBookCancel = 0 ∧
    filledQty exBuyFive.side (assignId (OrderBook.init true) exBuyFive).id
        exBookCancel.trades_ ≤ exBuyFive.quantity :=
  ⟨by decide, by decide, by decide, by decide,
    fill_upper_bound true [] exEventsCancel.tail exBuyFive (OrderBook.init true)
      exBookCancel [] [2, 1] (by decide) (by decide) (by decide) (by decide) (by decide)⟩

/-! ## The dispatcher never dereferences a stale iterator -/

/-- On a well-formed book `cancelOrder` returns a result. -/
theorem cancelOrder_total {s : OrderBook} (hs : Inv s) (orderId : Int) (ts : String) :
    ∃ r, cancelOrder s orderId ts = some r := by
  rcases cancelOrder_cases hs orderId ts with ⟨_, g⟩ | ⟨e, lvl, n, _, _, _, _, g⟩
  · exact ⟨_, g⟩
  · exact ⟨_, g⟩

/-- On a well-formed book `modifyOrder` returns a result. -/
theorem modifyOrder_total {s : OrderBook} (hs : Inv s) (orderId : Int) (newPxTicks : Price)
    (newQty : Int) (ts : String) : ∃ r, modifyOrder s orderId newPxTicks newQty ts = some r := by
  by_cases hq : newQty > 0
  · rcases modifyOrder_cases hs orderId newPxTicks ts hq with
      ⟨_, g⟩ | ⟨e, lvl, n, _, _, _, _, g⟩
    · exact ⟨_, g⟩
    · exact ⟨_, g⟩
  · rw [modifyOrder_nonpos s orderId newPxTicks ts (not_lt.mp hq)]
    exact cancelOrder_total hs orderId ts

/-- On a well-formed book every event yields a book. -/
theorem applyEvent_total {s : OrderBook} (hs : Inv s) (ev : Event) :
    ∃ s1, applyEvent s ev = some s1 := by
  cases ev with
  | add o => exact ⟨_, rfl⟩
  | cancel orderId ts =>
    obtain ⟨r, hr⟩ := cancelOrder_total hs orderId ts
    exact ⟨r.2, by simp [applyEvent, hr]⟩
  | modify orderId px q ts =>
    obtain ⟨r, hr⟩ := modifyOrder_total hs orderId px q ts
    exact ⟨r.2, by simp [applyEvent, hr]⟩

/-- Every event sequence runs to the end from a well-formed book. -/
theorem runEvents_total :
    ∀ (evs : List Event) (s : OrderBook) (used : List Int), Inv s →
      ∃ r, runEvents s used evs = some r := by
  intro evs
  induction evs with
  | nil => intro s used _; exact ⟨_, rfl⟩
  | cons ev rest ih =>
    intro s used hs
    obtain ⟨s1, h1⟩ := applyEvent_total hs ev
    obtain ⟨r, hr⟩ := ih s1 (eventIds s ev ++ used) (inv_applyEvent hs ev h1)
    exact ⟨r, by simp only [runEvents, h1]; exact hr⟩

theorem topOfBook_updateBest (s : OrderBook) :
    (updateBestOnChange s).topOfBook = s.bookTop := by
  unfold updateBestOnChange OrderBook.topOfBook OrderBook.bookTop
  cases hb : s.bids_.getLast? <;> cases ha : s.asks_.head? <;> simp [ha]

theorem bookTop_congr {s s1 : OrderBook} (hb : s1.bids_ = s.bids_) (ha : s1.asks_ = s.asks_) :
    s1.bookTop = s.bookTop := by
  unfold OrderBook.bookTop
  rw [hb, ha]

theorem cacheOk_updateBest (s : OrderBook) : CacheOk (updateBestOnChange s) := by
  unfold CacheOk
  rw [topOfBook_updateBest]
  exact (bookTop_congr (bids_updateBest s) (asks_updateBest s)).symm

theorem cacheOk_emitQuote {s : OrderBook} (ts : String) (h : CacheOk s) :
    CacheOk (emitQuoteIfChanged s ts) := by
  unfold CacheOk at h ⊢
  rw [topOfBook_emitQuote, h]
  exact (bookTop_congr (bids_emitQuote s ts) (asks_emitQuote s ts)).symm

theorem cacheOk_bumpNextId {s : OrderBook} (o : Order) (h : CacheOk s) :
    CacheOk (bumpNextId s o) := by
  unfold CacheOk at h ⊢
  rw [topOfBook_bumpNextId, h]
  exact (bookTop_congr (bids_bumpNextId s o) (asks_bumpNextId s o)).symm

theorem cacheOk_restOrder (s : OrderBook) (o : Order) : CacheOk (restOrder s o) := by
  unfold restOrder updateBestOnAdd
  exact cacheOk_updateBest _

theorem cacheOk_matchLoop (side : OrderSide) :
    ∀ (fuel : Nat) (s : OrderBook) (incoming : Order), CacheOk s →
      CacheOk (matchLoop side fuel s incoming).1 := by
  intro fuel
  induction fuel with
  | zero => intro s incoming h; exact h
  | succ fuel ih =>
    intro s incoming h
    by_cases hq : incoming.quantity > 0
    · cases hb : bestOpp side (s.opp side) with
      | none =>
        have : matchLoop side (fuel + 1) s incoming = (s, incoming) := by
          simp [matchLoop, hq, hb]
        rw [this]
        exact h
      | some e =>
        obtain ⟨px, lvl⟩ := e
        by_cases hc : crosses side incoming px = true
        · rw [matchLoop_succ side fuel s incoming px lvl hq hb hc]
          exact ih _ _ (cacheOk_updateBest _)
        · have : matchLoop side (fuel + 1) s incoming = (s, incoming) := by
            simp [matchLoop, hq, hb, hc]
          rw [this]
          exact h
    · rw [matchLoop_of_nonpos _ _ _ _ (not_lt.mp hq)]
      exact h

theorem match_pass {side : OrderSide} {s : OrderBook} {incoming : Order}
    (hf : ¬ (incoming.tif = TimeInForce.FOK ∧
      canFullyFill s side (fokLimit incoming) incoming.quantity = false)) :
    match_ side s incoming = matchLoop side (s.opp side).length s incoming := by
  unfold fokLimit at hf
  unfold match_
  simp only [hf, if_false]

theorem cacheOk_match (side : OrderSide) {s : OrderBook} (incoming : Order) (h : CacheOk s) :
    CacheOk (match_ side s incoming).1 := by
  by_cases hf : incoming.tif = TimeInForce.FOK ∧
      canFullyFill s side (fokLimit incoming) incoming.quantity = false
  · rw [match_fok_fail side s incoming hf.1 hf.2]
    exact h
  · rw [match_pass hf]
    exact cacheOk_matchLoop side _ s incoming h

theorem cacheOk_addCore {s : OrderBook} (o : Order) (h : CacheOk s) :
    CacheOk (addCore s o) := by
  unfold addCore
  dsimp only
  split_ifs
  · exact cacheOk_restOrder _ _
  · exact cacheOk_match _ _ (cacheOk_bumpNextId o h)

theorem cacheOk_addOrder {s : OrderBook} (o : Order) (h : CacheOk s) :
    CacheOk (addOrder s o).2 := by
  rw [addOrder_eq]
  exact cacheOk_emitQuote _ (cacheOk_addCore o h)

theorem cacheOk_cancelOrder {s : OrderBook} (hs : Inv s) (h : CacheOk s) {orderId : Int}
    {ts : String} {r : Bool × OrderBook} (hr : cancelOrder s orderId ts = some r) :
    CacheOk r.2 := by
  rcases cancelOrder_cases hs orderId ts with ⟨_, g⟩ | ⟨e, lvl, n, _, _, _, _, g⟩
  · rw [g] at hr
    cases hr
    exact h
  · rw [g] at hr
    cases hr
    exact cacheOk_emitQuote _ (cacheOk_updateBest _)

theorem cacheOk_modifyOrder {s : OrderBook} (hs : Inv s) (h : CacheOk s) {orderId : Int}
    {px : Price} {q : Int} {ts : String} {r : Bool × OrderBook}
    (hr : modifyOrder s orderId px q ts = some r) : CacheOk r.2 := by
  by_cases hq : q > 0
  · rcases modifyOrder_cases hs orderId px ts hq with ⟨_, g⟩ | ⟨e, lvl, n, _, _, _, _, g⟩
    · rw [g] at hr
      cases hr
      exact h
    · rw [g] at hr
      cases hr
      exact cacheOk_emitQuote _ (cacheOk_updateBest _)
  · rw [modifyOrder_nonpos s orderId px ts (not_lt.mp hq)] at hr
    exact cacheOk_cancelOrder hs h hr

theorem cacheOk_init (q : Bool) : CacheOk (OrderBook.init q) := rfl

theorem cacheOk_of_reachable {s : OrderBook} (h : Reachable s) : CacheOk s := by
  induction h with
  | init q => exact cacheOk_init q
  | add o hr ih => exact cacheOk_addOrder o ih
  | cancel orderId ts hr hc ih => exact cacheOk_cancelOrder (inv_of_reachable hr) ih hc
  | modify orderId px q ts hr hm ih => exact cacheOk_modifyOrder (inv_of_reachable hr) ih hm

/-- Two books whose caches agree with equal side containers have equal caches. -/
theorem topOfBook_eq_of_cacheOk {a b : OrderBook} (ha : CacheOk a) (hb : CacheOk b)
    (h1 : a.bids_ = b.bids_) (h2 : a.asks_ = b.asks_) : a.topOfBook = b.topOfBook := by
  unfold CacheOk at ha hb
  rw [ha, hb]
  exact bookTop_congr h1 h2

/-! ## Books that agree on their containers -/

theorem coreEq_refl (a : OrderBook) : CoreEq a a := ⟨rfl, rfl, rfl, rfl, rfl⟩

theorem coreEq_symm {a b : OrderBook} (h : CoreEq a b) : CoreEq b a :=
  ⟨h.1.symm, h.2.1.symm, h.2.2.1.symm, h.2.2.2.1.symm, h.2.2.2.2.symm⟩

theorem coreEq_trans {a b c : OrderBook} (h : CoreEq a b) (g : CoreEq b c) : CoreEq a c :=
  ⟨h.1.trans g.1, h.2.1.trans g.2.1, h.2.2.1.trans g.2.2.1, h.2.2.2.1.trans g.2.2.2.1,
    h.2.2.2.2.trans g.2.2.2.2⟩

theorem coreEq_book {a b : OrderBook} (h : CoreEq a b) (sd : OrderSide) :
    a.book sd = b.book sd := by
  cases sd
  · exact h.1
  · exact h.2.1

theorem coreEq_opp {a b : OrderBook} (h : CoreEq a b) (sd : OrderSide) :
    a.opp sd = b.opp sd := by
  cases sd
  · exact h.2.1
  · exact h.1

theorem coreEq_ofSides {a b : OrderBook} (side : OrderSide)
    (hb : a.book side = b.book side) (ho : a.opp side = b.opp side)
    (hi : a.idIndex_ = b.idIndex_) (ht : a.trades_ = b.trades_)
    (hn : a.nextNode = b.nextNode) : CoreEq a b := by
  cases side
  · exact ⟨hb, ho, hi, ht, hn⟩
  · exact ⟨ho, hb, hi, ht, hn⟩

theorem coreEq_updateBest (s : OrderBook) : CoreEq (updateBestOnChange s) s :=
  ⟨bids_updateBest s, asks_updateBest s, idIndex_updateBest s, trades_updateBest s,
    nextNode_updateBest s⟩

theorem coreEq_emitQuote (s : OrderBook) (ts : String) : CoreEq (emitQuoteIfChanged s ts) s :=
  ⟨bids_emitQuote s ts, asks_emitQuote s ts, idIndex_emitQuote s ts, trades_emitQuote s ts,
    nextNode_emitQuote s ts⟩

theorem coreEq_bumpNextId (s : OrderBook) (o : Order) : CoreEq (bumpNextId s o) s :=
  ⟨bids_bumpNextId s o, asks_bumpNextId s o, idIndex_bumpNextId s o, trades_bumpNextId s o,
    nextNode_bumpNextId s o⟩

theorem restLevel_congr {a b : OrderBook} (h : CoreEq a b) (o : Order) :
    restLevel a o = restLevel b o := by
  unfold restLevel
  rw [coreEq_book h o.side, h.2.2.2.2]

theorem coreEq_restOrder {a b : OrderBook} (h : CoreEq a b) (o : Order) :
    CoreEq (restOrder a o) (restOrder b o) := by
  refine coreEq_ofSides o.side ?_ ?_ ?_ ?_ ?_
  · rw [book_restOrder, book_restOrder, restLevel_congr h, coreEq_book h]
  · rw [opp_restOrder, opp_restOrder, coreEq_opp h]
  · rw [idIndex_restOrder, idIndex_restOrder, h.2.2.1, h.2.2.2.2]
  · rw [trades_restOrder, trades_restOrder, h.2.2.2.1]
  · rw [nextNode_restOrder, nextNode_restOrder, h.2.2.2.2]

theorem canFullyFill_congr {a b : OrderBook} (h : CoreEq a b) (side : OrderSide)
    (lim : Option Price) (q : Int) : canFullyFill a side lim q = canFullyFill b side lim q := by
  unfold canFullyFill
  rw [h.1, h.2.1]

/-- The call of `match` reads and writes the cached top of book and the quote fields
of neither book: on books that agree on their containers it returns the same aggressor
and books that agree again. -/
theorem coreEq_match {a b : OrderBook} (h : CoreEq a b) (side : OrderSide)
    (incoming : Order) (hk : KeysAsc (a.opp side)) :
    CoreEq (match_ side a incoming).1 (match_ side b incoming).1 ∧
      (match_ side a incoming).2 = (match_ side b incoming).2 := by
  have hkb : KeysAsc (b.opp side) := by rw [← coreEq_opp h]; exact hk
  by_cases hf : incoming.tif = TimeInForce.FOK ∧
      canFullyFill a side (fokLimit incoming) incoming.quantity = false
  · have hfb : canFullyFill b side (fokLimit incoming) incoming.quantity = false := by
      rw [← canFullyFill_congr h]; exact hf.2
    rw [match_fok_fail side a incoming hf.1 hf.2, match_fok_fail side b incoming hf.1 hfb]
    exact ⟨h, rfl⟩
  · have hfb : ¬ (incoming.tif = TimeInForce.FOK ∧
        canFullyFill b side (fokLimit incoming) incoming.quantity = false) := by
      rw [← canFullyFill_congr h]; exact hf
    rw [match_pass hf, match_pass hfb, ← coreEq_opp h side]
    have ma := matchLoop_spec side (a.opp side).length a incoming hk le_rfl
    have mb := matchLoop_spec side (b.opp side).length b incoming hkb le_rfl
    rw [← coreEq_opp h side] at mb
    refine ⟨coreEq_ofSides side ?_ ?_ ?_ ?_ ?_, ?_⟩
    · rw [ma.book_eq, mb.book_eq, coreEq_book h]
    · rw [matchSpec_opp ma, matchSpec_opp mb]
    · rw [ma.index_eq, mb.index_eq, h.2.2.1]
    · rw [ma.trades_eq, mb.trades_eq, h.2.2.2.1]
    · rw [nextNode_of_aux ma.aux_eq, nextNode_of_aux mb.aux_eq, h.2.2.2.2]
    · rw [ma.incoming_eq, mb.incoming_eq]

/-! ## No resting order carries the id 0 -/

theorem assignId_ne_zero {s : OrderBook} (h : 0 < s.nextOrderId_) (o : Order) :
    (assignId s o).id ≠ 0 := by
  unfold assignId
  split_ifs with h0
  · exact ne_of_gt h
  · exact h0

theorem assignId_of_ne_zero (s : OrderBook) {o : Order} (h : o.id ≠ 0) : assignId s o = o := by
  unfold assignId
  rw [if_neg h]

theorem bumpNextId_of_ne_zero (s : OrderBook) {o : Order} (h : o.id ≠ 0) :
    bumpNextId s o = s := by
  unfold bumpNextId
  rw [if_neg h]

theorem nextOrderId_bumpNextId_pos {s : OrderBook} (h : 0 < s.nextOrderId_) (o : Order) :
    0 < (bumpNextId s o).nextOrderId_ := by
  unfold bumpNextId
  split_ifs
  · show 0 < s.nextOrderId_ + 1
    omega
  · exact h

theorem allIds_addCore {P : Int → Prop} {s : OrderBook} (hs : Inv s) (o : Order)
    (hp : AllIds P s) (ho : P (assignId s o).id) : AllIds P (addCore s o) := by
  have hs0 := inv_bumpNextId hs o
  have hi0 : AllIds P (bumpNextId s o) :=
    allIds_congr (bids_bumpNextId s o) (asks_bumpNextId s o) hp
  have hk := (hs0.oppOk (assignId s o).side).1
  have hm := inv_match (assignId s o).side _ (assignId s o) hs0
  have him := allIds_match (assignId s o).side (assignId s o) hs0 hi0
  have hid := match_id (assignId s o).side (bumpNextId s o) (assignId s o) hk
  unfold addCore
  simp only
  split
  · refine allIds_restOrder hm him ?_
    rw [hid]
    exact ho
  · exact him

theorem allIds_modifyCore {P : Int → Prop} {s : OrderBook} (hs : Inv s) {orderId : Int}
    (newPxTicks : Price) (newQty : Int) {e : IndexEntry} {lvl : LevelInfo} {n : Node}
    (h1 : s.idIndex_.find orderId = some e)
    (h2 : (s.book e.side).find e.px = some lvl) (h3 : findNode e.lit lvl.orders = some n)
    (hp : AllIds P s) : AllIds P (modifyCore s orderId newPxTicks newQty e lvl n) := by
  have hu := inv_unlinkResting hs h1 h2 h3
  have hpu : AllIds P (unlinkResting s orderId e lvl n) := allIds_unlinkResting hs h2 hp
  have hk := (hu.oppOk e.side).1
  have hm := inv_match e.side _
    { n.order with priceTicks := newPxTicks, quantity := newQty } hu
  have him := allIds_match e.side
    { n.order with priceTicks := newPxTicks, quantity := newQty } hu hpu
  have hid := match_id e.side (unlinkResting s orderId e lvl n)
    { n.order with priceTicks := newPxTicks, quantity := newQty } hk
  simp only at hid
  unfold modifyCore
  simp only
  split
  · refine allIds_restOrder hm him ?_
    rw [hid]
    exact hp e.side (e.px, lvl) (mem_of_find h2) n (findNode_mem h3).1
  · exact him

theorem nextOrderId_addCore (s : OrderBook) (hs : Inv s) (o : Order) :
    (addCore s o).nextOrderId_ = (bumpNextId s o).nextOrderId_ := by
  have hk := ((inv_bumpNextId hs o).oppOk (assignId s o).side).1
  have ha := nextOrderId_of_aux (match_aux (assignId s o).side (bumpNextId s o) (assignId s o) hk)
  unfold addCore
  simp only
  split
  · rw [nextOrderId_restOrder, ha]
  · exact ha

theorem nextOrderId_unlinkResting (s : OrderBook) (orderId : Int) (e : IndexEntry)
    (lvl : LevelInfo) (n : Node) :
    (unlinkResting s orderId e lvl n).nextOrderId_ = s.nextOrderId_ :=
  nextOrderId_of_aux (aux_unlinkResting s orderId e lvl n)

theorem nextOrderId_modifyCore {s : OrderBook} (hs : Inv s) {orderId : Int}
    (newPxTicks : Price) (newQty : Int) {e : IndexEntry} {lvl : LevelInfo} {n : Node}
    (h1 : s.idIndex_.find orderId = some e)
    (h2 : (s.book e.side).find e.px = some lvl) (h3 : findNode e.lit lvl.orders = some n) :
    (modifyCore s orderId newPxTicks newQty e lvl n).nextOrderId_ = s.nextOrderId_ := by
  have hu := inv_unlinkResting hs h1 h2 h3
  have hk := (hu.oppOk e.side).1
  have ha := nextOrderId_of_aux (match_aux e.side (unlinkResting s orderId e lvl n)
    { n.order with priceTicks := newPxTicks, quantity := newQty } hk)
  rw [nextOrderId_unlinkResting] at ha
  unfold modifyCore
  simp only
  split
  · rw [nextOrderId_restOrder, ha]
  · exact ha

theorem idsOk_addOrder {s : OrderBook} (hs : Inv s) (h : IdsOk s) (o : Order) :
    IdsOk (addOrder s o).2 := by
  rw [addOrder_eq]
  refine ⟨?_, ?_⟩
  · rw [nextOrderId_emitQuote, nextOrderId_addCore s hs o]
    exact nextOrderId_bumpNextId_pos h.next o
  · exact allIds_emitQuote _ (allIds_addCore hs o h.ids (assignId_ne_zero h.next o))

theorem idsOk_cancelOrder {s : OrderBook} (hs : Inv s) (h : IdsOk s) {orderId : Int}
    {ts : String} {r : Bool × OrderBook} (hr : cancelOrder s orderId ts = some r) :
    IdsOk r.2 := by
  rcases cancelOrder_cases hs orderId ts with ⟨_, g⟩ | ⟨e, lvl, n, h1, h2, h3, _, g⟩
  · rw [g] at hr
    cases hr
    exact h
  · rw [g] at hr
    cases hr
    refine ⟨?_, ?_⟩
    · show 0 < (emitQuoteIfChanged _ _).nextOrderId_
      rw [nextOrderId_emitQuote, nextOrderId_updateBest, nextOrderId_unlinkResting]
      exact h.next
    · exact allIds_emitQuote _ (allIds_updateBest (allIds_unlinkResting hs h2 h.ids))

theorem idsOk_modifyOrder {s : OrderBook} (hs : Inv s) (h : IdsOk s) {orderId : Int}
    {px : Price} {q : Int} {ts : String} {r : Bool × OrderBook}
    (hr : modifyOrder s orderId px q ts = some r) : IdsOk r.2 := by
  by_cases hq : q > 0
  · rcases modifyOrder_cases hs orderId px ts hq with ⟨_, g⟩ | ⟨e, lvl, n, h1, h2, h3, _, g⟩
    · rw [g] at hr
      cases hr
      exact h
    · rw [g] at hr
      cases hr
      refine ⟨?_, ?_⟩
      · show 0 < (emitQuoteIfChanged _ _).nextOrderId_
        rw [nextOrderId_emitQuote, nextOrderId_updateBest, nextOrderId_modifyCore hs px q h1 h2 h3]
        exact h.next
      · exact allIds_emitQuote _ (allIds_updateBest (allIds_modifyCore hs px q h1 h2 h3 h.ids))
  · rw [modifyOrder_nonpos s orderId px ts (not_lt.mp hq)] at hr
    exact idsOk_cancelOrder hs h hr

theorem idsOk_init (q : Bool) : IdsOk (OrderBook.init q) := by
  refine ⟨by show (0 : Int) < 1; decide, ?_⟩
  intro side e he
  cases side <;> simp [OrderBook.init, OrderBook.book] at he

theorem idsOk_of_reachable {s : OrderBook} (h : Reachable s) : IdsOk s := by
  induction h with
  | init q => exact idsOk_init q
  | add o hr ih => exact idsOk_addOrder (inv_of_reachable hr) ih o
  | cancel orderId ts hr hc ih => exact idsOk_cancelOrder (inv_of_reachable hr) ih hc
  | modify orderId px q ts hr hm ih => exact idsOk_modifyOrder (inv_of_reachable hr) ih hm

/-! ## CANCEL and MODIFY of an id that is not indexed -/

/-- C11.  When `orderId` has no entry in `idIndex_`, `cancelOrder` and
`modifyOrder` (for every new price and every new quantity, positive or not) return
`false` and hand back the book they were given: side containers, index, cached top of
book, trade log and quote rows are all unchanged.  This holds of every book, reachable
or not. -/
theorem not_found_is_noop (s : OrderBook) (orderId : Int)
    (h : s.idIndex_.find orderId = none) (newPxTicks : Price) (newQty : Int) (ts : String) :
    cancelOrder s orderId ts = some (false, s) ∧
      modifyOrder s orderId newPxTicks newQty ts = some (false, s) := by
  have hc : cancelOrder s orderId ts = some (false, s) := by
    unfold cancelOrder
    rw [h]
  refine ⟨hc, ?_⟩
  by_cases hq : newQty ≤ 0
  · rw [modifyOrder_nonpos s orderId newPxTicks ts hq]
    exact hc
  · unfold modifyOrder
    rw [if_neg hq, h]

theorem not_found_is_noop_witness :
    exTwoBids.idIndex_.find 7 = none ∧
    exTwoBids.bids_.map (fun e => (e.1, e.2.orders.map (fun n => n.order.id))) =
      [(9900, [1, 2])] ∧
    (cancelOrder exTwoBids 7 "t9" = some (false, exTwoBids) ∧
      modifyOrder exTwoBids 7 9900 3 "t9" = some (false, exTwoBids)) :=
  ⟨by decide, by decide, not_found_is_noop exTwoBids 7 (by decide) 9900 3 "t9"⟩

/-! ## CANCEL of a resting order -/

theorem index_erase_of_find_none {m : Index} {id : Int} (h : m.find id = none) :
    Index.erase id m = m := by
  induction m with
  | nil => rfl
  | cons x rest ih =>
    obtain ⟨k, e⟩ := x
    rw [index_find_cons] at h
    by_cases hk : k = id
    · rw [if_pos hk] at h; cases h
    · rw [if_neg hk] at h
      rw [index_erase_cons, if_neg hk, ih h]

theorem put_put (px : Price) (l1 l2 : LevelInfo) (b : BookSide) :
    (b.put px l1).put px l2 = b.put px l2 := by
  induction b with
  | nil => simp [BookSide.put]
  | cons x rest ih =>
    obtain ⟨p, l⟩ := x
    by_cases h1 : px < p
    · rw [put_cons_lt h1, put_cons_lt h1, put_cons_self]
    · by_cases h2 : px = p
      · subst h2
        rw [put_cons_self, put_cons_self, put_cons_self]
      · have h3 : p < px := lt_of_le_of_ne (not_lt.mp h1) (Ne.symm h2)
        rw [put_cons_gt h3, put_cons_gt h3, put_cons_gt h3, ih]

theorem put_of_find {b : BookSide} (hk : KeysAsc b) {px : Price} {l : LevelInfo}
    (h : b.find px = some l) : b.put px l = b := by
  induction b with
  | nil => simp [BookSide.find] at h
  | cons x rest ih =>
    obtain ⟨p, l0⟩ := x
    rw [find_cons] at h
    by_cases hp : p = px
    · rw [if_pos hp] at h
      cases h
      subst hp
      rw [put_cons_self]
    · rw [if_neg hp] at h
      have hlt : p < px := KeysAsc.head_lt hk (px, l) (mem_of_find h)
      rw [put_cons_gt hlt, ih hk.tail h]

theorem erase_put (px : Price) (l : LevelInfo) (b : BookSide) :
    (b.put px l).erase px = b.erase px := by
  induction b with
  | nil => simp [BookSide.put, BookSide.erase]
  | cons x rest ih =>
    obtain ⟨p, l0⟩ := x
    by_cases h1 : px < p
    · rw [put_cons_lt h1, erase_cons, if_pos rfl]
    · by_cases h2 : px = p
      · subst h2
        rw [put_cons_self, erase_cons, if_pos rfl, erase_cons, if_pos rfl]
      · have h3 : p < px := lt_of_le_of_ne (not_lt.mp h1) (Ne.symm h2)
        rw [put_cons_gt h3, erase_cons, if_neg (Ne.symm h2), erase_cons,
          if_neg (Ne.symm h2), ih]

theorem erase_of_find_none {b : BookSide} {px : Price} (h : b.find px = none) :
    b.erase px = b :=
  erase_eq_self (find_eq_none_iff.mp h)

theorem eraseNode_append_new {h : Nat} (n : Node) (hn : n.handle = h) :
    ∀ (l : List Node), (∀ m ∈ l, m.handle ≠ h) → eraseNode h (l ++ [n]) = l := by
  intro l
  induction l with
  | nil => intro _; simp [eraseNode, hn]
  | cons m rest ih =>
    intro hl
    have hm : m.handle ≠ h := hl m (List.mem_cons_self _ _)
    rw [List.cons_append]
    simp only [eraseNode, hm, if_false]
    rw [ih (fun x hx => hl x (List.mem_cons_of_mem _ hx))]

theorem sides_eq {a b : OrderBook} (side : OrderSide) (hb : a.book side = b.book side)
    (ho : a.opp side = b.opp side) : a.bids_ = b.bids_ ∧ a.asks_ = b.asks_ := by
  cases side
  · exact ⟨hb, ho⟩
  · exact ⟨ho, hb⟩

/-- When the best opposite level does not cross, the loop of `match` leaves at once. -/
theorem matchLoop_stop (side : OrderSide) (fuel : Nat) (s : OrderBook) (incoming : Order)
    (h : ∀ e, bestOpp side (s.opp side) = some e → crosses side incoming e.1 = false) :
    matchLoop side fuel s incoming = (s, incoming) := by
  cases fuel with
  | zero => rfl
  | succ fuel =>
    by_cases hq : incoming.quantity > 0
    · cases hb : bestOpp side (s.opp side) with
      | none => simp [matchLoop, hq, hb]
      | some e =>
        obtain ⟨px, lvl⟩ := e
        have hc := h (px, lvl) hb
        simp only at hc
        simp [matchLoop, hq, hb, hc]
    · exact matchLoop_of_nonpos _ _ _ _ (not_lt.mp hq)

theorem mem_of_bestOpp {side : OrderSide} {opp : BookSide} {e : Price × LevelInfo}
    (h : bestOpp side opp = some e) : e ∈ opp := by
  rw [bestOpp_eq] at h
  exact mem_bestFirst.mp (List.mem_of_mem_head? h)

/-- An aggressor that crosses no opposite level leaves `match` as it came. -/
theorem match_no_cross (side : OrderSide) (s : OrderBook) (incoming : Order)
    (hfok : incoming.tif ≠ TimeInForce.FOK)
    (h : ∀ e ∈ s.opp side, crosses side incoming e.1 = false) :
    match_ side s incoming = (s, incoming) := by
  rw [match_pass (fun hf => hfok hf.1)]
  exact matchLoop_stop side _ s incoming (fun e he => h e (mem_of_bestOpp he))

/-- The book `addOrder` builds for a resting order that crosses nothing. -/
theorem addOrder_no_cross (s : OrderBook) (o : Order) (ht : o.type = OrderType.LIMIT)
    (htif : o.tif = TimeInForce.GTC ∨ o.tif = TimeInForce.DAY) (hq : o.quantity > 0)
    (hid : o.id ≠ 0) (hnc : ∀ e ∈ s.opp o.side, crosses o.side o e.1 = false) :
    addOrder s o = (true, emitQuoteIfChanged (restOrder s o) o.timestamp) := by
  have hfok : o.tif ≠ TimeInForce.FOK := by rcases htif with h | h <;> rw [h] <;> decide
  have hioc : o.tif ≠ TimeInForce.IOC := by rcases htif with h | h <;> rw [h] <;> decide
  have hm : match_ o.side s o = (s, o) := match_no_cross o.side s o hfok hnc
  have hmk : o.type ≠ OrderType.MARKET := by rw [ht]; decide
  rw [addOrder_eq]
  unfold addCore
  rw [assignId_of_ne_zero s hid, bumpNextId_of_ne_zero s hid, hm]
  simp only [ne_eq, hmk, not_false_eq_true, hq, hioc, hfok, and_self, if_true]

/-- C13.  In a reachable book, adding a LIMIT order with tif GTC or DAY,
positive quantity and a non-zero id that is not indexed, at a price that crosses no
opposite level, and then cancelling that id: the cancel returns `true` and the book it
leaves has the bid levels, ask levels, order index, cached top of book and trade log of
the book before the add. -/
theorem add_cancel_round_trip (s : OrderBook) (hs : Reachable s) (o : Order)
    (ht : o.type = OrderType.LIMIT)
    (htif : o.tif = TimeInForce.GTC ∨ o.tif = TimeInForce.DAY) (hq : o.quantity > 0)
    (hid : o.id ≠ 0) (hfresh : s.idIndex_.find o.id = none)
    (hnc : ∀ e ∈ s.opp o.side, crosses o.side o e.1 = false) (ts : String) :
    ∃ s2, cancelOrder (addOrder s o).2 o.id ts = some (true, s2) ∧
      s2.bids_ = s.bids_ ∧ s2.asks_ = s.asks_ ∧ s2.idIndex_ = s.idIndex_ ∧
      s2.topOfBook = s.topOfBook ∧ s2.trades_ = s.trades_ := by
  have hi := inv_of_reachable hs
  rw [addOrder_no_cross s o ht htif hq hid hnc]
  have hold : ∀ m ∈ (((s.book o.side).find o.priceTicks).getD
      { orders := [], totalQty := 0 }).orders, m.handle ≠ s.nextNode := by
    intro m hm
    cases hf : (s.book o.side).find o.priceTicks with
    | none => rw [hf] at hm; simp at hm
    | some lvl0 =>
      rw [hf] at hm
      have := handles_lt_of_inv hi o.side (o.priceTicks, lvl0) (mem_of_find hf) m hm
      omega
  have h1 : (emitQuoteIfChanged (restOrder s o) o.timestamp).idIndex_.find o.id =
      some { side := o.side, px := o.priceTicks, lit := s.nextNode } := by
    rw [idIndex_emitQuote, idIndex_restOrder, index_find_insert, if_pos rfl]
  have h2 : ((emitQuoteIfChanged (restOrder s o) o.timestamp).book o.side).find o.priceTicks =
      some (restLevel s o) := by
    rw [book_emitQuote, book_restOrder, find_put, if_pos rfl]
  have h3 : findNode s.nextNode (restLevel s o).orders =
      some { handle := s.nextNode, order := o } :=
    findNode_append_new _ rfl hold
  have hc := cancelOrder_eq (s := emitQuoteIfChanged (restOrder s o) o.timestamp) ts
    (e := { side := o.side, px := o.priceTicks, lit := s.nextNode }) h1 h2 h3
  refine ⟨_, hc, ?_⟩
  have herase : eraseNode s.nextNode (restLevel s o).orders =
      (((s.book o.side).find o.priceTicks).getD { orders := [], totalQty := 0 }).orders :=
    eraseNode_append_new { handle := s.nextNode, order := o } rfl _ hold
  have hbook : (unlinkResting (emitQuoteIfChanged (restOrder s o) o.timestamp) o.id
      { side := o.side, px := o.priceTicks, lit := s.nextNode } (restLevel s o)
      { handle := s.nextNode, order := o }).book o.side = s.book o.side := by
    have hb := book_unlinkResting (emitQuoteIfChanged (restOrder s o) o.timestamp) o.id
      { side := o.side, px := o.priceTicks, lit := s.nextNode } (restLevel s o)
      { handle := s.nextNode, order := o }
    simp only at hb
    rw [hb, herase, book_emitQuote, book_restOrder]
    cases hf : (s.book o.side).find o.priceTicks with
    | none =>
      simp only [Option.getD_none, List.isEmpty_nil, if_true]
      rw [erase_put, erase_put, erase_of_find_none hf]
    | some lvl0 =>
      have hlo := (hi.book o.side).2 (o.priceTicks, lvl0) (mem_of_find hf)
      have hne : lvl0.orders.isEmpty = false := by
        cases hl : lvl0.orders with
        | nil => exact absurd hl hlo.1
        | cons _ _ => rfl
      simp only [Option.getD_some, hne, Bool.false_eq_true, if_false]
      rw [put_put]
      have hl : ({ orders := lvl0.orders,
                   totalQty := (restLevel s o).totalQty - o.quantity } : LevelInfo) =
          lvl0 := by
        unfold restLevel
        rw [hf]
        cases lvl0
        simp
      rw [hl]
      exact put_of_find (hi.book o.side).1 hf
  have hopp : (unlinkResting (emitQuoteIfChanged (restOrder s o) o.timestamp) o.id
      { side := o.side, px := o.priceTicks, lit := s.nextNode } (restLevel s o)
      { handle := s.nextNode, order := o }).opp o.side = s.opp o.side := by
    have ho := opp_unlinkResting (emitQuoteIfChanged (restOrder s o) o.timestamp) o.id
      { side := o.side, px := o.priceTicks, lit := s.nextNode } (restLevel s o)
      { handle := s.nextNode, order := o }
    simp only at ho
    rw [ho, opp_emitQuote, opp_restOrder]
  obtain ⟨hb, ha⟩ := sides_eq o.side hbook hopp
  have hb2 : (emitQuoteIfChanged (updateBestOnChange (unlinkResting
      (emitQuoteIfChanged (restOrder s o) o.timestamp) o.id
      { side := o.side, px := o.priceTicks, lit := s.nextNode } (restLevel s o)
      { handle := s.nextNode, order := o })) ts).bids_ = s.bids_ := by
    rw [bids_emitQuote, bids_updateBest, hb]
  have ha2 : (emitQuoteIfChanged (updateBestOnChange (unlinkResting
      (emitQuoteIfChanged (restOrder s o) o.timestamp) o.id
      { side := o.side, px := o.priceTicks, lit := s.nextNode } (restLevel s o)
      { handle := s.nextNode, order := o })) ts).asks_ = s.asks_ := by
    rw [asks_emitQuote, asks_updateBest, ha]
  refine ⟨hb2, ha2, ?_, ?_, ?_⟩
  · rw [idIndex_emitQuote, idIndex_updateBest, idIndex_unlinkResting, idIndex_emitQuote,
      idIndex_restOrder]
    unfold Index.insert
    rw [index_erase_cons, if_pos rfl, index_erase_of_find_none hfresh,
      index_erase_of_find_none hfresh]
  · exact topOfBook_eq_of_cacheOk (cacheOk_emitQuote _ (cacheOk_updateBest _))
      (cacheOk_of_reachable hs) hb2 ha2
  · rw [trades_emitQuote, trades_updateBest, trades_unlinkResting, trades_emitQuote,
      trades_restOrder]

theorem add_cancel_round_trip_witness :
    Reachable (OrderBook.init true) ∧
    (addOrder (OrderBook.init true) exBuyD).2.bids_.map (fun e => (e.1, e.2.totalQty)) =
      [(9900, 10)] ∧
    ((cancelOrder (addOrder (OrderBook.init true) exBuyD).2 1 "t2").map
        (fun r => (r.1, (addOrder r.2 exSellD).2.trades_,
          (addOrder r.2 exSellD).2.asks_.map (fun e => (e.1, e.2.totalQty))))) =
      some (true, [], [(9900, 10)]) ∧
    ∃ s2, cancelOrder (addOrder (OrderBook.init true) exBuyD).2 exBuyD.id "t2" =
        some (true, s2) ∧
      s2.bids_ = (OrderBook.init true).bids_ ∧ s2.asks_ = (OrderBook.init true).asks_ ∧
      s2.idIndex_ = (OrderBook.init true).idIndex_ ∧
      s2.topOfBook = (OrderBook.init true).topOfBook ∧
      s2.trades_ = (OrderBook.init true).trades_ :=
  ⟨Reachable.init true, by decide, by decide,
    add_cancel_round_trip (OrderBook.init true) (Reachable.init true) exBuyD rfl
      (Or.inl rfl) (by decide) (by decide) (by decide) (by decide) "t2"⟩

/-! ## MODIFY at an unchanged price -/

theorem book_restOrder_at (s : OrderBook) (o : Order) (side : OrderSide)
    (hside : o.side = side) :
    (restOrder s o).book side = (s.book side).put o.priceTicks (restLevel s o) := by
  subst hside
  exact book_restOrder s o

theorem opp_restOrder_at (s : OrderBook) (o : Order) (side : OrderSide)
    (hside : o.side = side) : (restOrder s o).opp side = s.opp side := by
  subst hside
  exact opp_restOrder s o

theorem restLevel_at (s : OrderBook) (o : Order) (side : OrderSide) (hside : o.side = side) :
    restLevel s o =
      { orders := (((s.book side).find o.priceTicks).getD
          { orders := [], totalQty := 0 }).orders ++ [{ handle := s.nextNode, order := o }],
        totalQty := (((s.book side).find o.priceTicks).getD
          { orders := [], totalQty := 0 }).totalQty + o.quantity } := by
  subst hside
  rfl

theorem idIndex_restOrder_at (s : OrderBook) (o : Order) (side : OrderSide)
    (hside : o.side = side) :
    (restOrder s o).idIndex_ =
      s.idIndex_.insert o.id { side := side, px := o.priceTicks, lit := s.nextNode } := by
  subst hside
  exact idIndex_restOrder s o

/-- C15.  For every book, id, price and timestamp, `modifyOrder` with
`newQty <= 0` is `cancelOrder`: the two calls return the same value and the same book
(side containers, index, cached top of book, trade log and quote rows). -/
theorem modify_nonpos_is_cancel (s : OrderBook) (orderId : Int) (newPxTicks : Price)
    (newQty : Int) (ts : String) (h : newQty ≤ 0) :
    modifyOrder s orderId newPxTicks newQty ts = cancelOrder s orderId ts := by
  unfold modifyOrder
  rw [if_pos h]

theorem modify_nonpos_is_cancel_witness :
    (0 : Int) ≤ 0 ∧
    ((cancelOrder exTwoBids 1 "t3").map
        (fun r => (r.1, r.2.bids_.map (fun e => (e.1, e.2.orders.map (fun n => n.order.id)))))) =
      some (true, [(9900, [2])]) ∧
    modifyOrder exTwoBids 1 9950 0 "t3" = cancelOrder exTwoBids 1 "t3" :=
  ⟨by decide, by decide, modify_nonpos_is_cancel exTwoBids 1 9950 0 "t3" (by decide)⟩

/-! ## MODIFY as CANCEL followed by ADD -/

theorem match_tif (side : OrderSide) (s : OrderBook) (incoming : Order)
    (hk : KeysAsc (s.opp side)) : (match_ side s incoming).2.tif = incoming.tif := by
  obtain ⟨q, hq⟩ := match_incoming side s incoming hk
  rw [hq]

/-- The book `addOrder` hands to `emitQuoteIfChanged` for a LIMIT order with tif GTC or
DAY that carries an id. -/
theorem addCore_limit (s : OrderBook) (o : Order) (side : OrderSide) (hside : o.side = side)
    (hid : o.id ≠ 0) (ht : o.type = OrderType.LIMIT)
    (htif : o.tif = TimeInForce.GTC ∨ o.tif = TimeInForce.DAY)
    (hk : KeysAsc (s.opp side)) :
    addCore s o =
      if (match_ side s o).2.quantity > 0 then
        restOrder (match_ side s o).1 (match_ side s o).2
      else (match_ side s o).1 := by
  subst hside
  have hfok : o.tif ≠ TimeInForce.FOK := by rcases htif with h | h <;> rw [h] <;> decide
  have hioc : o.tif ≠ TimeInForce.IOC := by rcases htif with h | h <;> rw [h] <;> decide
  have hmk : o.type ≠ OrderType.MARKET := by rw [ht]; decide
  unfold addCore
  rw [assignId_of_ne_zero s hid, bumpNextId_of_ne_zero s hid]
  simp only [ne_eq, hmk, not_false_eq_true, true_and, match_tif o.side s o hk, hioc, hfok,
    and_true]

/-- C16.  In a reachable book, let `orderId` be resting: its index entry `e` leads
to the node `n`, whose order is the current record.  For every positive `newQty`, `modifyOrder` returns `true` and leaves the
same bid levels, ask levels, order index, cached top of book and trade log as
`cancelOrder` of `orderId` followed by `addOrder` of the record of `n` with
`priceTicks := newPxTicks` and `quantity := newQty` (id, side, type, tif and timestamp
kept); the cancel and the add both return `true`. -/
theorem modify_is_cancel_then_add (s : OrderBook) (hs : Reachable s) (orderId : Int)
    (e : IndexEntry) (h1 : s.idIndex_.find orderId = some e) (newPxTicks : Price)
    (newQty : Int) (hq : newQty > 0) (ts tsc : String) :
    ∃ lvl n sm sc,
      (s.book e.side).find e.px = some lvl ∧ findNode e.lit lvl.orders = some n ∧
      n.order.id = orderId ∧
      modifyOrder s orderId newPxTicks newQty ts = some (true, sm) ∧
      cancelOrder s orderId tsc = some (true, sc) ∧
      (addOrder sc { n.order with priceTicks := newPxTicks, quantity := newQty }).1 = true ∧
      sm.bids_ =
        (addOrder sc { n.order with priceTicks := newPxTicks, quantity := newQty }).2.bids_ ∧
      sm.asks_ =
        (addOrder sc { n.order with priceTicks := newPxTicks, quantity := newQty }).2.asks_ ∧
      sm.idIndex_ =
        (addOrder sc { n.order with priceTicks := newPxTicks, quantity := newQty }).2.idIndex_ ∧
      sm.topOfBook =
        (addOrder sc { n.order with priceTicks := newPxTicks, quantity := newQty }).2.topOfBook ∧
      sm.trades_ =
        (addOrder sc { n.order with priceTicks := newPxTicks, quantity := newQty }).2.trades_ := by
  have hi := inv_of_reachable hs
  have hids := idsOk_of_reachable hs
  rcases cancelOrder_cases hi orderId tsc with ⟨g, _⟩ | ⟨e1, lvl, n, g1, h2, h3, h4, hc⟩
  · rw [g] at h1; cases h1
  · rw [h1] at g1
    cases g1
    have hm := modifyOrder_eq_core newPxTicks ts hq h1 h2 h3
    have hmem := mem_of_find h2
    have hnmem := (findNode_mem h3).1
    obtain ⟨_, _, hside, htype, htif, _⟩ := (hi.book e.side).2 (e.px, lvl) hmem |>.2.2.1 n hnmem
    have hid0 : n.order.id ≠ 0 := hids.ids e.side (e.px, lvl) hmem n hnmem
    have hu := inv_unlinkResting hi h1 h2 h3
    have hsc : Inv (emitQuoteIfChanged (updateBestOnChange (unlinkResting s orderId e lvl n))
        tsc) := inv_emitQuote _ (inv_updateBest hu)
    have hceq : CoreEq (emitQuoteIfChanged (updateBestOnChange
        (unlinkResting s orderId e lvl n)) tsc) (unlinkResting s orderId e lvl n) :=
      coreEq_trans (coreEq_emitQuote _ _) (coreEq_updateBest _)
    have hk := (hsc.oppOk e.side).1
    obtain ⟨hm1, hm2⟩ := coreEq_match hceq e.side
      { n.order with priceTicks := newPxTicks, quantity := newQty } hk
    have hcore : CoreEq
        (addCore (emitQuoteIfChanged (updateBestOnChange (unlinkResting s orderId e lvl n)) tsc)
          { n.order with priceTicks := newPxTicks, quantity := newQty })
        (modifyCore s orderId newPxTicks newQty e lvl n) := by
      rw [addCore_limit _ { n.order with priceTicks := newPxTicks, quantity := newQty } e.side
        hside hid0 htype htif hk]
      unfold modifyCore
      simp only
      rw [hm2]
      split_ifs
      · exact coreEq_restOrder hm1 _
      · exact hm1
    have hfin : CoreEq
        (emitQuoteIfChanged (updateBestOnChange (modifyCore s orderId newPxTicks newQty e lvl n))
          ts)
        (addOrder (emitQuoteIfChanged (updateBestOnChange (unlinkResting s orderId e lvl n))
          tsc) { n.order with priceTicks := newPxTicks, quantity := newQty }).2 := by
      rw [addOrder_eq]
      exact coreEq_trans (coreEq_trans (coreEq_emitQuote _ _) (coreEq_updateBest _))
        (coreEq_trans (coreEq_symm hcore) (coreEq_symm (coreEq_emitQuote _ _)))
    have hcm : CacheOk (emitQuoteIfChanged (updateBestOnChange
        (modifyCore s orderId newPxTicks newQty e lvl n)) ts) :=
      cacheOk_emitQuote _ (cacheOk_updateBest _)
    have hca : CacheOk (addOrder (emitQuoteIfChanged (updateBestOnChange
        (unlinkResting s orderId e lvl n)) tsc)
        { n.order with priceTicks := newPxTicks, quantity := newQty }).2 :=
      cacheOk_addOrder _ (cacheOk_emitQuote _ (cacheOk_updateBest _))
    refine ⟨lvl, n, _, _, h2, h3, h4, hm, hc, ?_, hfin.1, hfin.2.1, hfin.2.2.1, ?_,
      hfin.2.2.2.1⟩
    · rw [addOrder_eq]
    · exact topOfBook_eq_of_cacheOk hcm hca hfin.1 hfin.2.1

theorem modify_is_cancel_then_add_witness :
    Reachable exTwoSided ∧
    exTwoSided.idIndex_.find 2 = some { side := .BUY, px := 9900, lit := 1 } ∧
    ((modifyOrder exTwoSided 2 10100 8 "t3").map (fun r => (r.1, r.2.trades_))) =
      some (true,
        [{ timestamp := "t2", priceTicks := 10100, quantity := 5, buyId := 2, sellId := 1 }]) ∧
    ((modifyOrder exTwoSided 2 10100 8 "t3").map
        (fun r => (r.2.bids_.map (fun e => (e.1, e.2.totalQty)),
          r.2.asks_.map (fun e => (e.1, e.2.totalQty))))) =
      some ([(10100, 3)], []) ∧
    ∃ lvl n sm sc,
      (exTwoSided.book OrderSide.BUY).find 9900 = some lvl ∧
      findNode 1 lvl.orders = some n ∧ n.order.id = 2 ∧
      modifyOrder exTwoSided 2 10100 8 "t3" = some (true, sm) ∧
      cancelOrder exTwoSided 2 "t3" = some (true, sc) ∧
      (addOrder sc { n.order with priceTicks := 10100, quantity := 8 }).1 = true ∧
      sm.bids_ = (addOrder sc { n.order with priceTicks := 10100, quantity := 8 }).2.bids_ ∧
      sm.asks_ = (addOrder sc { n.order with priceTicks := 10100, quantity := 8 }).2.asks_ ∧
      sm.idIndex_ =
        (addOrder sc { n.order with priceTicks := 10100, quantity := 8 }).2.idIndex_ ∧
      sm.topOfBook =
        (addOrder sc { n.order with priceTicks := 10100, quantity := 8 }).2.topOfBook ∧
      sm.trades_ =
        (addOrder sc { n.order with priceTicks := 10100, quantity := 8 }).2.trades_ :=
  ⟨reachable_exTwoSided, by decide, by decide, by decide,
    modify_is_cancel_then_add exTwoSided reachable_exTwoSided 2
      { side := .BUY, px := 9900, lit := 1 } (by decide) 10100 8 (by decide) "t3" "t3"⟩

/-! ## The quantity one call of `match` trades -/

theorem crosses_iff (side : OrderSide) (incoming : Order) (px : Price) :
    crosses side incoming px = true ↔
      (incoming.type = OrderType.MARKET ∨
        (side = OrderSide.BUY ∧ px ≤ incoming.priceTicks) ∨
        (side = OrderSide.SELL ∧ px ≥ incoming.priceTicks)) := by
  unfold crosses
  by_cases hm : incoming.type = OrderType.MARKET
  · simp [hm]
  · cases side <;> simp [hm]

theorem depthWhere_all (cr : Price → Bool) (L : List (Price × LevelInfo))
    (h : ∀ e ∈ L, cr e.1 = true) :
    depthWhere cr L = (L.map (fun e => e.2.totalQty)).sum := by
  unfold depthWhere
  rw [List.filter_eq_self.mpr h]

theorem crosses_market (side : OrderSide) {incoming : Order}
    (h : incoming.type = OrderType.MARKET) (px : Price) : crosses side incoming px = true := by
  unfold crosses
  rw [if_pos h]

/-- The traded total of a call of `match` whose FOK pre-check does not apply. -/
theorem matchTrades_sum {s : OrderBook} (hi : Inv s) (side : OrderSide) (incoming : Order)
    (hfok : incoming.tif ≠ TimeInForce.FOK) (hq : 0 ≤ incoming.quantity) :
    ((matchTrades side s incoming).map (fun t => t.quantity)).sum =
      min incoming.quantity (depthWhere (crosses side incoming) (s.opp side)) := by
  unfold matchTrades
  rw [matchFills_pass (fun h => hfok h.1), quantity_sum_toTrade,
    walk_fillSum_of_inv hi side incoming hq]

/-- With the level totals computed exactly: on every book on which the dispatcher calls
`match`, for an aggressor whose tif is not FOK and whose quantity `q` is positive: the
cross predicate holds of a price exactly when the aggressor is a MARKET order, or buys
and the price is at most its limit, or sells and the price is at least its limit; the quantities of the trades the
call appends sum to `min q D`, where `D` is the sum of `totalQty` over the opposite
levels whose price satisfies the cross predicate; the aggressor leaves the call with `q`
minus that sum; for a MARKET aggressor `D` is the whole opposite depth.  In particular
`addOrder` of a MARKET order appends trades summing to the minimum of `q` and the whole
opposite depth and rests nothing: its own side is unchanged and no list node is
created.  For a level whose stored total has left the `int` range see
`fill_amount_overflow`. -/
theorem fill_amount (s : OrderBook) (hs : MatchPoint s) (side : OrderSide) (incoming : Order)
    (hfok : incoming.tif ≠ TimeInForce.FOK) (hq : incoming.quantity > 0) :
    (∀ px, crosses side incoming px = true ↔
      (incoming.type = OrderType.MARKET ∨
        (side = OrderSide.BUY ∧ px ≤ incoming.priceTicks) ∨
        (side = OrderSide.SELL ∧ px ≥ incoming.priceTicks))) ∧
    (match_ side s incoming).1.trades_ = s.trades_ ++ matchTrades side s incoming ∧
    ((matchTrades side s incoming).map (fun t => t.quantity)).sum =
      min incoming.quantity (depthWhere (crosses side incoming) (s.opp side)) ∧
    (match_ side s incoming).2.quantity =
      incoming.quantity - ((matchTrades side s incoming).map (fun t => t.quantity)).sum ∧
    (incoming.type = OrderType.MARKET →
      depthWhere (crosses side incoming) (s.opp side) =
        ((s.opp side).map (fun e => e.2.totalQty)).sum) ∧
    (incoming.type = OrderType.MARKET →
      ∃ T : List Trade,
        (addOrder s incoming).2.trades_ = s.trades_ ++ T ∧
        (T.map (fun t => t.quantity)).sum =
          min incoming.quantity (((s.opp incoming.side).map (fun e => e.2.totalQty)).sum) ∧
        (addOrder s incoming).2.book incoming.side = s.book incoming.side ∧
        (addOrder s incoming).2.nextNode = s.nextNode) := by
  have hi := inv_of_matchPoint hs
  have hk := (hi.oppOk side).1
  have hsum := matchTrades_sum hi side incoming hfok (le_of_lt hq)
  refine ⟨crosses_iff side incoming, match_trades side s incoming hk, hsum, ?_, ?_, ?_⟩
  · rw [match_residual hi side incoming]
    unfold matchTrades
    rw [quantity_sum_toTrade]
  · intro hm
    exact depthWhere_all _ _ (fun e _ => crosses_market side hm e.1)
  · intro hm
    obtain ⟨f1, f2, f3, f4, f5, f6⟩ := assignId_fields s incoming
    obtain ⟨g1, g2, g3, _⟩ := addOrder_no_rest hi incoming (Or.inl hm)
    refine ⟨_, g1, ?_, g2, g3⟩
    rw [matchTrades_sum (inv_bumpNextId hi incoming) incoming.side (assignId s incoming)
      (by rw [f3]; exact hfok) (by rw [f5]; exact le_of_lt hq), f5, opp_bumpNextId]
    rw [depthWhere_all _ _ (fun e _ => crosses_market incoming.side (by rw [f2]; exact hm) e.1)]

theorem fill_amount_witness :
    Reachable exTwoAsks ∧
    exTwoAsks.asks_.map (fun e => (e.1, e.2.totalQty)) = [(10000, 3), (10050, 5)] ∧
    (matchTrades OrderSide.BUY exTwoAsks exMarketBuy).map (fun t => t.quantity) = [3, 5] ∧
    (match_ OrderSide.BUY exTwoAsks exMarketBuy).2.quantity = 2 ∧
    (addOrder exTwoAsks exMarketBuy).2.bids_ = [] ∧
    ((∀ px, crosses OrderSide.BUY exMarketBuy px = true ↔
      (exMarketBuy.type = OrderType.MARKET ∨
        (OrderSide.BUY = OrderSide.BUY ∧ px ≤ exMarketBuy.priceTicks) ∨
        (OrderSide.BUY = OrderSide.SELL ∧ px ≥ exMarketBuy.priceTicks))) ∧
    (match_ OrderSide.BUY exTwoAsks exMarketBuy).1.trades_ =
      exTwoAsks.trades_ ++ matchTrades OrderSide.BUY exTwoAsks exMarketBuy ∧
    ((matchTrades OrderSide.BUY exTwoAsks exMarketBuy).map (fun t => t.quantity)).sum =
      min exMarketBuy.quantity
        (depthWhere (crosses OrderSide.BUY exMarketBuy) (exTwoAsks.opp OrderSide.BUY)) ∧
    (match_ OrderSide.BUY exTwoAsks exMarketBuy).2.quantity =
      exMarketBuy.quantity -
        ((matchTrades OrderSide.BUY exTwoAsks exMarketBuy).map (fun t => t.quantity)).sum ∧
    (exMarketBuy.type = OrderType.MARKET →
      depthWhere (crosses OrderSide.BUY exMarketBuy) (exTwoAsks.opp OrderSide.BUY) =
        ((exTwoAsks.opp OrderSide.BUY).map (fun e => e.2.totalQty)).sum) ∧
    (exMarketBuy.type = OrderType.MARKET →
      ∃ T : List Trade,
        (addOrder exTwoAsks exMarketBuy).2.trades_ = exTwoAsks.trades_ ++ T ∧
        (T.map (fun t => t.quantity)).sum =
          min exMarketBuy.quantity
            (((exTwoAsks.opp exMarketBuy.side).map (fun e => e.2.totalQty)).sum) ∧
        (addOrder exTwoAsks exMarketBuy).2.book exMarketBuy.side =
          exTwoAsks.book exMarketBuy.side ∧
        (addOrder exTwoAsks exMarketBuy).2.nextNode = exTwoAsks.nextNode)) :=
  ⟨reachable_exTwoAsks, by decide, by decide, by decide, by decide,
    fill_amount exTwoAsks (MatchPoint.reach reachable_exTwoAsks) OrderSide.BUY exMarketBuy
      (by decide) (by decide)⟩

/-! ## The order of the trades of one call of `match` -/

theorem mem_priorityOrder {L : List (Price × LevelInfo)} {x : Price × Node}
    (h : x ∈ priorityOrder L) : ∃ e ∈ L, x.1 = e.1 ∧ x.2 ∈ e.2.orders := by
  induction L with
  | nil => simp [priorityOrder] at h
  | cons e rest ih =>
    obtain ⟨px, lvl⟩ := e
    simp only [priorityOrder, List.mem_append, List.mem_map] at h
    rcases h with ⟨n, hn, rfl⟩ | h
    · exact ⟨(px, lvl), List.mem_cons_self _ _, rfl, hn⟩
    · obtain ⟨e, he, h1, h2⟩ := ih h
      exact ⟨e, List.mem_cons_of_mem _ he, h1, h2⟩

theorem priorityOrder_pairwise (R : Price → Price → Prop) (hrefl : ∀ p, R p p)
    {L : List (Price × LevelInfo)} (h : L.Pairwise (fun x y => R x.1 y.1)) :
    (priorityOrder L).Pairwise (fun a b => R a.1 b.1) := by
  induction L with
  | nil => exact List.Pairwise.nil
  | cons e rest ih =>
    obtain ⟨px, lvl⟩ := e
    rw [List.pairwise_cons] at h
    simp only [priorityOrder]
    rw [List.pairwise_append]
    refine ⟨?_, ih h.2, ?_⟩
    · rw [List.pairwise_map]
      exact List.pairwise_of_forall (fun _ _ => hrefl px)
    · intro a ha b hb
      obtain ⟨n, _, rfl⟩ := List.mem_map.mp ha
      obtain ⟨e, he, h1, _⟩ := mem_priorityOrder hb
      rw [h1]
      exact h.1 e he

theorem fillFifo_initial (px : Price) (l : List Node) (q : Int) :
    ((fillFifo px q l).fills.map (fun f => (f.px, f.maker))) <+: l.map (fun n => (px, n)) ∧
      ((fillFifo px q l).orders = [] →
        (fillFifo px q l).fills.map (fun f => (f.px, f.maker)) = l.map (fun n => (px, n))) := by
  refine fillFifo_induct px
    (fun _ l r => (r.fills.map (fun f => (f.px, f.maker))) <+: l.map (fun n => (px, n)) ∧
      (r.orders = [] → r.fills.map (fun f => (f.px, f.maker)) = l.map (fun n => (px, n))))
    ?_ ?_ ?_ l q
  · intro q l _
    refine ⟨⟨_, rfl⟩, ?_⟩
    intro h
    simp only at h
    rw [h]
    rfl
  · intro q m rest _ _ ih
    simp only [List.map_cons]
    obtain ⟨t, ht⟩ := ih.1
    refine ⟨⟨t, by rw [List.cons_append, ht]⟩, ?_⟩
    intro h
    rw [ih.2 h]
  · intro q m rest _ _
    simp only [List.map_cons, List.map_nil]
    refine ⟨?_, ?_⟩
    · exact ⟨rest.map (fun n => (px, n)), rfl⟩
    · intro h
      cases h

/-- The makers of the fills of a walk, each with the price of its fill, are an initial
segment of the resting orders in consumption order. -/
theorem walkLevels_initial (cr : Price → Bool) (L : List (Price × LevelInfo)) (q : Int) :
    ((walkLevels cr q L).fills.map (fun f => (f.px, f.maker))) <+: priorityOrder L := by
  refine walkLevels_induct cr
    (fun _ L w => (w.fills.map (fun f => (f.px, f.maker))) <+: priorityOrder L) ?_ ?_ ?_ L q
  · intro q L _
    exact ⟨_, rfl⟩
  · intro q px lvl rest _ _ he ih
    simp only [List.map_append, priorityOrder]
    rw [(fillFifo_initial px lvl.orders q).2 he]
    obtain ⟨t, ht⟩ := ih
    exact ⟨t, by rw [List.append_assoc, ht]⟩
  · intro q px lvl rest _ _ _
    simp only [priorityOrder]
    obtain ⟨t, ht⟩ := (fillFifo_initial px lvl.orders q).1
    exact ⟨t ++ priorityOrder rest, by rw [← List.append_assoc, ht]⟩

theorem matchFills_initial (side : OrderSide) (s : OrderBook) (incoming : Order) :
    ((matchFills side s incoming).map (fun f => (f.px, f.maker))) <+:
      priorityOrder (bestFirst side (s.opp side)) := by
  rcases matchFills_sub side s incoming with h | h
  · rw [h]
    exact ⟨_, rfl⟩
  · rw [h]
    exact walkLevels_initial _ _ _

theorem toTrade_priceTicks (side : OrderSide) (ts : String) (i : Int) (f : Fill) :
    (Fill.toTrade side ts i f).priceTicks = f.px := by
  cases side <;> rfl

theorem matchFills_crosses {s : OrderBook} (hi : Inv s) (side : OrderSide) (incoming : Order) :
    ∀ f ∈ matchFills side s incoming, crosses side incoming f.px = true := by
  intro f hf
  rcases matchFills_sub side s incoming with h | h
  · rw [h] at hf
    cases hf
  · rw [h] at hf
    refine (walkLevels_fills _ _ _ ?_ f hf).1
    intro e he n hn
    exact ((levels_ok_of_sideOk (hi.oppOk side)) e (mem_bestFirst.mp he)).2.2 n hn

/-- C18.  On every book on which the dispatcher calls `match`, the trades of one
call are appended in the order of its fills, and the makers of the fills, each with its
level price, form an initial segment of the opposite side read from the best level inward
and, within a level, from the head of the FIFO.  Hence the trade prices never decrease
for a BUY aggressor and never increase for a SELL aggressor, and for a LIMIT aggressor
every trade price is at most the limit (BUY) or at least the limit (SELL). -/
theorem trades_follow_book_order (s : OrderBook) (hs : MatchPoint s) (side : OrderSide)
    (incoming : Order) :
    (match_ side s incoming).1.trades_ =
      s.trades_ ++ (matchFills side s incoming).map
        (Fill.toTrade side incoming.timestamp incoming.id) ∧
    ((matchFills side s incoming).map (fun f => (f.px, f.maker))) <+:
      priorityOrder (bestFirst side (s.opp side)) ∧
    (∀ f ∈ matchFills side s incoming,
      (Fill.toTrade side incoming.timestamp incoming.id f).priceTicks = f.px) ∧
    (side = OrderSide.BUY →
      (matchTrades side s incoming).Pairwise (fun a b => a.priceTicks ≤ b.priceTicks)) ∧
    (side = OrderSide.SELL →
      (matchTrades side s incoming).Pairwise (fun a b => a.priceTicks ≥ b.priceTicks)) ∧
    (incoming.type = OrderType.LIMIT →
      ∀ t ∈ matchTrades side s incoming,
        (side = OrderSide.BUY → t.priceTicks ≤ incoming.priceTicks) ∧
        (side = OrderSide.SELL → t.priceTicks ≥ incoming.priceTicks)) := by
  have hi := inv_of_matchPoint hs
  have hk := (hi.oppOk side).1
  have hpre := matchFills_initial side s incoming
  have hord : (bestFirst side (s.opp side)).Pairwise (fun x y => pxBefore side x.1 y.1) := by
    rw [← keysAsc_bestFirst, bestFirst_bestFirst]
    exact hk
  have hmono : ∀ (R : Price → Price → Prop), (∀ p, R p p) →
      (∀ p r, pxBefore side p r → R p r) →
      (matchTrades side s incoming).Pairwise (fun a b => R a.priceTicks b.priceTicks) := by
    intro R hrefl himp
    have h1 := priorityOrder_pairwise R hrefl (hord.imp (fun {a b} h => himp _ _ h))
    have h2 := h1.sublist hpre.sublist
    rw [List.pairwise_map] at h2
    unfold matchTrades
    rw [List.pairwise_map]
    refine h2.imp ?_
    intro a b hab
    rw [toTrade_priceTicks, toTrade_priceTicks]
    exact hab
  refine ⟨match_trades side s incoming hk, hpre, fun f _ => toTrade_priceTicks _ _ _ f,
    ?_, ?_, ?_⟩
  · intro hside
    subst hside
    exact hmono (fun p r => p ≤ r) (fun p => le_refl p) (fun p r h => le_of_lt h)
  · intro hside
    subst hside
    exact hmono (fun p r => p ≥ r) (fun p => le_refl p) (fun p r h => le_of_lt h)
  · intro ht t hmem
    unfold matchTrades at hmem
    obtain ⟨f, hf, rfl⟩ := List.mem_map.mp hmem
    rw [toTrade_priceTicks]
    have hc := (crosses_iff side incoming f.px).mp (matchFills_crosses hi side incoming f hf)
    rcases hc with hc | hc | hc
    · rw [ht] at hc
      cases hc
    · refine ⟨fun _ => hc.2, fun h => ?_⟩
      rw [hc.1] at h
      cases h
    · refine ⟨fun h => ?_, fun _ => hc.2⟩
      rw [hc.1] at h
      cases h

theorem trades_follow_book_order_witness :
    Reachable exTwoAsks ∧
    matchTrades OrderSide.BUY exTwoAsks exBuyB =
      [{ timestamp := "t3", priceTicks := 10000, quantity := 3, buyId := 3, sellId := 1 },
       { timestamp := "t3", priceTicks := 10050, quantity := 3, buyId := 3, sellId := 2 }] ∧
    (match_ OrderSide.BUY exTwoAsks exBuyB).1.asks_.map (fun e => (e.1, e.2.totalQty)) =
      [(10050, 2)] ∧
    ((match_ OrderSide.BUY exTwoAsks exBuyB).1.trades_ =
      exTwoAsks.trades_ ++ (matchFills OrderSide.BUY exTwoAsks exBuyB).map
        (Fill.toTrade OrderSide.BUY exBuyB.timestamp exBuyB.id) ∧
    ((matchFills OrderSide.BUY exTwoAsks exBuyB).map (fun f => (f.px, f.maker))) <+:
      priorityOrder (bestFirst OrderSide.BUY (exTwoAsks.opp OrderSide.BUY)) ∧
    (∀ f ∈ matchFills OrderSide.BUY exTwoAsks exBuyB,
      (Fill.toTrade OrderSide.BUY exBuyB.timestamp exBuyB.id f).priceTicks = f.px) ∧
    (OrderSide.BUY = OrderSide.BUY →
      (matchTrades OrderSide.BUY exTwoAsks exBuyB).Pairwise
        (fun a b => a.priceTicks ≤ b.priceTicks)) ∧
    (OrderSide.BUY = OrderSide.SELL →
      (matchTrades OrderSide.BUY exTwoAsks exBuyB).Pairwise
        (fun a b => a.priceTicks ≥ b.priceTicks)) ∧
    (exBuyB.type = OrderType.LIMIT →
      ∀ t ∈ matchTrades OrderSide.BUY exTwoAsks exBuyB,
        (OrderSide.BUY = OrderSide.BUY → t.priceTicks ≤ exBuyB.priceTicks) ∧
        (OrderSide.BUY = OrderSide.SELL → t.priceTicks ≥ exBuyB.priceTicks))) :=
  ⟨reachable_exTwoAsks, by decide, by decide,
    trades_follow_book_order exTwoAsks (MatchPoint.reach reachable_exTwoAsks) OrderSide.BUY
      exBuyB⟩

/-! ## Resting after the match, and partially consumed makers -/

theorem fillFifo_partFill (px : Price) (l : List Node) (q : Int) :
    ∀ f ∈ (fillFifo px q l).fills, f.traded < f.maker.order.quantity →
      ∃ pre post, l = pre ++ f.maker :: post ∧
        (fillFifo px q l).orders = f.reduced :: post ∧
        fillSum (fillFifo px q l).fills = qtySum pre + f.traded ∧ f.px = px := by
  refine fillFifo_induct px
    (fun _ l r => ∀ f ∈ r.fills, f.traded < f.maker.order.quantity →
      ∃ pre post, l = pre ++ f.maker :: post ∧ r.orders = f.reduced :: post ∧
        fillSum r.fills = qtySum pre + f.traded ∧ f.px = px) ?_ ?_ ?_ l q
  · intro q l _ f hf
    cases hf
  · intro q m rest _ _ ih f hf hlt
    rcases List.mem_cons.mp hf with h | h
    · rw [h] at hlt
      exact absurd hlt (lt_irrefl _)
    · obtain ⟨pre, post, h1, h2, h3, h4⟩ := ih f h hlt
      refine ⟨m :: pre, post, ?_, h2, ?_, h4⟩
      · rw [h1]; rfl
      · rw [fillSum_cons, h3, qtySum_cons]
        ring
  · intro q m rest _ _ f hf _
    rw [List.mem_singleton] at hf
    subst hf
    exact ⟨[], rest, rfl, rfl, by simp [fillSum, qtySum], rfl⟩

theorem walkLevels_partFill (cr : Price → Bool) (L : List (Price × LevelInfo)) (q : Int) :
    ∀ f ∈ (walkLevels cr q L).fills, f.traded < f.maker.order.quantity →
      ∃ lvl0 pre post, (f.px, lvl0) ∈ L ∧ lvl0.orders = pre ++ f.maker :: post ∧
        (f.px, { orders := f.reduced :: post,
                 totalQty := lvl0.totalQty - (qtySum pre + f.traded) }) ∈
          (walkLevels cr q L).levels := by
  refine walkLevels_induct cr
    (fun _ L w => ∀ f ∈ w.fills, f.traded < f.maker.order.quantity →
      ∃ lvl0 pre post, (f.px, lvl0) ∈ L ∧ lvl0.orders = pre ++ f.maker :: post ∧
        (f.px, { orders := f.reduced :: post,
                 totalQty := lvl0.totalQty - (qtySum pre + f.traded) }) ∈ w.levels)
    ?_ ?_ ?_ L q
  · intro q L _ f hf
    cases hf
  · intro q px lvl rest _ _ he ih f hf hlt
    rcases List.mem_append.mp hf with h | h
    · obtain ⟨pre, post, _, h2, _, _⟩ := fillFifo_partFill px lvl.orders q f h hlt
      rw [he] at h2
      cases h2
    · obtain ⟨lvl0, pre, post, h1, h2, h3⟩ := ih f h hlt
      exact ⟨lvl0, pre, post, List.mem_cons_of_mem _ h1, h2, h3⟩
  · intro q px lvl rest _ _ _ f hf hlt
    obtain ⟨pre, post, h1, h2, h3, h4⟩ := fillFifo_partFill px lvl.orders q f hf hlt
    refine ⟨lvl, pre, post, ?_, h1, ?_⟩
    · rw [h4]
      exact List.mem_cons_self _ _
    · simp only
      rw [h2, h3, h4]
      exact List.mem_cons_self _ _

/-- The book `addOrder` hands to `emitQuoteIfChanged` for a LIMIT order with tif GTC or
DAY: the order rests exactly when `match` left it a positive quantity. -/
theorem addCore_resting {s : OrderBook} (hi : Inv s) (o : Order)
    (ht : o.type = OrderType.LIMIT)
    (htif : o.tif = TimeInForce.GTC ∨ o.tif = TimeInForce.DAY) :
    addCore s o =
      if (match_ o.side (bumpNextId s o) (assignId s o)).2.quantity > 0 then
        restOrder (match_ o.side (bumpNextId s o) (assignId s o)).1
          (match_ o.side (bumpNextId s o) (assignId s o)).2
      else (match_ o.side (bumpNextId s o) (assignId s o)).1 := by
  obtain ⟨f1, f2, f3, _, _, _⟩ := assignId_fields s o
  have hfok : o.tif ≠ TimeInForce.FOK := by rcases htif with h | h <;> rw [h] <;> decide
  have hioc : o.tif ≠ TimeInForce.IOC := by rcases htif with h | h <;> rw [h] <;> decide
  have hmk : o.type ≠ OrderType.MARKET := by rw [ht]; decide
  have hk := ((inv_bumpNextId hi o).oppOk o.side).1
  have htf := match_tif o.side (bumpNextId s o) (assignId s o) hk
  rw [f3] at htf
  unfold addCore
  rw [f1]
  simp only [ne_eq, f2, hmk, not_false_eq_true, true_and, htf, hioc, hfok, and_true]

theorem opp_addOrder (s : OrderBook) (o : Order) (sd : OrderSide) :
    (addOrder s o).2.opp sd = (addCore s o).opp sd := by
  rw [opp_eq_book_other, opp_eq_book_other, book_addOrder]

/-- C19.  In a reachable book, for a LIMIT order `o` with tif GTC or DAY, let the
residual be the quantity `match` leaves the order (the order quantity minus the traded
total).  If the residual is positive, after `addOrder` the level at `o.priceTicks` on
the side of `o` is the level that was there (or an empty one) with one new node
appended, holding the order with the residual as quantity: the order is the last
element of the FIFO at its price; the other levels of that side are unchanged and the
index leads from the id of the order to the new node.  If the residual is not positive,
the side of `o` is unchanged, no node is created and the index gains no entry.  In both
cases a maker that a fill consumed only in part is, after the call, the head of the FIFO
of its level with its quantity reduced by the traded amount, followed by the orders that
were behind it. -/
theorem resting_rule (s : OrderBook) (hs : Reachable s) (o : Order)
    (ht : o.type = OrderType.LIMIT)
    (htif : o.tif = TimeInForce.GTC ∨ o.tif = TimeInForce.DAY) :
    (addOrder s o).2.trades_ =
      s.trades_ ++ matchTrades o.side (bumpNextId s o) (assignId s o) ∧
    (match_ o.side (bumpNextId s o) (assignId s o)).2.quantity =
      o.quantity -
        ((matchTrades o.side (bumpNextId s o) (assignId s o)).map (fun t => t.quantity)).sum ∧
    ((match_ o.side (bumpNextId s o) (assignId s o)).2.quantity > 0 →
      (((addOrder s o).2.book o.side).find o.priceTicks).map (fun l => l.orders) =
        some
          ((((s.book o.side).find o.priceTicks).map (fun l => l.orders)).getD [] ++
            [{ handle := s.nextNode,
               order := { assignId s o with
                 quantity := (match_ o.side (bumpNextId s o) (assignId s o)).2.quantity } }]) ∧
      (∀ p, p ≠ o.priceTicks →
        ((addOrder s o).2.book o.side).find p = (s.book o.side).find p) ∧
      (addOrder s o).2.idIndex_.find (assignId s o).id =
        some { side := o.side, px := o.priceTicks, lit := s.nextNode } ∧
      (addOrder s o).2.nextNode = s.nextNode + 1) ∧
    ((match_ o.side (bumpNextId s o) (assignId s o)).2.quantity ≤ 0 →
      (addOrder s o).2.book o.side = s.book o.side ∧
      (addOrder s o).2.nextNode = s.nextNode ∧
      ∀ id e, (addOrder s o).2.idIndex_.find id = some e → s.idIndex_.find id = some e) ∧
    (∀ f ∈ matchFills o.side (bumpNextId s o) (assignId s o),
      f.traded < f.maker.order.quantity →
      ∃ lvl0 pre post,
        (s.opp o.side).find f.px = some lvl0 ∧ lvl0.orders = pre ++ f.maker :: post ∧
        (((addOrder s o).2.opp o.side).find f.px).map (fun l => l.orders) =
          some (f.reduced :: post)) := by
  have hi := inv_of_reachable hs
  have hi0 := inv_bumpNextId hi o
  have hk := (hi0.oppOk o.side).1
  obtain ⟨f1, f2, f3, f4, f5, f6⟩ := assignId_fields s o
  have hfok : (assignId s o).tif ≠ TimeInForce.FOK := by
    rw [f3]; rcases htif with h | h <;> rw [h] <;> decide
  have hcore := addCore_resting hi o ht htif
  obtain ⟨qr, hqr⟩ := match_incoming o.side (bumpNextId s o) (assignId s o) hk
  have hr2 : (match_ o.side (bumpNextId s o) (assignId s o)).2 =
      { assignId s o with
        quantity := (match_ o.side (bumpNextId s o) (assignId s o)).2.quantity } := by
    rw [hqr]
  have hside : (match_ o.side (bumpNextId s o) (assignId s o)).2.side = o.side := by
    rw [hqr]; exact f1
  have hpx : (match_ o.side (bumpNextId s o) (assignId s o)).2.priceTicks = o.priceTicks := by
    rw [hqr]; exact f4
  have hidr : (match_ o.side (bumpNextId s o) (assignId s o)).2.id = (assignId s o).id := by
    rw [hqr]
  have hbook : (match_ o.side (bumpNextId s o) (assignId s o)).1.book o.side = s.book o.side := by
    rw [match_book _ _ _ hk, book_bumpNextId]
  have hnn : (match_ o.side (bumpNextId s o) (assignId s o)).1.nextNode = s.nextNode := by
    rw [nextNode_of_aux (match_aux _ _ _ hk), nextNode_bumpNextId]
  have htr : (match_ o.side (bumpNextId s o) (assignId s o)).1.trades_ =
      s.trades_ ++ matchTrades o.side (bumpNextId s o) (assignId s o) := by
    rw [match_trades _ _ _ hk, trades_bumpNextId]
  refine ⟨?_, ?_, ?_, ?_, ?_⟩
  · rw [trades_addOrder, hcore]
    split_ifs
    · rw [trades_restOrder, htr]
    · exact htr
  · rw [match_residual hi0, f5]
    unfold matchTrades
    rw [quantity_sum_toTrade]
  · intro hpos
    rw [book_addOrder, idIndex_addOrder, nextNode_addOrder, hcore, if_pos hpos]
    rw [book_restOrder_at _ _ o.side hside, idIndex_restOrder_at _ _ o.side hside,
      nextNode_restOrder, hpx, hnn, hidr, hbook]
    refine ⟨?_, ?_, ?_, rfl⟩
    · rw [find_put, if_pos rfl, restLevel_at _ _ o.side hside, hbook, hpx, hnn]
      rw [← hr2]
      cases (s.book o.side).find o.priceTicks <;> rfl
    · intro p hp
      rw [find_put, if_neg hp]
    · rw [index_find_insert, if_pos rfl]
  · intro hnp
    rw [book_addOrder, idIndex_addOrder, nextNode_addOrder, hcore, if_neg (not_lt.mpr hnp)]
    refine ⟨hbook, hnn, ?_⟩
    intro id e hf
    have := index_sub_of_match _ _ _ hk id e hf
    rw [idIndex_bumpNextId] at this
    exact this
  · intro f hf hlt
    rw [matchFills_pass (fun h => hfok h.1)] at hf
    have hms : MatchSpec o.side (bumpNextId s o) (assignId s o)
        (walkLevels (crosses o.side (assignId s o)) (assignId s o).quantity
          (bestFirst o.side ((bumpNextId s o).opp o.side)))
        (match_ o.side (bumpNextId s o) (assignId s o)) := by
      rcases match_cases o.side (bumpNextId s o) (assignId s o) hk with h | h
      · exact absurd h.1 hfok
      · exact h
    obtain ⟨lvl0, pre, post, h1, h2, h3⟩ := walkLevels_partFill _ _ _ f hf hlt
    rw [← hms.opp_eq] at h3
    have hk1 := ((inv_match o.side (bumpNextId s o) (assignId s o) hi0).oppOk o.side).1
    have hopp : (addOrder s o).2.opp o.side =
        (match_ o.side (bumpNextId s o) (assignId s o)).1.opp o.side := by
      rw [opp_addOrder, hcore]
      split_ifs
      · exact opp_restOrder_at _ _ o.side hside
      · rfl
    refine ⟨lvl0, pre, post, ?_, h2, ?_⟩
    · have := find_of_mem hk (mem_bestFirst.mp h1)
      rw [opp_bumpNextId] at this
      exact this
    · rw [hopp, find_of_mem hk1 (mem_bestFirst.mp h3)]
      rfl

theorem resting_rule_witness :
    Reachable exAskTen ∧
    (addOrder exAskTen exBuyA).2.trades_ =
      [{ timestamp := "t2", priceTicks := 10050, quantity := 4, buyId := 2, sellId := 1 }] ∧
    (addOrder exAskTen exBuyA).2.asks_.map
        (fun e => (e.1, e.2.orders.map (fun n => (n.order.id, n.order.quantity)))) =
      [(10050, [(1, 6)])] ∧
    (addOrder exAskTen exBuyA).2.bids_ = [] ∧
    (addOrder exAskThree exBuy2).2.bids_.map
        (fun e => (e.1, e.2.orders.map (fun n => (n.order.id, n.order.quantity)))) =
      [(10000, [(2, 7)])] ∧
    ((addOrder exAskTen exBuyA).2.trades_ =
      exAskTen.trades_ ++ matchTrades exBuyA.side (bumpNextId exAskTen exBuyA)
        (assignId exAskTen exBuyA) ∧
    (match_ exBuyA.side (bumpNextId exAskTen exBuyA) (assignId exAskTen exBuyA)).2.quantity =
      exBuyA.quantity -
        ((matchTrades exBuyA.side (bumpNextId exAskTen exBuyA)
          (assignId exAskTen exBuyA)).map (fun t => t.quantity)).sum ∧
    ((match_ exBuyA.side (bumpNextId exAskTen exBuyA) (assignId exAskTen exBuyA)).2.quantity > 0 →
      (((addOrder exAskTen exBuyA).2.book exBuyA.side).find exBuyA.priceTicks).map
          (fun l => l.orders) =
        some
          ((((exAskTen.book exBuyA.side).find exBuyA.priceTicks).map
              (fun l => l.orders)).getD [] ++
            [{ handle := exAskTen.nextNode,
               order := { assignId exAskTen exBuyA with
                 quantity := (match_ exBuyA.side (bumpNextId exAskTen exBuyA)
                   (assignId exAskTen exBuyA)).2.quantity } }]) ∧
      (∀ p, p ≠ exBuyA.priceTicks →
        ((addOrder exAskTen exBuyA).2.book exBuyA.side).find p =
          (exAskTen.book exBuyA.side).find p) ∧
      (addOrder exAskTen exBuyA).2.idIndex_.find (assignId exAskTen exBuyA).id =
        some { side := exBuyA.side, px := exBuyA.priceTicks, lit := exAskTen.nextNode } ∧
      (addOrder exAskTen exBuyA).2.nextNode = exAskTen.nextNode + 1) ∧
    ((match_ exBuyA.side (bumpNextId exAskTen exBuyA) (assignId exAskTen exBuyA)).2.quantity ≤ 0 →
      (addOrder exAskTen exBuyA).2.book exBuyA.side = exAskTen.book exBuyA.side ∧
      (addOrder exAskTen exBuyA).2.nextNode = exAskTen.nextNode ∧
      ∀ id e, (addOrder exAskTen exBuyA).2.idIndex_.find id = some e →
        exAskTen.idIndex_.find id = some e) ∧
    (∀ f ∈ matchFills exBuyA.side (bumpNextId exAskTen exBuyA) (assignId exAskTen exBuyA),
      f.traded < f.maker.order.quantity →
      ∃ lvl0 pre post,
        (exAskTen.opp exBuyA.side).find f.px = some lvl0 ∧
        lvl0.orders = pre ++ f.maker :: post ∧
        (((addOrder exAskTen exBuyA).2.opp exBuyA.side).find f.px).map (fun l => l.orders) =
          some (f.reduced :: post))) :=
  ⟨Reachable.add _ (Reachable.init true), by decide, by decide, by decide, by decide,
    resting_rule exAskTen (Reachable.add _ (Reachable.init true)) exBuyA rfl (Or.inl rfl)⟩

/-! ## The top-of-book cache -/

theorem last_is_max {b : BookSide} (hk : KeysAsc b) {e : Price × LevelInfo}
    (h : b.getLast? = some e) : e ∈ b ∧ ∀ x ∈ b, x.1 ≤ e.1 := by
  have hd : b.dropLast ++ [e] = b := List.dropLast_append_getLast? e h
  rw [← hd] at hk
  obtain ⟨_, hlt⟩ := keysAsc_append_singleton.mp hk
  refine ⟨List.mem_of_getLast?_eq_some h, ?_⟩
  intro x hx
  rw [← hd] at hx
  rcases List.mem_append.mp hx with h1 | h1
  · exact le_of_lt (hlt x h1)
  · rw [List.mem_singleton.mp h1]

theorem head_is_min {b : BookSide} (hk : KeysAsc b) {e : Price × LevelInfo}
    (h : b.head? = some e) : e ∈ b ∧ ∀ x ∈ b, e.1 ≤ x.1 := by
  cases b with
  | nil => cases h
  | cons e0 rest =>
    simp only [List.head?_cons, Option.some.injEq] at h
    subst h
    refine ⟨List.mem_cons_self _ _, ?_⟩
    intro x hx
    rcases List.mem_cons.mp hx with h1 | h1
    · rw [h1]
    · exact le_of_lt (KeysAsc.head_lt hk x h1)

theorem level_eq_of_key_eq {b : BookSide} (hk : KeysAsc b) {e x : Price × LevelInfo}
    (he : e ∈ b) (hx : x ∈ b) (h : x.1 = e.1) : x = e := by
  have h1 := find_of_mem hk (show (e.1, e.2) ∈ b from he)
  have h2 := find_of_mem hk (show (x.1, x.2) ∈ b from hx)
  rw [h, h1] at h2
  exact Prod.ext h (Option.some.inj h2).symm

/-- C20.  In every reachable book the cached best bid is the sentinel
(`priceMin`, 0) when `bids_` is empty, and otherwise the price and `totalQty` of the
bid level with the highest price (there is one, and the cache equals every level whose
price is highest); the cached best ask is the sentinel (`priceMax`, 0) when `asks_` is
empty, and otherwise the price and `totalQty` of the ask level with the lowest price. -/
theorem top_of_book_cache (s : OrderBook) (hs : Reachable s) :
    (s.bids_ = [] → s.bestBidPx_ = priceMin ∧ s.bestBidQty_ = 0) ∧
    (s.bids_ ≠ [] → ∃ e ∈ s.bids_, ∀ x ∈ s.bids_, x.1 ≤ e.1) ∧
    (∀ e ∈ s.bids_, (∀ x ∈ s.bids_, x.1 ≤ e.1) →
      s.bestBidPx_ = e.1 ∧ s.bestBidQty_ = e.2.totalQty) ∧
    (s.asks_ = [] → s.bestAskPx_ = priceMax ∧ s.bestAskQty_ = 0) ∧
    (s.asks_ ≠ [] → ∃ e ∈ s.asks_, ∀ x ∈ s.asks_, e.1 ≤ x.1) ∧
    (∀ e ∈ s.asks_, (∀ x ∈ s.asks_, e.1 ≤ x.1) →
      s.bestAskPx_ = e.1 ∧ s.bestAskQty_ = e.2.totalQty) := by
  have hi := inv_of_reachable hs
  have hc := cacheOk_of_reachable hs
  unfold CacheOk OrderBook.topOfBook OrderBook.bookTop at hc
  simp only [Prod.mk.injEq] at hc
  obtain ⟨c1, c2, c3, c4⟩ := hc
  have hkb : KeysAsc s.bids_ := hi.bids.1
  have hka : KeysAsc s.asks_ := hi.asks.1
  refine ⟨?_, ?_, ?_, ?_, ?_, ?_⟩
  · intro h
    rw [h] at c1 c2
    exact ⟨c1, c2⟩
  · intro h
    cases hl : s.bids_.getLast? with
    | none => exact absurd (List.getLast?_eq_none_iff.mp hl) h
    | some e => exact ⟨e, last_is_max hkb hl⟩
  · intro e he hmax
    cases hl : s.bids_.getLast? with
    | none =>
      rw [List.getLast?_eq_none_iff.mp hl] at he
      cases he
    | some e0 =>
      obtain ⟨h0, hmax0⟩ := last_is_max hkb hl
      have : e = e0 := level_eq_of_key_eq hkb h0 he (le_antisymm (hmax0 e he) (hmax e0 h0))
      rw [hl] at c1 c2
      rw [this]
      exact ⟨c1, c2⟩
  · intro h
    rw [h] at c3 c4
    exact ⟨c3, c4⟩
  · intro h
    cases hl : s.asks_.head? with
    | none => exact absurd (List.head?_eq_none_iff.mp hl) h
    | some e => exact ⟨e, head_is_min hka hl⟩
  · intro e he hmin
    cases hl : s.asks_.head? with
    | none =>
      rw [List.head?_eq_none_iff.mp hl] at he
      cases he
    | some e0 =>
      obtain ⟨h0, hmin0⟩ := head_is_min hka hl
      have : e = e0 := level_eq_of_key_eq hka h0 he (le_antisymm (hmin e0 h0) (hmin0 e he))
      rw [hl] at c3 c4
      rw [this]
      exact ⟨c3, c4⟩

theorem top_of_book_cache_witness :
    Reachable exTwoSided ∧
    exTwoSided.bids_.map (fun e => (e.1, e.2.totalQty)) = [(9900, 5)] ∧
    exTwoSided.asks_.map (fun e => (e.1, e.2.totalQty)) = [(10100, 5)] ∧
    exTwoSided.topOfBook = (9900, 5, 10100, 5) ∧
    (OrderBook.init true).topOfBook = (priceMin, 0, priceMax, 0) ∧
    ((exTwoSided.bids_ = [] → exTwoSided.bestBidPx_ = priceMin ∧ exTwoSided.bestBidQty_ = 0) ∧
    (exTwoSided.bids_ ≠ [] → ∃ e ∈ exTwoSided.bids_, ∀ x ∈ exTwoSided.bids_, x.1 ≤ e.1) ∧
    (∀ e ∈ exTwoSided.bids_, (∀ x ∈ exTwoSided.bids_, x.1 ≤ e.1) →
      exTwoSided.bestBidPx_ = e.1 ∧ exTwoSided.bestBidQty_ = e.2.totalQty) ∧
    (exTwoSided.asks_ = [] → exTwoSided.bestAskPx_ = priceMax ∧ exTwoSided.bestAskQty_ = 0) ∧
    (exTwoSided.asks_ ≠ [] → ∃ e ∈ exTwoSided.asks_, ∀ x ∈ exTwoSided.asks_, e.1 ≤ x.1) ∧
    (∀ e ∈ exTwoSided.asks_, (∀ x ∈ exTwoSided.asks_, e.1 ≤ x.1) →
      exTwoSided.bestAskPx_ = e.1 ∧ exTwoSided.bestAskQty_ = e.2.totalQty)) :=
  ⟨reachable_exTwoSided, by decide, by decide, by decide, by decide,
    top_of_book_cache exTwoSided reachable_exTwoSided⟩

/-! ## Id assignment -/

theorem matchLoop_setTif (side : OrderSide) (t : TimeInForce) :
    ∀ (fuel : Nat) (s : OrderBook) (o : Order),
      matchLoop side fuel s { o with tif := t } =
        ((matchLoop side fuel s o).1, { (matchLoop side fuel s o).2 with tif := t }) := by
  intro fuel
  induction fuel with
  | zero => intro s o; rfl
  | succ fuel ih =>
    intro s o
    by_cases hq : o.quantity > 0
    · cases hb : bestOpp side (s.opp side) with
      | none =>
        have hstop : ∀ (x : Order) (e : Price × LevelInfo),
            bestOpp side (s.opp side) = some e → crosses side x e.1 = false := by
          intro x e he
          rw [hb] at he
          cases he
        rw [matchLoop_stop side _ s _ (hstop _), matchLoop_stop side _ s o (hstop o)]
      | some e =>
        obtain ⟨px, lvl⟩ := e
        by_cases hc : crosses side o px = true
        · have hc1 : crosses side { o with tif := t } px = true := hc
          have hq1 : ({ o with tif := t } : Order).quantity > 0 := hq
          rw [matchLoop_succ side fuel s { o with tif := t } px lvl hq1 hb hc1,
            matchLoop_succ side fuel s o px lvl hq hb hc]
          exact ih _ { o with quantity := (fillFifo px o.quantity lvl.orders).residual }
        · have hc0 : crosses side o px = false := by simpa using hc
          have hstop : ∀ (x : Order), crosses side x px = false →
              ∀ (e : Price × LevelInfo),
                bestOpp side (s.opp side) = some e → crosses side x e.1 = false := by
            intro x hx e he
            rw [hb] at he
            cases he
            exact hx
          rw [matchLoop_stop side _ s _ (hstop { o with tif := t } hc0),
            matchLoop_stop side _ s o (hstop o hc0)]
    · rw [matchLoop_of_nonpos side _ s { o with tif := t } (not_lt.mp hq),
        matchLoop_of_nonpos side _ s o (not_lt.mp hq)]

/-- What the loop of `match` leaves alone, on every book: the fields `match` does not
touch, and every field of the aggressor but its quantity. -/
theorem matchLoop_frame (side : OrderSide) :
    ∀ (fuel : Nat) (s : OrderBook) (o : Order),
      (matchLoop side fuel s o).1.aux = s.aux ∧
        ∃ q, (matchLoop side fuel s o).2 = { o with quantity := q } := by
  intro fuel
  induction fuel with
  | zero => intro s o; exact ⟨rfl, o.quantity, rfl⟩
  | succ fuel ih =>
    intro s o
    by_cases hq : o.quantity > 0
    · cases hb : bestOpp side (s.opp side) with
      | none =>
        rw [matchLoop_stop side _ s o (by intro e he; rw [hb] at he; cases he)]
        exact ⟨rfl, o.quantity, rfl⟩
      | some e =>
        obtain ⟨px, lvl⟩ := e
        by_cases hc : crosses side o px = true
        · rw [matchLoop_succ side fuel s o px lvl hq hb hc]
          obtain ⟨h1, q, h2⟩ := ih
            (updateBestOnChange
              ((applyFills side o.timestamp o.id s
                  (fillFifo px o.quantity lvl.orders).fills).setOpp side
                (if (fillFifo px o.quantity lvl.orders).orders.isEmpty then
                  (s.opp side).erase px
                 else (s.opp side).put px
                  { orders := (fillFifo px o.quantity lvl.orders).orders,
                    totalQty := lvl.totalQty -
                      fillSum (fillFifo px o.quantity lvl.orders).fills })))
            { o with quantity := (fillFifo px o.quantity lvl.orders).residual }
          refine ⟨?_, q, ?_⟩
          · rw [h1, aux_updateBest, aux_setOpp, aux_applyFills]
          · rw [h2]
        · have hc0 : crosses side o px = false := by simpa using hc
          rw [matchLoop_stop side _ s o (by
            intro e he
            rw [hb] at he
            cases he
            exact hc0)]
          exact ⟨rfl, o.quantity, rfl⟩
    · rw [matchLoop_of_nonpos side _ s o (not_lt.mp hq)]
      exact ⟨rfl, o.quantity, rfl⟩

theorem match_frame (side : OrderSide) (s : OrderBook) (o : Order) :
    (match_ side s o).1.aux = s.aux ∧ ∃ q, (match_ side s o).2 = { o with quantity := q } := by
  by_cases hf : o.tif = TimeInForce.FOK ∧
      canFullyFill s side (fokLimit o) o.quantity = false
  · rw [match_fok_fail side s o hf.1 hf.2]
    exact ⟨rfl, o.quantity, rfl⟩
  · rw [match_pass hf]
    exact matchLoop_frame side _ s o

theorem match_setTif (side : OrderSide) (s : OrderBook) (o : Order) (t : TimeInForce)
    (h1 : o.tif ≠ TimeInForce.FOK) (h2 : t ≠ TimeInForce.FOK) :
    match_ side s { o with tif := t } =
      ((match_ side s o).1, { (match_ side s o).2 with tif := t }) := by
  have hf1 : ¬ (({ o with tif := t } : Order).tif = TimeInForce.FOK ∧
      canFullyFill s side (fokLimit { o with tif := t })
        ({ o with tif := t } : Order).quantity = false) := fun h => h2 h.1
  rw [match_pass hf1, match_pass (fun h => h1 h.1)]
  exact matchLoop_setTif side t _ s o

theorem nodeRel_refl (h : Nat) (id : Int) (x : Node) : NodeRel h id x x := Or.inl rfl

theorem forall2_nodeRel_refl (h : Nat) (id : Int) :
    ∀ l : List Node, List.Forall₂ (NodeRel h id) l l := by
  intro l
  induction l with
  | nil => exact List.Forall₂.nil
  | cons x rest ih => exact List.Forall₂.cons (nodeRel_refl h id x) ih

theorem levelRel_refl (h : Nat) (id : Int) (e : Price × LevelInfo) : LevelRel h id e e :=
  ⟨rfl, rfl, forall2_nodeRel_refl h id _⟩

theorem sideRel_refl (h : Nat) (id : Int) : ∀ b : BookSide, SideRel h id b b := by
  intro b
  induction b with
  | nil => exact List.Forall₂.nil
  | cons x rest ih => exact List.Forall₂.cons (levelRel_refl h id x) ih

theorem sideRel_tops {h : Nat} {id : Int} {A B : BookSide} (r : SideRel h id A B) :
    A.map (fun e => (e.1, e.2.totalQty)) = B.map (fun e => (e.1, e.2.totalQty)) := by
  induction r with
  | nil => rfl
  | cons hab _ ih =>
    simp only [List.map_cons, ih, hab.1, hab.2.1]

theorem isEmpty_of_tops {A B : BookSide}
    (h : A.map (fun e => (e.1, e.2.totalQty)) = B.map (fun e => (e.1, e.2.totalQty))) :
    A.isEmpty = B.isEmpty := by
  cases A <;> cases B <;> simp at h ⊢

theorem bookTop_of_tops {a b : OrderBook}
    (hb : a.bids_.map (fun e => (e.1, e.2.totalQty)) =
      b.bids_.map (fun e => (e.1, e.2.totalQty)))
    (ha : a.asks_.map (fun e => (e.1, e.2.totalQty)) =
      b.asks_.map (fun e => (e.1, e.2.totalQty))) : a.bookTop = b.bookTop := by
  have h1 : a.bids_.getLast?.map (fun e => (e.1, e.2.totalQty)) =
      b.bids_.getLast?.map (fun e => (e.1, e.2.totalQty)) := by
    rw [← List.getLast?_map, hb, List.getLast?_map]
  have h2 : a.asks_.head?.map (fun e => (e.1, e.2.totalQty)) =
      b.asks_.head?.map (fun e => (e.1, e.2.totalQty)) := by
    rw [← List.head?_map, ha, List.head?_map]
  unfold OrderBook.bookTop
  cases h3 : a.bids_.getLast? <;> cases h4 : b.bids_.getLast? <;>
    cases h5 : a.asks_.head? <;> cases h6 : b.asks_.head? <;>
    simp [h3, h4, h5, h6] at h1 h2 ⊢ <;> simp [h1, h2]

theorem updateBest_eq (s : OrderBook) :
    updateBestOnChange s =
      { s with bestBidPx_ := s.bookTop.1, bestBidQty_ := s.bookTop.2.1,
               bestAskPx_ := s.bookTop.2.2.1, bestAskQty_ := s.bookTop.2.2.2 } := by
  unfold updateBestOnChange OrderBook.bookTop
  cases hb : s.bids_.getLast? <;> cases ha : s.asks_.head? <;> simp [ha]

theorem shell_updateBest (s : OrderBook) :
    (updateBestOnChange s).shell =
      { s.shell with bestBidPx_ := s.bookTop.1, bestBidQty_ := s.bookTop.2.1,
                     bestAskPx_ := s.bookTop.2.2.1, bestAskQty_ := s.bookTop.2.2.2 } := by
  rw [updateBest_eq]
  rfl

theorem bookRel_refl (h : Nat) (id : Int) (s : OrderBook) : BookRel h id s s :=
  ⟨sideRel_refl h id _, sideRel_refl h id _, rfl⟩

theorem bookRel_updateBest {h : Nat} {id : Int} {a b : OrderBook} (r : BookRel h id a b) :
    BookRel h id (updateBestOnChange a) (updateBestOnChange b) := by
  refine ⟨?_, ?_, ?_⟩
  · rw [bids_updateBest, bids_updateBest]
    exact r.bids
  · rw [asks_updateBest, asks_updateBest]
    exact r.asks
  · rw [shell_updateBest, shell_updateBest, r.shell,
      bookTop_of_tops (sideRel_tops r.bids) (sideRel_tops r.asks)]

theorem shell_emitQuote {a b : OrderBook} (hs : a.shell = b.shell)
    (hb : a.bids_.isEmpty = b.bids_.isEmpty) (ha : a.asks_.isEmpty = b.asks_.isEmpty)
    (ts : String) : (emitQuoteIfChanged a ts).shell = (emitQuoteIfChanged b ts).shell := by
  cases a
  cases b
  simp only [OrderBook.shell, OrderBook.mk.injEq, true_and] at hs
  obtain ⟨h1, h2, h3, h4, h5, h6, h7, h8, h9, h10, h11, h12, h13, h14⟩ := hs
  simp only at hb ha
  subst h1 h2 h3 h4 h5 h6 h7 h8 h9 h10 h11 h12 h13 h14
  unfold emitQuoteIfChanged
  simp only [hb, ha]
  split_ifs <;> rfl

theorem bookRel_emitQuote {h : Nat} {id : Int} {a b : OrderBook} (r : BookRel h id a b)
    (ts : String) : BookRel h id (emitQuoteIfChanged a ts) (emitQuoteIfChanged b ts) := by
  refine ⟨?_, ?_, ?_⟩
  · rw [bids_emitQuote, bids_emitQuote]
    exact r.bids
  · rw [asks_emitQuote, asks_emitQuote]
    exact r.asks
  · exact shell_emitQuote r.shell (isEmpty_of_tops (sideRel_tops r.bids))
      (isEmpty_of_tops (sideRel_tops r.asks)) ts

theorem sideRel_put {h : Nat} {id : Int} (px : Price) {LA LB : LevelInfo}
    (r : LevelRel h id (px, LA) (px, LB)) :
    ∀ b : BookSide, SideRel h id (b.put px LA) (b.put px LB) := by
  intro b
  induction b with
  | nil => exact List.Forall₂.cons r List.Forall₂.nil
  | cons x rest ih =>
    obtain ⟨p, l⟩ := x
    by_cases h1 : px < p
    · rw [put_cons_lt h1, put_cons_lt h1]
      exact List.Forall₂.cons r (sideRel_refl h id _)
    · by_cases h2 : px = p
      · subst h2
        rw [put_cons_self, put_cons_self]
        exact List.Forall₂.cons r (sideRel_refl h id _)
      · have h3 : p < px := lt_of_le_of_ne (not_lt.mp h1) (Ne.symm h2)
        rw [put_cons_gt h3, put_cons_gt h3]
        exact List.Forall₂.cons (levelRel_refl h id _) ih

theorem forall2_append_single {h : Nat} {id : Int} {x y : Node} (r : NodeRel h id x y) :
    ∀ base : List Node, List.Forall₂ (NodeRel h id) (base ++ [x]) (base ++ [y]) := by
  intro base
  induction base with
  | nil => exact List.Forall₂.cons r List.Forall₂.nil
  | cons m rest ih => exact List.Forall₂.cons (nodeRel_refl h id m) ih

theorem restLevel_rel (s : OrderBook) (x : Order) (hx : x.tif = TimeInForce.GTC) :
    LevelRel s.nextNode x.id
      (x.priceTicks, restLevel s { x with tif := TimeInForce.DAY })
      (x.priceTicks, restLevel s x) := by
  have hn : NodeRel s.nextNode x.id
      { handle := s.nextNode, order := { x with tif := TimeInForce.DAY } }
      { handle := s.nextNode, order := x } := Or.inr ⟨rfl, rfl, rfl, hx, rfl⟩
  exact ⟨rfl, rfl, forall2_append_single hn _⟩

/-- Resting an order with tif DAY or with tif GTC gives books that differ in the tif
stored in the new node only. -/
theorem bookRel_restOrder (s : OrderBook) (x : Order) (hx : x.tif = TimeInForce.GTC) :
    BookRel s.nextNode x.id (restOrder s { x with tif := TimeInForce.DAY }) (restOrder s x) := by
  have hl := restLevel_rel s x hx
  have hput := sideRel_put x.priceTicks hl
  unfold restOrder updateBestOnAdd
  apply bookRel_updateBest
  obtain ⟨id, ts, side, type, tif, px, q⟩ := x
  cases side
  · exact ⟨hput s.bids_, sideRel_refl _ _ _, rfl⟩
  · exact ⟨sideRel_refl _ _ _, hput s.asks_, rfl⟩

theorem bookRel_restOrder_at (s : OrderBook) (x : Order) (hx : x.tif = TimeInForce.GTC)
    (h : Nat) (id : Int) (hh : s.nextNode = h) (hid : x.id = id) :
    BookRel h id (restOrder s { x with tif := TimeInForce.DAY }) (restOrder s x) := by
  subst hh hid
  exact bookRel_restOrder s x hx

theorem assignId_setTif (s : OrderBook) (o : Order) (t : TimeInForce) :
    assignId s { o with tif := t } = { assignId s o with tif := t } := by
  unfold assignId
  by_cases h0 : o.id = 0
  · rw [if_pos h0, if_pos (show ({ o with tif := t } : Order).id = 0 from h0)]
  · rw [if_neg h0, if_neg (show ¬ ({ o with tif := t } : Order).id = 0 from h0)]

theorem bumpNextId_setTif (s : OrderBook) (o : Order) (t : TimeInForce) :
    bumpNextId s { o with tif := t } = bumpNextId s o := rfl

/-- The book `addOrder` hands to `emitQuoteIfChanged` for an order sent with tif DAY and
for the same order sent with tif GTC. -/
theorem bookRel_addCore (s : OrderBook) (o : Order) :
    BookRel s.nextNode (assignId s o).id
        (addCore s { o with tif := TimeInForce.DAY })
        (addCore s { o with tif := TimeInForce.GTC }) ∧
      (match_ (assignId s { o with tif := TimeInForce.DAY }).side
          (bumpNextId s { o with tif := TimeInForce.DAY })
          (assignId s { o with tif := TimeInForce.DAY })).2.timestamp =
        (match_ (assignId s { o with tif := TimeInForce.GTC }).side
          (bumpNextId s { o with tif := TimeInForce.GTC })
          (assignId s { o with tif := TimeInForce.GTC })).2.timestamp := by
  have hD : assignId s { o with tif := TimeInForce.DAY } =
      { assignId s { o with tif := TimeInForce.GTC } with tif := TimeInForce.DAY } := by
    unfold assignId
    by_cases h0 : o.id = 0
    · rw [if_pos (show ({ o with tif := TimeInForce.DAY } : Order).id = 0 from h0),
        if_pos (show ({ o with tif := TimeInForce.GTC } : Order).id = 0 from h0)]
    · rw [if_neg (show ¬ ({ o with tif := TimeInForce.DAY } : Order).id = 0 from h0),
        if_neg (show ¬ ({ o with tif := TimeInForce.GTC } : Order).id = 0 from h0)]
  have htif : (assignId s { o with tif := TimeInForce.GTC }).tif = TimeInForce.GTC := by
    rw [assignId_setTif]
  have hidG : (assignId s { o with tif := TimeInForce.GTC }).id = (assignId s o).id := by
    rw [assignId_setTif]
  have hm := match_setTif (assignId s { o with tif := TimeInForce.GTC }).side
    (bumpNextId s o) (assignId s { o with tif := TimeInForce.GTC }) TimeInForce.DAY
    (by rw [htif]; decide) (by decide)
  obtain ⟨haux, qr, hqr⟩ := match_frame (assignId s { o with tif := TimeInForce.GTC }).side
    (bumpNextId s o) (assignId s { o with tif := TimeInForce.GTC })
  have hnn : (match_ (assignId s { o with tif := TimeInForce.GTC }).side (bumpNextId s o)
      (assignId s { o with tif := TimeInForce.GTC })).1.nextNode = s.nextNode := by
    rw [nextNode_of_aux haux, nextNode_bumpNextId]
  have hrtif : (match_ (assignId s { o with tif := TimeInForce.GTC }).side (bumpNextId s o)
      (assignId s { o with tif := TimeInForce.GTC })).2.tif = TimeInForce.GTC := by
    rw [hqr]; exact htif
  have hrid : (match_ (assignId s { o with tif := TimeInForce.GTC }).side (bumpNextId s o)
      (assignId s { o with tif := TimeInForce.GTC })).2.id = (assignId s o).id := by
    rw [hqr]; exact hidG
  have hcoreD : addCore s { o with tif := TimeInForce.DAY } =
      if (assignId s { o with tif := TimeInForce.GTC }).type ≠ OrderType.MARKET ∧
          (match_ (assignId s { o with tif := TimeInForce.GTC }).side (bumpNextId s o)
            (assignId s { o with tif := TimeInForce.GTC })).2.quantity > 0 then
        restOrder
          (match_ (assignId s { o with tif := TimeInForce.GTC }).side (bumpNextId s o)
            (assignId s { o with tif := TimeInForce.GTC })).1
          { (match_ (assignId s { o with tif := TimeInForce.GTC }).side (bumpNextId s o)
              (assignId s { o with tif := TimeInForce.GTC })).2 with tif := TimeInForce.DAY }
      else
        (match_ (assignId s { o with tif := TimeInForce.GTC }).side (bumpNextId s o)
          (assignId s { o with tif := TimeInForce.GTC })).1 := by
    unfold addCore
    rw [bumpNextId_setTif, hD]
    simp only
    rw [hm]
    simp
  have hcoreG : addCore s { o with tif := TimeInForce.GTC } =
      if (assignId s { o with tif := TimeInForce.GTC }).type ≠ OrderType.MARKET ∧
          (match_ (assignId s { o with tif := TimeInForce.GTC }).side (bumpNextId s o)
            (assignId s { o with tif := TimeInForce.GTC })).2.quantity > 0 then
        restOrder
          (match_ (assignId s { o with tif := TimeInForce.GTC }).side (bumpNextId s o)
            (assignId s { o with tif := TimeInForce.GTC })).1
          (match_ (assignId s { o with tif := TimeInForce.GTC }).side (bumpNextId s o)
            (assignId s { o with tif := TimeInForce.GTC })).2
      else
        (match_ (assignId s { o with tif := TimeInForce.GTC }).side (bumpNextId s o)
          (assignId s { o with tif := TimeInForce.GTC })).1 := by
    unfold addCore
    rw [bumpNextId_setTif]
    simp only [hrtif]
    simp
  refine ⟨?_, ?_⟩
  · rw [hcoreD, hcoreG]
    split_ifs
    · exact bookRel_restOrder_at
        (match_ (assignId s { o with tif := TimeInForce.GTC }).side (bumpNextId s o)
          (assignId s { o with tif := TimeInForce.GTC })).1
        (match_ (assignId s { o with tif := TimeInForce.GTC }).side (bumpNextId s o)
          (assignId s { o with tif := TimeInForce.GTC })).2 hrtif _ _ hnn hrid
    · exact bookRel_refl _ _ _
  · rw [bumpNextId_setTif, bumpNextId_setTif, hD]
    simp only
    rw [hm]
    rfl

theorem fields_of_shell {a b : OrderBook} (h : a.shell = b.shell) :
    a.trades_ = b.trades_ ∧ a.idIndex_ = b.idIndex_ ∧ a.topOfBook = b.topOfBook ∧
      a.quotes = b.quotes ∧ a.nextOrderId_ = b.nextOrderId_ ∧ a.nextNode = b.nextNode := by
  have h1 : a.shell.trades_ = b.shell.trades_ := by rw [h]
  have h2 : a.shell.idIndex_ = b.shell.idIndex_ := by rw [h]
  have h3 : a.shell.topOfBook = b.shell.topOfBook := by rw [h]
  have h4 : a.shell.quotes = b.shell.quotes := by rw [h]
  have h5 : a.shell.nextOrderId_ = b.shell.nextOrderId_ := by rw [h]
  have h6 : a.shell.nextNode = b.shell.nextNode := by rw [h]
  exact ⟨h1, h2, h3, h4, h5, h6⟩

/-- C22.  For every book `s` and every order `o`, `addOrder` of `o` sent with tif DAY
and `addOrder` of `o` sent with tif GTC return the same value and leave the same trade
log, order index, cached top of book, quote rows, id counter and allocator counter.
Their bid levels and their ask levels have the same prices and totals and hold the same
nodes at the same positions, except that the node created by the call (the one with
handle `s.nextNode`, holding the order under the id the call works with) stores tif DAY
in the one book and tif GTC in the other. -/
theorem day_like_gtc (s : OrderBook) (o : Order) :
    (addOrder s { o with tif := TimeInForce.DAY }).1 =
      (addOrder s { o with tif := TimeInForce.GTC }).1 ∧
    (addOrder s { o with tif := TimeInForce.DAY }).2.trades_ =
      (addOrder s { o with tif := TimeInForce.GTC }).2.trades_ ∧
    (addOrder s { o with tif := TimeInForce.DAY }).2.idIndex_ =
      (addOrder s { o with tif := TimeInForce.GTC }).2.idIndex_ ∧
    (addOrder s { o with tif := TimeInForce.DAY }).2.topOfBook =
      (addOrder s { o with tif := TimeInForce.GTC }).2.topOfBook ∧
    (addOrder s { o with tif := TimeInForce.DAY }).2.quotes =
      (addOrder s { o with tif := TimeInForce.GTC }).2.quotes ∧
    (addOrder s { o with tif := TimeInForce.DAY }).2.nextOrderId_ =
      (addOrder s { o with tif := TimeInForce.GTC }).2.nextOrderId_ ∧
    (addOrder s { o with tif := TimeInForce.DAY }).2.nextNode =
      (addOrder s { o with tif := TimeInForce.GTC }).2.nextNode ∧
    SideRel s.nextNode (assignId s o).id
      (addOrder s { o with tif := TimeInForce.DAY }).2.bids_
      (addOrder s { o with tif := TimeInForce.GTC }).2.bids_ ∧
    SideRel s.nextNode (assignId s o).id
      (addOrder s { o with tif := TimeInForce.DAY }).2.asks_
      (addOrder s { o with tif := TimeInForce.GTC }).2.asks_ := by
  obtain ⟨hcore, hts⟩ := bookRel_addCore s o
  have hrel : BookRel s.nextNode (assignId s o).id
      (addOrder s { o with tif := TimeInForce.DAY }).2
      (addOrder s { o with tif := TimeInForce.GTC }).2 := by
    rw [addOrder_eq, addOrder_eq, hts]
    exact bookRel_emitQuote hcore _
  obtain ⟨h1, h2, h3, h4, h5, h6⟩ := fields_of_shell hrel.shell
  refine ⟨?_, h1, h2, h3, h4, h5, h6, hrel.bids, hrel.asks⟩
  rw [addOrder_eq, addOrder_eq]

theorem day_like_gtc_witness :
    ((addOrder exAskThree { exBuy2 with tif := TimeInForce.DAY }).2.bids_.map
        (fun e => (e.1, e.2.orders.map
          (fun n => (n.handle, n.order.id, n.order.tif, n.order.quantity))))) =
      [(10000, [(1, 2, TimeInForce.DAY, 7)])] ∧
    ((addOrder exAskThree { exBuy2 with tif := TimeInForce.GTC }).2.bids_.map
        (fun e => (e.1, e.2.orders.map
          (fun n => (n.handle, n.order.id, n.order.tif, n.order.quantity))))) =
      [(10000, [(1, 2, TimeInForce.GTC, 7)])] ∧
    exAskThree.nextNode = 1 ∧
    ((addOrder exAskThree { exBuy2 with tif := TimeInForce.DAY }).1 =
      (addOrder exAskThree { exBuy2 with tif := TimeInForce.GTC }).1 ∧
    (addOrder exAskThree { exBuy2 with tif := TimeInForce.DAY }).2.trades_ =
      (addOrder exAskThree { exBuy2 with tif := TimeInForce.GTC }).2.trades_ ∧
    (addOrder exAskThree { exBuy2 with tif := TimeInForce.DAY }).2.idIndex_ =
      (addOrder exAskThree { exBuy2 with tif := TimeInForce.GTC }).2.idIndex_ ∧
    (addOrder exAskThree { exBuy2 with tif := TimeInForce.DAY }).2.topOfBook =
      (addOrder exAskThree { exBuy2 with tif := TimeInForce.GTC }).2.topOfBook ∧
    (addOrder exAskThree { exBuy2 with tif := TimeInForce.DAY }).2.quotes =
      (addOrder exAskThree { exBuy2 with tif := TimeInForce.GTC }).2.quotes ∧
    (addOrder exAskThree { exBuy2 with tif := TimeInForce.DAY }).2.nextOrderId_ =
      (addOrder exAskThree { exBuy2 with tif := TimeInForce.GTC }).2.nextOrderId_ ∧
    (addOrder exAskThree { exBuy2 with tif := TimeInForce.DAY }).2.nextNode =
      (addOrder exAskThree { exBuy2 with tif := TimeInForce.GTC }).2.nextNode ∧
    SideRel exAskThree.nextNode (assignId exAskThree exBuy2).id
      (addOrder exAskThree { exBuy2 with tif := TimeInForce.DAY }).2.bids_
      (addOrder exAskThree { exBuy2 with tif := TimeInForce.GTC }).2.bids_ ∧
    SideRel exAskThree.nextNode (assignId exAskThree exBuy2).id
      (addOrder exAskThree { exBuy2 with tif := TimeInForce.DAY }).2.asks_
      (addOrder exAskThree { exBuy2 with tif := TimeInForce.GTC }).2.asks_) :=
  ⟨by decide, by decide, by decide, day_like_gtc exAskThree exBuy2⟩

/-! ## Quote-change detection -/

/-- C23.  With the quote sink open, a buy of 5 at the lowest value of `Price` is added
to a new book and quoted.  Its cancel empties the bid side, so the observable top of book
changes from a bid of 5 to no bid, yet `emitQuoteIfChanged` writes no record and leaves
`LastQuoted` alone: the test `lastQuotedBid_ == min` reads the quoted price as an absent
bid, and the side-disappear transition is missed. -/
theorem quote_change_missed :
    exBidAtMin.quotes =
      [{ timestamp := "t1", bestBid := some priceMin, bidQty := 5, bestAsk := none,
         askQty := 0 }] ∧
    cancelOrder exBidAtMin 1 "t2" = some (true, emitQuoteIfChanged exAfterUnlink "t2") ∧
    exAfterUnlink.quotesOpen = true ∧
    exAfterUnlink.bids_ = [] ∧
    lastObs exAfterUnlink.quotes = (some (priceMin, 5), none) ∧
    exAfterUnlink.obsTop = (none, none) ∧
    (emitQuoteIfChanged exAfterUnlink "t2").quotes = exAfterUnlink.quotes ∧
    emitQuoteIfChanged exAfterUnlink "t2" = exAfterUnlink ∧
    ¬ ((emitQuoteIfChanged exAfterUnlink "t2").quotes ≠ exAfterUnlink.quotes ↔
        exAfterUnlink.obsTop ≠ lastObs exAfterUnlink.quotes) := by
  decide

theorem emitQuote_eq (s : OrderBook) (ts : String) :
    emitQuoteIfChanged s ts =
      if !s.quotesOpen then s
      else if !quoteChanged s then s
      else
        { s with
          lastQuotedBid_ := if s.bids_.isEmpty then priceMin else s.bestBidPx_,
          lastQuotedBidQty_ := s.bestBidQty_,
          lastQuotedAsk_ := if s.asks_.isEmpty then priceMax else s.bestAskPx_,
          lastQuotedAskQty_ := s.bestAskQty_,
          quotes := s.quotes ++ [s.currentRow ts] } := rfl

theorem obs_currentRow (s : OrderBook) (ts : String) : (s.currentRow ts).obs = s.obsTop := by
  unfold OrderBook.currentRow QuoteRow.obs OrderBook.obsTop
  cases s.bids_.isEmpty <;> cases s.asks_.isEmpty <;> rfl

theorem lastObs_append (quotes : List QuoteRow) (r : QuoteRow) :
    lastObs (quotes ++ [r]) = r.obs := by
  unfold lastObs
  rw [List.getLast?_append]
  rfl

/-- With `LastQuoted` recording the last row, and the last row showing neither a bid at
the lowest nor an ask at the highest value of `Price`, the flag `changed` is raised
exactly when the observable top of book differs from the last row. -/
theorem quoteChanged_iff {s : OrderBook} (hinv : QuoteInv s)
    (hb : ∀ p q, (lastObs s.quotes).1 = some (p, q) → p ≠ priceMin)
    (ha : ∀ p q, (lastObs s.quotes).2 = some (p, q) → p ≠ priceMax) :
    quoteChanged s = true ↔ s.obsTop ≠ lastObs s.quotes := by
  obtain ⟨hB, hA⟩ := hinv
  rcases h1 : lastObs s.quotes with ⟨lb, la⟩
  rw [h1] at hB hA hb ha
  simp only at hB hA hb ha
  unfold quoteChanged OrderBook.obsTop
  cases lb with
  | none =>
    cases la with
    | none =>
      simp only at hB hA
      cases s.bids_.isEmpty <;> cases s.asks_.isEmpty <;> simp [hB, hA]
    | some a =>
      obtain ⟨ap, aq⟩ := a
      simp only at hB hA
      have hne := ha ap aq rfl
      cases s.bids_.isEmpty <;> cases s.asks_.isEmpty <;>
        simp [hB, hA.1, hA.2, hne, imp_iff_not_or]
  | some b =>
    obtain ⟨bp, bq⟩ := b
    have hnb := hb bp bq rfl
    cases la with
    | none =>
      simp only at hB hA
      cases s.bids_.isEmpty <;> cases s.asks_.isEmpty <;>
        simp [hB.1, hB.2, hA, hnb, imp_iff_not_or]
    | some a =>
      obtain ⟨ap, aq⟩ := a
      simp only at hB hA
      have hne := ha ap aq rfl
      cases s.bids_.isEmpty <;> cases s.asks_.isEmpty <;>
        simp [hB.1, hB.2, hA.1, hA.2, hnb, hne, imp_iff_not_or]

theorem qaux_of_aux {s s1 : OrderBook} (h : s1.aux = s.aux) : s1.qaux = s.qaux := by
  unfold OrderBook.aux at h
  unfold OrderBook.qaux
  simp only [Prod.mk.injEq] at h ⊢
  exact ⟨h.2.2.1, h.2.2.2.1, h.2.2.2.2.1, h.2.2.2.2.2.1, h.2.2.2.2.2.2.1, h.2.2.2.2.2.2.2⟩

theorem qaux_restOrder (s : OrderBook) (o : Order) : (restOrder s o).qaux = s.qaux := by
  unfold restOrder updateBestOnAdd
  rw [qaux_of_aux (aux_updateBest _)]
  cases o.side <;> rfl

theorem qaux_bumpNextId (s : OrderBook) (o : Order) : (bumpNextId s o).qaux = s.qaux := by
  unfold bumpNextId
  split_ifs <;> rfl

theorem qaux_match (side : OrderSide) (s : OrderBook) (o : Order) :
    (match_ side s o).1.qaux = s.qaux :=
  qaux_of_aux (match_frame side s o).1

theorem qaux_addCore (s : OrderBook) (o : Order) : (addCore s o).qaux = s.qaux := by
  unfold addCore
  simp only
  split
  · rw [qaux_restOrder, qaux_match, qaux_bumpNextId]
  · rw [qaux_match, qaux_bumpNextId]

theorem qaux_unlinkResting (s : OrderBook) (orderId : Int) (e : IndexEntry) (lvl : LevelInfo)
    (n : Node) : (unlinkResting s orderId e lvl n).qaux = s.qaux :=
  qaux_of_aux (aux_unlinkResting s orderId e lvl n)

theorem qaux_modifyCore (s : OrderBook) (orderId : Int) (newPxTicks : Price) (newQty : Int)
    (e : IndexEntry) (lvl : LevelInfo) (n : Node) :
    (modifyCore s orderId newPxTicks newQty e lvl n).qaux = s.qaux := by
  unfold modifyCore
  simp only
  split
  · rw [qaux_restOrder, qaux_match, qaux_unlinkResting]
  · rw [qaux_match, qaux_unlinkResting]

theorem quoteInv_congr {s s1 : OrderBook} (h : s1.qaux = s.qaux) (hs : QuoteInv s) :
    QuoteInv s1 := by
  unfold OrderBook.qaux at h
  simp only [Prod.mk.injEq] at h
  obtain ⟨h1, h2, h3, h4, _, h6⟩ := h
  unfold QuoteInv at hs ⊢
  rw [h1, h2, h3, h4, h6]
  exact hs

theorem quoteInv_emitQuote {s : OrderBook} (ts : String) (hs : QuoteInv s) :
    QuoteInv (emitQuoteIfChanged s ts) := by
  rw [emitQuote_eq]
  by_cases ho : (!s.quotesOpen) = true
  · rw [if_pos ho]
    exact hs
  · rw [if_neg ho]
    by_cases hc : (!quoteChanged s) = true
    · rw [if_pos hc]
      exact hs
    · rw [if_neg hc]
      unfold QuoteInv
      simp only [lastObs_append, obs_currentRow]
      unfold OrderBook.obsTop
      cases s.bids_.isEmpty <;> cases s.asks_.isEmpty <;> simp

theorem quoteInv_init (q : Bool) : QuoteInv (OrderBook.init q) := ⟨rfl, rfl⟩

theorem quoteInv_of_reachable {s : OrderBook} (h : Reachable s) : QuoteInv s := by
  induction h with
  | init q => exact quoteInv_init q
  | @add s o hr ih =>
    rw [addOrder_eq]
    exact quoteInv_emitQuote _ (quoteInv_congr (qaux_addCore s o) ih)
  | @cancel s orderId ts r hr hc ih =>
    rcases cancelOrder_cases (inv_of_reachable hr) orderId ts with
      ⟨_, g⟩ | ⟨e, lvl, n, _, _, _, _, g⟩
    · rw [g] at hc
      cases hc
      exact ih
    · rw [g] at hc
      cases hc
      exact quoteInv_emitQuote _ (quoteInv_congr
        ((qaux_of_aux (aux_updateBest _)).trans (qaux_unlinkResting s orderId e lvl n)) ih)
  | @modify s orderId px q ts r hr hm ih =>
    by_cases hq : q > 0
    · rcases modifyOrder_cases (inv_of_reachable hr) orderId px ts hq with
        ⟨_, g⟩ | ⟨e, lvl, n, _, _, _, _, g⟩
      · rw [g] at hm
        cases hm
        exact ih
      · rw [g] at hm
        cases hm
        exact quoteInv_emitQuote _ (quoteInv_congr
          ((qaux_of_aux (aux_updateBest _)).trans (qaux_modifyCore s orderId px q e lvl n)) ih)
    · rw [modifyOrder_nonpos s orderId px ts (not_lt.mp hq)] at hm
      rcases cancelOrder_cases (inv_of_reachable hr) orderId ts with
        ⟨_, g⟩ | ⟨e, lvl, n, _, _, _, _, g⟩
      · rw [g] at hm
        cases hm
        exact ih
      · rw [g] at hm
        cases hm
        exact quoteInv_emitQuote _ (quoteInv_congr
          ((qaux_of_aux (aux_updateBest _)).trans (qaux_unlinkResting s orderId e lvl n)) ih)

theorem quoteInv_of_quotePoint {s : OrderBook} (h : QuotePoint s) : QuoteInv s := by
  cases h with
  | @add s0 o hr => exact quoteInv_congr (qaux_addCore s0 o) (quoteInv_of_reachable hr)
  | @cancel s0 orderId e lvl n hr _ _ _ =>
    exact quoteInv_congr
      ((qaux_of_aux (aux_updateBest _)).trans (qaux_unlinkResting s0 orderId e lvl n))
      (quoteInv_of_reachable hr)
  | @modify s0 orderId px q e lvl n hr _ _ _ =>
    exact quoteInv_congr
      ((qaux_of_aux (aux_updateBest _)).trans (qaux_modifyCore s0 orderId px q e lvl n))
      (quoteInv_of_reachable hr)

/-- Away from the two sentinel prices the detection is exact.  On every book on which
the dispatcher calls `emitQuoteIfChanged`, with the quote sink open, and provided the
previously emitted snapshot shows neither a bid at the lowest value of `Price` nor an ask
at the highest value of `Price`: if the observable top of book (for each side, absent, or
present with its best price and quantity) differs from the previously emitted snapshot,
the call appends one row carrying the observable top of book and sets `LastQuoted` to
it, leaving everything else alone; if it does not differ, the call changes nothing. -/
theorem quoteChange_off_sentinel (s : OrderBook) (hs : QuotePoint s)
    (hopen : s.quotesOpen = true)
    (hb : ∀ p q, (lastObs s.quotes).1 = some (p, q) → p ≠ priceMin)
    (ha : ∀ p q, (lastObs s.quotes).2 = some (p, q) → p ≠ priceMax) (ts : String) :
    (s.obsTop ≠ lastObs s.quotes →
      (emitQuoteIfChanged s ts).quotes = s.quotes ++ [s.currentRow ts] ∧
      (s.currentRow ts).timestamp = ts ∧ (s.currentRow ts).obs = s.obsTop ∧
      lastObs (emitQuoteIfChanged s ts).quotes = s.obsTop ∧
      (emitQuoteIfChanged s ts).lastQuotedBid_ =
        (if s.bids_.isEmpty then priceMin else s.bestBidPx_) ∧
      (emitQuoteIfChanged s ts).lastQuotedBidQty_ = s.bestBidQty_ ∧
      (emitQuoteIfChanged s ts).lastQuotedAsk_ =
        (if s.asks_.isEmpty then priceMax else s.bestAskPx_) ∧
      (emitQuoteIfChanged s ts).lastQuotedAskQty_ = s.bestAskQty_ ∧
      (emitQuoteIfChanged s ts).bids_ = s.bids_ ∧ (emitQuoteIfChanged s ts).asks_ = s.asks_ ∧
      (emitQuoteIfChanged s ts).idIndex_ = s.idIndex_ ∧
      (emitQuoteIfChanged s ts).trades_ = s.trades_ ∧
      (emitQuoteIfChanged s ts).topOfBook = s.topOfBook) ∧
    (s.obsTop = lastObs s.quotes → emitQuoteIfChanged s ts = s) := by
  have hiff := quoteChanged_iff (quoteInv_of_quotePoint hs) hb ha
  refine ⟨?_, ?_⟩
  · intro hd
    have hc : quoteChanged s = true := hiff.mpr hd
    have he : emitQuoteIfChanged s ts =
        { s with
          lastQuotedBid_ := if s.bids_.isEmpty then priceMin else s.bestBidPx_,
          lastQuotedBidQty_ := s.bestBidQty_,
          lastQuotedAsk_ := if s.asks_.isEmpty then priceMax else s.bestAskPx_,
          lastQuotedAskQty_ := s.bestAskQty_,
          quotes := s.quotes ++ [s.currentRow ts] } := by
      rw [emitQuote_eq, hopen, hc]
      rfl
    refine ⟨?_, rfl, obs_currentRow s ts, ?_, ?_, ?_, ?_, ?_, bids_emitQuote s ts,
      asks_emitQuote s ts, idIndex_emitQuote s ts, trades_emitQuote s ts,
      topOfBook_emitQuote s ts⟩
    · rw [he]
    · rw [he]
      show lastObs (s.quotes ++ [s.currentRow ts]) = _
      rw [lastObs_append, obs_currentRow]
    · rw [he]
    · rw [he]
    · rw [he]
    · rw [he]
  · intro hsame
    have hc : quoteChanged s = false := by
      cases h : quoteChanged s with
      | false => rfl
      | true => exact absurd hsame (hiff.mp h)
    rw [emitQuote_eq, hopen, hc]
    rfl

theorem quoteChange_off_sentinel_example :
    QuotePoint (addCore exAskThree exBuy2) ∧
    (addCore exAskThree exBuy2).quotesOpen = true ∧
    lastObs (addCore exAskThree exBuy2).quotes = (none, some (10000, 3)) ∧
    (addCore exAskThree exBuy2).obsTop = (some (10000, 7), none) ∧
    (emitQuoteIfChanged (addCore exAskThree exBuy2) "t2").quotes =
      [{ timestamp := "t1", bestBid := none, bidQty := 0, bestAsk := some 10000, askQty := 3 },
       { timestamp := "t2", bestBid := some 10000, bidQty := 7, bestAsk := none,
         askQty := 0 }] ∧
    (((addCore exAskThree exBuy2).obsTop ≠ lastObs (addCore exAskThree exBuy2).quotes →
      (emitQuoteIfChanged (addCore exAskThree exBuy2) "t2").quotes =
        (addCore exAskThree exBuy2).quotes ++ [(addCore exAskThree exBuy2).currentRow "t2"] ∧
      ((addCore exAskThree exBuy2).currentRow "t2").timestamp = "t2" ∧
      ((addCore exAskThree exBuy2).currentRow "t2").obs = (addCore exAskThree exBuy2).obsTop ∧
      lastObs (emitQuoteIfChanged (addCore exAskThree exBuy2) "t2").quotes =
        (addCore exAskThree exBuy2).obsTop ∧
      (emitQuoteIfChanged (addCore exAskThree exBuy2) "t2").lastQuotedBid_ =
        (if (addCore exAskThree exBuy2).bids_.isEmpty then priceMin
         else (addCore exAskThree exBuy2).bestBidPx_) ∧
      (emitQuoteIfChanged (addCore exAskThree exBuy2) "t2").lastQuotedBidQty_ =
        (addCore exAskThree exBuy2).bestBidQty_ ∧
      (emitQuoteIfChanged (addCore exAskThree exBuy2) "t2").lastQuotedAsk_ =
        (if (addCore exAskThree exBuy2).asks_.isEmpty then priceMax
         else (addCore exAskThree exBuy2).bestAskPx_) ∧
      (emitQuoteIfChanged (addCore exAskThree exBuy2) "t2").lastQuotedAskQty_ =
        (addCore exAskThree exBuy2).bestAskQty_ ∧
      (emitQuoteIfChanged (addCore exAskThree exBuy2) "t2").bids_ =
        (addCore exAskThree exBuy2).bids_ ∧
      (emitQuoteIfChanged (addCore exAskThree exBuy2) "t2").asks_ =
        (addCore exAskThree exBuy2).asks_ ∧
      (emitQuoteIfChanged (addCore exAskThree exBuy2) "t2").idIndex_ =
        (addCore exAskThree exBuy2).idIndex_ ∧
      (emitQuoteIfChanged (addCore exAskThree exBuy2) "t2").trades_ =
        (addCore exAskThree exBuy2).trades_ ∧
      (emitQuoteIfChanged (addCore exAskThree exBuy2) "t2").topOfBook =
        (addCore exAskThree exBuy2).topOfBook) ∧
    ((addCore exAskThree exBuy2).obsTop = lastObs (addCore exAskThree exBuy2).quotes →
      emitQuoteIfChanged (addCore exAskThree exBuy2) "t2" = addCore exAskThree exBuy2)) :=
  ⟨QuotePoint.add exBuy2 (Reachable.add _ (Reachable.init true)), by decide, by decide,
    by decide, by decide,
    quoteChange_off_sentinel (addCore exAskThree exBuy2)
      (QuotePoint.add exBuy2 (Reachable.add _ (Reachable.init true))) (by decide)
      (fun p q h => by
        have h0 : (lastObs (addCore exAskThree exBuy2).quotes).1 = none := by decide
        rw [h0] at h
        cases h)
      (fun p q h => by
        have h0 : (lastObs (addCore exAskThree exBuy2).quotes).2 = some (10000, 3) := by
          decide
        rw [h0] at h
        cases h
        decide)
      "t2"⟩

/-! ## `cancelOrder` returns `true` exactly for the indexed ids -/

/-- C24.  In every state reachable from a newly constructed book: every index entry
(side, price, slot) names a level present on that side and a node of that level holding
the indexed id, so the lookup of the level in `cancelOrder` and `modifyOrder` never
fails after the lookup of the id succeeded; `cancelOrder` returns a result for every id,
the result is `false` if and only if the id has no index entry and `true` if and only
if it has one; the same holds of `modifyOrder` for every new price and quantity.  When
moreover the ids of the orders added on the way were distinct, an id has an index entry
if and only if an order with that id sits in some FIFO of the book. -/
theorem cancel_true_iff_resting (s : OrderBook) (hs : Reachable s) :
    (∀ id e, s.idIndex_.find id = some e →
      ∃ lvl n, (s.book e.side).find e.px = some lvl ∧ (e.px, lvl) ∈ s.book e.side ∧
        findNode e.lit lvl.orders = some n ∧ n ∈ lvl.orders ∧ n.order.id = id) ∧
    (∀ id ts, ∃ r, cancelOrder s id ts = some r ∧
      (r.1 = false ↔ s.idIndex_.find id = none) ∧
      (r.1 = true ↔ ∃ e, s.idIndex_.find id = some e)) ∧
    (∀ id newPxTicks newQty ts, ∃ r, modifyOrder s id newPxTicks newQty ts = some r ∧
      (r.1 = false ↔ s.idIndex_.find id = none) ∧
      (r.1 = true ↔ ∃ e, s.idIndex_.find id = some e)) ∧
    (∀ q evs ids, runEvents (OrderBook.init q) [] evs = some (s, ids) → ids.Nodup →
      ∀ id, (∃ e, s.idIndex_.find id = some e) ↔
        ∃ side px lvl n, (s.book side).find px = some lvl ∧ n ∈ lvl.orders ∧
          n.order.id = id) := by
  have hI : Inv s := inv_of_reachable hs
  have hc : ∀ id ts, ∃ r, cancelOrder s id ts = some r ∧
      (r.1 = false ↔ s.idIndex_.find id = none) ∧
      (r.1 = true ↔ ∃ e, s.idIndex_.find id = some e) := by
    intro id ts
    rcases cancelOrder_cases hI id ts with ⟨h1, g⟩ | ⟨e, lvl, n, h1, _, _, _, g⟩
    · refine ⟨_, g, ⟨fun _ => h1, fun _ => rfl⟩, ⟨fun h => ?_, fun h => ?_⟩⟩
      · cases h
      · obtain ⟨e, he⟩ := h
        rw [h1] at he
        cases he
    · refine ⟨_, g, ⟨fun h => ?_, fun h => ?_⟩, ⟨fun _ => ⟨e, h1⟩, fun _ => rfl⟩⟩
      · cases h
      · rw [h1] at h
        cases h
  refine ⟨?_, hc, ?_, ?_⟩
  · intro id e he
    obtain ⟨lvl, n, h2, h3, h4⟩ := hI.index id e he
    exact ⟨lvl, n, h2, mem_of_find h2, h3, (findNode_mem h3).1, h4⟩
  · intro id newPxTicks newQty ts
    by_cases hq : newQty > 0
    · rcases modifyOrder_cases hI id newPxTicks ts hq with
        ⟨h1, g⟩ | ⟨e, lvl, n, h1, _, _, _, g⟩
      · refine ⟨_, g, ⟨fun _ => h1, fun _ => rfl⟩, ⟨fun h => ?_, fun h => ?_⟩⟩
        · cases h
        · obtain ⟨e, he⟩ := h
          rw [h1] at he
          cases he
      · refine ⟨_, g, ⟨fun h => ?_, fun h => ?_⟩, ⟨fun _ => ⟨e, h1⟩, fun _ => rfl⟩⟩
        · cases h
        · rw [h1] at h
          cases h
    · rw [modifyOrder_nonpos s id newPxTicks ts (not_lt.mp hq)]
      exact hc id ts
  · intro q evs ids hrun hd id
    have hD := invD_runEvents evs _ _ _ _ (invD_init q) hrun hd
    constructor
    · rintro ⟨e, he⟩
      obtain ⟨lvl, n, h2, h3, h4⟩ := hI.index id e he
      exact ⟨e.side, e.px, lvl, n, h2, (findNode_mem h3).1, h4⟩
    · rintro ⟨side, px, lvl, n, hf, hn, hid⟩
      exact ⟨_, by rw [← hid]; exact hD.complete side (px, lvl) (mem_of_find hf) n hn⟩

theorem cancel_true_iff_resting_witness :
    Reachable exTwoBids ∧
    exTwoBids.idIndex_.find 2 = some { side := .BUY, px := 9900, lit := 1 } ∧
    exTwoBids.idIndex_.find 7 = none ∧
    (cancelOrder exTwoBids 2 "t3").map (fun r => r.1) = some true ∧
    (cancelOrder exTwoBids 7 "t3").map (fun r => r.1) = some false ∧
    (modifyOrder exTwoBids 2 9950 4 "t3").map (fun r => r.1) = some true ∧
    (modifyOrder exTwoBids 7 9950 4 "t3").map (fun r => r.1) = some false ∧
    ((∀ id e, exTwoBids.idIndex_.find id = some e →
      ∃ lvl n, (exTwoBids.book e.side).find e.px = some lvl ∧
        (e.px, lvl) ∈ exTwoBids.book e.side ∧
        findNode e.lit lvl.orders = some n ∧ n ∈ lvl.orders ∧ n.order.id = id) ∧
    (∀ id ts, ∃ r, cancelOrder exTwoBids id ts = some r ∧
      (r.1 = false ↔ exTwoBids.idIndex_.find id = none) ∧
      (r.1 = true ↔ ∃ e, exTwoBids.idIndex_.find id = some e)) ∧
    (∀ id newPxTicks newQty ts, ∃ r, modifyOrder exTwoBids id newPxTicks newQty ts = some r ∧
      (r.1 = false ↔ exTwoBids.idIndex_.find id = none) ∧
      (r.1 = true ↔ ∃ e, exTwoBids.idIndex_.find id = some e)) ∧
    (∀ q evs ids, runEvents (OrderBook.init q) [] evs = some (exTwoBids, ids) → ids.Nodup →
      ∀ id, (∃ e, exTwoBids.idIndex_.find id = some e) ↔
        ∃ side px lvl n, (exTwoBids.book side).find px = some lvl ∧ n ∈ lvl.orders ∧
          n.order.id = id)) :=
  ⟨reachable_exTwoBids, by decide, by decide, by decide, by decide, by decide, by decide,
    cancel_true_iff_resting exTwoBids reachable_exTwoBids⟩

/-! ## Termination of the loops of `match` -/

theorem length_erase_lt {b : BookSide} {e : Price × LevelInfo} (h : e ∈ b) :
    (b.erase e.1).length < b.length := by
  unfold BookSide.erase
  exact List.length_filter_lt_length_iff_exists.mpr ⟨e, h, by simp⟩

theorem matchInner_step (side : OrderSide) (px : Price) (fuel : Nat) (s : OrderBook)
    (incoming : Order) (lvl : LevelInfo) (maker : Node) (rest : List Node)
    (hq : incoming.quantity > 0) (hl : lvl.orders = maker :: rest) :
    matchInner side px (fuel + 1) s incoming lvl =
      matchInner side px fuel (innerBody side px s incoming lvl maker rest).1
        (innerBody side px s incoming lvl maker rest).2.1
        (innerBody side px s incoming lvl maker rest).2.2 := by
  rw [matchInner]
  simp only [hq, if_true, hl]
  unfold innerBody
  by_cases hz : maker.order.quantity - min incoming.quantity maker.order.quantity = 0
  · simp only [hz, if_true]
  · simp only [hz, if_false]

theorem innerBody_progress (side : OrderSide) (px : Price) (s : OrderBook)
    (incoming : Order) (lvl : LevelInfo) (maker : Node) (rest : List Node) :
    (innerBody side px s incoming lvl maker rest).2.2.orders = rest ∨
      (innerBody side px s incoming lvl maker rest).2.1.quantity = 0 := by
  unfold innerBody
  by_cases hz : maker.order.quantity - min incoming.quantity maker.order.quantity = 0
  · left
    simp only [hz, if_true]
  · right
    simp only [hz, if_false]
    rw [min_eq_left_of_sub_ne hz]
    exact sub_self _

theorem fillFifo_done (incoming : Order) (t : Int) (px : Price) (l : List Node) (q : Int) :
    innerDone { incoming with quantity := (fillFifo px q l).residual }
      { orders := (fillFifo px q l).orders, totalQty := t } = true := by
  unfold innerDone
  by_cases h : (fillFifo px q l).orders = []
  · simp [h]
  · have := fillFifo_residual_nonpos px l q h
    simp [not_lt.mpr this]

theorem outerBody_eq (side : OrderSide) (s : OrderBook) (incoming : Order) (px : Price)
    (lvl : LevelInfo) :
    outerBody side s incoming px lvl =
      (updateBestOnChange
          ((applyFills side incoming.timestamp incoming.id s
              (fillFifo px incoming.quantity lvl.orders).fills).setOpp side
            (if (fillFifo px incoming.quantity lvl.orders).orders.isEmpty then
              (s.opp side).erase px
             else (s.opp side).put px
              { orders := (fillFifo px incoming.quantity lvl.orders).orders,
                totalQty := lvl.totalQty -
                  fillSum (fillFifo px incoming.quantity lvl.orders).fills })),
        { incoming with quantity := (fillFifo px incoming.quantity lvl.orders).residual }) := by
  unfold outerBody
  rw [matchInner_eq _ _ _ _ _ _ le_rfl]
  simp only [opp_applyFills]

theorem matchLoop_step (side : OrderSide) (fuel : Nat) (s : OrderBook) (incoming : Order)
    (px : Price) (lvl : LevelInfo) (hq : incoming.quantity > 0)
    (hb : bestOpp side (s.opp side) = some (px, lvl))
    (hc : crosses side incoming px = true) :
    matchLoop side (fuel + 1) s incoming =
      matchLoop side fuel (outerBody side s incoming px lvl).1
        (outerBody side s incoming px lvl).2 := by
  rw [matchLoop_succ side fuel s incoming px lvl hq hb hc, outerBody_eq]

theorem outerBody_progress (side : OrderSide) (s : OrderBook) (incoming : Order)
    (px : Price) (lvl : LevelInfo) (hb : bestOpp side (s.opp side) = some (px, lvl)) :
    ((outerBody side s incoming px lvl).1.opp side = (s.opp side).erase px ∧
      ((outerBody side s incoming px lvl).1.opp side).length < (s.opp side).length) ∨
    ((outerBody side s incoming px lvl).2.quantity ≤ 0 ∧
      ∀ m, matchLoop side m (outerBody side s incoming px lvl).1
          (outerBody side s incoming px lvl).2 = outerBody side s incoming px lvl) := by
  rw [outerBody_eq]
  by_cases he : (fillFifo px incoming.quantity lvl.orders).orders = []
  · left
    simp only [he, List.isEmpty_nil, if_true, opp_updateBest, opp_setOpp]
    exact ⟨trivial, length_erase_lt (mem_of_bestOpp hb)⟩
  · right
    have hr := fillFifo_residual_nonpos px lvl.orders incoming.quantity he
    exact ⟨hr, fun m => matchLoop_of_nonpos side m _ _ hr⟩

theorem loopDone_of_nonpos (side : OrderSide) (s : OrderBook) (incoming : Order)
    (h : incoming.quantity ≤ 0) : loopDone side s incoming = true := by
  unfold loopDone
  simp [not_lt.mpr h]

theorem loopDone_of_stop (side : OrderSide) (s : OrderBook) (incoming : Order)
    (h : ∀ e, bestOpp side (s.opp side) = some e → crosses side incoming e.1 = false) :
    loopDone side s incoming = true := by
  unfold loopDone
  cases hb : bestOpp side (s.opp side) with
  | none => simp
  | some e =>
    obtain ⟨px, lvl⟩ := e
    have hc := h (px, lvl) hb
    simp only at hc
    simp [hc]

/-- With one unit of fuel per opposite level the outer loop runs to its exit, and more
fuel changes nothing. -/
theorem matchLoop_fuel (side : OrderSide) :
    ∀ (fuel : Nat) (s : OrderBook) (incoming : Order), (s.opp side).length ≤ fuel →
      loopDone side (matchLoop side fuel s incoming).1 (matchLoop side fuel s incoming).2 =
          true ∧
        ∀ more, matchLoop side (fuel + more) s incoming = matchLoop side fuel s incoming := by
  intro fuel
  induction fuel with
  | zero =>
    intro s incoming h
    have h0 : s.opp side = [] := List.length_eq_zero.mp (Nat.le_zero.mp h)
    have hst : ∀ e, bestOpp side (s.opp side) = some e →
        crosses side incoming e.1 = false := by
      intro e he
      rw [h0] at he
      cases side <;> simp [bestOpp] at he
    refine ⟨?_, fun more => ?_⟩
    · rw [matchLoop_stop side 0 s incoming hst]
      exact loopDone_of_stop side s incoming hst
    · rw [matchLoop_stop side _ s incoming hst, matchLoop_stop side _ s incoming hst]
  | succ fuel ih =>
    intro s incoming h
    by_cases hq : incoming.quantity > 0
    · cases hb : bestOpp side (s.opp side) with
      | none =>
        have hst : ∀ e, bestOpp side (s.opp side) = some e →
            crosses side incoming e.1 = false := by
          intro e he
          rw [hb] at he
          cases he
        refine ⟨?_, fun more => ?_⟩
        · rw [matchLoop_stop side _ s incoming hst]
          exact loopDone_of_stop side s incoming hst
        · rw [matchLoop_stop side _ s incoming hst, matchLoop_stop side _ s incoming hst]
      | some e =>
        obtain ⟨px, lvl⟩ := e
        by_cases hc : crosses side incoming px = true
        · have hstep := fun n => matchLoop_step side n s incoming px lvl hq hb hc
          rcases outerBody_progress side s incoming px lvl hb with ⟨_, hlt⟩ | ⟨hr, hend⟩
          · have hlen : ((outerBody side s incoming px lvl).1.opp side).length ≤ fuel := by
              omega
            obtain ⟨h1, h2⟩ := ih _ (outerBody side s incoming px lvl).2 hlen
            refine ⟨?_, fun more => ?_⟩
            · rw [hstep fuel]
              exact h1
            · have : fuel + 1 + more = (fuel + more) + 1 := by omega
              rw [this, hstep (fuel + more), hstep fuel]
              exact h2 more
          · refine ⟨?_, fun more => ?_⟩
            · rw [hstep fuel, hend fuel]
              exact loopDone_of_nonpos side _ _ hr
            · have : fuel + 1 + more = (fuel + more) + 1 := by omega
              rw [this, hstep (fuel + more), hstep fuel, hend, hend]
        · have hst : ∀ e, bestOpp side (s.opp side) = some e →
              crosses side incoming e.1 = false := by
            intro e he
            rw [hb] at he
            cases he
            simpa using hc
          refine ⟨?_, fun more => ?_⟩
          · rw [matchLoop_stop side _ s incoming hst]
            exact loopDone_of_stop side s incoming hst
          · rw [matchLoop_stop side _ s incoming hst, matchLoop_stop side _ s incoming hst]
    · have hq1 := not_lt.mp hq
      refine ⟨?_, fun more => ?_⟩
      · rw [matchLoop_of_nonpos side _ s incoming hq1]
        exact loopDone_of_nonpos side s incoming hq1
      · rw [matchLoop_of_nonpos side _ s incoming hq1,
          matchLoop_of_nonpos side _ s incoming hq1]

/-- C25.  For every book (its side containers may hold any levels and any makers, also
makers of zero or negative quantity and levels with an empty FIFO) and every aggressor:
with fuel for at least one iteration per opposite level the outer loop of `match` returns
what it returns with exactly that much fuel, in a state where the loop is left (the
aggressor has no quantity left, or the opposite side is empty, or its best level does
not cross); `match` returns the book untouched (failed FOK pre-check) or that result;
the inner loop, with fuel for at least one iteration per maker of the level, returns what
it returns with exactly that much fuel, with the aggressor exhausted or the FIFO empty;
one inner iteration removes the head maker or leaves the aggressor with quantity 0; one
outer iteration erases the best opposite level, which makes the opposite side shorter, or
leaves the aggressor without quantity, after which the loop returns at once. -/
theorem matcher_terminates (side : OrderSide) (s : OrderBook) (incoming : Order)
    (fuel : Nat) (hfuel : (s.opp side).length ≤ fuel) :
    matchLoop side fuel s incoming = matchLoop side (s.opp side).length s incoming ∧
    loopDone side (matchLoop side fuel s incoming).1 (matchLoop side fuel s incoming).2 =
      true ∧
    (match_ side s incoming = (s, incoming) ∨
      match_ side s incoming = matchLoop side fuel s incoming) ∧
    (∀ px lvl n, lvl.orders.length ≤ n →
      matchInner side px n s incoming lvl =
        matchInner side px lvl.orders.length s incoming lvl ∧
      innerDone (matchInner side px n s incoming lvl).2.1
        (matchInner side px n s incoming lvl).2.2 = true) ∧
    (∀ px lvl maker rest n, incoming.quantity > 0 → lvl.orders = maker :: rest →
      matchInner side px (n + 1) s incoming lvl =
        matchInner side px n (innerBody side px s incoming lvl maker rest).1
          (innerBody side px s incoming lvl maker rest).2.1
          (innerBody side px s incoming lvl maker rest).2.2 ∧
      ((innerBody side px s incoming lvl maker rest).2.2.orders = rest ∨
        (innerBody side px s incoming lvl maker rest).2.1.quantity = 0)) ∧
    (∀ px lvl n, incoming.quantity > 0 → bestOpp side (s.opp side) = some (px, lvl) →
      crosses side incoming px = true →
      matchLoop side (n + 1) s incoming =
        matchLoop side n (outerBody side s incoming px lvl).1
          (outerBody side s incoming px lvl).2 ∧
      (((outerBody side s incoming px lvl).1.opp side = (s.opp side).erase px ∧
          ((outerBody side s incoming px lvl).1.opp side).length < (s.opp side).length) ∨
        ((outerBody side s incoming px lvl).2.quantity ≤ 0 ∧
          ∀ m, matchLoop side m (outerBody side s incoming px lvl).1
            (outerBody side s incoming px lvl).2 = outerBody side s incoming px lvl))) := by
  have hfix : matchLoop side fuel s incoming =
      matchLoop side (s.opp side).length s incoming := by
    have h2 := (matchLoop_fuel side (s.opp side).length s incoming le_rfl).2
      (fuel - (s.opp side).length)
    have h3 : (s.opp side).length + (fuel - (s.opp side).length) = fuel := by omega
    rw [h3] at h2
    exact h2
  refine ⟨hfix, (matchLoop_fuel side fuel s incoming hfuel).1, ?_, ?_, ?_, ?_⟩
  · by_cases hf : incoming.tif = TimeInForce.FOK ∧
        canFullyFill s side (fokLimit incoming) incoming.quantity = false
    · exact Or.inl (match_fok_fail side s incoming hf.1 hf.2)
    · exact Or.inr (by rw [match_pass hf, hfix])
  · intro px lvl n hn
    refine ⟨?_, ?_⟩
    · rw [matchInner_eq side px n s incoming lvl hn,
        matchInner_eq side px _ s incoming lvl le_rfl]
    · rw [matchInner_eq side px n s incoming lvl hn]
      exact fillFifo_done incoming _ px lvl.orders incoming.quantity
  · intro px lvl maker rest n hq hl
    exact ⟨matchInner_step side px n s incoming lvl maker rest hq hl,
      innerBody_progress side px s incoming lvl maker rest⟩
  · intro px lvl n hq hb hc
    exact ⟨matchLoop_step side n s incoming px lvl hq hb hc,
      outerBody_progress side s incoming px lvl hb⟩

theorem matcher_terminates_witness :
    (exOddBook.opp OrderSide.BUY).length ≤ 5 ∧
    (matchLoop OrderSide.BUY 5 exOddBook exMarketBuy3).1.trades_.map
        (fun t => (t.priceTicks, t.quantity, t.sellId)) =
      [(10000, 0, 1), (10000, -2, 2), (10000, 4, 3), (10200, 1, 4)] ∧
    (matchLoop OrderSide.BUY 5 exOddBook exMarketBuy3).1.asks_.map
        (fun e => (e.1, e.2.orders.map (fun n => (n.order.id, n.order.quantity)))) =
      [(10200, [(4, 4)])] ∧
    (matchLoop OrderSide.BUY 5 exOddBook exMarketBuy3).2.quantity = 0 ∧
    (matchLoop OrderSide.BUY 5 exOddBook exMarketBuy3 =
      matchLoop OrderSide.BUY (exOddBook.opp OrderSide.BUY).length exOddBook exMarketBuy3 ∧
    loopDone OrderSide.BUY (matchLoop OrderSide.BUY 5 exOddBook exMarketBuy3).1
      (matchLoop OrderSide.BUY 5 exOddBook exMarketBuy3).2 = true ∧
    (match_ OrderSide.BUY exOddBook exMarketBuy3 = (exOddBook, exMarketBuy3) ∨
      match_ OrderSide.BUY exOddBook exMarketBuy3 =
        matchLoop OrderSide.BUY 5 exOddBook exMarketBuy3) ∧
    (∀ px lvl n, lvl.orders.length ≤ n →
      matchInner OrderSide.BUY px n exOddBook exMarketBuy3 lvl =
        matchInner OrderSide.BUY px lvl.orders.length exOddBook exMarketBuy3 lvl ∧
      innerDone (matchInner OrderSide.BUY px n exOddBook exMarketBuy3 lvl).2.1
        (matchInner OrderSide.BUY px n exOddBook exMarketBuy3 lvl).2.2 = true) ∧
    (∀ px lvl maker rest n, exMarketBuy3.quantity > 0 → lvl.orders = maker :: rest →
      matchInner OrderSide.BUY px (n + 1) exOddBook exMarketBuy3 lvl =
        matchInner OrderSide.BUY px n
          (innerBody OrderSide.BUY px exOddBook exMarketBuy3 lvl maker rest).1
          (innerBody OrderSide.BUY px exOddBook exMarketBuy3 lvl maker rest).2.1
          (innerBody OrderSide.BUY px exOddBook exMarketBuy3 lvl maker rest).2.2 ∧
      ((innerBody OrderSide.BUY px exOddBook exMarketBuy3 lvl maker rest).2.2.orders = rest ∨
        (innerBody OrderSide.BUY px exOddBook exMarketBuy3 lvl maker rest).2.1.quantity =
          0)) ∧
    (∀ px lvl n, exMarketBuy3.quantity > 0 →
      bestOpp OrderSide.BUY (exOddBook.opp OrderSide.BUY) = some (px, lvl) →
      crosses OrderSide.BUY exMarketBuy3 px = true →
      matchLoop OrderSide.BUY (n + 1) exOddBook exMarketBuy3 =
        matchLoop OrderSide.BUY n (outerBody OrderSide.BUY exOddBook exMarketBuy3 px lvl).1
          (outerBody OrderSide.BUY exOddBook exMarketBuy3 px lvl).2 ∧
      (((outerBody OrderSide.BUY exOddBook exMarketBuy3 px lvl).1.opp OrderSide.BUY =
            (exOddBook.opp OrderSide.BUY).erase px ∧
          ((outerBody OrderSide.BUY exOddBook exMarketBuy3 px lvl).1.opp OrderSide.BUY).length <
            (exOddBook.opp OrderSide.BUY).length) ∨
        ((outerBody OrderSide.BUY exOddBook exMarketBuy3 px lvl).2.quantity ≤ 0 ∧
          ∀ m, matchLoop OrderSide.BUY m
              (outerBody OrderSide.BUY exOddBook exMarketBuy3 px lvl).1
              (outerBody OrderSide.BUY exOddBook exMarketBuy3 px lvl).2 =
            outerBody OrderSide.BUY exOddBook exMarketBuy3 px lvl)))) :=
  ⟨by decide, by decide, by decide, by decide,
    matcher_terminates OrderSide.BUY exOddBook exMarketBuy3 5 (by decide)⟩

/-! ## Where the `int` total overflows -/

/-- C2.  Two sells of 2147483647 at one price, added to a newly constructed book,
leave the program with one ask level whose FIFO holds both orders, quantities summing to
4294967294, and whose `totalQty` is -2: the total is not the sum of the quantities. -/
theorem level_total_overflow :
    exTwoMax.asks_.map
        (fun e => (e.1, e.2.totalQty, e.2.orders.map (fun n => (n.order.id, n.order.quantity)))) =
      [(10000, -2, [(1, 2147483647), (2, 2147483647)])] ∧
    (∀ e ∈ exTwoMax.asks_, e.2.orders ≠ []) ∧
    (∀ e ∈ exTwoMax.asks_, qtySum e.2.orders = 4294967294) ∧
    ¬ (∀ e ∈ exTwoMax.asks_, e.2.totalQty = qtySum e.2.orders) := by
  decide

/-- C6.  On the book of `level_total_overflow` the asks at 100.00 hold 4294967294
units, yet the pre-check of a FOK buy of 5 at 100.00 reads the level total -2, ends with
`need` 7 and refuses the order: `addOrder` emits no trade although the opposing side
holds at least 5 units at an acceptable price. -/
theorem fok_refused_despite_depth :
    ((exTwoMax.asks_.filter (fun e => priceAcceptable exFokBuy5 e.1)).map
        (fun e => qtySum e.2.orders)).sum = 4294967294 ∧
    acceptableDepth exFokBuy5 exTwoMax.asks_ = -2 ∧
    Machine.canFullyFillWalk OrderSide.BUY (some 10000) exTwoMax.asks_ 5 = 7 ∧
    Machine.canFullyFill exTwoMax OrderSide.BUY (some 10000) 5 = false ∧
    (Machine.addOrder exTwoMax exFokBuy5).2.trades_ = [] ∧
    (Machine.addOrder exTwoMax exFokBuy5).2.asks_ = exTwoMax.asks_ ∧
    ¬ ((Machine.addOrder exTwoMax exFokBuy5).2.trades_ = [] ↔
        ((exTwoMax.asks_.filter (fun e => priceAcceptable exFokBuy5 e.1)).map
          (fun e => qtySum e.2.orders)).sum < exFokBuy5.quantity) := by
  decide

/-- C17.  On the book of `level_total_overflow` a GTC buy of 5 at 100.00 trades 5
against the order at the head of the FIFO and is left with quantity 0, while `D`, the sum
of `totalQty` over the crossing levels, is -2: the traded total is not `min(5, D)`. -/
theorem fill_amount_overflow :
    (Machine.match_ OrderSide.BUY exTwoMax exGtcBuy5).1.trades_ =
      [{ timestamp := "t3", priceTicks := 10000, quantity := 5, buyId := 3, sellId := 1 }] ∧
    (Machine.match_ OrderSide.BUY exTwoMax exGtcBuy5).2.quantity = 0 ∧
    (Machine.addOrder exTwoMax exGtcBuy5).2.trades_.map (fun t => t.quantity) = [5] ∧
    (Machine.addOrder exTwoMax exGtcBuy5).2.asks_.map
        (fun e => (e.1, e.2.totalQty, e.2.orders.map (fun n => (n.order.id, n.order.quantity)))) =
      [(10000, -7, [(1, 2147483642), (2, 2147483647)])] ∧
    depthWhere (crosses OrderSide.BUY exGtcBuy5) (exTwoMax.opp OrderSide.BUY) = -2 ∧
    ((Machine.addOrder exTwoMax exGtcBuy5).2.trades_.map (fun t => t.quantity)).sum ≠
      min exGtcBuy5.quantity
        (depthWhere (crosses OrderSide.BUY exGtcBuy5) (exTwoMax.opp OrderSide.BUY)) := by
  decide

/-! ## The price of a stored trade -/

theorem roundHalfEven_intCast (z : Int) : roundHalfEven (z : ℚ) = z := by
  unfold roundHalfEven
  simp

theorem floorLog2_le {x : ℚ} (hx : x ≠ 0) : (2 : ℚ) ^ (floorLog2 x) ≤ |x| := by
  unfold floorLog2
  split_ifs with h
  · exact h
  · have hp : x.num.natAbs ≠ 0 := by
      simpa using Rat.num_ne_zero.mpr hx
    have h1 : 2 ^ Nat.log2 x.num.natAbs ≤ x.num.natAbs := Nat.log2_self_le hp
    have h2 : x.den < 2 ^ (Nat.log2 x.den + 1) := Nat.lt_log2_self
    have habs : |x| = (x.num.natAbs : ℚ) / (x.den : ℚ) := by
      rw [Rat.abs_def, Rat.divInt_eq_div]
      simp [Nat.cast_natAbs]
    rw [habs]
    have hd : (0 : ℚ) < x.den := by exact_mod_cast x.den_pos
    rw [le_div_iff₀ hd]
    have e1 : ((2 : ℚ) ^ ((Nat.log2 x.num.natAbs : Int) - (Nat.log2 x.den : Int) - 1)) *
        (2 : ℚ) ^ (Nat.log2 x.den + 1) = (2 : ℚ) ^ (Nat.log2 x.num.natAbs) := by
      rw [← zpow_natCast, ← zpow_natCast, ← zpow_add₀ (by norm_num : (2 : ℚ) ≠ 0)]
      congr 1
      push_cast
      ring
    have h1q : (2 : ℚ) ^ (Nat.log2 x.num.natAbs) ≤ (x.num.natAbs : ℚ) := by exact_mod_cast h1
    have h2q : (x.den : ℚ) ≤ (2 : ℚ) ^ (Nat.log2 x.den + 1) := by exact_mod_cast le_of_lt h2
    calc (2 : ℚ) ^ ((Nat.log2 x.num.natAbs : Int) - (Nat.log2 x.den : Int) - 1) * (x.den : ℚ)
        ≤ (2 : ℚ) ^ ((Nat.log2 x.num.natAbs : Int) - (Nat.log2 x.den : Int) - 1) *
            (2 : ℚ) ^ (Nat.log2 x.den + 1) := by
          apply mul_le_mul_of_nonneg_left h2q
          positivity
      _ = (2 : ℚ) ^ (Nat.log2 x.num.natAbs) := e1
      _ ≤ (x.num.natAbs : ℚ) := h1q

theorem roundDouble_dyadic (m j : Int) (hm : |m| < 2 ^ 53) :
    roundDouble ((m : ℚ) * 2 ^ j) = (m : ℚ) * 2 ^ j := by
  by_cases h0 : m = 0
  · subst h0
    simp [roundDouble]
  have h2 : (2 : ℚ) ≠ 0 := by norm_num
  have hx : (m : ℚ) * 2 ^ j ≠ 0 := by
    apply mul_ne_zero
    · exact_mod_cast h0
    · exact zpow_ne_zero _ h2
  unfold roundDouble
  rw [if_neg hx]
  set e := floorLog2 ((m : ℚ) * 2 ^ j) with he
  have hle := floorLog2_le hx
  rw [← he] at hle
  have habs : |(m : ℚ) * 2 ^ j| < (2 : ℚ) ^ (53 + j) := by
    rw [abs_mul, abs_of_pos (zpow_pos (by norm_num : (0 : ℚ) < 2) j),
      zpow_add₀ h2]
    apply mul_lt_mul_of_pos_right _ (zpow_pos (by norm_num : (0 : ℚ) < 2) j)
    exact_mod_cast hm
  have hlt : (2 : ℚ) ^ e < (2 : ℚ) ^ (53 + j) := lt_of_le_of_lt hle habs
  have he53 : e < 53 + j := (zpow_lt_zpow_iff_right₀ (by norm_num : (1 : ℚ) < 2)).mp hlt
  obtain ⟨k, hk⟩ : ∃ k : Nat, (k : Int) = j - (e - 52) := ⟨(j - (e - 52)).toNat, by
    rw [Int.toNat_of_nonneg]; omega⟩
  have hdiv : (m : ℚ) * 2 ^ j / 2 ^ (e - 52) = ((m * 2 ^ k : Int) : ℚ) := by
    rw [mul_div_assoc, ← zpow_sub₀ h2, ← hk]
    push_cast
    rw [zpow_natCast]
  rw [hdiv, roundHalfEven_intCast]
  push_cast
  rw [mul_assoc, ← zpow_natCast, ← zpow_add₀ h2, hk]
  congr 2
  ring

theorem roundDouble_intCast (n : Int) (h : |n| ≤ 2 ^ 53) : roundDouble (n : ℚ) = n := by
  rcases lt_or_eq_of_le h with h1 | h1
  · have := roundDouble_dyadic n 0 h1
    simpa using this
  · rcases abs_eq (by norm_num : (0 : Int) ≤ 2 ^ 53) |>.mp h1 with h2 | h2
    · have := roundDouble_dyadic 1 53 (by norm_num)
      rw [h2]
      norm_num at this ⊢
      exact this
    · have := roundDouble_dyadic (-1) 53 (by norm_num)
      rw [h2]
      norm_num at this ⊢
      exact this

theorem log2_eq_of_bounds {n k : Nat} (h1 : 2 ^ k ≤ n) (h2 : n < 2 ^ (k + 1)) :
    Nat.log2 n = k := by
  have hn : n ≠ 0 := by
    intro h0
    rw [h0] at h1
    exact absurd h1 (by simp)
  have a := (Nat.le_log2 hn).mpr h1
  have b := (Nat.log2_lt hn).mpr h2
  omega

theorem roundDouble_above : roundDouble (9007199254740993 : ℚ) = 9007199254740992 := by
  have hl : floorLog2 (9007199254740993 : ℚ) = 53 := by
    unfold floorLog2
    have hn : (9007199254740993 : ℚ).num.natAbs = 9007199254740993 := by
      simp
    have hd : (9007199254740993 : ℚ).den = 1 := by
      simp
    rw [hn, hd, log2_eq_of_bounds (show 2 ^ 53 ≤ 9007199254740993 by norm_num)
      (by norm_num), log2_eq_of_bounds (show 2 ^ 0 ≤ 1 by norm_num) (by norm_num)]
    norm_num
  have hf : ⌊(9007199254740993 : ℚ) / 2⌋ = 4503599627370496 := by
    rw [Int.floor_eq_iff]
    constructor <;> norm_num
  unfold roundDouble
  rw [if_neg (by norm_num), hl]
  have hr : roundHalfEven ((9007199254740993 : ℚ) / 2 ^ ((53 : Int) - 52)) =
      4503599627370496 := by
    have e : ((9007199254740993 : ℚ) / 2 ^ ((53 : Int) - 52)) = 9007199254740993 / 2 := by
      norm_num
    rw [e]
    unfold roundHalfEven
    rw [hf]
    norm_num
  rw [hr]
  norm_num

theorem fromTicks_one (p : Price) (h : |p| ≤ 2 ^ 53) : fromTicks 1 p = some (p : ℚ) := by
  have h1 : toDouble 1 = 1 := by
    have := roundDouble_intCast 1 (by norm_num)
    simpa [toDouble] using this
  unfold fromTicks
  rw [h1, if_neg (by norm_num)]
  unfold toDouble
  rw [roundDouble_intCast p h, div_one, roundDouble_intCast p h]

theorem fromTicks_above : fromTicks 1 9007199254740993 = some 9007199254740992 := by
  have h1 : toDouble 1 = 1 := by
    have := roundDouble_intCast 1 (by norm_num)
    simpa [toDouble] using this
  have h2 : toDouble 9007199254740993 = 9007199254740992 := by
    unfold toDouble
    have := roundDouble_above
    simpa using this
  unfold fromTicks
  rw [h1, if_neg (by norm_num), h2, div_one]
  have := roundDouble_intCast 9007199254740992 (by norm_num)
  simpa using this

theorem fromTicks_cents_a : fromTicks 100 10000 = some 100 := by
  have h1 : toDouble 100 = 100 := by
    have := roundDouble_intCast 100 (by norm_num)
    simpa [toDouble] using this
  have h2 : toDouble 10000 = 10000 := by
    have := roundDouble_intCast 10000 (by norm_num)
    simpa [toDouble] using this
  unfold fromTicks
  rw [h1, if_neg (by norm_num), h2]
  have := roundDouble_intCast 100 (by norm_num)
  norm_num at this ⊢
  exact this

theorem fromTicks_cents_b : fromTicks 100 10050 = some (201 / 2) := by
  have h1 : toDouble 100 = 100 := by
    have := roundDouble_intCast 100 (by norm_num)
    simpa [toDouble] using this
  have h2 : toDouble 10050 = 10050 := by
    have := roundDouble_intCast 10050 (by norm_num)
    simpa [toDouble] using this
  unfold fromTicks
  rw [h1, if_neg (by norm_num), h2]
  have := roundDouble_dyadic 201 (-1) (by norm_num)
  norm_num at this ⊢
  exact this

/-- Each call of `logTrade` pushes the stored form of its record. -/
theorem storedTrades_logTrade (tickScale : Int) (s : OrderBook) (t : Trade) :
    (logTrade s t).storedTrades tickScale = s.storedTrades tickScale ++ [t.stored tickScale] := by
  unfold OrderBook.storedTrades logTrade
  simp

theorem stored_mem {tickScale : Int} {l : List Trade} {r : TradeRecord}
    (h : r ∈ l.map (Trade.stored tickScale)) :
    ∃ t ∈ l, r.timestamp = t.timestamp ∧ r.price = fromTicks tickScale t.priceTicks ∧
      r.quantity = t.quantity ∧ r.buyId = t.buyId ∧ r.sellId = t.sellId := by
  obtain ⟨t, ht, hr⟩ := List.mem_map.mp h
  subst hr
  exact ⟨t, ht, rfl, rfl, rfl, rfl, rfl⟩

/-- C5 (as stated) fails for a maker above 2^53 ticks.  In a book constructed with
tick scale 1 an ask of 3 rests at tick 9007199254740993; a buy of 3 at that tick fills
against it, and the trade stored carries the price 9007199254740992, the `double` nearest
to the tick, which is not the `priceTicks` of the maker. -/
theorem trade_price_counterexample :
    Reachable exHighAsk ∧
    exHighAsk.asks_.map
        (fun e => (e.1, e.2.orders.map (fun n => (n.order.id, n.order.priceTicks)))) =
      [(9007199254740993, [(1, 9007199254740993)])] ∧
    (match_ OrderSide.BUY exHighAsk exHighBuy).1.storedTrades 1 =
      [{ timestamp := "t2", price := some 9007199254740992, quantity := 3, buyId := 2,
         sellId := 1 }] ∧
    ¬ ∀ r ∈ (match_ OrderSide.BUY exHighAsk exHighBuy).1.storedTrades 1,
        ∃ e ∈ exHighAsk.asks_, ∃ maker ∈ e.2.orders,
          r.price = some (maker.order.priceTicks : ℚ) := by
  have ht : (match_ OrderSide.BUY exHighAsk exHighBuy).1.trades_ =
      [{ timestamp := "t2", priceTicks := 9007199254740993, quantity := 3, buyId := 2,
         sellId := 1 }] := by decide
  have hs : (match_ OrderSide.BUY exHighAsk exHighBuy).1.storedTrades 1 =
      [{ timestamp := "t2", price := some 9007199254740992, quantity := 3, buyId := 2,
         sellId := 1 }] := by
    unfold OrderBook.storedTrades
    rw [ht]
    simp only [List.map_cons, List.map_nil, Trade.stored, fromTicks_above]
  have ha : exHighAsk.asks_ =
      [(9007199254740993,
        ⟨[⟨0, ⟨1, "t1", .SELL, .LIMIT, .GTC, 9007199254740993, 3⟩⟩], 3⟩)] := by decide
  refine ⟨Reachable.add _ (Reachable.init true), by decide, hs, ?_⟩
  intro h
  rw [hs, ha] at h
  obtain ⟨e, he, maker, hm, hp⟩ := h _ (List.mem_singleton.mpr rfl)
  rw [List.mem_singleton] at he
  subst he
  rw [List.mem_singleton] at hm
  subst hm
  simp only [Option.some.injEq] at hp
  norm_num at hp

/-- C5 (amended).  In a book constructed with tick scale `tickScale`, every trade that
`match` stores, on any book on which the dispatcher calls it (every reachable book is
one) and for any aggressor, has a quantity above 0 and the price `fromTicks` of the
`priceTicks` of the resting maker order it was filled against (a node of the opposite
side as it stood before the call, whose tick is also the key of its level), not of the
aggressor's limit; with tick scale 1 and a maker tick of magnitude at most 2^53 that
price is the maker's `priceTicks` itself.  `buyId` and `sellId` are the aggressor's and
the maker's ids for a BUY aggressor, and the other way round for a SELL aggressor. -/
theorem trade_price_and_ids (tickScale : Int) (s : OrderBook) (hs : MatchPoint s)
    (side : OrderSide) (incoming : Order) :
    (match_ side s incoming).1.storedTrades tickScale =
      s.storedTrades tickScale ++ (matchTrades side s incoming).map (Trade.stored tickScale) ∧
    ∀ r ∈ (matchTrades side s incoming).map (Trade.stored tickScale),
      r.quantity > 0 ∧
      ∃ px lvl maker, (s.opp side).find px = some lvl ∧ maker ∈ lvl.orders ∧
        maker.order.priceTicks = px ∧
        r.price = fromTicks tickScale maker.order.priceTicks ∧
        (tickScale = 1 → |maker.order.priceTicks| ≤ 2 ^ 53 →
          r.price = some (maker.order.priceTicks : ℚ)) ∧
        (side = OrderSide.BUY → r.buyId = incoming.id ∧ r.sellId = maker.order.id) ∧
        (side = OrderSide.SELL → r.buyId = maker.order.id ∧ r.sellId = incoming.id) := by
  obtain ⟨h1, h2⟩ := matchTrades_maker s hs side incoming
  refine ⟨?_, ?_⟩
  · unfold OrderBook.storedTrades
    rw [h1, List.map_append]
  · intro r hr
    obtain ⟨t, ht, _, hp, hq, hb, hsl⟩ := stored_mem hr
    obtain ⟨hpos, px, lvl, maker, hf, hm, hpm, hpx, hB, hS⟩ := h2 t ht
    have hprice : r.price = fromTicks tickScale maker.order.priceTicks := by
      rw [hp, hpm]
    refine ⟨by rw [hq]; exact hpos, px, lvl, maker, hf, hm, by rw [← hpm, hpx], hprice,
      ?_, ?_, ?_⟩
    · intro h1s hle
      rw [hprice, h1s]
      exact fromTicks_one _ hle
    · intro hsd
      rw [hb, hsl]
      exact hB hsd
    · intro hsd
      rw [hb, hsl]
      exact hS hsd

theorem trade_price_and_ids_witness :
    Reachable exTwoAsks ∧
    (matchTrades OrderSide.BUY exTwoAsks exBuyB).map (Trade.stored 100) =
      [{ timestamp := "t3", price := some 100, quantity := 3, buyId := 3, sellId := 1 },
       { timestamp := "t3", price := some (201 / 2), quantity := 3, buyId := 3,
         sellId := 2 }] ∧
    ((match_ OrderSide.BUY exTwoAsks exBuyB).1.storedTrades 100 =
        exTwoAsks.storedTrades 100 ++
          (matchTrades OrderSide.BUY exTwoAsks exBuyB).map (Trade.stored 100) ∧
      ∀ r ∈ (matchTrades OrderSide.BUY exTwoAsks exBuyB).map (Trade.stored 100),
        r.quantity > 0 ∧
        ∃ px lvl maker, (exTwoAsks.opp OrderSide.BUY).find px = some lvl ∧
          maker ∈ lvl.orders ∧
          maker.order.priceTicks = px ∧
          r.price = fromTicks 100 maker.order.priceTicks ∧
          ((100 : Int) = 1 → |maker.order.priceTicks| ≤ 2 ^ 53 →
            r.price = some (maker.order.priceTicks : ℚ)) ∧
          (OrderSide.BUY = OrderSide.BUY →
            r.buyId = exBuyB.id ∧ r.sellId = maker.order.id) ∧
          (OrderSide.BUY = OrderSide.SELL →
            r.buyId = maker.order.id ∧ r.sellId = exBuyB.id)) :=
  ⟨reachable_exTwoAsks,
    by
      have ht : matchTrades OrderSide.BUY exTwoAsks exBuyB =
          [{ timestamp := "t3", priceTicks := 10000, quantity := 3, buyId := 3, sellId := 1 },
           { timestamp := "t3", priceTicks := 10050, quantity := 3, buyId := 3,
             sellId := 2 }] := by decide
      rw [ht]
      simp only [List.map_cons, List.map_nil, Trade.stored, fromTicks_cents_a,
        fromTicks_cents_b],
    trade_price_and_ids 100 exTwoAsks (MatchPoint.reach reachable_exTwoAsks) OrderSide.BUY
      exBuyB⟩

/-! ## The exact functions are the program while no level total overflows -/

theorem wrapInt_eq {x : Int} (h1 : -2147483648 ≤ x) (h2 : x ≤ 2147483647) : wrapInt x = x := by
  unfold wrapInt
  rw [Int.emod_eq_of_lt (by omega) (by omega)]
  omega

theorem machine_matchInner_eq (side : OrderSide) (px : Price) :
    ∀ (fuel : Nat) (s : OrderBook) (incoming : Order) (lvl : LevelInfo),
      GoodLevel lvl → incoming.quantity ≤ 2147483647 →
      Machine.matchInner side px fuel s incoming lvl = matchInner side px fuel s incoming lvl := by
  intro fuel
  induction fuel with
  | zero => intro s incoming lvl _ _; rfl
  | succ fuel ih =>
    intro s incoming lvl hg hi
    obtain ⟨orders, total⟩ := lvl
    obtain ⟨hpos, hsum, hmax⟩ := hg
    simp only at hpos hsum hmax
    by_cases hq : incoming.quantity > 0
    · cases orders with
      | nil => simp [Machine.matchInner, matchInner, hq]
      | cons maker rest =>
        have hm : 0 < maker.order.quantity := hpos maker (List.mem_cons_self _ _)
        have hrest : ∀ n ∈ rest, 0 < n.order.quantity :=
          fun n hn => hpos n (List.mem_cons_of_mem _ hn)
        have hr0 : 0 ≤ qtySum rest := qtySum_nonneg rest hrest
        rw [qtySum_cons] at hsum
        have ht1 : min incoming.quantity maker.order.quantity ≤ incoming.quantity :=
          min_le_left _ _
        have ht2 : min incoming.quantity maker.order.quantity ≤ maker.order.quantity :=
          min_le_right _ _
        have ht0 : 0 < min incoming.quantity maker.order.quantity := lt_min hq hm
        have w1 : wrapInt (incoming.quantity - min incoming.quantity maker.order.quantity) =
            incoming.quantity - min incoming.quantity maker.order.quantity :=
          wrapInt_eq (by omega) (by omega)
        have w2 : wrapInt (maker.order.quantity - min incoming.quantity maker.order.quantity) =
            maker.order.quantity - min incoming.quantity maker.order.quantity :=
          wrapInt_eq (by omega) (by omega)
        have w3 : wrapInt (total - min incoming.quantity maker.order.quantity) =
            total - min incoming.quantity maker.order.quantity :=
          wrapInt_eq (by omega) (by omega)
        rw [Machine.matchInner, matchInner]
        simp only [hq, if_true, w1, w2, w3]
        by_cases hz : maker.order.quantity - min incoming.quantity maker.order.quantity = 0
        · simp only [hz, if_true]
          apply ih
          · refine ⟨hrest, ?_, ?_⟩
            · simp only
              omega
            · simp only
              omega
          · simp only
            omega
        · simp only [hz, if_false]
          apply ih
          · refine ⟨?_, ?_, ?_⟩
            · intro n hn
              rcases List.mem_cons.mp hn with h | h
              · subst h
                simp only
                omega
              · exact hrest n h
            · simp only [qtySum_cons]
              omega
            · simp only
              omega
          · simp only
            omega
    · simp [Machine.matchInner, matchInner, hq]

theorem fillFifo_pos (px : Price) (l : List Node) (q : Int)
    (h : ∀ n ∈ l, 0 < n.order.quantity) :
    ∀ n ∈ (fillFifo px q l).orders, 0 < n.order.quantity := by
  revert h
  refine fillFifo_induct px
    (fun _ l r => (∀ n ∈ l, 0 < n.order.quantity) → ∀ n ∈ r.orders, 0 < n.order.quantity)
    ?_ ?_ ?_ l q
  · intro q l _ h; exact h
  · intro q m rest _ _ ih h
    exact ih (fun n hn => h n (List.mem_cons_of_mem _ hn))
  · intro q m rest hq hlt h n hn
    rcases List.mem_cons.mp hn with h1 | h1
    · subst h1
      simp only
      omega
    · exact h n (List.mem_cons_of_mem _ h1)

theorem goodLevel_fillFifo {lvl : LevelInfo} (hg : GoodLevel lvl) (px : Price) {q : Int}
    (hq : 0 ≤ q) :
    GoodLevel { orders := (fillFifo px q lvl.orders).orders,
                totalQty := lvl.totalQty - fillSum (fillFifo px q lvl.orders).fills } := by
  obtain ⟨hpos, hsum, hmax⟩ := hg
  have hf := fillFifo_fillSum px lvl.orders q hq hpos
  have h0 := qtySum_nonneg lvl.orders hpos
  refine ⟨fillFifo_pos px _ q hpos, ?_, ?_⟩
  · simp only
    rw [fillFifo_qtySum, hsum]
  · simp only
    rw [hf]
    have : 0 ≤ min q (qtySum lvl.orders) := le_min hq h0
    omega

theorem machine_matchLoop_of_nonpos (side : OrderSide) (fuel : Nat) (s : OrderBook)
    (incoming : Order) (h : incoming.quantity ≤ 0) :
    Machine.matchLoop side fuel s incoming = (s, incoming) := by
  cases fuel with
  | zero => rfl
  | succ n => simp [Machine.matchLoop, not_lt.mpr h]

theorem machine_matchLoop_stop (side : OrderSide) (fuel : Nat) (s : OrderBook)
    (incoming : Order)
    (h : ∀ e, bestOpp side (s.opp side) = some e → crosses side incoming e.1 = false) :
    Machine.matchLoop side fuel s incoming = (s, incoming) := by
  cases fuel with
  | zero => rfl
  | succ fuel =>
    by_cases hq : incoming.quantity > 0
    · cases hb : bestOpp side (s.opp side) with
      | none => simp [Machine.matchLoop, hq, hb]
      | some e =>
        obtain ⟨px, lvl⟩ := e
        have hc := h (px, lvl) hb
        simp only at hc
        simp [Machine.matchLoop, hq, hb, hc]
    · exact machine_matchLoop_of_nonpos _ _ _ _ (not_lt.mp hq)

theorem machine_matchLoop_bottom (side : OrderSide) (fuel : Nat) (s2 : OrderBook)
    (incoming1 : Order) :
    (if incoming1.type = OrderType.MARKET then
        if (s2.opp side).isEmpty then (s2, incoming1)
        else Machine.matchLoop side fuel s2 incoming1
      else
        match bestOpp side (s2.opp side) with
        | none => (s2, incoming1)
        | some (nextTop, _) =>
          if !crosses side incoming1 nextTop then (s2, incoming1)
          else Machine.matchLoop side fuel s2 incoming1) =
      Machine.matchLoop side fuel s2 incoming1 := by
  cases fuel with
  | zero =>
    simp only [Machine.matchLoop]
    split
    · split <;> rfl
    · split
      · rfl
      · split <;> rfl
  | succ n =>
    by_cases hq : incoming1.quantity > 0
    · by_cases hm : incoming1.type = OrderType.MARKET
      · simp only [hm, if_true]
        cases ho : s2.opp side with
        | nil => simp [Machine.matchLoop, ho, bestOpp_eq, bestFirst, hq]; cases side <;> simp
        | cons e rest => simp
      · simp only [hm, if_false]
        cases hb : bestOpp side (s2.opp side) with
        | none => simp [Machine.matchLoop, hb, hq]
        | some e =>
          obtain ⟨nextTop, l⟩ := e
          by_cases hc : crosses side incoming1 nextTop = true
          · simp [hc]
          · simp [hc, Machine.matchLoop, hb, hq]
    · rw [machine_matchLoop_of_nonpos _ _ _ _ (not_lt.mp hq)]
      split
      · split <;> rfl
      · split
        · rfl
        · split <;> rfl

theorem machine_matchLoop_succ (side : OrderSide) (fuel : Nat) (s : OrderBook)
    (incoming : Order) (px : Price) (lvl : LevelInfo) (hg : GoodLevel lvl)
    (hi : incoming.quantity ≤ 2147483647) (hq : incoming.quantity > 0)
    (hb : bestOpp side (s.opp side) = some (px, lvl))
    (hc : crosses side incoming px = true) :
    Machine.matchLoop side (fuel + 1) s incoming =
      Machine.matchLoop side fuel
        (updateBestOnChange
          ((applyFills side incoming.timestamp incoming.id s
              (fillFifo px incoming.quantity lvl.orders).fills).setOpp side
            (if (fillFifo px incoming.quantity lvl.orders).orders.isEmpty then
              (s.opp side).erase px
             else (s.opp side).put px
              { orders := (fillFifo px incoming.quantity lvl.orders).orders,
                totalQty := lvl.totalQty -
                  fillSum (fillFifo px incoming.quantity lvl.orders).fills })))
        { incoming with quantity := (fillFifo px incoming.quantity lvl.orders).residual } := by
  rw [Machine.matchLoop]
  simp only [hq, if_true, hb, hc, Bool.not_true, Bool.false_eq_true, if_false]
  rw [machine_matchInner_eq side px _ s incoming lvl hg hi,
    matchInner_eq _ _ _ _ _ _ le_rfl]
  simp only [opp_applyFills]
  have := machine_matchLoop_bottom side fuel
    (updateBestOnChange
          ((applyFills side incoming.timestamp incoming.id s
              (fillFifo px incoming.quantity lvl.orders).fills).setOpp side
            (if (fillFifo px incoming.quantity lvl.orders).orders.isEmpty then
              (s.opp side).erase px
             else (s.opp side).put px
              { orders := (fillFifo px incoming.quantity lvl.orders).orders,
                totalQty := lvl.totalQty -
                  fillSum (fillFifo px incoming.quantity lvl.orders).fills })))
    { incoming with quantity := (fillFifo px incoming.quantity lvl.orders).residual }
  simp only [opp_updateBest, opp_setOpp] at this
  exact this

theorem machine_matchLoop_eq (side : OrderSide) :
    ∀ (fuel : Nat) (s : OrderBook) (incoming : Order),
      GoodSide (s.opp side) → incoming.quantity ≤ 2147483647 →
      Machine.matchLoop side fuel s incoming = matchLoop side fuel s incoming := by
  intro fuel
  induction fuel with
  | zero => intro s incoming _ _; rfl
  | succ fuel ih =>
    intro s incoming hg hi
    by_cases hq : incoming.quantity > 0
    · cases hb : bestOpp side (s.opp side) with
      | none =>
        have hst : ∀ e, bestOpp side (s.opp side) = some e →
            crosses side incoming e.1 = false := by
          intro e he
          rw [hb] at he
          cases he
        rw [machine_matchLoop_stop side _ s incoming hst, matchLoop_stop side _ s incoming hst]
      | some e =>
        obtain ⟨px, lvl⟩ := e
        by_cases hc : crosses side incoming px = true
        · have hl : GoodLevel lvl := hg (px, lvl) (mem_of_bestOpp hb)
          rw [machine_matchLoop_succ side fuel s incoming px lvl hl hi hq hb hc,
            matchLoop_succ side fuel s incoming px lvl hq hb hc]
          apply ih
          · simp only [opp_updateBest, opp_setOpp]
            intro x hx
            split_ifs at hx
            · exact hg x (mem_erase_book.mp hx).1
            · rcases mem_put_imp hx with h | h
              · rw [h]
                exact goodLevel_fillFifo hl px (le_of_lt hq)
              · exact hg x h
          · simp only
            rw [fillFifo_residual, fillFifo_fillSum px lvl.orders incoming.quantity
              (le_of_lt hq) hl.1]
            have : 0 ≤ min incoming.quantity (qtySum lvl.orders) :=
              le_min (le_of_lt hq) (qtySum_nonneg _ hl.1)
            omega
        · have hst : ∀ e, bestOpp side (s.opp side) = some e →
              crosses side incoming e.1 = false := by
            intro e he
            rw [hb] at he
            cases he
            simpa using hc
          rw [machine_matchLoop_stop side _ s incoming hst,
            matchLoop_stop side _ s incoming hst]
    · rw [machine_matchLoop_of_nonpos _ _ _ _ (not_lt.mp hq),
        matchLoop_of_nonpos _ _ _ _ (not_lt.mp hq)]

theorem machine_walk_eq (side : OrderSide) (limitPx : Option Price) :
    ∀ (levels : List (Price × LevelInfo)) (need : Int),
      (∀ e ∈ levels, 0 ≤ e.2.totalQty ∧ e.2.totalQty ≤ 2147483647) → need ≤ 2147483647 →
      Machine.canFullyFillWalk side limitPx levels need =
        canFullyFillWalk side limitPx levels need := by
  intro levels
  induction levels with
  | nil => intro need _ _; rfl
  | cons e rest ih =>
    intro need h hn
    obtain ⟨px, lvl⟩ := e
    have hl := h (px, lvl) (List.mem_cons_self _ _)
    simp only at hl
    unfold Machine.canFullyFillWalk canFullyFillWalk
    by_cases hq : need > 0
    · simp only [hq, if_true]
      by_cases hp : pastLimit side limitPx px = true
      · simp only [hp, if_true]
      · simp only [hp]
        rw [wrapInt_eq (by omega) (by omega)]
        exact ih _ (fun x hx => h x (List.mem_cons_of_mem _ hx)) (by omega)
    · simp only [hq, if_false]

theorem machine_canFullyFill_eq {s : OrderBook} (side : OrderSide) (limitPx : Option Price)
    (qty : Int) (hg : GoodSide (s.opp side)) (hq : qty ≤ 2147483647) :
    Machine.canFullyFill s side limitPx qty = canFullyFill s side limitPx qty := by
  have hr : ∀ e ∈ s.opp side, 0 ≤ e.2.totalQty ∧ e.2.totalQty ≤ 2147483647 := by
    intro e he
    obtain ⟨h1, h2, h3⟩ := hg e he
    exact ⟨by rw [h2]; exact qtySum_nonneg _ h1, h3⟩
  unfold Machine.canFullyFill canFullyFill
  cases side
  · have hr1 : ∀ e ∈ s.asks_, 0 ≤ e.2.totalQty ∧ e.2.totalQty ≤ 2147483647 := hr
    simp only
    rw [machine_walk_eq _ _ s.asks_ qty hr1 hq]
  · have hr1 : ∀ e ∈ s.bids_, 0 ≤ e.2.totalQty ∧ e.2.totalQty ≤ 2147483647 := hr
    simp only
    rw [machine_walk_eq _ _ s.bids_.reverse qty
      (fun e he => hr1 e (List.mem_reverse.mp he)) hq]

theorem machine_match_eq {s : OrderBook} (side : OrderSide) (incoming : Order)
    (hg : GoodSide (s.opp side)) (hq : incoming.quantity ≤ 2147483647) :
    Machine.match_ side s incoming = match_ side s incoming := by
  unfold Machine.match_ match_
  simp only [machine_canFullyFill_eq side _ _ hg hq,
    machine_matchLoop_eq side _ s incoming hg hq]

theorem goodSide_of_sideOk {side : OrderSide} {bound : Nat} {b : BookSide}
    (h : SideOk side bound b) (hb : ∀ e ∈ b, e.2.totalQty ≤ 2147483647) : GoodSide b := by
  intro e he
  obtain ⟨_, h2, h3, _⟩ := h.2 e he
  exact ⟨fun n hn => (h3 n hn).1, h2, hb e he⟩

theorem goodSide_opp {s : OrderBook} (hs : Inv s) (hb : IntBounded s) (side : OrderSide) :
    GoodSide (s.opp side) := by
  apply goodSide_of_sideOk (hs.oppOk side)
  intro e he
  rw [opp_eq_book_other] at he
  exact hb _ e he

theorem machine_restOrder_eq (s : OrderBook) (o : Order)
    (h1 : -2147483648 ≤ (restLevel s o).totalQty)
    (h2 : (restLevel s o).totalQty ≤ 2147483647) :
    Machine.restOrder s o = restOrder s o := by
  unfold restLevel at h1 h2
  simp only at h1 h2
  unfold Machine.restOrder restOrder
  simp only [wrapInt_eq h1 h2]

theorem restLevel_total_nonneg {s : OrderBook} (hs : Inv s) (o : Order)
    (hq : 0 < o.quantity) : 0 ≤ (restLevel s o).totalQty := by
  unfold restLevel
  simp only
  cases hf : (s.book o.side).find o.priceTicks with
  | none =>
    simp only [Option.getD_none]
    omega
  | some lvl =>
    simp only [Option.getD_some]
    have := totals_nonneg_of_sideOk (hs.book o.side) (o.priceTicks, lvl) (mem_of_find hf)
    simp only at this
    omega

theorem restLevel_mem (s : OrderBook) (o : Order) :
    (o.priceTicks, restLevel s o) ∈ (restOrder s o).book o.side := by
  rw [book_restOrder]
  apply mem_of_find
  rw [find_put, if_pos rfl]

theorem machine_addOrder_eq {s : OrderBook} (hs : Inv s) (hb : IntBounded s) (o : Order)
    (hq : o.quantity ≤ 2147483647)
    (hn : 0 < s.nextOrderId_ ∧ s.nextOrderId_ < 2147483647)
    (hres : IntBounded (addOrder s o).2) :
    Machine.addOrder s o = addOrder s o := by
  obtain ⟨f1, f2, f3, f4, f5, f6⟩ := assignId_fields s o
  have e0 : (if o.id = 0 then { s with nextOrderId_ := wrapInt (s.nextOrderId_ + 1) } else s) =
      bumpNextId s o := by
    unfold bumpNextId
    rw [wrapInt_eq (by omega) (by omega)]
  have hs0 := inv_bumpNextId hs o
  have hg : GoodSide ((bumpNextId s o).opp (assignId s o).side) := by
    rw [opp_bumpNextId]
    exact goodSide_opp hs hb _
  have hM : Machine.match_ (assignId s o).side (bumpNextId s o) (assignId s o) =
      match_ (assignId s o).side (bumpNextId s o) (assignId s o) :=
    machine_match_eq _ _ hg (by rw [f5]; exact hq)
  have hinv := inv_match (assignId s o).side (bumpNextId s o) (assignId s o) hs0
  by_cases hm : (assignId s o).type = OrderType.MARKET
  · have h1 : Machine.addOrder s o =
        (true, emitQuoteIfChanged
          (Machine.match_ (assignId s o).side
            (if o.id = 0 then { s with nextOrderId_ := wrapInt (s.nextOrderId_ + 1) } else s)
            (assignId s o)).1
          (Machine.match_ (assignId s o).side
            (if o.id = 0 then { s with nextOrderId_ := wrapInt (s.nextOrderId_ + 1) } else s)
            (assignId s o)).2.timestamp) := by
      show (if (assignId s o).type = OrderType.MARKET then _ else _) = _
      rw [if_pos hm]
      rfl
    have h2 : addOrder s o =
        (true, emitQuoteIfChanged
          (match_ (assignId s o).side (bumpNextId s o) (assignId s o)).1
          (match_ (assignId s o).side (bumpNextId s o) (assignId s o)).2.timestamp) := by
      show (if (assignId s o).type = OrderType.MARKET then _ else _) = _
      rw [if_pos hm]
      rfl
    rw [h1, h2, e0, hM]
  · have h1 : Machine.addOrder s o =
        (true, emitQuoteIfChanged
          (if (Machine.match_ (assignId s o).side
                (if o.id = 0 then { s with nextOrderId_ := wrapInt (s.nextOrderId_ + 1) }
                 else s) (assignId s o)).2.quantity > 0 ∧
              (Machine.match_ (assignId s o).side
                (if o.id = 0 then { s with nextOrderId_ := wrapInt (s.nextOrderId_ + 1) }
                 else s) (assignId s o)).2.tif ≠ TimeInForce.IOC ∧
              (Machine.match_ (assignId s o).side
                (if o.id = 0 then { s with nextOrderId_ := wrapInt (s.nextOrderId_ + 1) }
                 else s) (assignId s o)).2.tif ≠ TimeInForce.FOK then
            Machine.restOrder
              (Machine.match_ (assignId s o).side
                (if o.id = 0 then { s with nextOrderId_ := wrapInt (s.nextOrderId_ + 1) }
                 else s) (assignId s o)).1
              (Machine.match_ (assignId s o).side
                (if o.id = 0 then { s with nextOrderId_ := wrapInt (s.nextOrderId_ + 1) }
                 else s) (assignId s o)).2
           else
            (Machine.match_ (assignId s o).side
                (if o.id = 0 then { s with nextOrderId_ := wrapInt (s.nextOrderId_ + 1) }
                 else s) (assignId s o)).1)
          (Machine.match_ (assignId s o).side
            (if o.id = 0 then { s with nextOrderId_ := wrapInt (s.nextOrderId_ + 1) } else s)
            (assignId s o)).2.timestamp) := by
      show (if (assignId s o).type = OrderType.MARKET then _ else _) = _
      rw [if_neg hm]
      rfl
    have h2 : addOrder s o =
        (true, emitQuoteIfChanged
          (if (match_ (assignId s o).side (bumpNextId s o) (assignId s o)).2.quantity > 0 ∧
              (match_ (assignId s o).side (bumpNextId s o) (assignId s o)).2.tif ≠
                TimeInForce.IOC ∧
              (match_ (assignId s o).side (bumpNextId s o) (assignId s o)).2.tif ≠
                TimeInForce.FOK then
            restOrder (match_ (assignId s o).side (bumpNextId s o) (assignId s o)).1
              (match_ (assignId s o).side (bumpNextId s o) (assignId s o)).2
           else (match_ (assignId s o).side (bumpNextId s o) (assignId s o)).1)
          (match_ (assignId s o).side (bumpNextId s o) (assignId s o)).2.timestamp) := by
      show (if (assignId s o).type = OrderType.MARKET then _ else _) = _
      rw [if_neg hm]
      rfl
    rw [h1, h2, e0, hM]
    by_cases hc : (match_ (assignId s o).side (bumpNextId s o) (assignId s o)).2.quantity > 0 ∧
        (match_ (assignId s o).side (bumpNextId s o) (assignId s o)).2.tif ≠
          TimeInForce.IOC ∧
        (match_ (assignId s o).side (bumpNextId s o) (assignId s o)).2.tif ≠ TimeInForce.FOK
    · rw [if_pos hc, if_pos hc]
      have hcore : addCore s o =
          restOrder (match_ (assignId s o).side (bumpNextId s o) (assignId s o)).1
            (match_ (assignId s o).side (bumpNextId s o) (assignId s o)).2 := by
        unfold addCore
        simp only
        rw [if_pos ⟨hm, hc⟩]
      have hmem := restLevel_mem
        (match_ (assignId s o).side (bumpNextId s o) (assignId s o)).1
        (match_ (assignId s o).side (bumpNextId s o) (assignId s o)).2
      rw [← hcore, ← book_addOrder] at hmem
      have hup := hres _ _ hmem
      have hlo := restLevel_total_nonneg hinv
        (match_ (assignId s o).side (bumpNextId s o) (assignId s o)).2 hc.1
      rw [machine_restOrder_eq _ _ (by omega) hup]
    · rw [if_neg hc, if_neg hc]

theorem unlink_total_range {s : OrderBook} (hs : Inv s) (hb : IntBounded s) {e : IndexEntry}
    {lvl : LevelInfo} {n : Node} (h2 : (s.book e.side).find e.px = some lvl)
    (h3 : findNode e.lit lvl.orders = some n) :
    0 ≤ lvl.totalQty - n.order.quantity ∧ lvl.totalQty - n.order.quantity ≤ 2147483647 := by
  have hmem := mem_of_find h2
  obtain ⟨_, hsum, hnodes, _⟩ := (hs.book e.side).2 _ hmem
  simp only at hsum hnodes
  have hmax := hb e.side _ hmem
  simp only at hmax
  have hpos : ∀ m ∈ eraseNode e.lit lvl.orders, m.order.quantity > 0 :=
    fun m hm => (hnodes m ((eraseNode_sublist e.lit lvl.orders).subset hm)).1
  have h0 := qtySum_nonneg _ hpos
  rw [qtySum_eraseNode h3, ← hsum] at h0
  have hn := (hnodes n (findNode_mem h3).1).1
  omega

theorem machine_cancelOrder_eq {s : OrderBook} (hs : Inv s) (hb : IntBounded s)
    (orderId : Int) (ts : String) :
    Machine.cancelOrder s orderId ts = cancelOrder s orderId ts := by
  unfold Machine.cancelOrder cancelOrder
  cases h1 : s.idIndex_.find orderId with
  | none => rfl
  | some e =>
    simp only
    cases h2 : (s.book e.side).find e.px with
    | none => rfl
    | some lvl =>
      simp only
      cases h3 : findNode e.lit lvl.orders with
      | none => rfl
      | some n =>
        simp only
        obtain ⟨r1, r2⟩ := unlink_total_range hs hb h2 h3
        rw [wrapInt_eq (by omega) r2]

theorem intBounded_unlinkResting {s : OrderBook} (hs : Inv s) (hb : IntBounded s)
    (orderId : Int) {e : IndexEntry} {lvl : LevelInfo} {n : Node}
    (h2 : (s.book e.side).find e.px = some lvl)
    (h3 : findNode e.lit lvl.orders = some n) :
    IntBounded (unlinkResting s orderId e lvl n) := by
  intro side x hx
  rcases side_eq_or_other e.side side with h | h
  · subst h
    rcases mem_book_unlinkResting hs orderId e lvl n x hx with ⟨g, _⟩ | ⟨_, g⟩
    · exact hb _ x g
    · rw [g]
      exact (unlink_total_range hs hb h2 h3).2
  · have : (unlinkResting s orderId e lvl n).book side = s.book side := by
      rw [h, book_other_eq_opp, opp_unlinkResting, ← book_other_eq_opp]
    rw [this] at hx
    exact hb _ x hx

theorem machine_modifyOrder_eq {s : OrderBook} (hs : Inv s) (hb : IntBounded s)
    (orderId : Int) (newPxTicks : Price) (newQty : Int) (ts : String)
    (hq : newQty ≤ 2147483647)
    (hres : ∀ r, modifyOrder s orderId newPxTicks newQty ts = some r → IntBounded r.2) :
    Machine.modifyOrder s orderId newPxTicks newQty ts =
      modifyOrder s orderId newPxTicks newQty ts := by
  by_cases hpos : newQty > 0
  · cases h1 : s.idIndex_.find orderId with
    | none =>
      unfold Machine.modifyOrder modifyOrder
      simp only [not_le.mpr hpos, if_false, h1]
    | some e =>
      obtain ⟨lvl, n, h2, h3, _⟩ := hs.index orderId e h1
      obtain ⟨r1, r2⟩ := unlink_total_range hs hb h2 h3
      have hU : (if (eraseNode e.lit lvl.orders).isEmpty then
            eraseLevelIfEmpty
              (({ s with idIndex_ := s.idIndex_.erase orderId } : OrderBook).setBook e.side
                ((({ s with idIndex_ := s.idIndex_.erase orderId } : OrderBook).book
                    e.side).put e.px
                  { orders := eraseNode e.lit lvl.orders,
                    totalQty := lvl.totalQty - n.order.quantity })) e.side e.px
          else
            (({ s with idIndex_ := s.idIndex_.erase orderId } : OrderBook).setBook e.side
                ((({ s with idIndex_ := s.idIndex_.erase orderId } : OrderBook).book
                    e.side).put e.px
                  { orders := eraseNode e.lit lvl.orders,
                    totalQty := lvl.totalQty - n.order.quantity }))) =
          unlinkResting s orderId e lvl n := by
        unfold unlinkResting
        cases e.side <;> rfl
      have hiU := inv_unlinkResting hs h1 h2 h3
      have hbU := intBounded_unlinkResting hs hb orderId h2 h3
      have hM : Machine.match_ e.side (unlinkResting s orderId e lvl n)
            { n.order with priceTicks := newPxTicks, quantity := newQty } =
          match_ e.side (unlinkResting s orderId e lvl n)
            { n.order with priceTicks := newPxTicks, quantity := newQty } :=
        machine_match_eq _ _ (goodSide_opp hiU hbU _) hq
      have hE := modifyOrder_eq newPxTicks ts hpos h1 h2 h3
      have hL : Machine.modifyOrder s orderId newPxTicks newQty ts =
          some (true, emitQuoteIfChanged (updateBestOnChange
            (if (Machine.match_ e.side (unlinkResting s orderId e lvl n)
                  { n.order with priceTicks := newPxTicks, quantity := newQty }).2.quantity > 0
             then
              Machine.restOrder
                (Machine.match_ e.side (unlinkResting s orderId e lvl n)
                  { n.order with priceTicks := newPxTicks, quantity := newQty }).1
                (Machine.match_ e.side (unlinkResting s orderId e lvl n)
                  { n.order with priceTicks := newPxTicks, quantity := newQty }).2
             else
              (Machine.match_ e.side (unlinkResting s orderId e lvl n)
                  { n.order with priceTicks := newPxTicks, quantity := newQty }).1)) ts) := by
        unfold Machine.modifyOrder
        simp only [not_le.mpr hpos, if_false, h1, h2, h3]
        rw [wrapInt_eq (by omega) r2, hU]
      rw [hL, hE, hM]
      by_cases hc : (match_ e.side (unlinkResting s orderId e lvl n)
          { n.order with priceTicks := newPxTicks, quantity := newQty }).2.quantity > 0
      · rw [if_pos hc, if_pos hc]
        have hinv := inv_match e.side (unlinkResting s orderId e lvl n)
          { n.order with priceTicks := newPxTicks, quantity := newQty } hiU
        have hmem := restLevel_mem
          (match_ e.side (unlinkResting s orderId e lvl n)
            { n.order with priceTicks := newPxTicks, quantity := newQty }).1
          (match_ e.side (unlinkResting s orderId e lvl n)
            { n.order with priceTicks := newPxTicks, quantity := newQty }).2
        have hb2 := hres _ hE
        simp only [if_pos hc] at hb2
        have hup := hb2 _ _ (by
          rw [book_emitQuote, book_updateBest]
          exact hmem)
        have hlo := restLevel_total_nonneg hinv _ hc
        rw [machine_restOrder_eq _ _ (by omega) hup]
      · rw [if_neg hc, if_neg hc]
  · have hle := not_lt.mp hpos
    have e1 : Machine.modifyOrder s orderId newPxTicks newQty ts =
        Machine.cancelOrder s orderId ts := by
      unfold Machine.modifyOrder
      simp only [hle, if_true]
    rw [e1, modifyOrder_nonpos s orderId newPxTicks ts hle]
    exact machine_cancelOrder_eq hs hb orderId ts

theorem reachable_applyEvent {s s1 : OrderBook} (hs : Reachable s) (ev : Event)
    (h : applyEvent s ev = some s1) : Reachable s1 := by
  cases ev with
  | add o =>
    simp only [applyEvent, Option.some.injEq] at h
    rw [← h]
    exact Reachable.add o hs
  | cancel orderId ts =>
    simp only [applyEvent, Option.map_eq_some'] at h
    obtain ⟨r, hr, h1⟩ := h
    rw [← h1]
    exact Reachable.cancel orderId ts hs hr
  | modify orderId px q ts =>
    simp only [applyEvent, Option.map_eq_some'] at h
    obtain ⟨r, hr, h1⟩ := h
    rw [← h1]
    exact Reachable.modify orderId px q ts hs hr

/-- One event: on a reachable book whose level totals are at most `INT_MAX`, for an event
in range whose exact result again has level totals at most `INT_MAX`, the functions of
`Machine` return what the exact functions return. -/
theorem machine_applyEvent_eq {s : OrderBook} (hs : Reachable s) (hb : IntBounded s)
    (ev : Event) (hev : EventInRange s ev)
    (hres : ∀ s1, applyEvent s ev = some s1 → IntBounded s1) :
    Machine.applyEvent s ev = applyEvent s ev := by
  have hi := inv_of_reachable hs
  cases ev with
  | add o =>
    simp only [Machine.applyEvent, applyEvent]
    rw [machine_addOrder_eq hi hb o hev.1 ⟨(idsOk_of_reachable hs).next, hev.2⟩
      (hres _ rfl)]
  | cancel orderId ts =>
    simp only [Machine.applyEvent, applyEvent]
    rw [machine_cancelOrder_eq hi hb orderId ts]
  | modify orderId px q ts =>
    simp only [Machine.applyEvent, applyEvent]
    rw [machine_modifyOrder_eq hi hb orderId px q ts hev
      (fun r hr => hres r.2 (by simp [applyEvent, hr]))]

/-- A run: from a reachable book whose level totals are at most `INT_MAX`, along a run in
range, the functions of `Machine` reach the book the exact functions reach. -/
theorem machine_runEvents_eq :
    ∀ (evs : List Event) (s : OrderBook) (ids : List Int), Reachable s → IntBounded s →
      RunInRange s evs →
      Machine.runEvents s evs = (runEvents s ids evs).map (fun r => r.1) := by
  intro evs
  induction evs with
  | nil => intro s ids _ _ _; rfl
  | cons ev rest ih =>
    intro s ids hs hb hr
    obtain ⟨hev, hrest⟩ := hr
    cases h : applyEvent s ev with
    | none =>
      have hm := machine_applyEvent_eq hs hb ev hev (fun s1 h1 => by rw [h] at h1; cases h1)
      simp only [Machine.runEvents, runEvents, hm, h]
      rfl
    | some s1 =>
      rw [h] at hrest
      have hm := machine_applyEvent_eq hs hb ev hev
        (fun s2 h2 => by rw [h] at h2; cases h2; exact hrest.1)
      simp only [Machine.runEvents, runEvents, hm, h]
      exact ih s1 _ (reachable_applyEvent hs ev h) hrest.1 hrest.2

/-- From a newly constructed book, along every run in range, the program and the exact
functions reach the same book: every theorem about the exact functions holds of the
program on such a run. -/
theorem machine_run_agrees (q : Bool) (evs : List Event) (h : RunInRange (OrderBook.init q) evs) :
    Machine.runEvents (OrderBook.init q) evs =
      (runEvents (OrderBook.init q) [] evs).map (fun r => r.1) :=
  machine_runEvents_eq evs _ _ (Reachable.init q)
    (fun side e he => by cases side <;> simp [OrderBook.init, OrderBook.book] at he) h

theorem runInRange_of_check :
    ∀ (evs : List Event) (s : OrderBook), runInRangeCheck s evs = true → RunInRange s evs := by
  intro evs
  induction evs with
  | nil => intro s _; trivial
  | cons ev rest ih =>
    intro s h
    simp only [runInRangeCheck, Bool.and_eq_true] at h
    obtain ⟨h1, h2⟩ := h
    refine ⟨?_, ?_⟩
    · cases ev with
      | add o =>
        simp only [Bool.and_eq_true, decide_eq_true_eq] at h1
        exact h1
      | cancel orderId ts => trivial
      | modify orderId px q ts =>
        simp only [decide_eq_true_eq] at h1
        exact h1
    · cases ha : applyEvent s ev with
      | none => trivial
      | some s1 =>
        rw [ha] at h2
        simp only [Bool.and_eq_true, List.all_eq_true, decide_eq_true_eq] at h2
        obtain ⟨⟨hb, hk⟩, hr⟩ := h2
        refine ⟨?_, ih s1 hr⟩
        intro side e he
        cases side
        · exact hb e he
        · exact hk e he

/-- Scenario B of the specification is a run in range: the program reaches the book the
exact functions reach. -/
theorem machine_run_scenario :
    RunInRange (OrderBook.init true) exEventsB ∧
    Machine.runEvents (OrderBook.init true) exEventsB = some exBookB := by
  have h : RunInRange (OrderBook.init true) exEventsB :=
    runInRange_of_check exEventsB (OrderBook.init true) (by decide)
  refine ⟨h, ?_⟩
  rw [machine_run_agrees true exEventsB h, runEvents_exEventsB]
  rfl

end Lob
